import Mathlib

/-!
Compiler core of picrin (`src/codegen.c`): the analyzer and the code generator.

A shallow embedding of the two passes of `codegen.c`.

* Scheme values are the inductive type `Val`; interned symbols are numbers and
  symbol identity is equality of numbers.
* The analyzed AST, which the C code builds as lists headed by a tag symbol
  (`pic->sGREF`, `pic->sIF`, ...), is the inductive type `Node`, one constructor
  per list shape.  The one pair the C code mutates after building it, the
  skeleton allocated by `analyze_defer`, is a cell of an explicit heap and is
  referred to by `Node.skel`.
* `pic_errorf` aborts the compilation: fallible functions return `Except Err`.
* The analyzer's mutable data (`state->scope` and the skeleton cells) is passed
  explicitly as an `astore`; the symbols looked up once by `new_analyze_state`
  are the read-only record `analyze_state`.
* `analyze` re-analyses a form it has built itself (`analyze_div`) and
  `analyze_deferred` analyses forms stored in the scope, so both recurse on a
  fuel counter; `Err.out_of_fuel` is the cut-off of the model, not an error of
  the program.
-/

namespace Picrin

/-! ## Values -/

/-- An interned symbol (`pic_sym *`); identity comparison is equality. -/
abbrev Sym := Nat

/-- Scheme values as far as the compiler inspects them (`pic_type`). -/
inductive Val where
  | bool (b : Bool)
  | int (n : Int)
  | float (n : Int)
  | char (c : Nat)
  | nil
  | sym (s : Sym)
  | pair (car cdr : Val)
  | other (tag : Nat)
  deriving DecidableEq, Repr

/-- Errors raised through `pic_errorf`, the two crashes of the C code the model
makes explicit, and the cut-off of the fuel counter. -/
inductive Err where
  | unbound_variable (s : Sym)
  | syntax_error
  | wrong_number_of_arguments
  | invalid_formals
  | invalid_expression
  | pair_required
  | vm_procedure_not_found
  | unknown_ast_type
  | null_pointer
  | out_of_fuel
  deriving DecidableEq, Repr

/-- Modelled from the spec: `pic_none_value()` of the host, the unspecified
value, which is false (`PIC_NONE_IS_FALSE`). -/
def pic_none_value : Val := .bool false

/-- Modelled from the spec: host accessor `pic_car`, an error on a non-pair. -/
def pic_car : Val → Except Err Val
  | .pair a _ => .ok a
  | _ => .error .pair_required

/-- Modelled from the spec: host accessor `pic_cdr`, an error on a non-pair. -/
def pic_cdr : Val → Except Err Val
  | .pair _ d => .ok d
  | _ => .error .pair_required

/-- Modelled from the spec: host accessor `pic_list_tail`, `i` times `pic_cdr`. -/
def pic_list_tail : Val → Nat → Except Err Val
  | v, 0 => .ok v
  | v, i + 1 => (pic_cdr v).bind fun d => pic_list_tail d i

/-- Modelled from the spec: host accessor `pic_list_ref`. -/
def pic_list_ref (v : Val) (i : Nat) : Except Err Val :=
  (pic_list_tail v i).bind pic_car

/-- The elements of a proper list; `none` when the value is not a proper list
(`pic_list_p`). -/
def list_elems : Val → Option (List Val)
  | .nil => some []
  | .pair a d => (list_elems d).map (a :: ·)
  | _ => none

/-- The proper list with the given elements (`pic_list1`, `pic_list2`, ...). -/
def pic_list : List Val → Val
  | [] => .nil
  | a :: as => .pair a (pic_list as)

/-! ## Analyzed AST -/

/-- Tags of the one-operand intrinsic nodes. -/
inductive Tag1 where
  | CAR | CDR | NILP | SYMBOLP | PAIRP | MINUS | NOT
  deriving DecidableEq, Repr

/-- Tags of the two-operand intrinsic nodes. -/
inductive Tag2 where
  | CONS | ADD | SUB | MUL | DIV | EQ | LT | LE | GT | GE
  deriving DecidableEq, Repr

/-- Analyzed AST.  `op1 t a` is the list `(t a)`, `op2 t a b` the list `(t a b)`;
`CALL es` is `(CALL . es)` with the callee first; `skel c` is the pair allocated
by `analyze_defer`, whose content is cell `c` of the heap. -/
inductive Node where
  | GREF (s : Sym)
  | LREF (s : Sym)
  | CREF (depth : Int) (s : Sym)
  | SETBANG (var val : Node)
  | LAMBDA (name : Option Sym) (args locals : List Sym) (varg : Bool)
      (captures : List Sym) (body : Node)
  | IF (c t e : Node)
  | BEGIN (es : List Node)
  | QUOTE (d : Val)
  | CALL (es : List Node)
  | TAILCALL (es : List Node)
  | CALL_WITH_VALUES (p c : Node)
  | TAILCALL_WITH_VALUES (p c : Node)
  | RETURN (es : List Node)
  | op1 (t : Tag1) (a : Node)
  | op2 (t : Tag2) (a b : Node)
  | skel (cell : Nat)
  deriving Repr

/-! ## Analyzer state -/

/-- One entry of a scope's `defer` list: `(name formal body skel)`. -/
structure deferred where
  name : Option Sym
  formal : Val
  body : Val
  dst : Nat
  deriving Repr

/-- The C struct `analyze_scope`; the `up` link is the rest of the scope
stack. -/
structure analyze_scope where
  depth : Int
  varg : Bool
  args : List Sym
  locals : List Sym
  captures : List Sym
  defer : List deferred
  deriving Repr

/-- The names `new_analyze_state` looks up in the base library. -/
inductive vm_proc where
  | cons | car | cdr | nilp | symbolp | pairp | add | sub | mul | div
  | eq | lt | le | gt | ge | not | values | call_with_values
  deriving DecidableEq, Repr

/-- The part of the interpreter state (`pic_state`) the compiler reads: the
renamed special-form symbols, the rename table of the base library
(`pic_find_rename`), two interned names, the global table and two build
settings.  `op2_right_first` fixes the order in which the two `analyze` calls
that are arguments of one `pic_list3` call in `CONSTRUCT_OP2` run, which C
leaves to the compiler. -/
structure pic_state where
  rDEFINE : Sym
  rLAMBDA : Sym
  rIF : Sym
  rBEGIN : Sym
  rSETBANG : Sym
  rQUOTE : Sym
  find_rename : vm_proc → Option Sym
  sNOWHERE : Sym
  sANONYMOUS : Sym
  globals : List Sym
  PIC_ENABLE_FLOAT : Bool
  op2_right_first : Bool

/-- The C struct `analyze_state` without its `scope` field. -/
structure analyze_state where
  pic : pic_state
  rCONS : Sym
  rCAR : Sym
  rCDR : Sym
  rNILP : Sym
  rSYMBOLP : Sym
  rPAIRP : Sym
  rADD : Sym
  rSUB : Sym
  rMUL : Sym
  rDIV : Sym
  rEQ : Sym
  rLT : Sym
  rLE : Sym
  rGT : Sym
  rGE : Sym
  rNOT : Sym
  rVALUES : Sym
  rCALL_WITH_VALUES : Sym

/-- The mutable data of an analysis: the scope stack `state->scope` (innermost
first) and the skeleton cells. -/
structure astore where
  scope : List analyze_scope
  heap : List Node
  deriving Repr

/-- Result of an analyzer step on a store. -/
abbrev AM (α : Type) := astore → Except Err (α × astore)

/-- The function `analyze_args`, started with the `args` collected so far: the
result is `(varg, args, locals)`, or `none` where the C code returns false. -/
def analyze_args : Val → List Sym → Option (Bool × List Sym × List Sym)
  | .pair (.sym s) v, args => analyze_args v (args ++ [s])
  | .pair _ _, _ => none
  | .nil, args => some (false, args, [])
  | .sym s, args => some (true, args, [s])
  | _, _ => none

/-- The depth of a scope pushed on a stack:
`scope->up ? scope->up->depth + 1 : 0`. -/
def depth_above : List analyze_scope → Int
  | [] => 0
  | up :: _ => up.depth + 1

/-- The function `push_scope`: the flag it returns and the new scope stack. -/
def push_scope (formals : Val) (scopes : List analyze_scope) :
    Bool × List analyze_scope :=
  match analyze_args formals [] with
  | some (varg, args, locals) =>
    (true, { depth := depth_above scopes, varg := varg, args := args, locals := locals,
             captures := [], defer := [] } :: scopes)
  | none => (false, scopes)

/-- The function `pop_scope`. -/
def pop_scope (scopes : List analyze_scope) : List analyze_scope :=
  scopes.tail

/-- The function `lookup_scope`. -/
def lookup_scope (scope : analyze_scope) (sym : Sym) : Bool :=
  scope.args.contains sym || scope.locals.contains sym

/-- The function `capture_var`. -/
def capture_var (scope : analyze_scope) (sym : Sym) : analyze_scope :=
  if scope.captures.contains sym then scope
  else { scope with captures := scope.captures ++ [sym] }

/-- The loop of `find_var` from a scope at distance `depth` of the innermost
one: the depth returned (`-1` when unbound) and the scopes after
`capture_var`. -/
def find_var_loop (sym : Sym) : List analyze_scope → Int → Int × List analyze_scope
  | [], _ => (-1, [])
  | scope :: up, depth =>
    if lookup_scope scope sym then
      (depth, (if depth > 0 then capture_var scope sym else scope) :: up)
    else
      let r := find_var_loop sym up (depth + 1)
      (r.1, scope :: r.2)

/-- The function `find_var`. -/
def find_var (sym : Sym) (scopes : List analyze_scope) : Int × List analyze_scope :=
  find_var_loop sym scopes 0

/-- The function `define_var`; the warning about a redefinition has no effect on
the analysis. -/
def define_var (sym : Sym) : AM Unit := fun σ =>
  match σ.scope with
  | [] => .error .null_pointer
  | scope :: up =>
    if lookup_scope scope sym then .ok ((), σ)
    else .ok ((), { σ with scope := { scope with locals := scope.locals ++ [sym] } :: up })

/-- The tag test of `analyze`: is the head of the list one of `IF`, `BEGIN`,
`TAILCALL`, `TAILCALL_WITH_VALUES`, `RETURN`. -/
def tail_tag : Node → Bool
  | .IF _ _ _ => true
  | .BEGIN _ => true
  | .TAILCALL _ => true
  | .TAILCALL_WITH_VALUES _ _ => true
  | .RETURN _ => true
  | _ => false

/-- The tag test of `analyze` on a node as `pic_car` reads it: the head of a
skeleton pair is the head of the cell's content. -/
def passes_through (heap : List Node) : Node → Bool
  | .skel c => match heap[c]? with
    | some n => tail_tag n
    | none => false
  | n => tail_tag n

/-- The functions `analyze_global_var`, `analyze_local_var`, `analyze_free_var`
as dispatched by `analyze_var`. -/
def analyze_var (sym : Sym) : AM Node := fun σ =>
  let r := find_var sym σ.scope
  if r.1 = -1 then .error (.unbound_variable sym)
  else match r.2 with
    | [] => .error .null_pointer
    | scope :: up =>
      let σ' : astore := { σ with scope := scope :: up }
      if r.1 = scope.depth then .ok (.GREF sym, σ')
      else if r.1 = 0 then .ok (.LREF sym, σ')
      else .ok (.CREF r.1 sym, σ')

/-- The function `analyze_defer`: the skeleton `(GREF <<nowhere>>)` is a fresh
cell, queued on the current scope together with the lambda's parts. -/
def analyze_defer (state : analyze_state) (name : Option Sym) (formal body : Val) :
    AM Node := fun σ =>
  match σ.scope with
  | [] => .error .null_pointer
  | scope :: up =>
    let c := σ.heap.length
    .ok (.skel c,
      { scope := { scope with defer :=
                    { name := name, formal := formal, body := body, dst := c } :: scope.defer }
                  :: up,
        heap := σ.heap ++ [.GREF state.pic.sNOWHERE] })

/-- The function `analyze_lambda`, on the elements of the form. -/
def analyze_lambda (state : analyze_state) (obj : List Val) : AM Node := fun σ =>
  match obj with
  | _ :: formals :: body_exprs => analyze_defer state none formals (pic_list body_exprs) σ
  | _ => .error .syntax_error

/-- The function `analyze_declare`. -/
def analyze_declare (sym : Sym) : AM Node := fun σ =>
  match define_var sym σ with
  | .error e => .error e
  | .ok (_, σ) => analyze_var sym σ

/-- The function `analyze_define`; `ana` is `analyze`. -/
def analyze_define (state : analyze_state) (ana : Val → Bool → AM Node)
    (obj : List Val) : AM Node := fun σ =>
  match obj with
  | [_, .sym sym, v] =>
    match analyze_declare sym σ with
    | .error e => .error e
    | .ok (var, σ) =>
      match v with
      | .pair (.sym s) _ =>
        if s = state.pic.rLAMBDA then
          match pic_list_ref v 1, pic_list_tail v 2 with
          | .ok formals, .ok body_exprs =>
            match analyze_defer state (some sym) formals body_exprs σ with
            | .error e => .error e
            | .ok (val, σ) => .ok (.SETBANG var val, σ)
          | .error e, _ => .error e
          | _, .error e => .error e
        else
          match ana v false σ with
          | .error e => .error e
          | .ok (val, σ) => .ok (.SETBANG var val, σ)
      | _ =>
        match ana v false σ with
        | .error e => .error e
        | .ok (val, σ) => .ok (.SETBANG var val, σ)
  | _ => .error .syntax_error

/-- The function `analyze_if`. -/
def analyze_if (ana : Val → Bool → AM Node) (obj : List Val) (tailpos : Bool) :
    AM Node := fun σ =>
  let parts : Option (Val × Val × Val) := match obj with
    | [_, c, t, e] => some (c, t, e)
    | [_, c, t] => some (c, t, pic_none_value)
    | _ => none
  match parts with
  | none => .error .syntax_error
  | some (c, t, e) =>
    match ana c false σ with
    | .error err => .error err
    | .ok (cond, σ) =>
      match ana t tailpos σ with
      | .error err => .error err
      | .ok (if_true, σ) =>
        match ana e tailpos σ with
        | .error err => .error err
        | .ok (if_false, σ) => .ok (.IF cond if_true if_false, σ)

/-- A loop that analyzes the elements of a list in order, the last one with the
flag `tail` and the others in non-tail position (the loops of `analyze_begin`,
`analyze_call` and `analyze_values`). -/
def analyze_seq (ana : Val → Bool → AM Node) : List Val → Bool → AM (List Node)
  | [], _, σ => .ok ([], σ)
  | [e], tail, σ =>
    match ana e tail σ with
    | .error err => .error err
    | .ok (n, σ) => .ok ([n], σ)
  | e :: e2 :: es, tail, σ =>
    match ana e false σ with
    | .error err => .error err
    | .ok (n, σ) =>
      match analyze_seq ana (e2 :: es) tail σ with
      | .error err => .error err
      | .ok (ns, σ) => .ok (n :: ns, σ)

/-- The function `analyze_begin`. -/
def analyze_begin (ana : Val → Bool → AM Node) (obj : List Val) (tailpos : Bool) :
    AM Node := fun σ =>
  match obj with
  | [_] => ana pic_none_value tailpos σ
  | [_, e] => ana e tailpos σ
  | _ :: es =>
    match analyze_seq ana es tailpos σ with
    | .error err => .error err
    | .ok (ns, σ) => .ok (.BEGIN ns, σ)
  | [] => .error .pair_required

/-- The function `analyze_set`. -/
def analyze_set (ana : Val → Bool → AM Node) (obj : List Val) : AM Node := fun σ =>
  match obj with
  | [_, .sym var, val] =>
    match ana (.sym var) false σ with
    | .error err => .error err
    | .ok (var, σ) =>
      match ana val false σ with
      | .error err => .error err
      | .ok (val, σ) => .ok (.SETBANG var val, σ)
  | _ => .error .syntax_error

/-- The function `analyze_quote`. -/
def analyze_quote (obj : List Val) : AM Node := fun σ =>
  match obj with
  | [_, d] => .ok (.QUOTE d, σ)
  | _ => .error .syntax_error

/-- The loop of the macro `FOLD_ARGS`. -/
def fold_args (ana : Val → Bool → AM Node) (op : Tag2) : Node → List Val → AM Node
  | acc, [], σ => .ok (acc, σ)
  | acc, arg :: args, σ =>
    match ana arg false σ with
    | .error err => .error err
    | .ok (n, σ) => fold_args ana op (.op2 op acc n) args σ

/-- The macro `FOLD_ARGS`. -/
def FOLD_ARGS (ana : Val → Bool → AM Node) (op : Tag2) (args : List Val) : AM Node :=
  fun σ =>
  match args with
  | [] => .error .pair_required
  | a :: rest =>
    match ana a false σ with
    | .error err => .error err
    | .ok (n, σ) => fold_args ana op n rest σ

/-- The function `analyze_add`. -/
def analyze_add (ana : Val → Bool → AM Node) (obj : List Val) (tailpos : Bool) :
    AM Node := fun σ =>
  match obj with
  | [] => .error .wrong_number_of_arguments
  | [_] => .ok (.QUOTE (.int 0), σ)
  | [_, x] => ana x tailpos σ
  | _ :: args => FOLD_ARGS ana .ADD args σ

/-- The function `analyze_sub`. -/
def analyze_sub (ana : Val → Bool → AM Node) (obj : List Val) : AM Node := fun σ =>
  match obj with
  | [] => .error .wrong_number_of_arguments
  | [_] => .error .wrong_number_of_arguments
  | [_, x] =>
    match ana x false σ with
    | .error err => .error err
    | .ok (n, σ) => .ok (.op1 .MINUS n, σ)
  | _ :: args => FOLD_ARGS ana .SUB args σ

/-- The function `analyze_mul`. -/
def analyze_mul (ana : Val → Bool → AM Node) (obj : List Val) (tailpos : Bool) :
    AM Node := fun σ =>
  match obj with
  | [] => .error .wrong_number_of_arguments
  | [_] => .ok (.QUOTE (.int 1), σ)
  | [_, x] => ana x tailpos σ
  | _ :: args => FOLD_ARGS ana .MUL args σ

/-- The function `analyze_div`. -/
def analyze_div (state : analyze_state) (ana : Val → Bool → AM Node) (obj : List Val) :
    AM Node := fun σ =>
  match obj with
  | [] => .error .wrong_number_of_arguments
  | [_] => .error .wrong_number_of_arguments
  | [hd, x] =>
    ana (pic_list [hd, if state.pic.PIC_ENABLE_FLOAT then .float 1 else .int 1, x]) false σ
  | _ :: args => FOLD_ARGS ana .DIV args σ

/-- The function `analyze_call`. -/
def analyze_call (ana : Val → Bool → AM Node) (obj : List Val) (tailpos : Bool) :
    AM Node := fun σ =>
  match analyze_seq ana obj false σ with
  | .error err => .error err
  | .ok (ns, σ) => .ok (if tailpos then .TAILCALL ns else .CALL ns, σ)

/-- The function `analyze_values`. -/
def analyze_values (ana : Val → Bool → AM Node) (obj : List Val) (tailpos : Bool) :
    AM Node := fun σ =>
  if !tailpos then analyze_call ana obj false σ
  else
    match analyze_seq ana obj.tail false σ with
    | .error err => .error err
    | .ok (ns, σ) => .ok (.RETURN ns, σ)

/-- The function `analyze_call_with_values`. -/
def analyze_call_with_values (ana : Val → Bool → AM Node) (obj : List Val)
    (tailpos : Bool) : AM Node := fun σ =>
  match obj with
  | [_, p, c] =>
    match ana p false σ with
    | .error err => .error err
    | .ok (prod, σ) =>
      match ana c false σ with
      | .error err => .error err
      | .ok (cnsm, σ) =>
        .ok (if tailpos then .TAILCALL_WITH_VALUES prod cnsm
             else .CALL_WITH_VALUES prod cnsm, σ)
  | _ => .error .wrong_number_of_arguments

/-- The macro `CONSTRUCT_OP1` after `ARGC_ASSERT(1)`. -/
def CONSTRUCT_OP1 (ana : Val → Bool → AM Node) (op : Tag1) (obj : List Val) :
    AM Node := fun σ =>
  match obj with
  | [_, a] =>
    match ana a false σ with
    | .error err => .error err
    | .ok (n, σ) => .ok (.op1 op n, σ)
  | _ => .error .wrong_number_of_arguments

/-- The macro `CONSTRUCT_OP2` on the two operands: both `analyze` calls are
arguments of one call of `pic_list3`. -/
def CONSTRUCT_OP2 (state : analyze_state) (ana : Val → Bool → AM Node) (op : Tag2)
    (a b : Val) : AM Node := fun σ =>
  if state.pic.op2_right_first then
    match ana b false σ with
    | .error err => .error err
    | .ok (nb, σ) =>
      match ana a false σ with
      | .error err => .error err
      | .ok (na, σ) => .ok (.op2 op na nb, σ)
  else
    match ana a false σ with
    | .error err => .error err
    | .ok (na, σ) =>
      match ana b false σ with
      | .error err => .error err
      | .ok (nb, σ) => .ok (.op2 op na nb, σ)

/-- The case `rCONS` of `analyze_node`: `ARGC_ASSERT(2)`, then
`CONSTRUCT_OP2`. -/
def analyze_op2_strict (state : analyze_state) (ana : Val → Bool → AM Node) (op : Tag2)
    (obj : List Val) : AM Node := fun σ =>
  match obj with
  | [_, a, b] => CONSTRUCT_OP2 state ana op a b σ
  | _ => .error .wrong_number_of_arguments

/-- The cases `rEQ` ... `rGE` of `analyze_node`:
`ARGC_ASSERT_WITH_FALLBACK(2)`, then `CONSTRUCT_OP2`. -/
def analyze_op2_fallback (state : analyze_state) (ana : Val → Bool → AM Node) (op : Tag2)
    (obj : List Val) (tailpos : Bool) : AM Node := fun σ =>
  match obj with
  | [_, a, b] => CONSTRUCT_OP2 state ana op a b σ
  | _ => analyze_call ana obj tailpos σ

/-- The cases of the dispatch of `analyze_node` on the head symbol of a form. -/
inductive form_kind where
  | DEFINE | LAMBDA | IF | BEGIN | SETBANG | QUOTE
  | CONS | CAR | CDR | NILP | SYMBOLP | PAIRP
  | ADD | SUB | MUL | DIV | EQ | LT | LE | GT | GE | NOT
  | VALUES | CALL_WITH_VALUES | other
  deriving DecidableEq, Repr

/-- The chain of comparisons of `analyze_node` on the head symbol: the first
case that matches. -/
def form_of (state : analyze_state) (sym : Sym) : form_kind :=
  if sym = state.pic.rDEFINE then .DEFINE
  else if sym = state.pic.rLAMBDA then .LAMBDA
  else if sym = state.pic.rIF then .IF
  else if sym = state.pic.rBEGIN then .BEGIN
  else if sym = state.pic.rSETBANG then .SETBANG
  else if sym = state.pic.rQUOTE then .QUOTE
  else if sym = state.rCONS then .CONS
  else if sym = state.rCAR then .CAR
  else if sym = state.rCDR then .CDR
  else if sym = state.rNILP then .NILP
  else if sym = state.rSYMBOLP then .SYMBOLP
  else if sym = state.rPAIRP then .PAIRP
  else if sym = state.rADD then .ADD
  else if sym = state.rSUB then .SUB
  else if sym = state.rMUL then .MUL
  else if sym = state.rDIV then .DIV
  else if sym = state.rEQ then .EQ
  else if sym = state.rLT then .LT
  else if sym = state.rLE then .LE
  else if sym = state.rGT then .GT
  else if sym = state.rGE then .GE
  else if sym = state.rNOT then .NOT
  else if sym = state.rVALUES then .VALUES
  else if sym = state.rCALL_WITH_VALUES then .CALL_WITH_VALUES
  else .other

/-- The dispatch of `analyze_node` on a proper list whose head is the symbol
`sym`. -/
def analyze_form (state : analyze_state) (ana : Val → Bool → AM Node) (sym : Sym)
    (obj : List Val) (tailpos : Bool) : AM Node :=
  match form_of state sym with
  | .DEFINE => analyze_define state ana obj
  | .LAMBDA => analyze_lambda state obj
  | .IF => analyze_if ana obj tailpos
  | .BEGIN => analyze_begin ana obj tailpos
  | .SETBANG => analyze_set ana obj
  | .QUOTE => analyze_quote obj
  | .CONS => analyze_op2_strict state ana .CONS obj
  | .CAR => CONSTRUCT_OP1 ana .CAR obj
  | .CDR => CONSTRUCT_OP1 ana .CDR obj
  | .NILP => CONSTRUCT_OP1 ana .NILP obj
  | .SYMBOLP => CONSTRUCT_OP1 ana .SYMBOLP obj
  | .PAIRP => CONSTRUCT_OP1 ana .PAIRP obj
  | .ADD => analyze_add ana obj tailpos
  | .SUB => analyze_sub ana obj
  | .MUL => analyze_mul ana obj tailpos
  | .DIV => analyze_div state ana obj
  | .EQ => analyze_op2_fallback state ana .EQ obj tailpos
  | .LT => analyze_op2_fallback state ana .LT obj tailpos
  | .LE => analyze_op2_fallback state ana .LE obj tailpos
  | .GT => analyze_op2_fallback state ana .GT obj tailpos
  | .GE => analyze_op2_fallback state ana .GE obj tailpos
  | .NOT => CONSTRUCT_OP1 ana .NOT obj
  | .VALUES => analyze_values ana obj tailpos
  | .CALL_WITH_VALUES => analyze_call_with_values ana obj tailpos
  | .other => analyze_call ana obj tailpos

/-- The function `analyze_node`. -/
def analyze_node (state : analyze_state) (ana : Val → Bool → AM Node) (obj : Val)
    (tailpos : Bool) : AM Node := fun σ =>
  match obj with
  | .sym s => analyze_var s σ
  | .pair a d =>
    match list_elems (.pair a d) with
    | none => .error .invalid_expression
    | some elems =>
      match a with
      | .sym sym => analyze_form state ana sym elems tailpos σ
      | _ => analyze_call ana elems tailpos σ
  | v => .ok (.QUOTE v, σ)

/-- The function `analyze`. -/
def analyze (state : analyze_state) : Nat → Val → Bool → AM Node
  | 0, _, _, _ => .error .out_of_fuel
  | fuel + 1, obj, tailpos, σ =>
    match analyze_node state (analyze state fuel) obj tailpos σ with
    | .error err => .error err
    | .ok (res, σ) =>
      if tailpos then
        if passes_through σ.heap res then .ok (res, σ)
        else .ok (.RETURN [res], σ)
      else .ok (res, σ)

/-- The function `analyze_procedure`; `ana` is `analyze` and `flush` is
`analyze_deferred`. -/
def analyze_procedure (state : analyze_state) (ana : Val → Bool → AM Node)
    (flush : AM Unit) (name : Option Sym) (formals body_exprs : Val) : AM Node := fun σ =>
  match push_scope formals σ.scope with
  | (false, _) => .error .invalid_formals
  | (true, scopes) =>
    match scopes with
    | [] => .error .null_pointer
    | scope :: _ =>
      let args := scope.args
      let varg := scope.varg
      match ana (.pair (.sym state.pic.rBEGIN) body_exprs) true { σ with scope := scopes } with
      | .error err => .error err
      | .ok (body, σ) =>
        match flush σ with
        | .error err => .error err
        | .ok (_, σ) =>
          match σ.scope with
          | [] => .error .null_pointer
          | scope :: _ =>
            .ok (.LAMBDA name args scope.locals varg scope.captures body,
                 { σ with scope := pop_scope σ.scope })

/-- The loop of `analyze_deferred` over the reversed `defer` list: each lambda is
analyzed and copied over its skeleton. -/
def analyze_deferred_loop (proc : Option Sym → Val → Val → AM Node) :
    List deferred → AM Unit
  | [], σ => .ok ((), σ)
  | d :: ds, σ =>
    match proc d.name d.formal d.body σ with
    | .error err => .error err
    | .ok (val, σ) =>
      analyze_deferred_loop proc ds { σ with heap := σ.heap.set d.dst val }

/-- The function `analyze_deferred`. -/
def analyze_deferred (state : analyze_state) : Nat → AM Unit
  | 0, _ => .error .out_of_fuel
  | fuel + 1, σ =>
    match σ.scope with
    | [] => .error .null_pointer
    | scope :: _ =>
      match analyze_deferred_loop
          (analyze_procedure state (analyze state fuel) (analyze_deferred state fuel))
          scope.defer.reverse σ with
      | .error err => .error err
      | .ok (_, σ) =>
        match σ.scope with
        | [] => .error .null_pointer
        | scope :: up => .ok ((), { σ with scope := { scope with defer := [] } :: up })

/-- The macro `register_renamed_symbol`. -/
def register_renamed_symbol (pic : pic_state) (id : vm_proc) : Except Err Sym :=
  match pic.find_rename id with
  | some gsym => .ok gsym
  | none => .error .vm_procedure_not_found

/-- The symbol look-ups of `new_analyze_state`. -/
def new_analyze_symbols (pic : pic_state) : Except Err analyze_state := do
  let rCONS ← register_renamed_symbol pic .cons
  let rCAR ← register_renamed_symbol pic .car
  let rCDR ← register_renamed_symbol pic .cdr
  let rNILP ← register_renamed_symbol pic .nilp
  let rSYMBOLP ← register_renamed_symbol pic .symbolp
  let rPAIRP ← register_renamed_symbol pic .pairp
  let rADD ← register_renamed_symbol pic .add
  let rSUB ← register_renamed_symbol pic .sub
  let rMUL ← register_renamed_symbol pic .mul
  let rDIV ← register_renamed_symbol pic .div
  let rEQ ← register_renamed_symbol pic .eq
  let rLT ← register_renamed_symbol pic .lt
  let rLE ← register_renamed_symbol pic .le
  let rGT ← register_renamed_symbol pic .gt
  let rGE ← register_renamed_symbol pic .ge
  let rNOT ← register_renamed_symbol pic .not
  let rVALUES ← register_renamed_symbol pic .values
  let rCALL_WITH_VALUES ← register_renamed_symbol pic .call_with_values
  pure { pic := pic, rCONS := rCONS, rCAR := rCAR, rCDR := rCDR, rNILP := rNILP,
         rSYMBOLP := rSYMBOLP, rPAIRP := rPAIRP, rADD := rADD, rSUB := rSUB,
         rMUL := rMUL, rDIV := rDIV, rEQ := rEQ, rLT := rLT, rLE := rLE, rGT := rGT,
         rGE := rGE, rNOT := rNOT, rVALUES := rVALUES,
         rCALL_WITH_VALUES := rCALL_WITH_VALUES }

/-- The root scope of `new_analyze_state`: `push_scope` on the empty formals, then
every global pushed onto `locals`. -/
def root_scope (pic : pic_state) : analyze_scope :=
  { depth := 0, varg := false, args := [], locals := pic.globals, captures := [],
    defer := [] }

/-- The function `new_analyze_state`: the symbol table and the initial store,
whose only scope is the root scope. -/
def new_analyze_state (pic : pic_state) : Except Err (analyze_state × astore) :=
  match new_analyze_symbols pic with
  | .error err => .error err
  | .ok state =>
    match push_scope .nil [] with
    | (true, scope :: up) =>
      .ok (state, { scope := { scope with locals := scope.locals ++ pic.globals } :: up,
                    heap := [] })
    | _ => .error .null_pointer

mutual
/-- The tree read from a node when every skeleton pair is read through
`deref`. -/
def read_node (deref : Nat → Node) : Node → Node
  | .GREF s => .GREF s
  | .LREF s => .LREF s
  | .CREF d s => .CREF d s
  | .SETBANG var val => .SETBANG (read_node deref var) (read_node deref val)
  | .LAMBDA name args locals varg captures body =>
    .LAMBDA name args locals varg captures (read_node deref body)
  | .IF c t e => .IF (read_node deref c) (read_node deref t) (read_node deref e)
  | .BEGIN es => .BEGIN (read_nodes deref es)
  | .QUOTE d => .QUOTE d
  | .CALL es => .CALL (read_nodes deref es)
  | .TAILCALL es => .TAILCALL (read_nodes deref es)
  | .CALL_WITH_VALUES p c => .CALL_WITH_VALUES (read_node deref p) (read_node deref c)
  | .TAILCALL_WITH_VALUES p c =>
    .TAILCALL_WITH_VALUES (read_node deref p) (read_node deref c)
  | .RETURN es => .RETURN (read_nodes deref es)
  | .op1 t a => .op1 t (read_node deref a)
  | .op2 t a b => .op2 t (read_node deref a) (read_node deref b)
  | .skel c => deref c
/-- The function `read_node` along a list. -/
def read_nodes (deref : Nat → Node) : List Node → List Node
  | [] => []
  | e :: es => read_node deref e :: read_nodes deref es
end

/-- The tree a node denotes in a heap: skeleton pairs are replaced by the
content of their cells, `depth` levels of lambdas deep. -/
def resolve (heap : List Node) : Nat → Node → Node
  | 0 => fun n => n
  | depth + 1 => read_node fun c =>
    match heap[c]? with
    | some n => resolve heap depth n
    | none => .skel c

/-- The function `pic_analyze`.  The value returned is the pointer `obj`; the
tree the caller sees behind it is read through the skeleton cells, each of which
lies one lambda deeper than the one before, so `heap.length` levels reach
all. -/
def pic_analyze (pic : pic_state) (fuel : Nat) (obj : Val) : Except Err Node :=
  match new_analyze_state pic with
  | .error err => .error err
  | .ok (state, σ) =>
    match analyze state fuel obj true σ with
    | .error err => .error err
    | .ok (res, σ) =>
      match analyze_deferred state fuel σ with
      | .error err => .error err
      | .ok (_, σ) => .ok (resolve σ.heap (σ.heap.length + 1) res)

/-! ## Code generator -/

/-- The instruction set (`enum pic_opcode`) as far as the code generator emits
it. -/
inductive pic_opcode where
  | OP_LREF | OP_LSET | OP_GREF | OP_GSET | OP_CREF | OP_CSET
  | OP_PUSHNIL | OP_PUSHTRUE | OP_PUSHFALSE | OP_PUSHINT | OP_PUSHCHAR | OP_PUSHCONST
  | OP_LAMBDA | OP_JMPIF | OP_JMP | OP_POP
  | OP_CONS | OP_CAR | OP_CDR | OP_NILP | OP_SYMBOLP | OP_PAIRP
  | OP_ADD | OP_SUB | OP_MUL | OP_DIV | OP_MINUS | OP_EQ | OP_LT | OP_LE | OP_NOT
  | OP_CALL | OP_TAILCALL | OP_RET
  deriving DecidableEq, Repr

/-- The macro `OP_PUSHNONE` under `PIC_NONE_IS_FALSE`. -/
def OP_PUSHNONE : pic_opcode := .OP_PUSHFALSE

/-- The operand union `u` of an instruction: not written (`emit_n`), `u.i`,
`u.c`, or `u.r`. -/
inductive operand where
  | none
  | i (n : Int)
  | c (ch : Nat)
  | r (depth idx : Int)
  deriving DecidableEq, Repr

/-- One instruction (`pic_code`). -/
structure pic_code where
  insn : pic_opcode
  u : operand
  deriving DecidableEq, Repr

/-- The record `struct pic_irep`; `clen`, `ilen`, `plen`, `slen` are the lengths
of the four lists. -/
inductive pic_irep where
  | mk (name : Sym) (varg : Bool) (argc localc capturec : Int) (code : List pic_code)
      (irep : List (Option pic_irep)) (pool : List Val) (syms : List Sym)
  deriving Repr

/-- The C struct `codegen_context`; the `up` link is the rest of the context
stack, and a child slot that is reserved but not yet written is `none`. -/
structure codegen_context where
  name : Sym
  varg : Bool
  args : List Sym
  locals : List Sym
  captures : List Sym
  code : List pic_code
  irep : List (Option pic_irep)
  pool : List Val
  syms : List Sym
  deriving Repr

/-- The context stack `state->cxt` of a `codegen_state`, innermost first. -/
abbrev codegen_state := List codegen_context

/-- Append one instruction to the code of the current context (the body shared
by `emit_n`, `emit_i`, `emit_c`, `emit_r`). -/
def emit (insn : pic_opcode) (u : operand) : codegen_state → Except Err codegen_state
  | [] => .error .null_pointer
  | cxt :: up => .ok ({ cxt with code := cxt.code ++ [{ insn := insn, u := u }] } :: up)

/-- The function `emit_n`: the operand is not written. -/
def emit_n (insn : pic_opcode) : codegen_state → Except Err codegen_state :=
  emit insn .none

/-- The function `emit_i`. -/
def emit_i (insn : pic_opcode) (i : Int) : codegen_state → Except Err codegen_state :=
  emit insn (.i i)

/-- The function `emit_c`. -/
def emit_c (insn : pic_opcode) (c : Nat) : codegen_state → Except Err codegen_state :=
  emit insn (.c c)

/-- The function `emit_r`. -/
def emit_r (insn : pic_opcode) (d i : Int) : codegen_state → Except Err codegen_state :=
  emit insn (.r d i)

/-- Position of the first element equal to `sym`, counted from `i`: the scan
loops of `index_capture`, `index_local` and `index_symbol`. -/
def xv_scan (sym : Sym) : List Sym → Nat → Option Nat
  | [], _ => none
  | x :: xs, i => if x = sym then some i else xv_scan sym xs (i + 1)

/-- The table `regs` of `create_activation` after the two filling loops: a later
`xh_put_ptr` on a key replaces the earlier value. -/
def activation_regs (sym : Sym) : List Sym → Nat → Option Nat → Option Nat
  | [], _, found => found
  | x :: xs, n, found => activation_regs sym xs (n + 1) (if x = sym then some n else found)

/-- The last loop of `create_activation`, over the captures. -/
def create_activation_loop (cxt : codegen_context) :
    List Sym → codegen_state → Except Err codegen_state
  | [], st => .ok st
  | s :: rest, st =>
    match activation_regs s (cxt.args ++ cxt.locals) 1 none with
    | none => .error .null_pointer
    | some n =>
      let step :=
        if n ≤ cxt.args.length || (cxt.varg && n == cxt.args.length + 1) then
          emit_i .OP_LREF (n : Int) st
        else emit_n OP_PUSHNONE st
      match step with
      | .error err => .error err
      | .ok st => create_activation_loop cxt rest st

/-- The function `create_activation`. -/
def create_activation : codegen_state → Except Err codegen_state
  | [] => .error .null_pointer
  | cxt :: up => create_activation_loop cxt cxt.captures (cxt :: up)

/-- The function `push_codegen_context`. -/
def push_codegen_context (pic : pic_state) (name : Option Sym) (args locals : List Sym)
    (varg : Bool) (captures : List Sym) (st : codegen_state) : Except Err codegen_state :=
  create_activation
    ({ name := match name with
         | none => pic.sANONYMOUS
         | some s => s,
       varg := varg, args := args, locals := locals, captures := captures,
       code := [], irep := [], pool := [], syms := [] } :: st)

/-- The function `pop_codegen_context`: the finished IRep and the remaining
stack. -/
def pop_codegen_context : codegen_state → Except Err (pic_irep × codegen_state)
  | [] => .error .null_pointer
  | cxt :: up =>
    .ok (.mk cxt.name cxt.varg ((cxt.args.length : Int) + 1) cxt.locals.length
          cxt.captures.length cxt.code cxt.irep cxt.pool cxt.syms, up)

/-- The function `index_capture`; walking past the outermost context
dereferences a null pointer. -/
def index_capture (st : codegen_state) (sym : Sym) (depth : Int) : Except Err Int :=
  match st.drop depth.toNat with
  | [] => .error .null_pointer
  | cxt :: _ =>
    match xv_scan sym cxt.captures 0 with
    | some i => .ok (i : Int)
    | none => .ok (-1)

/-- The function `index_local` on the current context. -/
def index_local (cxt : codegen_context) (sym : Sym) : Int :=
  match xv_scan sym cxt.args 0 with
  | some i => ((i + 1 : Nat) : Int)
  | none =>
    match xv_scan sym cxt.locals 0 with
    | some i => ((i + (1 + cxt.args.length) : Nat) : Int)
    | none => -1

/-- The function `index_symbol`: the index and the new state. -/
def index_symbol (sym : Sym) : codegen_state → Except Err (Int × codegen_state)
  | [] => .error .null_pointer
  | cxt :: up =>
    match xv_scan sym cxt.syms 0 with
    | some i => .ok ((i : Int), cxt :: up)
    | none => .ok ((cxt.syms.length : Int), { cxt with syms := cxt.syms ++ [sym] } :: up)

/-- The operand of `OP_LREF` / `OP_LSET` for a local: through the capture area
when the context captures the variable itself, its frame slot otherwise. -/
def local_slot (st : codegen_state) (name : Sym) : Except Err Int :=
  match st with
  | [] => .error .null_pointer
  | cxt :: _ =>
    match index_capture st name 0 with
    | .error err => .error err
    | .ok i =>
      if i ≠ -1 then .ok (i + (cxt.args.length : Int) + (cxt.locals.length : Int) + 1)
      else .ok (index_local cxt name)

/-- The store emitted by the `SETBANG` case for a target node, followed by
`OP_PUSHNONE`; a target that is no reference falls out of the case into the
final error. -/
def codegen_set (var : Node) (st : codegen_state) : Except Err codegen_state :=
  match var with
  | .GREF s =>
    match index_symbol s st with
    | .error err => .error err
    | .ok (i, st) => (emit_i .OP_GSET i st).bind (emit_n OP_PUSHNONE)
  | .CREF depth name =>
    match index_capture st name depth with
    | .error err => .error err
    | .ok i => (emit_r .OP_CSET depth i st).bind (emit_n OP_PUSHNONE)
  | .LREF name =>
    match local_slot st name with
    | .error err => .error err
    | .ok i => (emit_i .OP_LSET i st).bind (emit_n OP_PUSHNONE)
  | _ => .error .unknown_ast_type

/-- The `QUOTE` case of `codegen`. -/
def codegen_quote (obj : Val) (st : codegen_state) : Except Err codegen_state :=
  match obj with
  | .bool b => emit_n (if b then .OP_PUSHTRUE else .OP_PUSHFALSE) st
  | .int n => emit_i .OP_PUSHINT n st
  | .nil => emit_n .OP_PUSHNIL st
  | .char c => emit_c .OP_PUSHCHAR c st
  | d =>
    match st with
    | [] => .error .null_pointer
    | cxt :: up =>
      emit_i .OP_PUSHCONST (cxt.pool.length : Int) ({ cxt with pool := cxt.pool ++ [d] } :: up)

/-- Write `u.i` of the instruction at position `pc` of the current context. -/
def patch_jump (pc : Nat) (i : Int) : codegen_state → Except Err codegen_state
  | [] => .error .null_pointer
  | cxt :: up =>
    .ok ({ cxt with code := cxt.code.modify (fun c => { c with u := .i i }) pc } :: up)

/-- The length `clen` of the code of the current context. -/
def clen : codegen_state → Except Err Nat
  | [] => .error .null_pointer
  | cxt :: _ => .ok cxt.code.length

/-- Reserve the next child slot of the current context (`k = ilen++`). -/
def reserve_irep : codegen_state → Except Err (Nat × codegen_state)
  | [] => .error .null_pointer
  | cxt :: up => .ok (cxt.irep.length, { cxt with irep := cxt.irep ++ [none] } :: up)

/-- The assignment `cxt->irep[k] = ...`. -/
def store_irep (k : Nat) (irep : pic_irep) : codegen_state → Except Err codegen_state
  | [] => .error .null_pointer
  | cxt :: up => .ok ({ cxt with irep := cxt.irep.set k (some irep) } :: up)

/-- The opcode of a one-operand intrinsic. -/
def opcode1 : Tag1 → pic_opcode
  | .CAR => .OP_CAR
  | .CDR => .OP_CDR
  | .NILP => .OP_NILP
  | .SYMBOLP => .OP_SYMBOLP
  | .PAIRP => .OP_PAIRP
  | .MINUS => .OP_MINUS
  | .NOT => .OP_NOT

/-- The opcode a two-operand intrinsic ends with: `GT` and `GE` end with
`OP_LT` and `OP_LE`. -/
def opcode2 : Tag2 → pic_opcode
  | .CONS => .OP_CONS
  | .ADD => .OP_ADD
  | .SUB => .OP_SUB
  | .MUL => .OP_MUL
  | .DIV => .OP_DIV
  | .EQ => .OP_EQ
  | .LT => .OP_LT
  | .LE => .OP_LE
  | .GT => .OP_LT
  | .GE => .OP_LE

/-- Does the case of `codegen` compile operand 2 before operand 1. -/
def swaps : Tag2 → Bool
  | .GT => true
  | .GE => true
  | _ => false

mutual
/-- The function `codegen`. -/
def codegen (pic : pic_state) : Node → codegen_state → Except Err codegen_state
  | .GREF s, st =>
    match index_symbol s st with
    | .error err => .error err
    | .ok (i, st) => emit_i .OP_GREF i st
  | .CREF depth name, st =>
    match index_capture st name depth with
    | .error err => .error err
    | .ok i => emit_r .OP_CREF depth i st
  | .LREF name, st =>
    match local_slot st name with
    | .error err => .error err
    | .ok i => emit_i .OP_LREF i st
  | .SETBANG var val, st =>
    match codegen pic val st with
    | .error err => .error err
    | .ok st => codegen_set var st
  | .LAMBDA name args locals varg captures body, st =>
    match reserve_irep st with
    | .error err => .error err
    | .ok (k, st) =>
      match emit_i .OP_LAMBDA (k : Int) st with
      | .error err => .error err
      | .ok st =>
        -- codegen_lambda
        match push_codegen_context pic name args locals varg captures st with
        | .error err => .error err
        | .ok st =>
          match codegen pic body st with
          | .error err => .error err
          | .ok st =>
            match pop_codegen_context st with
            | .error err => .error err
            | .ok (irep, st) => store_irep k irep st
  | .IF c t e, st =>
    match codegen pic c st with
    | .error err => .error err
    | .ok st =>
      match clen st with
      | .error err => .error err
      | .ok s =>
        match emit_n .OP_JMPIF st with
        | .error err => .error err
        | .ok st =>
          match codegen pic e st with
          | .error err => .error err
          | .ok st =>
            match clen st with
            | .error err => .error err
            | .ok t' =>
              match emit_n .OP_JMP st with
              | .error err => .error err
              | .ok st =>
                match clen st with
                | .error err => .error err
                | .ok now =>
                  match patch_jump s ((now : Int) - (s : Int)) st with
                  | .error err => .error err
                  | .ok st =>
                    match codegen pic t st with
                    | .error err => .error err
                    | .ok st =>
                      match clen st with
                      | .error err => .error err
                      | .ok now => patch_jump t' ((now : Int) - (t' : Int)) st
  | .BEGIN es, st => codegen_begin pic es false st
  | .QUOTE d, st => codegen_quote d st
  | .op1 t a, st =>
    match codegen pic a st with
    | .error err => .error err
    | .ok st => emit_n (opcode1 t) st
  | .op2 t a b, st =>
    if swaps t then
      match codegen pic b st with
      | .error err => .error err
      | .ok st =>
        match codegen pic a st with
        | .error err => .error err
        | .ok st => emit_n (opcode2 t) st
    else
      match codegen pic a st with
      | .error err => .error err
      | .ok st =>
        match codegen pic b st with
        | .error err => .error err
        | .ok st => emit_n (opcode2 t) st
  | .CALL es, st =>
    match codegen_each pic es st with
    | .error err => .error err
    | .ok st => emit_i .OP_CALL (((es.length + 1 : Nat) : Int) - 1) st
  | .TAILCALL es, st =>
    match codegen_each pic es st with
    | .error err => .error err
    | .ok st => emit_i .OP_TAILCALL (((es.length + 1 : Nat) : Int) - 1) st
  | .CALL_WITH_VALUES p c, st =>
    match codegen pic c st with
    | .error err => .error err
    | .ok st =>
      match codegen pic p st with
      | .error err => .error err
      | .ok st =>
        match emit_i .OP_CALL 1 st with
        | .error err => .error err
        | .ok st => emit_i .OP_CALL (-1) st
  | .TAILCALL_WITH_VALUES p c, st =>
    match codegen pic c st with
    | .error err => .error err
    | .ok st =>
      match codegen pic p st with
      | .error err => .error err
      | .ok st =>
        match emit_i .OP_CALL 1 st with
        | .error err => .error err
        | .ok st => emit_i .OP_TAILCALL (-1) st
  | .RETURN es, st =>
    match codegen_each pic es st with
    | .error err => .error err
    | .ok st => emit_i .OP_RET (((es.length + 1 : Nat) : Int) - 1) st
  | .skel _, _ => .error .unknown_ast_type
/-- The loop `pic_for_each (elt, pic_cdr(pic, obj), it) codegen(state, elt)` of
the `CALL`, `TAILCALL` and `RETURN` cases. -/
def codegen_each (pic : pic_state) : List Node → codegen_state → Except Err codegen_state
  | [], st => .ok st
  | e :: es, st =>
    match codegen pic e st with
    | .error err => .error err
    | .ok st => codegen_each pic es st
/-- The loop of the `BEGIN` case; `started` is `i != 0`. -/
def codegen_begin (pic : pic_state) :
    List Node → Bool → codegen_state → Except Err codegen_state
  | [], _, st => .ok st
  | e :: es, started, st =>
    match (if started then emit_n .OP_POP st else .ok st) with
    | .error err => .error err
    | .ok st =>
      match codegen pic e st with
      | .error err => .error err
      | .ok st => codegen_begin pic es true st
end

/-- The function `new_codegen_state`. -/
def new_codegen_state (pic : pic_state) : Except Err codegen_state :=
  push_codegen_context pic none [] [] false [] []

/-- The function `destroy_codegen_state`. -/
def destroy_codegen_state (st : codegen_state) : Except Err pic_irep :=
  match pop_codegen_context st with
  | .error err => .error err
  | .ok (irep, _) => .ok irep

/-- The function `pic_codegen`. -/
def pic_codegen (pic : pic_state) (obj : Node) : Except Err pic_irep :=
  match new_codegen_state pic with
  | .error err => .error err
  | .ok st =>
    match codegen pic obj st with
    | .error err => .error err
    | .ok st => destroy_codegen_state st

/-- The function `pic_compile` on a macro-expanded form, up to the IRep it wraps
into a procedure: `pic_analyze`, then `pic_codegen`. -/
def pic_compile (pic : pic_state) (fuel : Nat) (obj : Val) : Except Err pic_irep :=
  match pic_analyze pic fuel obj with
  | .error err => .error err
  | .ok ast => pic_codegen pic ast

/-- The field `code` of an IRep. -/
def pic_irep.code : pic_irep → List pic_code
  | .mk _ _ _ _ _ code _ _ _ => code

/-- The field `irep` of an IRep: its children. -/
def pic_irep.irep : pic_irep → List (Option pic_irep)
  | .mk _ _ _ _ _ _ irep _ _ => irep

/-- The code of child `k` of an IRep, empty when there is no such child. -/
def pic_irep.child_code (r : pic_irep) (k : Nat) : List pic_code :=
  match r.irep[k]? with
  | some (some c) => c.code
  | _ => []

/-! ## Specification predicates -/

/-- An interpreter state for the examples: the special forms are the symbols 1
to 6, the primitives of the base library the symbols 10 to 27 in the order of
`new_analyze_state`, and these are the globals. -/
def base_pic : pic_state :=
  { rDEFINE := 1, rLAMBDA := 2, rIF := 3, rBEGIN := 4, rSETBANG := 5, rQUOTE := 6,
    find_rename := fun p => match p with
      | .cons => some 10 | .car => some 11 | .cdr => some 12 | .nilp => some 13
      | .symbolp => some 14 | .pairp => some 15 | .add => some 16 | .sub => some 17
      | .mul => some 18 | .div => some 19 | .eq => some 20 | .lt => some 21
      | .le => some 22 | .gt => some 23 | .ge => some 24 | .not => some 25
      | .values => some 26 | .call_with_values => some 27,
    sNOWHERE := 0, sANONYMOUS := 7,
    globals := [10, 11, 12, 13, 14, 15, 16, 17, 18, 19, 20, 21, 22, 23, 24, 25, 26, 27],
    PIC_ENABLE_FLOAT := false, op2_right_first := false }

/-- The state `base_pic` for a compiler that runs the second `analyze` call of
`CONSTRUCT_OP2` first. -/
def base_pic_right : pic_state := { base_pic with op2_right_first := true }

mutual
/-- The `(args, captures)` of every `LAMBDA` node of a tree, outermost first. -/
def lambda_headers : Node → List (List Sym × List Sym)
  | .GREF _ => []
  | .LREF _ => []
  | .CREF _ _ => []
  | .SETBANG var val => lambda_headers var ++ lambda_headers val
  | .LAMBDA _ args _ _ captures body => (args, captures) :: lambda_headers body
  | .IF c t e => lambda_headers c ++ lambda_headers t ++ lambda_headers e
  | .BEGIN es => lambda_headers_list es
  | .QUOTE _ => []
  | .CALL es => lambda_headers_list es
  | .TAILCALL es => lambda_headers_list es
  | .CALL_WITH_VALUES p c => lambda_headers p ++ lambda_headers c
  | .TAILCALL_WITH_VALUES p c => lambda_headers p ++ lambda_headers c
  | .RETURN es => lambda_headers_list es
  | .op1 _ a => lambda_headers a
  | .op2 _ a b => lambda_headers a ++ lambda_headers b
  | .skel _ => []
/-- The function `lambda_headers` along a list. -/
def lambda_headers_list : List Node → List (List Sym × List Sym)
  | [] => []
  | e :: es => lambda_headers e ++ lambda_headers_list es
end

mutual
/-- Structural equality test on analyzed trees. -/
def Node.same : Node → Node → Bool
  | .GREF s, b => match b with
    | .GREF s' => s == s'
    | _ => false
  | .LREF s, b => match b with
    | .LREF s' => s == s'
    | _ => false
  | .CREF d s, b => match b with
    | .CREF d' s' => d == d' && s == s'
    | _ => false
  | .SETBANG x y, b => match b with
    | .SETBANG x' y' => Node.same x x' && Node.same y y'
    | _ => false
  | .LAMBDA n a l v c x, b => match b with
    | .LAMBDA n' a' l' v' c' x' =>
      n == n' && a == a' && l == l' && v == v' && c == c' && Node.same x x'
    | _ => false
  | .IF c t e, b => match b with
    | .IF c' t' e' => Node.same c c' && Node.same t t' && Node.same e e'
    | _ => false
  | .BEGIN es, b => match b with
    | .BEGIN es' => Node.same_list es es'
    | _ => false
  | .QUOTE d, b => match b with
    | .QUOTE d' => d == d'
    | _ => false
  | .CALL es, b => match b with
    | .CALL es' => Node.same_list es es'
    | _ => false
  | .TAILCALL es, b => match b with
    | .TAILCALL es' => Node.same_list es es'
    | _ => false
  | .CALL_WITH_VALUES x y, b => match b with
    | .CALL_WITH_VALUES x' y' => Node.same x x' && Node.same y y'
    | _ => false
  | .TAILCALL_WITH_VALUES x y, b => match b with
    | .TAILCALL_WITH_VALUES x' y' => Node.same x x' && Node.same y y'
    | _ => false
  | .RETURN es, b => match b with
    | .RETURN es' => Node.same_list es es'
    | _ => false
  | .op1 t x, b => match b with
    | .op1 t' x' => t == t' && Node.same x x'
    | _ => false
  | .op2 t x y, b => match b with
    | .op2 t' x' y' => t == t' && Node.same x x' && Node.same y y'
    | _ => false
  | .skel c, b => match b with
    | .skel c' => c == c'
    | _ => false
/-- The test `Node.same` along two lists. -/
def Node.same_list : List Node → List Node → Bool
  | [], bs => bs.isEmpty
  | e :: es, bs => match bs with
    | e' :: es' => Node.same e e' && Node.same_list es es'
    | [] => false
end

/-- Equality test on the result of an analysis. -/
def same_ast : Except Err Node → Except Err Node → Bool
  | .ok a, b => match b with
    | .ok b => Node.same a b
    | .error _ => false
  | .error e, b => match b with
    | .ok _ => false
    | .error e' => e == e'

mutual
/-- Structural equality test on IReps. -/
def pic_irep.same : pic_irep → pic_irep → Bool
  | .mk n v a l c code irep pool syms, .mk n' v' a' l' c' code' irep' pool' syms' =>
    n == n' && v == v' && a == a' && l == l' && c == c' && code == code' &&
      pic_irep.same_list irep irep' && pool == pool' && syms == syms'
/-- The test `pic_irep.same` on two child slots. -/
def pic_irep.same_slot : Option pic_irep → Option pic_irep → Bool
  | none, b => b.isNone
  | some r, b => match b with
    | some r' => pic_irep.same r r'
    | none => false
/-- The test `pic_irep.same` along two child tables. -/
def pic_irep.same_list : List (Option pic_irep) → List (Option pic_irep) → Bool
  | [], bs => bs.isEmpty
  | e :: es, bs => match bs with
    | e' :: es' => pic_irep.same_slot e e' && pic_irep.same_list es es'
    | [] => false
end

/-- Equality test on the result of a compilation. -/
def same_irep : Except Err pic_irep → Except Err pic_irep → Bool
  | .ok a, b => match b with
    | .ok b => pic_irep.same a b
    | .error _ => false
  | .error e, b => match b with
    | .ok _ => false
    | .error e' => e == e'

mutual
/-- Tail normal form: the node is headed by one of `IF`, `BEGIN`, `TAILCALL`,
`TAILCALL_WITH_VALUES`, `RETURN`, and so are both branches of such an `IF` and
the last element of such a `BEGIN`, recursively. -/
def TailNorm : Node → Bool
  | .IF _ t e => TailNorm t && TailNorm e
  | .BEGIN es => TailNormLast es
  | .TAILCALL _ => true
  | .TAILCALL_WITH_VALUES _ _ => true
  | .RETURN _ => true
  | _ => false
/-- The last element of the list, if there is one, is in tail normal form. -/
def TailNormLast : List Node → Bool
  | [] => true
  | e :: es => match es with
    | [] => TailNorm e
    | _ :: _ => TailNormLast es
end

mutual
/-- Every `LAMBDA` node of the tree, at any depth, satisfies `φ`. -/
def AllLambdas (φ : Option Sym → List Sym → List Sym → Bool → List Sym → Node → Prop) :
    Node → Prop
  | .GREF _ => True
  | .LREF _ => True
  | .CREF _ _ => True
  | .SETBANG var val => AllLambdas φ var ∧ AllLambdas φ val
  | .LAMBDA name args locals varg captures body =>
    φ name args locals varg captures body ∧ AllLambdas φ body
  | .IF c t e => AllLambdas φ c ∧ AllLambdas φ t ∧ AllLambdas φ e
  | .BEGIN es => AllLambdasList φ es
  | .QUOTE _ => True
  | .CALL es => AllLambdasList φ es
  | .TAILCALL es => AllLambdasList φ es
  | .CALL_WITH_VALUES p c => AllLambdas φ p ∧ AllLambdas φ c
  | .TAILCALL_WITH_VALUES p c => AllLambdas φ p ∧ AllLambdas φ c
  | .RETURN es => AllLambdasList φ es
  | .op1 _ a => AllLambdas φ a
  | .op2 _ a b => AllLambdas φ a ∧ AllLambdas φ b
  | .skel _ => True
/-- The predicate `AllLambdas` along a list. -/
def AllLambdasList (φ : Option Sym → List Sym → List Sym → Bool → List Sym → Node → Prop) :
    List Node → Prop
  | [] => True
  | e :: es => AllLambdas φ e ∧ AllLambdasList φ es
end

mutual
/-- The node is built without `LAMBDA`, and each of its reference and skeleton
leaves satisfies `P`: the shape of what `analyze` returns. -/
def Shape (P : Node → Prop) : Node → Prop
  | .GREF s => P (.GREF s)
  | .LREF s => P (.LREF s)
  | .CREF d s => P (.CREF d s)
  | .SETBANG var val => Shape P var ∧ Shape P val
  | .LAMBDA _ _ _ _ _ _ => False
  | .IF c t e => Shape P c ∧ Shape P t ∧ Shape P e
  | .BEGIN es => ShapeList P es
  | .QUOTE _ => True
  | .CALL es => ShapeList P es
  | .TAILCALL es => ShapeList P es
  | .CALL_WITH_VALUES p c => Shape P p ∧ Shape P c
  | .TAILCALL_WITH_VALUES p c => Shape P p ∧ Shape P c
  | .RETURN es => ShapeList P es
  | .op1 _ a => Shape P a
  | .op2 _ a b => Shape P a ∧ Shape P b
  | .skel c => P (.skel c)
/-- The predicate `Shape` along a list. -/
def ShapeList (P : Node → Prop) : List Node → Prop
  | [] => True
  | e :: es => Shape P e ∧ ShapeList P es
end

/-- What `analyze_node` returns in tail position either fails the tag test of
`analyze` or is in tail normal form. -/
def TailOrWrapped (n : Node) (σ : astore) : Prop :=
  passes_through σ.heap n = true → TailNorm n = true

/-- The head symbol of a form reaches the `rDIV` case of `analyze_node`. -/
def reaches_div (state : analyze_state) (sym : Sym) : Prop :=
  form_of state sym = .DIV

/-- What the proofs about tail normal form need of the function passed for
`analyze`. -/
structure TailCallback (state : analyze_state) (ana : Val → Bool → AM Node) : Prop where
  tail : ∀ obj σ n σ', ana obj true σ = .ok (n, σ') → TailNorm n = true
  div : ∀ sym c x σ n σ', reaches_div state sym →
    ana (pic_list [.sym sym, c, x]) false σ = .ok (n, σ') → ∃ a b, n = .op2 .DIV a b

/-- Proof rules for a property of the analysis: an invariant `I` of the store, a
relation `T` between the store before and after a step, and a property `L` of the
leaves of the node returned, kept by `T`; the three steps that touch the store
(`analyze_var`, `define_var`, `analyze_defer`) establish them. -/
structure AnaRules (state : analyze_state) (I : astore → Prop)
    (T : astore → astore → Prop) (L : astore → Node → Prop) : Prop where
  refl : ∀ σ, T σ σ
  trans : ∀ σ1 σ2 σ3, T σ1 σ2 → T σ2 σ3 → T σ1 σ3
  mono : ∀ σ σ' n, T σ σ' → L σ n → L σ' n
  var : ∀ s σ n σ', I σ → analyze_var s σ = .ok (n, σ') → I σ' ∧ T σ σ' ∧ Shape (L σ') n
  define : ∀ s σ σ', I σ → define_var s σ = .ok ((), σ') → I σ' ∧ T σ σ'
  defer : ∀ nm f b σ n σ', I σ → analyze_defer state nm f b σ = .ok (n, σ') →
    I σ' ∧ T σ σ' ∧ Shape (L σ') n

/-- An analyzer step keeps `I`, relates the stores by `T` and returns a node of
the shape `L`. -/
def Sound (I : astore → Prop) (T : astore → astore → Prop) (L : astore → Node → Prop)
    (m : AM Node) : Prop :=
  ∀ σ n σ', I σ → m σ = .ok (n, σ') → I σ' ∧ T σ σ' ∧ Shape (L σ') n

/-- The property `Sound` for a step that returns a list of nodes. -/
def SoundList (I : astore → Prop) (T : astore → astore → Prop)
    (L : astore → Node → Prop) (m : AM (List Node)) : Prop :=
  ∀ σ ns σ', I σ → m σ = .ok (ns, σ') → I σ' ∧ T σ σ' ∧ ShapeList (L σ') ns

/-- A scope after further analysis: same `depth`, `varg` and `args`, and
`locals` and `captures` extended at the end. -/
def scope_grows (a b : analyze_scope) : Prop :=
  b.depth = a.depth ∧ b.varg = a.varg ∧ b.args = a.args ∧ a.locals <+: b.locals ∧
    a.captures <+: b.captures

/-- A scope stack after further analysis, scope by scope. -/
def stack_grows (stk stk' : List analyze_scope) : Prop :=
  List.Forall₂ scope_grows stk stk'

/-- A scope after further analysis whose `defer` list is as before. -/
def scope_grows_keep (a b : analyze_scope) : Prop :=
  scope_grows a b ∧ b.defer = a.defer

/-- The `depth` field of each scope is the number of scopes below it. -/
def stack_wf : List analyze_scope → Prop
  | [] => True
  | sc :: up => sc.depth = (up.length : Int) ∧ stack_wf up

/-- The skeleton cells queued on a scope, newest first. -/
def defer_ids (sc : analyze_scope) : List Nat :=
  sc.defer.map (·.dst)

/-- The effect of `analyze` on the store: `k` fresh skeleton cells are appended to
the heap and queued on the current scope, the current scope grows, and the scopes
below grow and keep their `defer` lists. -/
def ana_frame (state : analyze_state) (σ σ' : astore) : Prop :=
  ∃ k, σ'.heap = σ.heap ++ List.replicate k (.GREF state.pic.sNOWHERE) ∧
    match σ.scope, σ'.scope with
    | [], [] => k = 0
    | sc :: up, sc' :: up' =>
      scope_grows sc sc' ∧ List.Forall₂ scope_grows_keep up up' ∧
        defer_ids sc' = (List.range' σ.heap.length k).reverse ++ defer_ids sc
    | _, _ => False

/-- The invariant of the analysis: well-formed depths and a property `J` of every
scope on the stack. -/
def deep_inv (J : analyze_scope → Prop) (σ : astore) : Prop :=
  stack_wf σ.scope ∧ ∀ sc ∈ σ.scope, J sc

/-- The property of the leaves of an analyzed node: a skeleton is queued on the
current scope, a reference satisfies `Q` on the scope stack. -/
def deep_leaf (Q : List analyze_scope → Node → Prop) (σ : astore) : Node → Prop
  | .skel c => ∃ sc up, σ.scope = sc :: up ∧ c ∈ defer_ids sc
  | n => Q σ.scope n

/-- What a property `J` of scopes and a property `Q` of references need to hold
throughout an analysis. -/
structure DeepRules (J : analyze_scope → Prop) (Q : List analyze_scope → Node → Prop) :
    Prop where
  capture : ∀ sc s, J sc → lookup_scope sc s = true → J (capture_var sc s)
  define : ∀ sc s, J sc → lookup_scope sc s = false →
    J { sc with locals := sc.locals ++ [s] }
  defer : ∀ sc d, J sc → J { sc with defer := d }
  push : ∀ formals varg args locals depth,
    analyze_args formals [] = some (varg, args, locals) →
    J { depth := depth, varg := varg, args := args, locals := locals, captures := [],
        defer := [] }
  mono : ∀ stk stk' n, stack_grows stk stk' → Q stk n → Q stk' n
  var : ∀ s σ n σ', deep_inv J σ → analyze_var s σ = .ok (n, σ') → Q σ'.scope n

/-- The scope record of a `LAMBDA` node below the scopes `ctx`. -/
def lambda_scope (ctx : List analyze_scope) (args locals : List Sym) (varg : Bool)
    (captures : List Sym) : analyze_scope :=
  { depth := depth_above ctx, varg := varg, args := args, locals := locals,
    captures := captures, defer := [] }

mutual
/-- A tree without skeletons in which every reference satisfies `Q` on the scopes
of the `LAMBDA` nodes around it (innermost first, then `ctx`), and in which the
scope record of every `LAMBDA` node satisfies `J` and its body is in tail normal
form. -/
def Deep (J : analyze_scope → Prop) (Q : List analyze_scope → Node → Prop) :
    List analyze_scope → Node → Prop
  | ctx, .GREF s => Q ctx (.GREF s)
  | ctx, .LREF s => Q ctx (.LREF s)
  | ctx, .CREF d s => Q ctx (.CREF d s)
  | ctx, .SETBANG var val => Deep J Q ctx var ∧ Deep J Q ctx val
  | ctx, .LAMBDA _ args locals varg captures body =>
    J (lambda_scope ctx args locals varg captures) ∧ TailNorm body = true ∧
      Deep J Q (lambda_scope ctx args locals varg captures :: ctx) body
  | ctx, .IF c t e => Deep J Q ctx c ∧ Deep J Q ctx t ∧ Deep J Q ctx e
  | ctx, .BEGIN es => DeepList J Q ctx es
  | _, .QUOTE _ => True
  | ctx, .CALL es => DeepList J Q ctx es
  | ctx, .TAILCALL es => DeepList J Q ctx es
  | ctx, .CALL_WITH_VALUES p c => Deep J Q ctx p ∧ Deep J Q ctx c
  | ctx, .TAILCALL_WITH_VALUES p c => Deep J Q ctx p ∧ Deep J Q ctx c
  | ctx, .RETURN es => DeepList J Q ctx es
  | ctx, .op1 _ a => Deep J Q ctx a
  | ctx, .op2 _ a b => Deep J Q ctx a ∧ Deep J Q ctx b
  | _, .skel _ => False
/-- The predicate `Deep` along a list. -/
def DeepList (J : analyze_scope → Prop) (Q : List analyze_scope → Node → Prop) :
    List analyze_scope → List Node → Prop
  | _, [] => True
  | ctx, e :: es => Deep J Q ctx e ∧ DeepList J Q ctx es
end

/-- The content of cell `c` read `depth` levels deep. -/
def deref (heap : List Node) (depth : Nat) (c : Nat) : Node :=
  match heap[c]? with
  | some n => resolve heap depth n
  | none => .skel c

/-- Two heaps with the same cells from `lo` up to `hi`. -/
def agree_on (h h' : List Node) (lo hi : Nat) : Prop :=
  ∀ i, lo ≤ i → i < hi → h'[i]? = h[i]?

/-- What `analyze_procedure` guarantees: the scope stack is as before up to
growth, the cells that existed are untouched, and the `LAMBDA` node returned,
read through any heap that has the cells allocated meanwhile, is a deep tree on
any later stack. -/
def ProcSpec (J : analyze_scope → Prop) (Q : List analyze_scope → Node → Prop)
    (proc : Option Sym → Val → Val → AM Node) : Prop :=
  ∀ nm formals body σ L σ', deep_inv J σ → proc nm formals body σ = .ok (L, σ') →
    deep_inv J σ' ∧ List.Forall₂ scope_grows_keep σ.scope σ'.scope ∧
    σ.heap.length ≤ σ'.heap.length ∧ agree_on σ.heap σ'.heap 0 σ.heap.length ∧
    ∀ h'' stk'' d, agree_on σ'.heap h'' σ.heap.length σ'.heap.length →
      stack_grows σ'.scope stk'' → σ'.heap.length - σ.heap.length ≤ d →
      Deep J Q stk'' (resolve h'' (d + 1) L)

/-- What flushing the `defer` list of the current scope guarantees: the list is
empty afterwards, only the queued cells among the old ones have changed, and
each queued cell, read through any heap that has it and the cells allocated
meanwhile, is a deep tree on any later stack. -/
def FlushSpec (J : analyze_scope → Prop) (Q : List analyze_scope → Node → Prop)
    (flush : AM Unit) : Prop :=
  ∀ σ σ' sc up, deep_inv J σ → σ.scope = sc :: up → (defer_ids sc).Nodup →
    (∀ c ∈ defer_ids sc, c < σ.heap.length) → flush σ = .ok ((), σ') →
    deep_inv J σ' ∧
    (∃ sc' up', σ'.scope = sc' :: up' ∧ scope_grows sc sc' ∧ sc'.defer = [] ∧
      List.Forall₂ scope_grows_keep up up') ∧
    σ.heap.length ≤ σ'.heap.length ∧
    (∀ i, i < σ.heap.length → i ∉ defer_ids sc → σ'.heap[i]? = σ.heap[i]?) ∧
    ∀ c ∈ defer_ids sc, ∀ h'' stk'' d, h''[c]? = σ'.heap[c]? →
      agree_on σ'.heap h'' σ.heap.length σ'.heap.length → stack_grows σ'.scope stk'' →
      σ'.heap.length - σ.heap.length < d → Deep J Q stk'' (deref h'' d c)

/-- What a property `J` of single scopes needs to hold of every scope on the
stack throughout an analysis. -/
structure ScopeRules (J : analyze_scope → Prop) : Prop where
  capture : ∀ sc s, J sc → lookup_scope sc s = true → J (capture_var sc s)
  define : ∀ sc s, J sc → lookup_scope sc s = false →
    J { sc with locals := sc.locals ++ [s] }
  defer : ∀ sc d, J sc → J { sc with defer := d }
  push : ∀ formals varg args locals depth,
    analyze_args formals [] = some (varg, args, locals) →
    J { depth := depth, varg := varg, args := args, locals := locals, captures := [],
        defer := [] }

/-- Every scope on the stack satisfies `J`. -/
def all_scopes (J : analyze_scope → Prop) (σ : astore) : Prop :=
  ∀ sc ∈ σ.scope, J sc

/-- Scope closure of one scope: every captured symbol is an argument or a
local. -/
def captures_bound (sc : analyze_scope) : Prop :=
  ∀ c ∈ sc.captures, c ∈ sc.args ∨ c ∈ sc.locals

/-- The captures list of one scope has no symbol twice. -/
def captures_nodup (sc : analyze_scope) : Prop :=
  sc.captures.Nodup

/-- A sequence of `find_var` calls on a scope stack. -/
def find_vars : List Sym → List analyze_scope → List analyze_scope
  | [], stk => stk
  | s :: rest, stk => find_vars rest (find_var s stk).2

/-- Depth correctness of a reference on a scope stack: a `CREF d sym` has
`d ≥ 1`, and `d` scopes outward there is a scope other than the outermost one
whose captures contain `sym`. -/
def cref_ok (stk : List analyze_scope) : Node → Prop
  | .CREF d s => 1 ≤ d ∧ d.toNat + 1 < stk.length ∧
      ∃ sc, stk[d.toNat]? = some sc ∧ s ∈ sc.captures
  | _ => True

mutual
/-- Depth correctness of a tree at code generation: `caps` lists the captures of
the codegen contexts, innermost first, the root context last; a `LAMBDA` node
pushes its own captures, and every `(CREF d sym)` finds `sym` in the captures `d`
contexts up, which is not the root context. -/
def crefs_found : List (List Sym) → Node → Bool
  | _, .GREF _ => true
  | _, .LREF _ => true
  | caps, .CREF d s => decide (1 ≤ d) && decide (d.toNat + 1 < caps.length) &&
      (match caps[d.toNat]? with
       | some c => c.contains s
       | none => false)
  | caps, .SETBANG var val => crefs_found caps var && crefs_found caps val
  | caps, .LAMBDA _ _ _ _ captures body => crefs_found (captures :: caps) body
  | caps, .IF c t e => crefs_found caps c && crefs_found caps t && crefs_found caps e
  | caps, .BEGIN es => crefs_found_list caps es
  | _, .QUOTE _ => true
  | caps, .CALL es => crefs_found_list caps es
  | caps, .TAILCALL es => crefs_found_list caps es
  | caps, .CALL_WITH_VALUES p c => crefs_found caps p && crefs_found caps c
  | caps, .TAILCALL_WITH_VALUES p c => crefs_found caps p && crefs_found caps c
  | caps, .RETURN es => crefs_found_list caps es
  | caps, .op1 _ a => crefs_found caps a
  | caps, .op2 _ a b => crefs_found caps a && crefs_found caps b
  | _, .skel _ => false
/-- The test `crefs_found` along a list. -/
def crefs_found_list : List (List Sym) → List Node → Bool
  | _, [] => true
  | caps, e :: es => crefs_found caps e && crefs_found_list caps es
end

/-- A sequence of `define_var` calls on the current scope. -/
def define_vars : List Sym → AM Unit
  | [], σ => .ok ((), σ)
  | s :: rest, σ =>
    match define_var s σ with
    | .error err => .error err
    | .ok (_, σ) => define_vars rest σ

/-- The symbols of a formals list in order, the rest parameter last. -/
def formal_syms : Val → List Sym
  | .pair (.sym s) v => s :: formal_syms v
  | .sym s => [s]
  | _ => []

/-- The form `((lambda (x) (lambda (y) x)) 1)` with `x = 100`, `y = 101`. -/
def capture_example : Val :=
  pic_list [pic_list [.sym 2, pic_list [.sym 100],
              pic_list [.sym 2, pic_list [.sym 101], .sym 100]], .int 1]

/-- The form `(lambda (z) (lambda () (> (define z 1) z)))` with `z = 100`. -/
def gt_example : Val :=
  pic_list [.sym 2, pic_list [.sym 100],
    pic_list [.sym 2, pic_list [],
      pic_list [.sym 23, pic_list [.sym 1, .sym 100, .int 1], .sym 100]]]

/-- The form `(lambda (z) (lambda () (< z (define z 1))))` with `z = 100`. -/
def lt_example : Val :=
  pic_list [.sym 2, pic_list [.sym 100],
    pic_list [.sym 2, pic_list [],
      pic_list [.sym 21, .sym 100, pic_list [.sym 1, .sym 100, .int 1]]]]

/-- The code of the innermost lambda of `gt_example` / `lt_example` in a compiled
IRep: child 0 of child 0 of the root. -/
def inner_code (r : Except Err pic_irep) : List pic_code :=
  match r with
  | .ok root =>
    match root.irep[0]? with
    | some (some outer) => outer.child_code 0
    | _ => []
  | .error _ => []

/-- The opcodes of a code sequence, without the operands. -/
def opcodes (code : List pic_code) : List pic_opcode :=
  code.map (·.insn)

/-- The fields of a context that `push_codegen_context` fixes. -/
def cxt_header (c : codegen_context) : Sym × Bool × List Sym × List Sym × List Sym :=
  (c.name, c.varg, c.args, c.locals, c.captures)

/-- Two codegen states with the same enclosing contexts and the same header of
the current context. -/
def same_frame (st st' : codegen_state) : Prop :=
  st'.tail = st.tail ∧ st'.head?.map cxt_header = st.head?.map cxt_header

/-! ## Specification predicates of the later properties -/

/-- The number of scopes walked outward from the current scope to the nearest
scope whose `args` or `locals` contain `sym`, if there is one. -/
def nearest_binding (sym : Sym) : List analyze_scope → Option Nat
  | [] => none
  | sc :: up =>
    if sym ∈ sc.args ++ sc.locals then some 0
    else (nearest_binding sym up).map (· + 1)

/-- The classification of a reference to `sym` on a scope stack as the
specification words it: unbound when no scope binds it, global when the nearest
binding scope is the outermost one, local at distance 0, free otherwise. -/
def classify (sym : Sym) (stk : List analyze_scope) : Except Err Node :=
  match nearest_binding sym stk with
  | none => .error (.unbound_variable sym)
  | some d =>
    if d + 1 = stk.length then .ok (.GREF sym)
    else if d = 0 then .ok (.LREF sym)
    else .ok (.CREF (d : Int) sym)

/-- The head symbols `analyze_node` compares with, in the order of its chain of
comparisons, each with the case it selects. -/
def form_table (state : analyze_state) : List (Sym × form_kind) :=
  [(state.pic.rDEFINE, .DEFINE), (state.pic.rLAMBDA, .LAMBDA), (state.pic.rIF, .IF),
   (state.pic.rBEGIN, .BEGIN), (state.pic.rSETBANG, .SETBANG), (state.pic.rQUOTE, .QUOTE),
   (state.rCONS, .CONS), (state.rCAR, .CAR), (state.rCDR, .CDR), (state.rNILP, .NILP),
   (state.rSYMBOLP, .SYMBOLP), (state.rPAIRP, .PAIRP), (state.rADD, .ADD),
   (state.rSUB, .SUB), (state.rMUL, .MUL), (state.rDIV, .DIV), (state.rEQ, .EQ),
   (state.rLT, .LT), (state.rLE, .LE), (state.rGT, .GT), (state.rGE, .GE),
   (state.rNOT, .NOT), (state.rVALUES, .VALUES),
   (state.rCALL_WITH_VALUES, .CALL_WITH_VALUES)]

/-- The special-form symbols and the renamed primitive symbols of a state. -/
def special_symbols (state : analyze_state) : List Sym :=
  (form_table state).map Prod.fst

/-- The case of the first entry of a table whose symbol is `sym`. -/
def first_match (sym : Sym) : List (Sym × form_kind) → form_kind
  | [] => .other
  | (x, k) :: rest => if sym = x then k else first_match sym rest

/-- The operands of a form analyzed one after the other in source order, each in
non-tail position. -/
def operands_in_order (ana : Val → Bool → AM Node) : List Val → AM (List Node)
  | [], σ => .ok ([], σ)
  | e :: es, σ =>
    match ana e false σ with
    | .error err => .error err
    | .ok (n, σ) =>
      match operands_in_order ana es σ with
      | .error err => .error err
      | .ok (ns, σ) => .ok (n :: ns, σ)

/-- The left-nested node `(op (... (op (op acc n1) n2) ...) nk)`. -/
def left_nested (op : Tag2) : Node → List Node → Node
  | acc, [] => acc
  | acc, n :: ns => left_nested op (.op2 op acc n) ns

/-- The left fold of an arithmetic form as the specification words it: analyze
the operands in source order, then nest the results to the left. -/
def arith_fold (ana : Val → Bool → AM Node) (op : Tag2) (es : List Val) : AM Node :=
  fun σ =>
  match operands_in_order ana es σ with
  | .error err => .error err
  | .ok ([], _) => .error .pair_required
  | .ok (n :: ns, σ) => .ok (left_nested op n ns, σ)

/-- The symbol table `new_analyze_state` builds for `base_pic`. -/
def base_state : analyze_state :=
  { pic := base_pic, rCONS := 10, rCAR := 11, rCDR := 12, rNILP := 13, rSYMBOLP := 14,
    rPAIRP := 15, rADD := 16, rSUB := 17, rMUL := 18, rDIV := 19, rEQ := 20, rLT := 21,
    rLE := 22, rGT := 23, rGE := 24, rNOT := 25, rVALUES := 26, rCALL_WITH_VALUES := 27 }

/-- The store `new_analyze_state` builds for `base_pic`. -/
def base_store : astore :=
  { scope := [root_scope base_pic], heap := [] }

/-- The state `base_pic` with one more global, the symbol 28 standing for
`list`. -/
def list_pic : pic_state := { base_pic with globals := base_pic.globals ++ [28] }

/-- The form `(define x 7)` with `x = 100`. -/
def define_example : Val := pic_list [.sym 1, .sym 100, .int 7]

/-- The form `(+ 1 2 3)`. -/
def add_example : Val := pic_list [.sym 16, .int 1, .int 2, .int 3]

/-- The form `(- 5)`. -/
def minus_example : Val := pic_list [.sym 17, .int 5]

/-- The form `((lambda (cons) (cons 1 2)) list)` after renaming: the parameter is
the symbol 100, not the renamed primitive `cons` (symbol 10). -/
def shadow_example : Val :=
  pic_list [pic_list [.sym 2, pic_list [.sym 100], pic_list [.sym 100, .int 1, .int 2]],
    .sym 28]

/-- The form `(if #t 1 2)`. -/
def if_example : Val := pic_list [.sym 3, .bool true, .int 1, .int 2]

/-- The form `(call-with-values (lambda () (values 1 2)) +)`. -/
def values_example : Val :=
  pic_list [.sym 27, pic_list [.sym 2, pic_list [], pic_list [.sym 26, .int 1, .int 2]],
    .sym 16]

/-- The form `(lambda () (define f (lambda () (g))) (define g (lambda () (f))) (f))`
with `f = 100`, `g = 101`. -/
def forward_example : Val :=
  pic_list [.sym 2, pic_list [],
    pic_list [.sym 1, .sym 100, pic_list [.sym 2, pic_list [], pic_list [.sym 101]]],
    pic_list [.sym 1, .sym 101, pic_list [.sym 2, pic_list [], pic_list [.sym 100]]],
    pic_list [.sym 100]]

/-- A store with three scopes: the root scope with the global 10, a scope with
the argument 100 and the current scope with the argument 101. -/
def scopes_example : astore :=
  { scope := [{ depth := 2, varg := false, args := [101], locals := [], captures := [],
                defer := [] },
              { depth := 1, varg := false, args := [100], locals := [], captures := [],
                defer := [] },
              { depth := 0, varg := false, args := [], locals := [10], captures := [],
                defer := [] }],
    heap := [] }

/-- A store whose only scope binds the symbol 100. -/
def param_store : astore :=
  { scope := [{ depth := 0, varg := false, args := [100], locals := [], captures := [],
                defer := [] }],
    heap := [] }

/-- The codegen state `new_codegen_state` builds for `base_pic`: the root
context, with no instruction yet. -/
def base_codegen_state : codegen_state :=
  [{ name := 7, varg := false, args := [], locals := [], captures := [], code := [],
     irep := [], pool := [], syms := [] }]

mutual
/-- All instructions of an IRep and of its children, at any depth. -/
def pic_irep.all_code : pic_irep → List pic_code
  | .mk _ _ _ _ _ code irep _ _ => code ++ all_code_list irep
/-- The instructions of a list of child slots. -/
def all_code_list : List (Option pic_irep) → List pic_code
  | [] => []
  | none :: rs => all_code_list rs
  | some r :: rs => r.all_code ++ all_code_list rs
end

/-- The function `codegen_lambda`, which the `LAMBDA` case of `codegen` has
inline: the IRep of a `LAMBDA` node and the stack after `pop_codegen_context`. -/
def codegen_lambda (pic : pic_state) (name : Option Sym) (args locals : List Sym)
    (varg : Bool) (captures : List Sym) (body : Node) (st : codegen_state) :
    Except Err (pic_irep × codegen_state) :=
  match push_codegen_context pic name args locals varg captures st with
  | .error err => .error err
  | .ok st =>
    match codegen pic body st with
    | .error err => .error err
    | .ok st => pop_codegen_context st

/-- The code of the current context. -/
def cur_code : codegen_state → List pic_code
  | [] => []
  | cxt :: _ => cxt.code

/-- The child slots of the current context. -/
def cur_irep : codegen_state → List (Option pic_irep)
  | [] => []
  | cxt :: _ => cxt.irep

/-- The operands of the `OP_LAMBDA` instructions of a code sequence, in program
order. -/
def lambda_operands : List pic_code → List operand
  | [] => []
  | c :: cs => if c.insn = .OP_LAMBDA then c.u :: lambda_operands cs else lambda_operands cs

/-- The operands `k0`, `k0 + 1`, ..., `k0 + n - 1`. -/
def slot_operands (k0 n : Nat) : List operand :=
  (List.range' k0 n).map fun (k : Nat) => operand.i (k : Int)

mutual
/-- Child indexing of an IRep: its `OP_LAMBDA` instructions carry, in program
order, the operands 0 to `ilen - 1`, every child slot is written, and the
children are indexed in the same way. -/
def irep_indexed : pic_irep → Prop
  | .mk _ _ _ _ _ code irep _ _ =>
    lambda_operands code = slot_operands 0 irep.length ∧ children_indexed irep
/-- Every slot of the list is written and holds an indexed IRep. -/
def children_indexed : List (Option pic_irep) → Prop
  | [] => True
  | none :: _ => False
  | some r :: rs => irep_indexed r ∧ children_indexed rs
end

/-- What a step of code generation does to the current context: the enclosing
contexts are untouched, the instructions `cs` are appended to the code and the
IReps `rs` to the child slots, the `OP_LAMBDA` instructions among `cs` carry the
indices of the new slots in order, and the new children are indexed. -/
def grows (st st' : codegen_state) (cs : List pic_code) (rs : List pic_irep) : Prop :=
  st ≠ [] ∧ st' ≠ [] ∧ st'.tail = st.tail ∧
  cur_code st' = cur_code st ++ cs ∧ cur_irep st' = cur_irep st ++ rs.map some ∧
  lambda_operands cs = slot_operands (cur_irep st).length rs.length ∧
  ∀ r ∈ rs, irep_indexed r

/-- The node `n` was computed by `analyze_procedure` for a lambda form queued
with the skeleton cell `c`: a record of the `defer` list of the scope that was
current, whose `dst` is `c`. -/
def materialized (state : analyze_state) (c : Nat) (n : Node) : Prop :=
  ∃ (fuel : Nat) (d : deferred) (σa σb : astore) (sc : analyze_scope)
    (up : List analyze_scope),
    σa.scope = sc :: up ∧ d ∈ sc.defer ∧ d.dst = c ∧
    analyze_procedure state (analyze state fuel) (analyze_deferred state fuel)
      d.name d.formal d.body σa = .ok (n, σb)

/-- The state of the skeleton cells during an analysis: every queued cell exists,
and every cell either holds the node computed for its lambda form or is still
queued on a scope of the stack. -/
def cells_inv (state : analyze_state) (σ : astore) : Prop :=
  (∀ sc ∈ σ.scope, ∀ c ∈ defer_ids sc, c < σ.heap.length) ∧
  ∀ c n, σ.heap[c]? = some n →
    materialized state c n ∨ ∃ sc ∈ σ.scope, c ∈ defer_ids sc

mutual
/-- No skeleton is left in the tree, at any depth. -/
def no_skel : Node → Bool
  | .GREF _ => true
  | .LREF _ => true
  | .CREF _ _ => true
  | .SETBANG var val => no_skel var && no_skel val
  | .LAMBDA _ _ _ _ _ body => no_skel body
  | .IF c t e => no_skel c && no_skel t && no_skel e
  | .BEGIN es => no_skel_list es
  | .QUOTE _ => true
  | .CALL es => no_skel_list es
  | .TAILCALL es => no_skel_list es
  | .CALL_WITH_VALUES p c => no_skel p && no_skel c
  | .TAILCALL_WITH_VALUES p c => no_skel p && no_skel c
  | .RETURN es => no_skel_list es
  | .op1 _ a => no_skel a
  | .op2 _ a b => no_skel a && no_skel b
  | .skel _ => false
/-- The test `no_skel` along a list. -/
def no_skel_list : List Node → Bool
  | [] => true
  | e :: es => no_skel e && no_skel_list es
end

/-- Every symbol a scope of the first stack binds is bound by the scope at the
same position of the second. -/
def keeps_bindings (stk stk' : List analyze_scope) : Prop :=
  List.Forall₂ (fun a b => ∀ x, lookup_scope a x = true → lookup_scope b x = true) stk stk'

/-- The stores in which the loop of `analyze_deferred` calls
`analyze_procedure`, one for each queued record it reaches. -/
def deferred_stores (proc : Option Sym → Val → Val → AM Node) :
    List deferred → astore → List astore
  | [], _ => []
  | d :: ds, σ =>
    σ :: match proc d.name d.formal d.body σ with
      | .error _ => []
      | .ok (val, σ1) => deferred_stores proc ds { σ1 with heap := σ1.heap.set d.dst val }

/-! ## Specification predicates of the properties of single steps -/

/-- The list with the given elements that ends in `tail` instead of the empty
list: a formals list `(a b . r)` is `improper_list [a, b] r`. -/
def improper_list : List Val → Val → Val
  | [], tail => tail
  | a :: as, tail => .pair a (improper_list as tail)

/-- The form `(lambda (1) 1)`, whose formals are not symbols. -/
def bad_formals_example : Val := pic_list [.sym 2, pic_list [.int 1], .int 1]

/-- The form `(< 1 2 3)`. -/
def lt3_example : Val := pic_list [.sym 21, .int 1, .int 2, .int 3]

/-- The form `(car 1 2)`. -/
def car2_example : Val := pic_list [.sym 11, .int 1, .int 2]

/-- The form `(values 1 2)`. -/
def values12_example : Val := pic_list [.sym 26, .int 1, .int 2]

/-- The form `(not (values 1 2))`. -/
def not_values_example : Val := pic_list [.sym 25, pic_list [.sym 26, .int 1, .int 2]]

/-- The form `(quote 42)`. -/
def quote_example : Val := pic_list [.sym 6, .int 42]

/-- The code segments `cs` are what compiling the nodes one after the other
appends to the current context, from the state `st` to the state `st'`. -/
def in_order (pic : pic_state) :
    List Node → codegen_state → List (List pic_code) → codegen_state → Prop
  | [], st, cs, st' => cs = [] ∧ st' = st
  | e :: es, st, cs, st' =>
    ∃ c cs' s1, cs = c :: cs' ∧ codegen pic e st = .ok s1 ∧
      cur_code s1 = cur_code st ++ c ∧ in_order pic es s1 cs' st'

/-- The context with one more instruction at the end of its code. -/
def with_insn (cxt : codegen_context) (c : pic_code) : codegen_context :=
  { cxt with code := cxt.code ++ [c] }

/-- The context with the instructions `cs` appended to its code. -/
def with_code (cxt : codegen_context) (cs : List pic_code) : codegen_context :=
  { cxt with code := cxt.code ++ cs }

/-- The context with the datum `d` appended to its pool and the `PUSHCONST` of
its index appended to its code. -/
def with_const (cxt : codegen_context) (d : Val) : codegen_context :=
  { cxt with pool := cxt.pool ++ [d],
             code := cxt.code ++ [⟨.OP_PUSHCONST, .i (cxt.pool.length : Int)⟩] }

/-- A datum the `QUOTE` case of `codegen` inlines: a boolean, an integer, the
empty list or a character. -/
def inlined : Val → Bool
  | .bool _ => true
  | .int _ => true
  | .nil => true
  | .char _ => true
  | _ => false

/-- The instruction of the activation prelude for a captured variable whose slot
is `n`, in a context with `nargs` arguments, as the specification words it:
`LREF n` for an argument slot or the rest-argument slot, `PUSHNONE`
otherwise. -/
def prelude_insn (nargs : Nat) (varg : Bool) (n : Nat) : pic_code :=
  if n ≤ nargs ∨ (varg = true ∧ n = nargs + 1) then ⟨.OP_LREF, .i (n : Int)⟩
  else ⟨OP_PUSHNONE, .none⟩

/-- The slot of a variable as the specification words it: its 1-based position
in `args ++ locals`. -/
def slot_of (args locals : List Sym) (s : Sym) : Nat :=
  (args ++ locals).indexOf s + 1

/-- The symbol a formals list ends in, if it is improper: the rest
parameter. -/
def rest_parameter : Val → Option Sym
  | .pair _ v => rest_parameter v
  | .sym s => some s
  | _ => none

/-- The context `push_codegen_context` starts from, before the activation
prelude is emitted. -/
def fresh_context (pic : pic_state) (name : Option Sym) (args locals : List Sym)
    (varg : Bool) (captures : List Sym) : codegen_context :=
  { name := match name with
      | none => pic.sANONYMOUS
      | some s => s,
    varg := varg, args := args, locals := locals, captures := captures,
    code := [], irep := [], pool := [], syms := [] }

/-- The form `((lambda (x . r) (lambda () r)) 1)` with `x = 100`, `r = 101`:
the inner lambda captures the rest parameter of the outer one. -/
def rest_example : Val :=
  pic_list [pic_list [.sym 2, .pair (.sym 100) (.sym 101),
              pic_list [.sym 2, pic_list [], .sym 101]], .int 1]

/-- The place of the rest parameter in one scope: with `varg` there is a local,
and without `varg` no local is an argument. -/
def rest_first (sc : analyze_scope) : Prop :=
  (sc.varg = true → sc.locals ≠ []) ∧ (sc.varg = false → ∀ x ∈ sc.locals, x ∉ sc.args)

/-! ## Specification predicates of the properties of finished IReps -/

/-- The symbol table of the current context. -/
def cur_syms : codegen_state → List Sym
  | [] => []
  | cxt :: _ => cxt.syms

/-- The operand of a `GREF` or `GSET` instruction is an index into the symbol
table `syms`. -/
def gref_ok (syms : List Sym) (c : pic_code) : Prop :=
  (c.insn = .OP_GREF ∨ c.insn = .OP_GSET) → ∃ i : Nat, c.u = .i (i : Int) ∧ i < syms.length

mutual
/-- The symbol table of an IRep has no symbol twice and the operand of each of
its `GREF` and `GSET` instructions is an index into it; the same holds of its
children, at any depth. -/
def syms_ok : pic_irep → Prop
  | .mk _ _ _ _ _ code irep _ syms =>
    syms.Nodup ∧ (∀ c ∈ code, gref_ok syms c) ∧ syms_ok_list irep
/-- The property `syms_ok` of every written slot of a list of child slots. -/
def syms_ok_list : List (Option pic_irep) → Prop
  | [] => True
  | none :: rs => syms_ok_list rs
  | some r :: rs => syms_ok r ∧ syms_ok_list rs
end

/-- A step of code generation that appends the instructions `cs` and the
children `rs` to the current context, extends its symbol table at the end
without repeating a symbol, and whose `GREF` and `GSET` instructions index the
table. -/
def indexes (st st' : codegen_state) (cs : List pic_code) (rs : List pic_irep) : Prop :=
  grows st st' cs rs ∧ cur_syms st <+: cur_syms st' ∧
  ((cur_syms st).Nodup → (cur_syms st').Nodup) ∧
  (∀ c ∈ cs, gref_ok (cur_syms st') c) ∧ ∀ r ∈ rs, syms_ok r

/-- The context with the symbol `s` appended to its symbol table. -/
def with_sym (cxt : codegen_context) (s : Sym) : codegen_context :=
  { cxt with syms := cxt.syms ++ [s] }

/-- The form `(cons car (cons cdr car))`. -/
def globals_example : Val :=
  pic_list [.sym 10, .sym 11, pic_list [.sym 10, .sym 12, .sym 11]]

/-! ## Specification predicates of the acceptance of analyzed trees -/

/-- The operand of an instruction that addresses a local or a captured variable
is an index that was found: a frame position from 1 on for `OP_LREF` and
`OP_LSET`, a capture index from 0 on for `OP_CREF` and `OP_CSET`; so it is not
the not-found value `-1`. -/
def found (c : pic_code) : Bool :=
  if c.insn = .OP_LREF ∨ c.insn = .OP_LSET then
    match c.u with
    | .i n => decide (1 ≤ n)
    | _ => false
  else if c.insn = .OP_CREF ∨ c.insn = .OP_CSET then
    match c.u with
    | .r _ i => decide (0 ≤ i)
    | _ => false
  else true

/-- The node is a variable reference `GREF`, `LREF` or `CREF`. -/
def is_ref : Node → Bool
  | .GREF _ => true
  | .LREF _ => true
  | .CREF _ _ => true
  | _ => false

mutual
/-- The target of every `SETBANG` node of the tree is a variable reference; a
skeleton counts as a tree without `SETBANG`. -/
def targets_ok : Node → Bool
  | .GREF _ => true
  | .LREF _ => true
  | .CREF _ _ => true
  | .SETBANG var val => is_ref var && targets_ok val
  | .LAMBDA _ _ _ _ _ body => targets_ok body
  | .IF c t e => targets_ok c && targets_ok t && targets_ok e
  | .BEGIN es => targets_ok_list es
  | .QUOTE _ => true
  | .CALL es => targets_ok_list es
  | .TAILCALL es => targets_ok_list es
  | .CALL_WITH_VALUES p c => targets_ok p && targets_ok c
  | .TAILCALL_WITH_VALUES p c => targets_ok p && targets_ok c
  | .RETURN es => targets_ok_list es
  | .op1 _ a => targets_ok a
  | .op2 _ a b => targets_ok a && targets_ok b
  | .skel _ => true
/-- The test `targets_ok` along a list. -/
def targets_ok_list : List Node → Bool
  | [] => true
  | e :: es => targets_ok e && targets_ok_list es
end

/-- What the analyzer guarantees of a reference on a scope stack: an `LREF` is
bound by the current scope, which is not the outermost one, and a `CREF`
satisfies `cref_ok`. -/
def ref_ok (stk : List analyze_scope) : Node → Prop
  | .LREF s => ∃ sc up, stk = sc :: up ∧ up ≠ [] ∧ s ∈ sc.args ++ sc.locals
  | .CREF d s => cref_ok stk (.CREF d s)
  | _ => True

/-- A codegen context made for a scope: the same arguments, locals and
captures. -/
def made_for (sc : analyze_scope) (cx : codegen_context) : Prop :=
  cx.args = sc.args ∧ cx.locals = sc.locals ∧ cx.captures = sc.captures

/-- The context stack of the code generator matches the scopes of the `LAMBDA`
nodes around the node being compiled: as many contexts as scopes, at least one,
and each context but the root one is made for the scope at its position. -/
def fits (ctx : List analyze_scope) (st : codegen_state) : Prop :=
  ctx.length = st.length ∧ st ≠ [] ∧
  ∀ i sc cx, i + 1 < ctx.length → ctx[i]? = some sc → st[i]? = some cx → made_for sc cx

/-- Every instruction of an IRep and of its children, at any depth, satisfies
`found`. -/
def irep_found (r : pic_irep) : Prop :=
  ∀ c ∈ r.all_code, found c = true

/-- A step of code generation that appends the instructions `cs` and the
children `rs` to the current context, all of whose instructions satisfy
`found`. -/
def lands (st st' : codegen_state) (cs : List pic_code) (rs : List pic_irep) : Prop :=
  grows st st' cs rs ∧ (∀ c ∈ cs, found c = true) ∧ ∀ r ∈ rs, irep_found r

/-- The form `(lambda (x) x)` with `x = 100`. -/
def identity_example : Val :=
  pic_list [.sym 2, pic_list [.sym 100], .sym 100]

/-! ## The calls of a run -/

/-- Continue with `f` on the result of a step, with no entry when the step
fails. -/
def after {α β : Type} (r : Except Err α) (f : α → List β) : List β :=
  match r with
  | .error _ => []
  | .ok a => f a

mutual
/-- The calls of `codegen` made while `codegen` compiles the node `n` from the
state `st`: the call on `n` itself, then the recursive calls in the order in
which the case of `n` makes them, each with the state it is made in.  A call is
listed when the steps before it succeed. -/
def visits (pic : pic_state) : Node → codegen_state → List (Node × codegen_state)
  | .GREF s, st => [(.GREF s, st)]
  | .CREF depth name, st => [(.CREF depth name, st)]
  | .LREF name, st => [(.LREF name, st)]
  | .SETBANG var val, st => (.SETBANG var val, st) :: visits pic val st
  | .LAMBDA name args locals varg captures body, st =>
    (.LAMBDA name args locals varg captures body, st) ::
      after (reserve_irep st) fun p =>
        after (emit_i .OP_LAMBDA (p.1 : Int) p.2) fun s2 =>
          after (push_codegen_context pic name args locals varg captures s2) fun s3 =>
            visits pic body s3
  | .IF c t e, st =>
    (.IF c t e, st) :: (visits pic c st ++
      after (codegen pic c st) fun s1 =>
        after (clen s1) fun s =>
          after (emit_n .OP_JMPIF s1) fun s2 =>
            visits pic e s2 ++
              after (codegen pic e s2) fun s3 =>
                after (clen s3) fun _ =>
                  after (emit_n .OP_JMP s3) fun s4 =>
                    after (clen s4) fun now =>
                      after (patch_jump s ((now : Int) - (s : Int)) s4) fun s5 =>
                        visits pic t s5)
  | .BEGIN es, st => (.BEGIN es, st) :: visits_begin pic es false st
  | .QUOTE d, st => [(.QUOTE d, st)]
  | .op1 t a, st => (.op1 t a, st) :: visits pic a st
  | .op2 t a b, st =>
    (.op2 t a b, st) ::
      (if swaps t then
        visits pic b st ++ after (codegen pic b st) fun s1 => visits pic a s1
      else
        visits pic a st ++ after (codegen pic a st) fun s1 => visits pic b s1)
  | .CALL es, st => (.CALL es, st) :: visits_each pic es st
  | .TAILCALL es, st => (.TAILCALL es, st) :: visits_each pic es st
  | .CALL_WITH_VALUES p c, st =>
    (.CALL_WITH_VALUES p c, st) ::
      (visits pic c st ++ after (codegen pic c st) fun s1 => visits pic p s1)
  | .TAILCALL_WITH_VALUES p c, st =>
    (.TAILCALL_WITH_VALUES p c, st) ::
      (visits pic c st ++ after (codegen pic c st) fun s1 => visits pic p s1)
  | .RETURN es, st => (.RETURN es, st) :: visits_each pic es st
  | .skel c, st => [(.skel c, st)]
/-- The calls of `codegen` made by the loop of the `CALL`, `TAILCALL` and
`RETURN` cases. -/
def visits_each (pic : pic_state) : List Node → codegen_state → List (Node × codegen_state)
  | [], _ => []
  | e :: es, st =>
    visits pic e st ++ after (codegen pic e st) fun s1 => visits_each pic es s1
/-- The calls of `codegen` made by the loop of the `BEGIN` case. -/
def visits_begin (pic : pic_state) :
    List Node → Bool → codegen_state → List (Node × codegen_state)
  | [], _, _ => []
  | e :: es, started, st =>
    after (if started then emit_n .OP_POP st else .ok st) fun s0 =>
      visits pic e s0 ++ after (codegen pic e s0) fun s1 => visits_begin pic es true s1
end

/-- The step of code generation from `st` to `st'` added the instruction `c`:
to the code of the current context, or to a child appended to the current
context, at any depth of that child. -/
def emitted (st st' : codegen_state) (c : pic_code) : Prop :=
  ∃ cs rs, grows st st' cs rs ∧ (c ∈ cs ∨ ∃ r ∈ rs, c ∈ r.all_code)

/-- One call of `analyze_procedure` made by the loop of `analyze_deferred`: the
queued record, the store the call is made in, and the node it returns. -/
structure proc_call where
  queued : deferred
  store : astore
  node : Node

/-- The store in which `analyze_procedure` calls `analyze_deferred`: the one
after `push_scope` and the analysis of the body. -/
def body_store (state : analyze_state) (ana : Val → Bool → AM Node)
    (formals body_exprs : Val) (σ : astore) : Option astore :=
  match push_scope formals σ.scope with
  | (false, _) => none
  | (true, scopes) =>
    match scopes with
    | [] => none
    | _ :: _ =>
      match ana (.pair (.sym state.pic.rBEGIN) body_exprs) true { σ with scope := scopes } with
      | .error _ => none
      | .ok (_, σ) => some σ

/-- The calls made inside a call of `analyze_procedure`: those of the flush it
runs on the store `enter`, none when it does not get there. -/
def inner_calls (enter : Option astore) (inner : astore → List proc_call) :
    List proc_call :=
  match enter with
  | none => []
  | some σb => inner σb

/-- The calls of `analyze_procedure` made while `analyze_deferred_loop` goes
through the records `ds` from the store `σ`, in the order in which they are
made: for each record the call of the loop, then the calls made inside that
call (`inner`, on the store `enter` gives), then the calls for the records that
follow, from the store in which the node was copied over the skeleton. -/
def loop_calls (proc : Option Sym → Val → Val → AM Node)
    (enter : deferred → astore → Option astore) (inner : astore → List proc_call) :
    List deferred → astore → List proc_call
  | [], _ => []
  | d :: ds, σ =>
    match proc d.name d.formal d.body σ with
    | .error _ => []
    | .ok (val, σ1) =>
      { queued := d, store := σ, node := val } ::
        (inner_calls (enter d σ) inner ++
         loop_calls proc enter inner ds { σ1 with heap := σ1.heap.set d.dst val })

/-- The calls of `analyze_procedure` made by `analyze_deferred` on the store
`σ`, those made by the nested calls of `analyze_deferred` included. -/
def flush_calls (state : analyze_state) : Nat → astore → List proc_call
  | 0, _ => []
  | fuel + 1, σ =>
    match σ.scope with
    | [] => []
    | scope :: _ =>
      loop_calls (analyze_procedure state (analyze state fuel) (analyze_deferred state fuel))
        (fun d σ => body_store state (analyze state fuel) d.formal d.body σ)
        (flush_calls state fuel) scope.defer.reverse σ

/-- The entry is a call of `analyze_procedure` of an analysis run with `fuel`:
its record is queued on the current scope of its store, and `analyze_procedure`
on the name, formals and body of the record returns its node from that store. -/
def is_call (state : analyze_state) (fuel : Nat) (call : proc_call) : Prop :=
  (∃ sc up, call.store.scope = sc :: up ∧ call.queued ∈ sc.defer) ∧
  ∃ σ', analyze_procedure state (analyze state fuel) (analyze_deferred state fuel)
    call.queued.name call.queued.formal call.queued.body call.store = .ok (call.node, σ')

/-- The cells of the calls in a heap `h'` reached from a heap of `n` cells on
which the cells `ids` were queued: the cell of each call holds the node the call
returned and is a queued cell or a cell allocated since, and each queued cell
and each cell allocated since is the cell of a call. -/
def calls_fill (calls : List proc_call) (ids : List Nat) (n : Nat) (h' : List Node) : Prop :=
  (∀ call ∈ calls, h'[call.queued.dst]? = some call.node ∧
    (call.queued.dst ∈ ids ∨ n ≤ call.queued.dst)) ∧
  ∀ c, c ∈ ids ∨ (n ≤ c ∧ c < h'.length) → ∃ call ∈ calls, call.queued.dst = c

/-- What the list `calls` of the calls of a flush run with `fuel` guarantees:
every entry is a call of the analysis, every record queued on the current scope
has its call, and the cells of the calls are filled as `calls_fill` says. -/
def CallsSpec (state : analyze_state) (fuel : Nat) (flush : AM Unit)
    (calls : astore → List proc_call) : Prop :=
  ∀ σ σ' sc up, deep_inv (fun _ => True) σ → σ.scope = sc :: up → (defer_ids sc).Nodup →
    (∀ c ∈ defer_ids sc, c < σ.heap.length) → flush σ = .ok ((), σ') →
    (∀ call ∈ calls σ, is_call state fuel call) ∧
    (∀ d ∈ sc.defer, ∃ call ∈ calls σ, call.queued = d) ∧
    calls_fill (calls σ) (defer_ids sc) σ.heap.length σ'.heap

/-! ## Theorems -/

theorem xv_scan_eq (sym : Sym) (l : List Sym) (i : Nat) :
    xv_scan sym l i = if sym ∈ l then some (i + l.indexOf sym) else none := by
  induction l generalizing i with
  | nil => simp [xv_scan]
  | cons x xs ih =>
    by_cases hx : x = sym
    · subst hx; simp [xv_scan, List.indexOf_cons]
    · have hx' : ¬ sym = x := fun h => hx h.symm
      simp only [xv_scan, hx, if_false, ih, List.mem_cons, hx', false_or, List.indexOf_cons]
      have : (x == sym) = false := by simp [hx]
      simp only [this, cond_false, Nat.succ_eq_add_one]
      split
      · simp; omega
      · rfl

/-- C6: `index_local` of a bound symbol is one plus the position of its first
occurrence in `args ++ locals`, so it lies between 1 and `|args| + |locals|`;
for any symbol it is never 0, and it is `-1` exactly when the symbol is in
neither list. -/
theorem C6_index_local_numbering (cxt : codegen_context) (x : Sym) :
    ((x ∈ cxt.args ∨ x ∈ cxt.locals) →
      index_local cxt x = 1 + (((cxt.args ++ cxt.locals).indexOf x : Nat) : Int) ∧
      1 ≤ index_local cxt x ∧
      index_local cxt x ≤ (cxt.args.length : Int) + (cxt.locals.length : Int)) ∧
    index_local cxt x ≠ 0 ∧
    (index_local cxt x = -1 ↔ (x ∉ cxt.args ∧ x ∉ cxt.locals)) := by
  unfold index_local
  simp only [xv_scan_eq]
  by_cases ha : x ∈ cxt.args
  · have h1 := List.indexOf_lt_length.mpr ha
    simp only [ha, if_true, List.indexOf_append_of_mem ha]
    refine ⟨fun _ => ⟨by push_cast; ring, by push_cast; omega, by push_cast; omega⟩,
      by push_cast; omega, ?_⟩
    simp; omega
  · by_cases hl : x ∈ cxt.locals
    · have h1 := List.indexOf_lt_length.mpr hl
      simp only [ha, hl, if_true, if_false, List.indexOf_append_of_not_mem ha]
      refine ⟨fun _ => ⟨by push_cast; ring, by push_cast; omega, by push_cast; omega⟩,
        by push_cast; omega, ?_⟩
      simp; omega
    · simp [ha, hl]

/-- C6 at a concrete context: in args `[5, 6]`, locals `[7]` the local `7` has
slot 3. -/
theorem C6_index_local_numbering_witness :
    index_local { name := 0, varg := false, args := [5, 6], locals := [7], captures := [],
                  code := [], irep := [], pool := [], syms := [] } 7 = 3 := by
  have h := (C6_index_local_numbering
    { name := 0, varg := false, args := [5, 6], locals := [7], captures := [],
      code := [], irep := [], pool := [], syms := [] } 7).1 (by simp)
  simpa [List.indexOf_cons] using h.1

theorem same_frame_refl (st : codegen_state) : same_frame st st := ⟨rfl, rfl⟩

theorem same_frame_trans {a b c : codegen_state} (h1 : same_frame a b) (h2 : same_frame b c) :
    same_frame a c := ⟨h2.1.trans h1.1, h2.2.trans h1.2⟩

theorem emit_frame {insn u} {st st' : codegen_state} (h : emit insn u st = .ok st') :
    same_frame st st' := by
  cases st with
  | nil => simp [emit] at h
  | cons c up =>
    simp only [emit, Except.ok.injEq] at h
    subst h; exact ⟨rfl, rfl⟩

theorem emit_n_frame {insn} {st st' : codegen_state} (h : emit_n insn st = .ok st') :
    same_frame st st' := emit_frame h

theorem emit_i_frame {insn i} {st st' : codegen_state} (h : emit_i insn i st = .ok st') :
    same_frame st st' := emit_frame h

theorem emit_c_frame {insn i} {st st' : codegen_state} (h : emit_c insn i st = .ok st') :
    same_frame st st' := emit_frame h

theorem emit_r_frame {insn d i} {st st' : codegen_state} (h : emit_r insn d i st = .ok st') :
    same_frame st st' := emit_frame h

theorem index_symbol_frame {s i} {st st' : codegen_state}
    (h : index_symbol s st = .ok (i, st')) : same_frame st st' := by
  cases st with
  | nil => simp [index_symbol] at h
  | cons c up =>
    simp only [index_symbol] at h
    split at h <;> simp only [Except.ok.injEq, Prod.mk.injEq] at h <;>
      (obtain ⟨_, h⟩ := h; subst h; exact ⟨rfl, rfl⟩)

theorem patch_jump_frame {pc i} {st st' : codegen_state} (h : patch_jump pc i st = .ok st') :
    same_frame st st' := by
  cases st with
  | nil => simp [patch_jump] at h
  | cons c up =>
    simp only [patch_jump, Except.ok.injEq] at h
    subst h; exact ⟨rfl, rfl⟩

theorem reserve_irep_frame {k} {st st' : codegen_state}
    (h : reserve_irep st = .ok (k, st')) : same_frame st st' := by
  cases st with
  | nil => simp [reserve_irep] at h
  | cons c up =>
    simp only [reserve_irep, Except.ok.injEq, Prod.mk.injEq] at h
    obtain ⟨_, h⟩ := h; subst h; exact ⟨rfl, rfl⟩

theorem store_irep_frame {k r} {st st' : codegen_state} (h : store_irep k r st = .ok st') :
    same_frame st st' := by
  cases st with
  | nil => simp [store_irep] at h
  | cons c up =>
    simp only [store_irep, Except.ok.injEq] at h
    subst h; exact ⟨rfl, rfl⟩

theorem codegen_quote_frame {d} {st st' : codegen_state} (h : codegen_quote d st = .ok st') :
    same_frame st st' := by
  unfold codegen_quote at h
  split at h
  · exact emit_n_frame h
  · exact emit_i_frame h
  · exact emit_n_frame h
  · exact emit_c_frame h
  · split at h
    · cases h
    · exact ⟨(emit_i_frame h).1, (emit_i_frame h).2⟩

theorem bind_emit_frame {f g : codegen_state → Except Err codegen_state}
    (hf : ∀ st st', f st = .ok st' → same_frame st st')
    (hg : ∀ st st', g st = .ok st' → same_frame st st')
    {st st' : codegen_state} (h : (f st).bind g = .ok st') : same_frame st st' := by
  cases hfs : f st with
  | error e => simp [hfs, Except.bind] at h
  | ok s1 =>
    simp only [hfs, Except.bind] at h
    exact same_frame_trans (hf _ _ hfs) (hg _ _ h)

theorem codegen_set_frame {var} {st st' : codegen_state} (h : codegen_set var st = .ok st') :
    same_frame st st' := by
  unfold codegen_set at h
  split at h
  · split at h
    · cases h
    · rename_i i s1 hs
      exact same_frame_trans (index_symbol_frame hs)
        (bind_emit_frame (fun _ _ => emit_i_frame) (fun _ _ => emit_n_frame) h)
  · split at h
    · cases h
    · exact bind_emit_frame (fun _ _ => emit_r_frame) (fun _ _ => emit_n_frame) h
  · split at h
    · cases h
    · exact bind_emit_frame (fun _ _ => emit_i_frame) (fun _ _ => emit_n_frame) h
  · cases h

theorem create_activation_loop_frame (cxt : codegen_context) (l : List Sym) :
    ∀ st st', create_activation_loop cxt l st = .ok st' → same_frame st st' := by
  induction l with
  | nil => intro st st' h; simp only [create_activation_loop, Except.ok.injEq] at h
           subst h; exact same_frame_refl _
  | cons s rest ih =>
    intro st st' h
    simp only [create_activation_loop] at h
    split at h
    · cases h
    · split at h
      · cases h
      · rename_i s1 hs
        refine same_frame_trans ?_ (ih _ _ h)
        split at hs
        · exact emit_i_frame hs
        · exact emit_n_frame hs

theorem push_codegen_context_tail {pic name args locals varg captures}
    {st st' : codegen_state}
    (h : push_codegen_context pic name args locals varg captures st = .ok st') :
    st'.tail = st := by
  unfold push_codegen_context create_activation at h
  exact (create_activation_loop_frame _ _ _ _ h).1

theorem pop_codegen_context_tail {st st' : codegen_state} {r}
    (h : pop_codegen_context st = .ok (r, st')) : st' = st.tail := by
  cases st with
  | nil => simp [pop_codegen_context] at h
  | cons c up =>
    simp only [pop_codegen_context, Except.ok.injEq, Prod.mk.injEq] at h
    exact h.2.symm

mutual
theorem codegen_frame (pic : pic_state) :
    ∀ (n : Node) (st st' : codegen_state), codegen pic n st = .ok st' → same_frame st st'
  | .GREF s, st, st', h => by
    simp only [codegen] at h
    split at h
    · cases h
    · rename_i i s1 hs
      exact same_frame_trans (index_symbol_frame hs) (emit_i_frame h)
  | .CREF d s, st, st', h => by
    simp only [codegen] at h
    split at h
    · cases h
    · exact emit_r_frame h
  | .LREF s, st, st', h => by
    simp only [codegen] at h
    split at h
    · cases h
    · exact emit_i_frame h
  | .SETBANG var val, st, st', h => by
    simp only [codegen] at h
    split at h
    · cases h
    · rename_i s1 hs
      exact same_frame_trans (codegen_frame pic val _ _ hs) (codegen_set_frame h)
  | .LAMBDA name args locals varg captures body, st, st', h => by
    simp only [codegen] at h
    split at h
    · cases h
    · rename_i k s1 h1
      split at h
      · cases h
      · rename_i s2 h2
        split at h
        · cases h
        · rename_i s3 h3
          split at h
          · cases h
          · rename_i s4 h4
            split at h
            · cases h
            · rename_i r s5 h5
              have e5 := pop_codegen_context_tail h5
              have e4 := (codegen_frame pic body _ _ h4).1
              have e3 := push_codegen_context_tail h3
              have : s5 = s2 := by rw [e5, e4, e3]
              subst this
              exact same_frame_trans (reserve_irep_frame h1)
                (same_frame_trans (emit_i_frame h2) (store_irep_frame h))
  | .IF c t e, st, st', h => by
    simp only [codegen] at h
    split at h
    · cases h
    · rename_i s1 h1
      split at h
      · cases h
      · split at h
        · cases h
        · rename_i s2 h2
          split at h
          · cases h
          · rename_i s3 h3
            split at h
            · cases h
            · split at h
              · cases h
              · rename_i s4 h4
                split at h
                · cases h
                · split at h
                  · cases h
                  · rename_i s5 h5
                    split at h
                    · cases h
                    · rename_i s6 h6
                      split at h
                      · cases h
                      · exact same_frame_trans (codegen_frame pic c _ _ h1)
                          (same_frame_trans (emit_n_frame h2)
                          (same_frame_trans (codegen_frame pic e _ _ h3)
                          (same_frame_trans (emit_n_frame h4)
                          (same_frame_trans (patch_jump_frame h5)
                          (same_frame_trans (codegen_frame pic t _ _ h6)
                            (patch_jump_frame h))))))
  | .BEGIN es, st, st', h => by
    simp only [codegen] at h
    exact codegen_begin_frame pic es _ _ _ h
  | .QUOTE d, st, st', h => by
    simp only [codegen] at h
    exact codegen_quote_frame h
  | .op1 t a, st, st', h => by
    simp only [codegen] at h
    split at h
    · cases h
    · rename_i s1 h1
      exact same_frame_trans (codegen_frame pic a _ _ h1) (emit_n_frame h)
  | .op2 t a b, st, st', h => by
    simp only [codegen] at h
    split at h
    · split at h
      · cases h
      · rename_i s1 h1
        split at h
        · cases h
        · rename_i s2 h2
          exact same_frame_trans (codegen_frame pic b _ _ h1)
            (same_frame_trans (codegen_frame pic a _ _ h2) (emit_n_frame h))
    · split at h
      · cases h
      · rename_i s1 h1
        split at h
        · cases h
        · rename_i s2 h2
          exact same_frame_trans (codegen_frame pic a _ _ h1)
            (same_frame_trans (codegen_frame pic b _ _ h2) (emit_n_frame h))
  | .CALL es, st, st', h => by
    simp only [codegen] at h
    split at h
    · cases h
    · rename_i s1 h1
      exact same_frame_trans (codegen_each_frame pic es _ _ h1) (emit_i_frame h)
  | .TAILCALL es, st, st', h => by
    simp only [codegen] at h
    split at h
    · cases h
    · rename_i s1 h1
      exact same_frame_trans (codegen_each_frame pic es _ _ h1) (emit_i_frame h)
  | .CALL_WITH_VALUES p c, st, st', h => by
    simp only [codegen] at h
    split at h
    · cases h
    · rename_i s1 h1
      split at h
      · cases h
      · rename_i s2 h2
        split at h
        · cases h
        · rename_i s3 h3
          exact same_frame_trans (codegen_frame pic c _ _ h1)
            (same_frame_trans (codegen_frame pic p _ _ h2)
            (same_frame_trans (emit_i_frame h3) (emit_i_frame h)))
  | .TAILCALL_WITH_VALUES p c, st, st', h => by
    simp only [codegen] at h
    split at h
    · cases h
    · rename_i s1 h1
      split at h
      · cases h
      · rename_i s2 h2
        split at h
        · cases h
        · rename_i s3 h3
          exact same_frame_trans (codegen_frame pic c _ _ h1)
            (same_frame_trans (codegen_frame pic p _ _ h2)
            (same_frame_trans (emit_i_frame h3) (emit_i_frame h)))
  | .RETURN es, st, st', h => by
    simp only [codegen] at h
    split at h
    · cases h
    · rename_i s1 h1
      exact same_frame_trans (codegen_each_frame pic es _ _ h1) (emit_i_frame h)
  | .skel c, st, st', h => by
    simp [codegen] at h
theorem codegen_each_frame (pic : pic_state) :
    ∀ (es : List Node) (st st' : codegen_state),
      codegen_each pic es st = .ok st' → same_frame st st'
  | [], st, st', h => by
    simp only [codegen_each, Except.ok.injEq] at h
    subst h; exact same_frame_refl _
  | e :: es, st, st', h => by
    simp only [codegen_each] at h
    split at h
    · cases h
    · rename_i s1 h1
      exact same_frame_trans (codegen_frame pic e _ _ h1) (codegen_each_frame pic es _ _ h)
theorem codegen_begin_frame (pic : pic_state) :
    ∀ (es : List Node) (b : Bool) (st st' : codegen_state),
      codegen_begin pic es b st = .ok st' → same_frame st st'
  | [], b, st, st', h => by
    simp only [codegen_begin, Except.ok.injEq] at h
    subst h; exact same_frame_refl _
  | e :: es, b, st, st', h => by
    simp only [codegen_begin] at h
    split at h
    · cases h
    · rename_i s1 h1
      split at h
      · cases h
      · rename_i s2 h2
        refine same_frame_trans ?_
          (same_frame_trans (codegen_frame pic e _ _ h2) (codegen_begin_frame pic es _ _ _ h))
        split at h1
        · exact emit_n_frame h1
        · cases h1; exact same_frame_refl _
end

theorem local_slot_of_frame {st st1 : codegen_state} (h : same_frame st st1) (sym : Sym) :
    local_slot st1 sym = local_slot st sym := by
  obtain ⟨ht, hh⟩ := h
  cases st with
  | nil =>
    cases st1 with
    | nil => rfl
    | cons c1 up1 => simp at hh
  | cons c up =>
    cases st1 with
    | nil => simp at hh
    | cons c1 up1 =>
      simp only [List.head?_cons, Option.map_some', Option.some.injEq, cxt_header,
        Prod.mk.injEq] at hh
      obtain ⟨_, _, ha, hl, hc⟩ := hh
      simp [local_slot, index_capture, index_local, ha, hl, hc]

theorem local_slot_captured (cxt : codegen_context) (up : codegen_state) (sym : Sym)
    (h : sym ∈ cxt.captures) :
    local_slot (cxt :: up) sym =
      .ok ((cxt.args.length : Int) + (cxt.locals.length : Int) + 1 +
        ((cxt.captures.indexOf sym : Nat) : Int)) := by
  simp only [local_slot, index_capture, Int.toNat_zero, List.drop_zero, xv_scan_eq, h, if_true,
    Nat.zero_add]
  have : ¬ ((cxt.captures.indexOf sym : Nat) : Int) = -1 := by omega
  simp only [ne_eq, this, not_false_eq_true, if_true, Except.ok.injEq]
  ring

theorem local_slot_not_captured (cxt : codegen_context) (up : codegen_state) (sym : Sym)
    (h : sym ∉ cxt.captures) :
    local_slot (cxt :: up) sym = .ok (index_local cxt sym) := by
  simp [local_slot, index_capture, xv_scan_eq, h]

theorem codegen_setbang_lref (pic : pic_state) (st : codegen_state) (sym : Sym) (v : Node)
    (i : Int) (h : local_slot st sym = .ok i) :
    codegen pic (.SETBANG (.LREF sym) v) st =
      (codegen pic v st).bind fun st1 =>
        (emit_i .OP_LSET i st1).bind (emit_n OP_PUSHNONE) := by
  simp only [codegen]
  cases hv : codegen pic v st with
  | error e => rfl
  | ok st1 =>
    simp only [Except.bind, codegen_set, local_slot_of_frame (codegen_frame pic v _ _ hv), h]

/-- C7: in a context whose captures contain `sym`, `(LREF sym)` compiles to
`LREF` and `(SETBANG (LREF sym) v)` to the code of `v`, `LSET`, `PUSHNONE`, with
operand `|args| + |locals| + 1 + index_capture(sym, 0)`; when `sym` is not in
the captures the operand is `index_local(sym)`. -/
theorem C7_capture_area_base (pic : pic_state) (cxt : codegen_context) (up : codegen_state)
    (sym : Sym) (v : Node) :
    (sym ∈ cxt.captures →
      ∃ i : Int, index_capture (cxt :: up) sym 0 = .ok i ∧ 0 ≤ i ∧
        codegen pic (.LREF sym) (cxt :: up) =
          emit_i .OP_LREF ((cxt.args.length : Int) + (cxt.locals.length : Int) + 1 + i)
            (cxt :: up) ∧
        codegen pic (.SETBANG (.LREF sym) v) (cxt :: up) =
          (codegen pic v (cxt :: up)).bind fun st1 =>
            (emit_i .OP_LSET ((cxt.args.length : Int) + (cxt.locals.length : Int) + 1 + i)
              st1).bind (emit_n OP_PUSHNONE)) ∧
    (sym ∉ cxt.captures →
      index_capture (cxt :: up) sym 0 = .ok (-1) ∧
      codegen pic (.LREF sym) (cxt :: up) =
        emit_i .OP_LREF (index_local cxt sym) (cxt :: up) ∧
      codegen pic (.SETBANG (.LREF sym) v) (cxt :: up) =
        (codegen pic v (cxt :: up)).bind fun st1 =>
          (emit_i .OP_LSET (index_local cxt sym) st1).bind (emit_n OP_PUSHNONE)) := by
  constructor
  · intro h
    refine ⟨((cxt.captures.indexOf sym : Nat) : Int), ?_, by omega, ?_, ?_⟩
    · simp [index_capture, xv_scan_eq, h]
    · simp only [codegen, local_slot_captured cxt up sym h]
    · exact codegen_setbang_lref pic _ sym v _ (local_slot_captured cxt up sym h)
  · intro h
    refine ⟨?_, ?_, ?_⟩
    · simp [index_capture, xv_scan_eq, h]
    · simp only [codegen, local_slot_not_captured cxt up sym h]
    · exact codegen_setbang_lref pic _ sym v _ (local_slot_not_captured cxt up sym h)

/-! ### More fuel gives the same result -/

section ext

variable {ana ana' : Val → Bool → AM Node}

theorem analyze_define_ext (state : analyze_state)
    (hext : ∀ obj tp σ r, ana obj tp σ = .ok r → ana' obj tp σ = .ok r)
    (obj : List Val) (σ : astore) (r : Node × astore)
    (h : analyze_define state ana obj σ = .ok r) : analyze_define state ana' obj σ = .ok r := by
  unfold analyze_define at h ⊢
  split at h
  · split at h
    · cases h
    · try simp only
      split at h
      · split at h
        · rename_i hc
          rw [if_pos hc]
          exact h
        · rename_i hc
          rw [if_neg hc]
          split at h
          · cases h
          · rename_i h2
            rw [hext _ _ _ _ h2]
            exact h
      · split at h
        · cases h
        · rename_i h2
          rw [hext _ _ _ _ h2]
          exact h
  · exact h

theorem analyze_if_ext
    (hext : ∀ obj tp σ r, ana obj tp σ = .ok r → ana' obj tp σ = .ok r)
    (obj : List Val) (tailpos : Bool) (σ : astore) (r : Node × astore)
    (h : analyze_if ana obj tailpos σ = .ok r) : analyze_if ana' obj tailpos σ = .ok r := by
  unfold analyze_if at h ⊢
  simp only at h ⊢
  split at h
  · cases h
  · split at h
    · cases h
    · rename_i h1
      rw [hext _ _ _ _ h1]
      split at h
      · cases h
      · rename_i h2
        try simp only
        rw [hext _ _ _ _ h2]
        split at h
        · cases h
        · rename_i h3
          try simp only
          rw [hext _ _ _ _ h3]
          exact h

theorem analyze_seq_ext
    (hext : ∀ obj tp σ r, ana obj tp σ = .ok r → ana' obj tp σ = .ok r) :
    ∀ (es : List Val) (tail : Bool) (σ : astore) (r : List Node × astore),
      analyze_seq ana es tail σ = .ok r → analyze_seq ana' es tail σ = .ok r := by
  intro es
  induction es with
  | nil => intro tail σ r h; simpa only [analyze_seq] using h
  | cons e es ih =>
    intro tail σ r h
    cases es with
    | nil =>
      simp only [analyze_seq] at h ⊢
      split at h
      · cases h
      · rename_i h1
        rw [hext _ _ _ _ h1]
        exact h
    | cons e2 es =>
      simp only [analyze_seq] at h ⊢
      split at h
      · cases h
      · rename_i h1
        rw [hext _ _ _ _ h1]
        split at h
        · cases h
        · rename_i h2
          try simp only
          rw [ih _ _ _ h2]
          exact h

theorem analyze_begin_ext
    (hext : ∀ obj tp σ r, ana obj tp σ = .ok r → ana' obj tp σ = .ok r)
    (obj : List Val) (tailpos : Bool) (σ : astore) (r : Node × astore)
    (h : analyze_begin ana obj tailpos σ = .ok r) :
    analyze_begin ana' obj tailpos σ = .ok r := by
  unfold analyze_begin at h ⊢
  split at h
  · exact hext _ _ _ _ h
  · exact hext _ _ _ _ h
  · split at h
    · cases h
    · rename_i h1
      try simp only
      rw [analyze_seq_ext hext _ _ _ _ h1]
      exact h
  · exact h

theorem analyze_set_ext
    (hext : ∀ obj tp σ r, ana obj tp σ = .ok r → ana' obj tp σ = .ok r)
    (obj : List Val) (σ : astore) (r : Node × astore)
    (h : analyze_set ana obj σ = .ok r) : analyze_set ana' obj σ = .ok r := by
  unfold analyze_set at h ⊢
  split at h
  · split at h
    · cases h
    · rename_i h1
      try simp only
      rw [hext _ _ _ _ h1]
      split at h
      · cases h
      · rename_i h2
        try simp only
        rw [hext _ _ _ _ h2]
        exact h
  · exact h

theorem fold_args_ext
    (hext : ∀ obj tp σ r, ana obj tp σ = .ok r → ana' obj tp σ = .ok r) (op : Tag2) :
    ∀ (args : List Val) (acc : Node) (σ : astore) (r : Node × astore),
      fold_args ana op acc args σ = .ok r → fold_args ana' op acc args σ = .ok r := by
  intro args
  induction args with
  | nil => intro acc σ r h; simpa only [fold_args] using h
  | cons a rest ih =>
    intro acc σ r h
    simp only [fold_args] at h ⊢
    split at h
    · cases h
    · rename_i h1
      rw [hext _ _ _ _ h1]
      exact ih _ _ _ h

theorem FOLD_ARGS_ext
    (hext : ∀ obj tp σ r, ana obj tp σ = .ok r → ana' obj tp σ = .ok r) (op : Tag2)
    (args : List Val) (σ : astore) (r : Node × astore)
    (h : FOLD_ARGS ana op args σ = .ok r) : FOLD_ARGS ana' op args σ = .ok r := by
  unfold FOLD_ARGS at h ⊢
  split at h
  · cases h
  · split at h
    · cases h
    · rename_i h1
      try simp only
      rw [hext _ _ _ _ h1]
      exact fold_args_ext hext op _ _ _ _ h

theorem analyze_add_ext
    (hext : ∀ obj tp σ r, ana obj tp σ = .ok r → ana' obj tp σ = .ok r)
    (obj : List Val) (tailpos : Bool) (σ : astore) (r : Node × astore)
    (h : analyze_add ana obj tailpos σ = .ok r) : analyze_add ana' obj tailpos σ = .ok r := by
  unfold analyze_add at h ⊢
  split at h
  · cases h
  · exact h
  · exact hext _ _ _ _ h
  · exact FOLD_ARGS_ext hext _ _ _ _ h

theorem analyze_mul_ext
    (hext : ∀ obj tp σ r, ana obj tp σ = .ok r → ana' obj tp σ = .ok r)
    (obj : List Val) (tailpos : Bool) (σ : astore) (r : Node × astore)
    (h : analyze_mul ana obj tailpos σ = .ok r) : analyze_mul ana' obj tailpos σ = .ok r := by
  unfold analyze_mul at h ⊢
  split at h
  · cases h
  · exact h
  · exact hext _ _ _ _ h
  · exact FOLD_ARGS_ext hext _ _ _ _ h

theorem analyze_sub_ext
    (hext : ∀ obj tp σ r, ana obj tp σ = .ok r → ana' obj tp σ = .ok r)
    (obj : List Val) (σ : astore) (r : Node × astore)
    (h : analyze_sub ana obj σ = .ok r) : analyze_sub ana' obj σ = .ok r := by
  unfold analyze_sub at h ⊢
  split at h
  · cases h
  · cases h
  · split at h
    · cases h
    · rename_i h1
      try simp only
      rw [hext _ _ _ _ h1]
      exact h
  · exact FOLD_ARGS_ext hext _ _ _ _ h

theorem analyze_div_ext (state : analyze_state)
    (hext : ∀ obj tp σ r, ana obj tp σ = .ok r → ana' obj tp σ = .ok r)
    (obj : List Val) (σ : astore) (r : Node × astore)
    (h : analyze_div state ana obj σ = .ok r) : analyze_div state ana' obj σ = .ok r := by
  unfold analyze_div at h ⊢
  split at h
  · cases h
  · cases h
  · exact hext _ _ _ _ h
  · exact FOLD_ARGS_ext hext _ _ _ _ h

theorem analyze_call_ext
    (hext : ∀ obj tp σ r, ana obj tp σ = .ok r → ana' obj tp σ = .ok r)
    (obj : List Val) (tailpos : Bool) (σ : astore) (r : Node × astore)
    (h : analyze_call ana obj tailpos σ = .ok r) :
    analyze_call ana' obj tailpos σ = .ok r := by
  unfold analyze_call at h ⊢
  split at h
  · cases h
  · rename_i h1
    rw [analyze_seq_ext hext _ _ _ _ h1]
    exact h

theorem analyze_values_ext
    (hext : ∀ obj tp σ r, ana obj tp σ = .ok r → ana' obj tp σ = .ok r)
    (obj : List Val) (tailpos : Bool) (σ : astore) (r : Node × astore)
    (h : analyze_values ana obj tailpos σ = .ok r) :
    analyze_values ana' obj tailpos σ = .ok r := by
  unfold analyze_values at h ⊢
  split at h
  · rename_i ht
    rw [if_pos ht]
    exact analyze_call_ext hext _ _ _ _ h
  · rename_i ht
    rw [if_neg ht]
    split at h
    · cases h
    · rename_i h1
      rw [analyze_seq_ext hext _ _ _ _ h1]
      exact h

theorem analyze_call_with_values_ext
    (hext : ∀ obj tp σ r, ana obj tp σ = .ok r → ana' obj tp σ = .ok r)
    (obj : List Val) (tailpos : Bool) (σ : astore) (r : Node × astore)
    (h : analyze_call_with_values ana obj tailpos σ = .ok r) :
    analyze_call_with_values ana' obj tailpos σ = .ok r := by
  unfold analyze_call_with_values at h ⊢
  split at h
  · split at h
    · cases h
    · rename_i h1
      try simp only
      rw [hext _ _ _ _ h1]
      split at h
      · cases h
      · rename_i h2
        try simp only
        rw [hext _ _ _ _ h2]
        exact h
  · exact h

theorem CONSTRUCT_OP1_ext
    (hext : ∀ obj tp σ r, ana obj tp σ = .ok r → ana' obj tp σ = .ok r) (op : Tag1)
    (obj : List Val) (σ : astore) (r : Node × astore)
    (h : CONSTRUCT_OP1 ana op obj σ = .ok r) : CONSTRUCT_OP1 ana' op obj σ = .ok r := by
  unfold CONSTRUCT_OP1 at h ⊢
  split at h
  · split at h
    · cases h
    · rename_i h1
      try simp only
      rw [hext _ _ _ _ h1]
      exact h
  · exact h

theorem CONSTRUCT_OP2_ext (state : analyze_state)
    (hext : ∀ obj tp σ r, ana obj tp σ = .ok r → ana' obj tp σ = .ok r) (op : Tag2)
    (a b : Val) (σ : astore) (r : Node × astore)
    (h : CONSTRUCT_OP2 state ana op a b σ = .ok r) :
    CONSTRUCT_OP2 state ana' op a b σ = .ok r := by
  unfold CONSTRUCT_OP2 at h ⊢
  split at h
  · rename_i hf
    simp only [hf, if_true]
    split at h
    · cases h
    · rename_i h1
      rw [hext _ _ _ _ h1]
      split at h
      · cases h
      · rename_i h2
        try simp only
        rw [hext _ _ _ _ h2]
        exact h
  · rename_i hf
    simp only [hf, if_false]
    split at h
    · cases h
    · rename_i h1
      rw [hext _ _ _ _ h1]
      split at h
      · cases h
      · rename_i h2
        try simp only
        rw [hext _ _ _ _ h2]
        exact h

theorem analyze_op2_strict_ext (state : analyze_state)
    (hext : ∀ obj tp σ r, ana obj tp σ = .ok r → ana' obj tp σ = .ok r) (op : Tag2)
    (obj : List Val) (σ : astore) (r : Node × astore)
    (h : analyze_op2_strict state ana op obj σ = .ok r) :
    analyze_op2_strict state ana' op obj σ = .ok r := by
  unfold analyze_op2_strict at h ⊢
  split at h
  · exact CONSTRUCT_OP2_ext state hext _ _ _ _ _ h
  · exact h

theorem analyze_op2_fallback_ext (state : analyze_state)
    (hext : ∀ obj tp σ r, ana obj tp σ = .ok r → ana' obj tp σ = .ok r) (op : Tag2)
    (obj : List Val) (tailpos : Bool) (σ : astore) (r : Node × astore)
    (h : analyze_op2_fallback state ana op obj tailpos σ = .ok r) :
    analyze_op2_fallback state ana' op obj tailpos σ = .ok r := by
  unfold analyze_op2_fallback at h ⊢
  split at h
  · exact CONSTRUCT_OP2_ext state hext _ _ _ _ _ h
  · exact analyze_call_ext hext _ _ _ _ h

theorem analyze_form_ext (state : analyze_state)
    (hext : ∀ obj tp σ r, ana obj tp σ = .ok r → ana' obj tp σ = .ok r) (sym : Sym)
    (obj : List Val) (tailpos : Bool) (σ : astore) (r : Node × astore)
    (h : analyze_form state ana sym obj tailpos σ = .ok r) :
    analyze_form state ana' sym obj tailpos σ = .ok r := by
  unfold analyze_form at h ⊢
  cases hk : form_of state sym <;> simp only [hk] at h ⊢
  case DEFINE => exact analyze_define_ext state hext _ _ _ h
  case LAMBDA => exact h
  case IF => exact analyze_if_ext hext _ _ _ _ h
  case BEGIN => exact analyze_begin_ext hext _ _ _ _ h
  case SETBANG => exact analyze_set_ext hext _ _ _ h
  case QUOTE => exact h
  case CONS => exact analyze_op2_strict_ext state hext _ _ _ _ h
  case ADD => exact analyze_add_ext hext _ _ _ _ h
  case SUB => exact analyze_sub_ext hext _ _ _ h
  case MUL => exact analyze_mul_ext hext _ _ _ _ h
  case DIV => exact analyze_div_ext state hext _ _ _ h
  case VALUES => exact analyze_values_ext hext _ _ _ _ h
  case CALL_WITH_VALUES => exact analyze_call_with_values_ext hext _ _ _ _ h
  case other => exact analyze_call_ext hext _ _ _ _ h
  case EQ => exact analyze_op2_fallback_ext state hext _ _ _ _ _ h
  case LT => exact analyze_op2_fallback_ext state hext _ _ _ _ _ h
  case LE => exact analyze_op2_fallback_ext state hext _ _ _ _ _ h
  case GT => exact analyze_op2_fallback_ext state hext _ _ _ _ _ h
  case GE => exact analyze_op2_fallback_ext state hext _ _ _ _ _ h
  all_goals exact CONSTRUCT_OP1_ext hext _ _ _ _ h

theorem analyze_node_ext (state : analyze_state)
    (hext : ∀ obj tp σ r, ana obj tp σ = .ok r → ana' obj tp σ = .ok r)
    (obj : Val) (tailpos : Bool) (σ : astore) (r : Node × astore)
    (h : analyze_node state ana obj tailpos σ = .ok r) :
    analyze_node state ana' obj tailpos σ = .ok r := by
  cases obj with
  | pair a d =>
    simp only [analyze_node] at h ⊢
    split at h
    · cases h
    · rename_i elems he
      try simp only [he] at h ⊢
      cases a <;> (try simp only at h ⊢) <;>
        first
        | exact analyze_form_ext state hext _ _ _ _ _ h
        | exact analyze_call_ext hext _ _ _ _ h
  | _ => simpa only [analyze_node] using h

end ext

/-- One more unit of fuel does not change a result of `analyze`. -/
theorem analyze_fuel_succ (state : analyze_state) :
    ∀ (fuel : Nat) (obj : Val) (tailpos : Bool) (σ : astore) (r : Node × astore),
      analyze state fuel obj tailpos σ = .ok r →
      analyze state (fuel + 1) obj tailpos σ = .ok r := by
  intro fuel
  induction fuel with
  | zero => intro obj tailpos σ r h; simp [analyze] at h
  | succ fuel ih =>
    intro obj tailpos σ r h
    rw [analyze] at h ⊢
    split at h
    · cases h
    · rename_i h1
      rw [analyze_node_ext state ih _ _ _ _ h1]
      exact h

/-- More fuel does not change a result of `analyze`. -/
theorem analyze_fuel_mono (state : analyze_state) (fuel fuel' : Nat) (hle : fuel ≤ fuel')
    (obj : Val) (tailpos : Bool) (σ : astore) (r : Node × astore)
    (h : analyze state fuel obj tailpos σ = .ok r) :
    analyze state fuel' obj tailpos σ = .ok r := by
  induction hle with
  | refl => exact h
  | step _ ih => exact analyze_fuel_succ state _ _ _ _ _ ih

theorem analyze_procedure_ext (state : analyze_state) {ana ana' : Val → Bool → AM Node}
    {flush flush' : AM Unit}
    (hext : ∀ obj tp σ r, ana obj tp σ = .ok r → ana' obj tp σ = .ok r)
    (hfl : ∀ σ r, flush σ = .ok r → flush' σ = .ok r)
    (name : Option Sym) (formals body_exprs : Val) (σ : astore) (r : Node × astore)
    (h : analyze_procedure state ana flush name formals body_exprs σ = .ok r) :
    analyze_procedure state ana' flush' name formals body_exprs σ = .ok r := by
  unfold analyze_procedure at h ⊢
  split at h
  · cases h
  · split at h
    · cases h
    · try simp only at h ⊢
      split at h
      · cases h
      · rename_i h1
        rw [hext _ _ _ _ h1]
        try simp only
        split at h
        · cases h
        · rename_i h2
          rw [hfl _ _ h2]
          exact h

theorem analyze_deferred_loop_ext {proc proc' : Option Sym → Val → Val → AM Node}
    (hp : ∀ n f b σ r, proc n f b σ = .ok r → proc' n f b σ = .ok r) :
    ∀ (ds : List deferred) (σ : astore) (r : Unit × astore),
      analyze_deferred_loop proc ds σ = .ok r → analyze_deferred_loop proc' ds σ = .ok r := by
  intro ds
  induction ds with
  | nil => intro σ r h; simpa only [analyze_deferred_loop] using h
  | cons d ds ih =>
    intro σ r h
    simp only [analyze_deferred_loop] at h ⊢
    split at h
    · cases h
    · rename_i h1
      rw [hp _ _ _ _ _ h1]
      exact ih _ _ h

/-- One more unit of fuel does not change a result of `analyze_deferred`. -/
theorem analyze_deferred_fuel_succ (state : analyze_state) :
    ∀ (fuel : Nat) (σ : astore) (r : Unit × astore),
      analyze_deferred state fuel σ = .ok r → analyze_deferred state (fuel + 1) σ = .ok r := by
  intro fuel
  induction fuel with
  | zero => intro σ r h; simp [analyze_deferred] at h
  | succ fuel ih =>
    intro σ r h
    rw [analyze_deferred] at h ⊢
    split at h
    · cases h
    · split at h
      · cases h
      · rename_i h1
        try simp only
        rw [analyze_deferred_loop_ext
          (fun n f b σ r hh => analyze_procedure_ext state
            (analyze_fuel_succ state fuel) ih n f b σ r hh) _ _ _ h1]
        exact h

/-- More fuel does not change a result of `analyze_deferred`. -/
theorem analyze_deferred_fuel_mono (state : analyze_state) (fuel fuel' : Nat)
    (hle : fuel ≤ fuel') (σ : astore) (r : Unit × astore)
    (h : analyze_deferred state fuel σ = .ok r) : analyze_deferred state fuel' σ = .ok r := by
  induction hle with
  | refl => exact h
  | step _ ih => exact analyze_deferred_fuel_succ state _ _ _ ih

/-- More fuel does not change a result of `pic_analyze`: a tree returned with
some fuel is the tree returned with any larger fuel. -/
theorem pic_analyze_fuel_mono (pic : pic_state) (fuel fuel' : Nat) (hle : fuel ≤ fuel')
    (obj : Val) (t : Node) (h : pic_analyze pic fuel obj = .ok t) :
    pic_analyze pic fuel' obj = .ok t := by
  unfold pic_analyze at h ⊢
  split at h
  · cases h
  · try simp only
    split at h
    · cases h
    · rename_i h1
      rw [analyze_fuel_mono _ _ _ hle _ _ _ _ h1]
      try simp only
      split at h
      · cases h
      · rename_i h2
        rw [analyze_deferred_fuel_mono _ _ _ hle _ _ h2]
        exact h

mutual
theorem node_eq_of_same : ∀ (a b : Node), Node.same a b = true → a = b
  | .GREF s, b, h => by cases b <;> simp_all [Node.same]
  | .LREF s, b, h => by cases b <;> simp_all [Node.same]
  | .CREF d s, b, h => by cases b <;> simp_all [Node.same]
  | .SETBANG x y, b, h => by
    cases b <;> simp [Node.same] at h
    rename_i x' y'
    rw [node_eq_of_same x x' h.1, node_eq_of_same y y' h.2]
  | .LAMBDA n a l v c x, b, h => by
    cases b <;> simp [Node.same] at h
    rename_i n' a' l' v' c' x'
    obtain ⟨⟨⟨⟨⟨h1, h2⟩, h3⟩, h4⟩, h5⟩, h6⟩ := h
    rw [node_eq_of_same x x' h6, h1, h2, h3, h4, h5]
  | .IF c t e, b, h => by
    cases b <;> simp [Node.same] at h
    rename_i c' t' e'
    rw [node_eq_of_same c c' h.1.1, node_eq_of_same t t' h.1.2, node_eq_of_same e e' h.2]
  | .BEGIN es, b, h => by
    cases b <;> simp [Node.same] at h
    rename_i es'
    rw [node_eq_of_same_list es es' h]
  | .QUOTE d, b, h => by cases b <;> simp_all [Node.same]
  | .CALL es, b, h => by
    cases b <;> simp [Node.same] at h
    rename_i es'
    rw [node_eq_of_same_list es es' h]
  | .TAILCALL es, b, h => by
    cases b <;> simp [Node.same] at h
    rename_i es'
    rw [node_eq_of_same_list es es' h]
  | .CALL_WITH_VALUES x y, b, h => by
    cases b <;> simp [Node.same] at h
    rename_i x' y'
    rw [node_eq_of_same x x' h.1, node_eq_of_same y y' h.2]
  | .TAILCALL_WITH_VALUES x y, b, h => by
    cases b <;> simp [Node.same] at h
    rename_i x' y'
    rw [node_eq_of_same x x' h.1, node_eq_of_same y y' h.2]
  | .RETURN es, b, h => by
    cases b <;> simp [Node.same] at h
    rename_i es'
    rw [node_eq_of_same_list es es' h]
  | .op1 t x, b, h => by
    cases b <;> simp [Node.same] at h
    rename_i t' x'
    rw [node_eq_of_same x x' h.2, h.1]
  | .op2 t x y, b, h => by
    cases b <;> simp [Node.same] at h
    rename_i t' x' y'
    rw [node_eq_of_same x x' h.1.2, node_eq_of_same y y' h.2, h.1.1]
  | .skel c, b, h => by cases b <;> simp_all [Node.same]
theorem node_eq_of_same_list : ∀ (as bs : List Node), Node.same_list as bs = true → as = bs
  | [], bs, h => by cases bs <;> simp_all [Node.same_list]
  | a :: as, bs, h => by
    cases bs <;> simp [Node.same_list] at h
    rename_i b bs
    rw [node_eq_of_same a b h.1, node_eq_of_same_list as bs h.2]
end

theorem eq_of_same_ast {a b : Except Err Node} (h : same_ast a b = true) : a = b := by
  cases a <;> cases b <;> simp [same_ast] at h
  · rw [h]
  · rw [node_eq_of_same _ _ h]

mutual
theorem irep_eq_of_same : ∀ (a b : pic_irep), pic_irep.same a b = true → a = b
  | .mk n v a l c code irep pool syms, .mk n' v' a' l' c' code' irep' pool' syms', h => by
    simp [pic_irep.same] at h
    obtain ⟨⟨⟨⟨⟨⟨⟨⟨h1, h2⟩, h3⟩, h4⟩, h5⟩, h6⟩, h7⟩, h8⟩, h9⟩ := h
    rw [irep_eq_of_same_list irep irep' h7, h1, h2, h3, h4, h5, h6, h8, h9]
theorem irep_eq_of_same_slot :
    ∀ (a b : Option pic_irep), pic_irep.same_slot a b = true → a = b
  | none, b, h => by cases b <;> simp_all [pic_irep.same_slot]
  | some r, b, h => by
    cases b <;> simp [pic_irep.same_slot] at h
    rename_i r'
    rw [irep_eq_of_same r r' h]
theorem irep_eq_of_same_list :
    ∀ (as bs : List (Option pic_irep)), pic_irep.same_list as bs = true → as = bs
  | [], bs, h => by cases bs <;> simp_all [pic_irep.same_list]
  | a :: as, bs, h => by
    cases bs <;> simp [pic_irep.same_list] at h
    rename_i b bs
    rw [irep_eq_of_same_slot a b h.1, irep_eq_of_same_list as bs h.2]
end

theorem eq_of_same_irep {a b : Except Err pic_irep} (h : same_irep a b = true) : a = b := by
  cases a <;> cases b <;> simp [same_irep] at h
  · rw [h]
  · rw [irep_eq_of_same _ _ h]


/-- C10 (as stated) fails: for the call node `(CALL f 1)` with one argument the
instruction emitted after the operands is `CALL 2`, not `CALL 1`. -/
theorem C10_counterexample :
    ∃ st0 st1 st', new_codegen_state base_pic = .ok st0 ∧
      codegen_each base_pic [.GREF 100, .QUOTE (.int 1)] st0 = .ok st1 ∧
      codegen base_pic (.CALL [.GREF 100, .QUOTE (.int 1)]) st0 = .ok st' ∧
      emit_i .OP_CALL 2 st1 = .ok st' ∧
      emit_i .OP_CALL 1 st1 ≠ .ok st' := by
  refine ⟨_, _, _, rfl, rfl, rfl, rfl, ?_⟩
  simp [emit_i, emit]

/-- C10 (amended): a `CALL` / `TAILCALL` node with callee `f` and `k` argument
nodes compiles to the code of `f`, the code of each argument in order, then
`CALL (k + 1)` resp. `TAILCALL (k + 1)`: the operand counts the callee. -/
theorem C10_call_operand_count (pic : pic_state) (f : Node) (args : List Node)
    (st : codegen_state) :
    codegen pic (.CALL (f :: args)) st =
      (((codegen pic f st).bind (codegen_each pic args)).bind
        (emit_i .OP_CALL ((args.length : Int) + 1))) ∧
    codegen pic (.TAILCALL (f :: args)) st =
      (((codegen pic f st).bind (codegen_each pic args)).bind
        (emit_i .OP_TAILCALL ((args.length : Int) + 1))) ∧
    (∀ (e : Node) (es : List Node) (s : codegen_state),
      codegen_each pic (e :: es) s = (codegen pic e s).bind (codegen_each pic es)) ∧
    (∀ s : codegen_state, codegen_each pic [] s = .ok s) := by
  have heach : ∀ (e : Node) (es : List Node) (s : codegen_state),
      codegen_each pic (e :: es) s = (codegen pic e s).bind (codegen_each pic es) := by
    intro e es s
    simp only [codegen_each]
    cases codegen pic e s <;> rfl
  refine ⟨?_, ?_, heach, fun s => by simp [codegen_each]⟩
  · simp only [codegen, ← heach]
    cases codegen_each pic (f :: args) st with
    | error e => rfl
    | ok s1 => simp only [Except.bind, List.length_cons]; congr 1; push_cast; ring
  · simp only [codegen, ← heach]
    cases codegen_each pic (f :: args) st with
    | error e => rfl
    | ok s1 => simp only [Except.bind, List.length_cons]; congr 1; push_cast; ring

/-- C9 (as stated) fails: inside `(lambda (z) (lambda () ...))` the body
`(> (define z 1) z)` compiles to the opcodes `LREF, PUSHINT, LSET, PUSHFALSE, LT,
RET` and the body `(< z (define z 1))` to `CREF, PUSHINT, LSET, PUSHFALSE, LT,
RET` when `CONSTRUCT_OP2` analyzes its first operand first, and the other way
round when it analyzes the second first. -/
theorem C9_counterexample :
    (opcodes (inner_code (pic_compile base_pic 10 gt_example)) =
        [.OP_LREF, .OP_PUSHINT, .OP_LSET, .OP_PUSHFALSE, .OP_LT, .OP_RET] ∧
      opcodes (inner_code (pic_compile base_pic 10 lt_example)) =
        [.OP_CREF, .OP_PUSHINT, .OP_LSET, .OP_PUSHFALSE, .OP_LT, .OP_RET]) ∧
    (opcodes (inner_code (pic_compile base_pic_right 10 gt_example)) =
        [.OP_CREF, .OP_PUSHINT, .OP_LSET, .OP_PUSHFALSE, .OP_LT, .OP_RET] ∧
      opcodes (inner_code (pic_compile base_pic_right 10 lt_example)) =
        [.OP_LREF, .OP_PUSHINT, .OP_LSET, .OP_PUSHFALSE, .OP_LT, .OP_RET]) := by
  refine ⟨⟨?_, ?_⟩, ?_, ?_⟩ <;> decide!

/-- C9 (amended): for any analyzed operand nodes `a`, `b` and any codegen state,
compiling the node `(GT a b)` gives exactly the result of compiling `(LT b a)`,
and `(GE a b)` that of `(LE b a)`. -/
theorem C9_gt_is_swapped_lt (pic : pic_state) (a b : Node) (st : codegen_state) :
    codegen pic (.op2 .GT a b) st = codegen pic (.op2 .LT b a) st ∧
    codegen pic (.op2 .GE a b) st = codegen pic (.op2 .LE b a) st := by
  constructor <;> simp [codegen, swaps, opcode2]

/-- C8 (as stated) fails: in the analysis of `((lambda (x) (lambda (y) x)) 1)`
the `(args, captures)` of the two `LAMBDA` nodes are `([x], [x])` and
`([y], [])`, not `([x], [])` and `([y], [x])`. -/
theorem C8_counterexample :
    ∃ t, pic_analyze base_pic 10 capture_example = .ok t ∧
      lambda_headers t = [([100], [100]), ([101], [])] ∧
      lambda_headers t ≠ [([100], []), ([101], [100])] := by
  exact ⟨_, eq_of_same_ast (b := .ok (.TAILCALL [.LAMBDA none [100] [] false [100]
      (.RETURN [.LAMBDA none [101] [] false [] (.RETURN [.CREF 1 100])]),
      .QUOTE (.int 1)])) (by decide!), by decide!, by decide!⟩

/-- C8 (amended): with any fuel from 10 on, analyzing
`((lambda (x) (lambda (y) x)) 1)` yields an outer `LAMBDA` with captures `[x]` and
an inner `LAMBDA` with empty captures whose body is `(RETURN (CREF 1 x))`; the
inner IRep refers to `x` with `CREF 1 0`, and the outer IRep starts with the
activation prelude `LREF 1`. -/
theorem C8_capture_placement (n : Nat) :
    pic_analyze base_pic (n + 10) capture_example =
      .ok (.TAILCALL [.LAMBDA none [100] [] false [100]
              (.RETURN [.LAMBDA none [101] [] false [] (.RETURN [.CREF 1 100])]),
            .QUOTE (.int 1)]) ∧
    pic_compile base_pic (n + 10) capture_example =
      .ok (.mk 7 false 1 0 0
            [⟨.OP_LAMBDA, .i 0⟩, ⟨.OP_PUSHINT, .i 1⟩, ⟨.OP_TAILCALL, .i 2⟩]
            [some (.mk 7 false 2 0 1
              [⟨.OP_LREF, .i 1⟩, ⟨.OP_LAMBDA, .i 0⟩, ⟨.OP_RET, .i 1⟩]
              [some (.mk 7 false 2 0 0
                [⟨.OP_CREF, .r 1 0⟩, ⟨.OP_RET, .i 1⟩] [] [] [])]
              [] [])]
            [] []) := by
  have h10 : pic_analyze base_pic 10 capture_example =
      .ok (.TAILCALL [.LAMBDA none [100] [] false [100]
              (.RETURN [.LAMBDA none [101] [] false [] (.RETURN [.CREF 1 100])]),
            .QUOTE (.int 1)]) := eq_of_same_ast (by decide!)
  have h := pic_analyze_fuel_mono base_pic 10 (n + 10) (Nat.le_add_left 10 n) capture_example
    _ h10
  refine ⟨h, ?_⟩
  unfold pic_compile
  rw [h]
  exact eq_of_same_irep (by decide!)

theorem analyze_args_syms (v : Val) :
    ∀ (acc : List Sym) (varg : Bool) (args locals : List Sym),
      analyze_args v acc = some (varg, args, locals) →
        args ++ locals = acc ++ formal_syms v := by
  induction v with
  | pair a d _ ihd =>
    intro acc varg args locals h
    cases a <;> simp only [analyze_args] at h <;> try cases h
    rename_i s
    rw [ihd _ _ _ _ h]
    simp [formal_syms]
  | nil => intro acc varg args locals h
           simp only [analyze_args, Option.some.injEq, Prod.mk.injEq] at h
           obtain ⟨_, h1, h2⟩ := h
           subst h1; subst h2; simp [formal_syms]
  | sym s => intro acc varg args locals h
             simp only [analyze_args, Option.some.injEq, Prod.mk.injEq] at h
             obtain ⟨_, h1, h2⟩ := h
             subst h1; subst h2; simp [formal_syms]
  | bool b => intro acc varg args locals h; simp [analyze_args] at h
  | int b => intro acc varg args locals h; simp [analyze_args] at h
  | float b => intro acc varg args locals h; simp [analyze_args] at h
  | char b => intro acc varg args locals h; simp [analyze_args] at h
  | other b => intro acc varg args locals h; simp [analyze_args] at h

theorem lookup_scope_iff (scope : analyze_scope) (sym : Sym) :
    lookup_scope scope sym = true ↔ sym ∈ scope.args ++ scope.locals := by
  simp [lookup_scope]

theorem define_var_spec (sym : Sym) (scope : analyze_scope) (up : List analyze_scope)
    (heap : List Node) :
    define_var sym { scope := scope :: up, heap := heap } =
      .ok ((), { scope :=
        (if sym ∈ scope.args ++ scope.locals then scope
          else { scope with locals := scope.locals ++ [sym] }) :: up, heap := heap }) := by
  simp only [define_var]
  by_cases h : sym ∈ scope.args ++ scope.locals
  · simp [(lookup_scope_iff scope sym).mpr h, h]
  · have : lookup_scope scope sym = false := by
      simpa [lookup_scope] using h
    simp only [this, Bool.false_eq_true, ↓reduceIte, h]

theorem define_vars_nodup (defs : List Sym) :
    ∀ (scope : analyze_scope) (up : List analyze_scope) (heap : List Node) (σ' : astore),
      (scope.args ++ scope.locals).Nodup →
      define_vars defs { scope := scope :: up, heap := heap } = .ok ((), σ') →
      ∃ top, σ' = { scope := top :: up, heap := heap } ∧ (top.args ++ top.locals).Nodup ∧
        top.args = scope.args ∧ (∀ s ∈ scope.locals, s ∈ top.locals) ∧
        ∀ s ∈ defs, s ∈ top.args ++ top.locals := by
  induction defs with
  | nil =>
    intro scope up heap σ' hn h
    simp only [define_vars, Except.ok.injEq, Prod.mk.injEq, true_and] at h
    exact ⟨scope, h.symm, hn, rfl, fun _ hs => hs, by simp⟩
  | cons s rest ih =>
    intro scope up heap σ' hn h
    simp only [define_vars, define_var_spec] at h
    by_cases hs : s ∈ scope.args ++ scope.locals
    · simp only [hs, if_true] at h
      obtain ⟨top, e, hnd, ha, hl, hall⟩ := ih scope up heap σ' hn h
      refine ⟨top, e, hnd, ha, hl, ?_⟩
      intro x hx
      rcases List.mem_cons.mp hx with rfl | hx
      · rcases List.mem_append.mp hs with h1 | h1
        · exact List.mem_append.mpr (Or.inl (ha ▸ h1))
        · exact List.mem_append.mpr (Or.inr (hl _ h1))
      · exact hall x hx
    · simp only [hs, if_false] at h
      have hn' : (scope.args ++ (scope.locals ++ [s])).Nodup := by
        rw [← List.append_assoc]
        refine List.Nodup.append hn (List.nodup_singleton s) ?_
        intro a ha hb
        rw [List.mem_singleton] at hb
        exact hs (hb ▸ ha)
      obtain ⟨top, e, hnd, ha, hl, hall⟩ :=
        ih { scope with locals := scope.locals ++ [s] } up heap σ' hn' h
      refine ⟨top, e, hnd, ha, fun x hx => hl x (by simp [hx]), ?_⟩
      intro x hx
      rcases List.mem_cons.mp hx with rfl | hx
      · exact List.mem_append.mpr (Or.inr (hl _ (by simp)))
      · exact hall x hx

/-- C4 (as stated) fails: `analyze_args` accepts the formals `(x x)`, and the
scope `push_scope` creates from them has `x` twice in `args`. -/
theorem C4_counterexample :
    ∃ scope, push_scope (pic_list [.sym 100, .sym 100]) [] = (true, [scope]) ∧
      ¬ (scope.args ++ scope.locals).Nodup :=
  ⟨_, rfl, by decide⟩

/-- C4 (amended): the scope `push_scope` creates holds in `args ++ locals` exactly
the symbols of the formals, in order; when these are pairwise distinct, then
after any sequence of `define_var` calls on it every symbol appears at most once
in `args ++ locals`, every defined name is bound, and only the current scope has
changed. -/
theorem C4_unique_bindings (formals : Val) (scopes rest : List analyze_scope)
    (scope : analyze_scope) (heap : List Node) (defs : List Sym) (σ' : astore)
    (hpush : push_scope formals scopes = (true, scope :: rest))
    (hdistinct : (formal_syms formals).Nodup)
    (hrun : define_vars defs { scope := scope :: rest, heap := heap } = .ok ((), σ')) :
    scope.args ++ scope.locals = formal_syms formals ∧
    ∃ top, σ' = { scope := top :: rest, heap := heap } ∧
      (top.args ++ top.locals).Nodup ∧ top.args = scope.args ∧
      ∀ s ∈ defs, s ∈ top.args ++ top.locals := by
  have hsyms : scope.args ++ scope.locals = formal_syms formals := by
    unfold push_scope at hpush
    split at hpush
    · rename_i varg args locals hargs
      simp only [Prod.mk.injEq, List.cons.injEq, true_and] at hpush
      obtain ⟨hs, _⟩ := hpush
      subst hs
      simpa using analyze_args_syms formals [] _ _ _ hargs
    · simp at hpush
  refine ⟨hsyms, ?_⟩
  obtain ⟨top, e, hnd, ha, _, hall⟩ :=
    define_vars_nodup defs scope rest heap σ' (hsyms ▸ hdistinct) hrun
  exact ⟨top, e, hnd, ha, hall⟩

/-- C4 (amended) at the formals `(x . r)` followed by the definitions of `z` and
of `x` again. -/
theorem C4_unique_bindings_witness :
    ∃ top, define_vars [102, 100]
        { scope := [{ depth := 0, varg := true, args := [100], locals := [101],
                      captures := [], defer := [] }], heap := [] } =
        .ok ((), { scope := [top], heap := [] }) ∧
      (top.args ++ top.locals).Nodup := by
  obtain ⟨_, top, e, hnd, _, _⟩ :=
    C4_unique_bindings (.pair (.sym 100) (.sym 101)) [] []
      { depth := 0, varg := true, args := [100], locals := [101], captures := [],
        defer := [] } [] [102, 100]
      { scope := [{ depth := 0, varg := true, args := [100], locals := [101, 102],
                    captures := [], defer := [] }], heap := [] }
      rfl (by decide) rfl
  exact ⟨top, by rw [← e]; rfl, hnd⟩

/-! ### Tail normal form of `analyze` -/

theorem analyze_seq_length (ana : Val → Bool → AM Node) :
    ∀ (es : List Val) (tail : Bool) (σ : astore) (ns : List Node) (σ' : astore),
      analyze_seq ana es tail σ = .ok (ns, σ') → ns.length = es.length := by
  intro es
  induction es with
  | nil => intro tail σ ns σ' h
           simp only [analyze_seq, Except.ok.injEq, Prod.mk.injEq] at h
           rw [← h.1]; rfl
  | cons e es ih =>
    intro tail σ ns σ' h
    cases es with
    | nil =>
      simp only [analyze_seq] at h
      split at h
      · cases h
      · simp only [Except.ok.injEq, Prod.mk.injEq] at h
        rw [← h.1]; rfl
    | cons e2 es =>
      simp only [analyze_seq] at h
      split at h
      · cases h
      · split at h
        · cases h
        · rename_i ns1 σ2 h2
          simp only [Except.ok.injEq, Prod.mk.injEq] at h
          rw [← h.1, List.length_cons, ih _ _ _ _ h2]; rfl

theorem analyze_seq_tail (ana : Val → Bool → AM Node)
    (hana : ∀ obj σ n σ', ana obj true σ = .ok (n, σ') → TailNorm n = true) :
    ∀ (es : List Val) (σ : astore) (ns : List Node) (σ' : astore),
      analyze_seq ana es true σ = .ok (ns, σ') → TailNormLast ns = true := by
  intro es
  induction es with
  | nil => intro σ ns σ' h
           simp only [analyze_seq, Except.ok.injEq, Prod.mk.injEq] at h
           rw [← h.1]; rfl
  | cons e es ih =>
    intro σ ns σ' h
    cases es with
    | nil =>
      simp only [analyze_seq] at h
      split at h
      · cases h
      · rename_i n σ1 h1
        simp only [Except.ok.injEq, Prod.mk.injEq] at h
        rw [← h.1]
        simp only [TailNormLast]
        exact hana _ _ _ _ h1
    | cons e2 es =>
      simp only [analyze_seq] at h
      split at h
      · cases h
      · split at h
        · cases h
        · rename_i ns1 σ2 h2
          simp only [Except.ok.injEq, Prod.mk.injEq] at h
          rw [← h.1]
          have := ih _ _ _ h2
          cases ns1 with
          | nil => have := analyze_seq_length ana _ _ _ _ _ h2
                   simp at this
          | cons m ms => simpa only [TailNormLast] using this

/-- The node `fold_args` returns from a non-empty operand list is headed by the
operator. -/
theorem fold_args_head (ana : Val → Bool → AM Node) (op : Tag2) :
    ∀ (args : List Val) (acc : Node) (σ : astore) (n : Node) (σ' : astore),
      fold_args ana op acc args σ = .ok (n, σ') → args ≠ [] → ∃ a b, n = .op2 op a b := by
  intro args
  induction args with
  | nil => intro acc σ n σ' _ hne; exact absurd rfl hne
  | cons arg rest ih =>
    intro acc σ n σ' h _
    simp only [fold_args] at h
    split at h
    · cases h
    · cases rest with
      | nil =>
        simp only [fold_args, Except.ok.injEq, Prod.mk.injEq] at h
        exact ⟨_, _, h.1.symm⟩
      | cons r rs => exact ih _ _ _ _ h (by simp)

theorem FOLD_ARGS_head (ana : Val → Bool → AM Node) (op : Tag2) (args : List Val)
    (σ : astore) (n : Node) (σ' : astore)
    (h : FOLD_ARGS ana op args σ = .ok (n, σ')) (hlen : 2 ≤ args.length) :
    ∃ a b, n = .op2 op a b := by
  unfold FOLD_ARGS at h
  split at h
  · cases h
  · split at h
    · cases h
    · rename_i a rest _ _ _ _
      exact fold_args_head ana op rest _ _ _ _ h (by
        intro hr; subst hr; simp at hlen)

theorem analyze_call_tail (ana : Val → Bool → AM Node) (obj : List Val) (σ : astore)
    (n : Node) (σ' : astore) (h : analyze_call ana obj true σ = .ok (n, σ')) :
    TailNorm n = true := by
  unfold analyze_call at h
  split at h
  · cases h
  · simp only [if_true, Except.ok.injEq, Prod.mk.injEq] at h
    rw [← h.1]; rfl

theorem tailOrWrapped_of_tag {n : Node} {σ : astore} (h : tail_tag n = false)
    (hs : ∀ c, n ≠ .skel c) : TailOrWrapped n σ := by
  intro hp
  cases n <;> simp_all [passes_through, tail_tag]

theorem tailOrWrapped_of_tail {n : Node} {σ : astore} (h : TailNorm n = true) :
    TailOrWrapped n σ := fun _ => h

theorem analyze_var_tagged (s : Sym) (σ : astore) (n : Node) (σ' : astore)
    (h : analyze_var s σ = .ok (n, σ')) :
    n = .GREF s ∨ n = .LREF s ∨ ∃ d, n = .CREF d s := by
  unfold analyze_var at h
  simp only at h
  split at h
  · cases h
  · split at h
    · cases h
    · split at h
      · simp only [Except.ok.injEq, Prod.mk.injEq] at h; exact Or.inl h.1.symm
      · split at h
        · simp only [Except.ok.injEq, Prod.mk.injEq] at h; exact Or.inr (Or.inl h.1.symm)
        · simp only [Except.ok.injEq, Prod.mk.injEq] at h
          exact Or.inr (Or.inr ⟨_, h.1.symm⟩)

theorem analyze_var_tail (s : Sym) (σ : astore) (n : Node) (σ' : astore)
    (h : analyze_var s σ = .ok (n, σ')) : TailOrWrapped n σ' := by
  rcases analyze_var_tagged s σ n σ' h with rfl | rfl | ⟨d, rfl⟩ <;>
    exact tailOrWrapped_of_tag rfl (by intro c; simp)

theorem analyze_defer_tail (state : analyze_state) (nm : Option Sym) (f b : Val)
    (σ : astore) (n : Node) (σ' : astore)
    (h : analyze_defer state nm f b σ = .ok (n, σ')) : TailOrWrapped n σ' := by
  unfold analyze_defer at h
  split at h
  · cases h
  · simp only [Except.ok.injEq, Prod.mk.injEq] at h
    obtain ⟨h1, h2⟩ := h
    subst h1; subst h2
    intro hp
    simp [passes_through, tail_tag] at hp

theorem analyze_form_div (state : analyze_state) (ana : Val → Bool → AM Node) (sym : Sym)
    (h : reaches_div state sym) (obj : List Val) (tailpos : Bool) :
    analyze_form state ana sym obj tailpos = analyze_div state ana obj := by
  unfold analyze_form
  rw [h]

/-- Re-analysis of the form `(/ 1 x)` built by `analyze_div` gives a `DIV`
node. -/
theorem analyze_div_again (state : analyze_state) (sym : Sym) (h : reaches_div state sym)
    (fuel : Nat) (c x : Val) (σ : astore) (n : Node) (σ' : astore)
    (hr : analyze state fuel (pic_list [.sym sym, c, x]) false σ = .ok (n, σ')) :
    ∃ a b, n = .op2 .DIV a b := by
  cases fuel with
  | zero => simp [analyze] at hr
  | succ fuel =>
    simp only [analyze, pic_list, analyze_node, list_elems, Option.map_some',
      analyze_form_div state _ sym h] at hr
    split at hr
    · cases hr
    · rename_i res σ1 h1
      simp only [Bool.false_eq_true, if_false, Except.ok.injEq, Prod.mk.injEq] at hr
      obtain ⟨e1, _⟩ := hr
      subst e1
      simp only [analyze_div] at h1
      exact FOLD_ARGS_head _ _ _ _ _ _ h1 (by simp)

theorem tailOrWrapped_op2 {t a b} {σ : astore} : TailOrWrapped (.op2 t a b) σ :=
  tailOrWrapped_of_tag rfl (by intro c; simp)

theorem tailOrWrapped_op1 {t a} {σ : astore} : TailOrWrapped (.op1 t a) σ :=
  tailOrWrapped_of_tag rfl (by intro c; simp)

theorem tailOrWrapped_setbang {a b} {σ : astore} : TailOrWrapped (.SETBANG a b) σ :=
  tailOrWrapped_of_tag rfl (by intro c; simp)

theorem tailOrWrapped_quote {d} {σ : astore} : TailOrWrapped (.QUOTE d) σ :=
  tailOrWrapped_of_tag rfl (by intro c; simp)

theorem analyze_define_tail (state : analyze_state) (ana : Val → Bool → AM Node)
    (obj : List Val) (σ : astore) (n : Node) (σ' : astore)
    (h : analyze_define state ana obj σ = .ok (n, σ')) : TailOrWrapped n σ' := by
  unfold analyze_define at h
  split at h
  · split at h
    · cases h
    · split at h
      · split at h
        · split at h
          · split at h
            · cases h
            · simp only [Except.ok.injEq, Prod.mk.injEq] at h
              rw [← h.1]; exact tailOrWrapped_setbang
          · cases h
          · cases h
        · split at h
          · cases h
          · simp only [Except.ok.injEq, Prod.mk.injEq] at h
            rw [← h.1]; exact tailOrWrapped_setbang
      · split at h
        · cases h
        · simp only [Except.ok.injEq, Prod.mk.injEq] at h
          rw [← h.1]; exact tailOrWrapped_setbang
  · cases h

theorem analyze_lambda_tail (state : analyze_state) (obj : List Val) (σ : astore)
    (n : Node) (σ' : astore) (h : analyze_lambda state obj σ = .ok (n, σ')) :
    TailOrWrapped n σ' := by
  unfold analyze_lambda at h
  split at h
  · exact analyze_defer_tail _ _ _ _ _ _ _ h
  · cases h

theorem analyze_if_tail (ana : Val → Bool → AM Node)
    (hana : ∀ obj σ n σ', ana obj true σ = .ok (n, σ') → TailNorm n = true)
    (obj : List Val) (σ : astore) (n : Node) (σ' : astore)
    (h : analyze_if ana obj true σ = .ok (n, σ')) : TailNorm n = true := by
  unfold analyze_if at h
  simp only at h
  split at h
  · cases h
  · split at h
    · cases h
    · split at h
      · cases h
      · rename_i t1 σ1 h1
        split at h
        · cases h
        · rename_i t2 σ2 h2
          simp only [Except.ok.injEq, Prod.mk.injEq] at h
          rw [← h.1]
          simp only [TailNorm, hana _ _ _ _ h1, hana _ _ _ _ h2, Bool.and_self]

theorem analyze_begin_tail (ana : Val → Bool → AM Node)
    (hana : ∀ obj σ n σ', ana obj true σ = .ok (n, σ') → TailNorm n = true)
    (obj : List Val) (σ : astore) (n : Node) (σ' : astore)
    (h : analyze_begin ana obj true σ = .ok (n, σ')) : TailNorm n = true := by
  unfold analyze_begin at h
  split at h
  · exact hana _ _ _ _ h
  · exact hana _ _ _ _ h
  · split at h
    · cases h
    · rename_i ns σ1 h1
      simp only [Except.ok.injEq, Prod.mk.injEq] at h
      rw [← h.1]
      simp only [TailNorm]
      exact analyze_seq_tail ana hana _ _ _ _ h1
  · cases h

theorem analyze_set_tail (ana : Val → Bool → AM Node) (obj : List Val) (σ : astore)
    (n : Node) (σ' : astore) (h : analyze_set ana obj σ = .ok (n, σ')) :
    TailOrWrapped n σ' := by
  unfold analyze_set at h
  split at h
  · split at h
    · cases h
    · split at h
      · cases h
      · simp only [Except.ok.injEq, Prod.mk.injEq] at h
        rw [← h.1]; exact tailOrWrapped_setbang
  · cases h

theorem analyze_quote_tail (obj : List Val) (σ : astore) (n : Node) (σ' : astore)
    (h : analyze_quote obj σ = .ok (n, σ')) : TailOrWrapped n σ' := by
  unfold analyze_quote at h
  split at h
  · simp only [Except.ok.injEq, Prod.mk.injEq] at h
    rw [← h.1]; exact tailOrWrapped_quote
  · cases h

theorem CONSTRUCT_OP1_tail (ana : Val → Bool → AM Node) (op : Tag1) (obj : List Val)
    (σ : astore) (n : Node) (σ' : astore) (h : CONSTRUCT_OP1 ana op obj σ = .ok (n, σ')) :
    TailOrWrapped n σ' := by
  unfold CONSTRUCT_OP1 at h
  split at h
  · split at h
    · cases h
    · simp only [Except.ok.injEq, Prod.mk.injEq] at h
      rw [← h.1]; exact tailOrWrapped_op1
  · cases h

theorem CONSTRUCT_OP2_tail (state : analyze_state) (ana : Val → Bool → AM Node) (op : Tag2)
    (a b : Val) (σ : astore) (n : Node) (σ' : astore)
    (h : CONSTRUCT_OP2 state ana op a b σ = .ok (n, σ')) : TailOrWrapped n σ' := by
  unfold CONSTRUCT_OP2 at h
  split at h <;>
  · split at h
    · cases h
    · split at h
      · cases h
      · simp only [Except.ok.injEq, Prod.mk.injEq] at h
        rw [← h.1]; exact tailOrWrapped_op2

theorem analyze_op2_strict_tail (state : analyze_state) (ana : Val → Bool → AM Node)
    (op : Tag2) (obj : List Val) (σ : astore) (n : Node) (σ' : astore)
    (h : analyze_op2_strict state ana op obj σ = .ok (n, σ')) : TailOrWrapped n σ' := by
  unfold analyze_op2_strict at h
  split at h
  · exact CONSTRUCT_OP2_tail _ _ _ _ _ _ _ _ h
  · cases h

theorem analyze_op2_fallback_tail (state : analyze_state) (ana : Val → Bool → AM Node)
    (op : Tag2) (obj : List Val) (σ : astore) (n : Node) (σ' : astore)
    (h : analyze_op2_fallback state ana op obj true σ = .ok (n, σ')) :
    TailOrWrapped n σ' := by
  unfold analyze_op2_fallback at h
  split at h
  · exact CONSTRUCT_OP2_tail _ _ _ _ _ _ _ _ h
  · exact tailOrWrapped_of_tail (analyze_call_tail _ _ _ _ _ h)

theorem FOLD_ARGS_tail (ana : Val → Bool → AM Node) (op : Tag2) (args : List Val)
    (σ : astore) (n : Node) (σ' : astore)
    (h : FOLD_ARGS ana op args σ = .ok (n, σ')) (hlen : 2 ≤ args.length) :
    TailOrWrapped n σ' := by
  obtain ⟨a, b, rfl⟩ := FOLD_ARGS_head ana op args σ n σ' h hlen
  exact tailOrWrapped_op2

theorem two_le_of_not_short {α : Type} (args : List α)
    (h1 : args = [] → False) (h2 : ∀ y, args = [y] → False) : 2 ≤ args.length := by
  cases args with
  | nil => exact absurd rfl h1
  | cons a rest =>
    cases rest with
    | nil => exact absurd rfl (h2 a)
    | cons b rest => simp

theorem analyze_add_tail (ana : Val → Bool → AM Node)
    (hana : ∀ obj σ n σ', ana obj true σ = .ok (n, σ') → TailNorm n = true)
    (obj : List Val) (σ : astore) (n : Node) (σ' : astore)
    (h : analyze_add ana obj true σ = .ok (n, σ')) : TailOrWrapped n σ' := by
  unfold analyze_add at h
  split at h
  · cases h
  · simp only [Except.ok.injEq, Prod.mk.injEq] at h
    rw [← h.1]; exact tailOrWrapped_quote
  · exact tailOrWrapped_of_tail (hana _ _ _ _ h)
  · rename_i hd args h1 h2
    exact FOLD_ARGS_tail _ _ _ _ _ _ h (two_le_of_not_short args h1 h2)

theorem analyze_mul_tail (ana : Val → Bool → AM Node)
    (hana : ∀ obj σ n σ', ana obj true σ = .ok (n, σ') → TailNorm n = true)
    (obj : List Val) (σ : astore) (n : Node) (σ' : astore)
    (h : analyze_mul ana obj true σ = .ok (n, σ')) : TailOrWrapped n σ' := by
  unfold analyze_mul at h
  split at h
  · cases h
  · simp only [Except.ok.injEq, Prod.mk.injEq] at h
    rw [← h.1]; exact tailOrWrapped_quote
  · exact tailOrWrapped_of_tail (hana _ _ _ _ h)
  · rename_i hd args h1 h2
    exact FOLD_ARGS_tail _ _ _ _ _ _ h (two_le_of_not_short args h1 h2)

theorem analyze_sub_tail (ana : Val → Bool → AM Node)
    (obj : List Val) (σ : astore) (n : Node) (σ' : astore)
    (h : analyze_sub ana obj σ = .ok (n, σ')) : TailOrWrapped n σ' := by
  unfold analyze_sub at h
  split at h
  · cases h
  · cases h
  · split at h
    · cases h
    · simp only [Except.ok.injEq, Prod.mk.injEq] at h
      rw [← h.1]; exact tailOrWrapped_op1
  · rename_i hd args h1 h2
    exact FOLD_ARGS_tail _ _ _ _ _ _ h (two_le_of_not_short args h1 h2)

theorem analyze_div_tail (state : analyze_state) (ana : Val → Bool → AM Node)
    (hcb : TailCallback state ana) (sym : Sym) (hsym : reaches_div state sym)
    (obj : List Val) (hhead : obj.head? = some (.sym sym)) (σ : astore) (n : Node)
    (σ' : astore) (h : analyze_div state ana obj σ = .ok (n, σ')) : TailOrWrapped n σ' := by
  unfold analyze_div at h
  split at h
  · cases h
  · cases h
  · rename_i hd x
    simp only [List.head?_cons, Option.some.injEq] at hhead
    subst hhead
    obtain ⟨a, b, rfl⟩ := hcb.div sym _ x σ n σ' hsym h
    exact tailOrWrapped_op2
  · rename_i hd args h1 h2
    exact FOLD_ARGS_tail _ _ _ _ _ _ h (two_le_of_not_short args h1 h2)

theorem analyze_values_tail (ana : Val → Bool → AM Node)
    (obj : List Val) (σ : astore) (n : Node) (σ' : astore)
    (h : analyze_values ana obj true σ = .ok (n, σ')) : TailNorm n = true := by
  unfold analyze_values at h
  simp only [Bool.not_true, Bool.false_eq_true, if_false] at h
  split at h
  · cases h
  · simp only [Except.ok.injEq, Prod.mk.injEq] at h
    rw [← h.1]; rfl

theorem analyze_call_with_values_tail (ana : Val → Bool → AM Node)
    (obj : List Val) (σ : astore) (n : Node) (σ' : astore)
    (h : analyze_call_with_values ana obj true σ = .ok (n, σ')) : TailNorm n = true := by
  unfold analyze_call_with_values at h
  split at h
  · split at h
    · cases h
    · split at h
      · cases h
      · simp only [if_true, Except.ok.injEq, Prod.mk.injEq] at h
        rw [← h.1]; rfl
  · cases h

/-- Case analysis on the dispatch of `analyze_form`. -/
theorem analyze_form_cases (state : analyze_state) (ana : Val → Bool → AM Node) (sym : Sym)
    (obj : List Val) (tailpos : Bool) (P : AM Node → Prop)
    (hdefine : P (analyze_define state ana obj))
    (hlambda : P (analyze_lambda state obj))
    (hif : P (analyze_if ana obj tailpos))
    (hbegin : P (analyze_begin ana obj tailpos))
    (hset : P (analyze_set ana obj))
    (hquote : P (analyze_quote obj))
    (hstrict : P (analyze_op2_strict state ana .CONS obj))
    (hop1 : ∀ op, P (CONSTRUCT_OP1 ana op obj))
    (hadd : P (analyze_add ana obj tailpos))
    (hsub : P (analyze_sub ana obj))
    (hmul : P (analyze_mul ana obj tailpos))
    (hdiv : reaches_div state sym → P (analyze_div state ana obj))
    (hfallback : ∀ op, P (analyze_op2_fallback state ana op obj tailpos))
    (hvalues : P (analyze_values ana obj tailpos))
    (hcwv : P (analyze_call_with_values ana obj tailpos))
    (hcall : P (analyze_call ana obj tailpos)) :
    P (analyze_form state ana sym obj tailpos) := by
  unfold analyze_form
  cases hk : form_of state sym
  case DIV => exact hdiv hk
  case EQ => exact hfallback _
  case LT => exact hfallback _
  case LE => exact hfallback _
  case GT => exact hfallback _
  case GE => exact hfallback _
  case CAR => exact hop1 _
  case CDR => exact hop1 _
  case NILP => exact hop1 _
  case SYMBOLP => exact hop1 _
  case PAIRP => exact hop1 _
  case NOT => exact hop1 _
  all_goals assumption

theorem analyze_form_tail (state : analyze_state) (ana : Val → Bool → AM Node)
    (hcb : TailCallback state ana) (sym : Sym) (obj : List Val)
    (hhead : obj.head? = some (.sym sym)) (σ : astore) (n : Node) (σ' : astore)
    (h : analyze_form state ana sym obj true σ = .ok (n, σ')) : TailOrWrapped n σ' := by
  revert h
  refine analyze_form_cases state ana sym obj true
    (fun m => m σ = .ok (n, σ') → TailOrWrapped n σ') ?_ ?_ ?_ ?_ ?_ ?_ ?_ ?_ ?_ ?_ ?_ ?_ ?_
    ?_ ?_ ?_
  · exact analyze_define_tail _ _ _ _ _ _
  · exact analyze_lambda_tail _ _ _ _ _
  · exact fun h => tailOrWrapped_of_tail (analyze_if_tail _ hcb.tail _ _ _ _ h)
  · exact fun h => tailOrWrapped_of_tail (analyze_begin_tail _ hcb.tail _ _ _ _ h)
  · exact analyze_set_tail _ _ _ _ _
  · exact analyze_quote_tail _ _ _ _
  · exact analyze_op2_strict_tail _ _ _ _ _ _ _
  · exact fun op => CONSTRUCT_OP1_tail _ _ _ _ _ _
  · exact analyze_add_tail _ hcb.tail _ _ _ _
  · exact analyze_sub_tail _ _ _ _ _
  · exact analyze_mul_tail _ hcb.tail _ _ _ _
  · exact fun hs => analyze_div_tail state ana hcb sym hs obj hhead _ _ _
  · exact fun op => analyze_op2_fallback_tail _ _ _ _ _ _ _
  · exact fun h => tailOrWrapped_of_tail (analyze_values_tail _ _ _ _ _ h)
  · exact fun h => tailOrWrapped_of_tail (analyze_call_with_values_tail _ _ _ _ _ h)
  · exact fun h => tailOrWrapped_of_tail (analyze_call_tail _ _ _ _ _ h)

theorem list_elems_head (a d : Val) (elems : List Val)
    (h : list_elems (.pair a d) = some elems) : elems.head? = some a := by
  simp only [list_elems, Option.map_eq_some'] at h
  obtain ⟨l, _, rfl⟩ := h
  rfl

theorem analyze_node_tail (state : analyze_state) (ana : Val → Bool → AM Node)
    (hcb : TailCallback state ana) (obj : Val) (σ : astore) (n : Node) (σ' : astore)
    (h : analyze_node state ana obj true σ = .ok (n, σ')) : TailOrWrapped n σ' := by
  unfold analyze_node at h
  split at h
  · exact analyze_var_tail _ _ _ _ h
  · split at h
    · cases h
    · rename_i a d elems he
      split at h
      · exact analyze_form_tail state ana hcb _ elems (list_elems_head _ _ _ he) _ _ _ h
      · exact tailOrWrapped_of_tail (analyze_call_tail _ _ _ _ _ h)
  · simp only [Except.ok.injEq, Prod.mk.injEq] at h
    rw [← h.1]; exact tailOrWrapped_quote

theorem analyze_tailCallback (state : analyze_state) :
    ∀ fuel, TailCallback state (analyze state fuel) := by
  intro fuel
  induction fuel with
  | zero =>
    exact ⟨fun obj σ n σ' h => by simp [analyze] at h,
      fun sym c x σ n σ' hs h => analyze_div_again state sym hs 0 c x σ n σ' h⟩
  | succ fuel ih =>
    refine ⟨?_, fun sym c x σ n σ' hs h => analyze_div_again state sym hs _ c x σ n σ' h⟩
    intro obj σ n σ' h
    simp only [analyze] at h
    split at h
    · cases h
    · rename_i res σ1 h1
      have hw := analyze_node_tail state _ ih obj σ res σ1 h1
      simp only [if_true] at h
      split at h
      · rename_i hp
        simp only [Except.ok.injEq, Prod.mk.injEq] at h
        rw [← h.1]; exact hw hp
      · simp only [Except.ok.injEq, Prod.mk.injEq] at h
        rw [← h.1]; rfl

/-- Every node `analyze` returns in tail position is in tail normal form. -/
theorem analyze_tail (state : analyze_state) (fuel : Nat) (obj : Val) (σ : astore)
    (n : Node) (σ' : astore) (h : analyze state fuel obj true σ = .ok (n, σ')) :
    TailNorm n = true :=
  (analyze_tailCallback state fuel).tail obj σ n σ' h

/-! ### A generic induction over `analyze` -/

mutual
theorem Shape_mono {P Q : Node → Prop} (h : ∀ n, P n → Q n) :
    ∀ n : Node, Shape P n → Shape Q n
  | .GREF s, hs => by simp only [Shape] at hs ⊢; exact h _ hs
  | .LREF s, hs => by simp only [Shape] at hs ⊢; exact h _ hs
  | .CREF d s, hs => by simp only [Shape] at hs ⊢; exact h _ hs
  | .SETBANG a b, hs => by
    simp only [Shape] at hs ⊢; exact ⟨Shape_mono h a hs.1, Shape_mono h b hs.2⟩
  | .LAMBDA _ _ _ _ _ _, hs => by simp only [Shape] at hs
  | .IF c t e, hs => by
    simp only [Shape] at hs ⊢
    exact ⟨Shape_mono h c hs.1, Shape_mono h t hs.2.1, Shape_mono h e hs.2.2⟩
  | .BEGIN es, hs => by simp only [Shape] at hs ⊢; exact ShapeList_mono h es hs
  | .QUOTE d, hs => by simp only [Shape]
  | .CALL es, hs => by simp only [Shape] at hs ⊢; exact ShapeList_mono h es hs
  | .TAILCALL es, hs => by simp only [Shape] at hs ⊢; exact ShapeList_mono h es hs
  | .CALL_WITH_VALUES a b, hs => by
    simp only [Shape] at hs ⊢; exact ⟨Shape_mono h a hs.1, Shape_mono h b hs.2⟩
  | .TAILCALL_WITH_VALUES a b, hs => by
    simp only [Shape] at hs ⊢; exact ⟨Shape_mono h a hs.1, Shape_mono h b hs.2⟩
  | .RETURN es, hs => by simp only [Shape] at hs ⊢; exact ShapeList_mono h es hs
  | .op1 t a, hs => by simp only [Shape] at hs ⊢; exact Shape_mono h a hs
  | .op2 t a b, hs => by
    simp only [Shape] at hs ⊢; exact ⟨Shape_mono h a hs.1, Shape_mono h b hs.2⟩
  | .skel c, hs => by simp only [Shape] at hs ⊢; exact h _ hs
theorem ShapeList_mono {P Q : Node → Prop} (h : ∀ n, P n → Q n) :
    ∀ es : List Node, ShapeList P es → ShapeList Q es
  | [], _ => by simp only [ShapeList]
  | e :: es, hs => by
    simp only [ShapeList] at hs ⊢; exact ⟨Shape_mono h e hs.1, ShapeList_mono h es hs.2⟩
end

section generic

variable {state : analyze_state} {I : astore → Prop} {T : astore → astore → Prop}
  {L : astore → Node → Prop}

theorem AnaRules.lift (R : AnaRules state I T L) {σ σ' : astore} (hT : T σ σ') {n : Node}
    (h : Shape (L σ) n) : Shape (L σ') n :=
  Shape_mono (fun m hm => R.mono σ σ' m hT hm) n h

theorem AnaRules.liftList (R : AnaRules state I T L) {σ σ' : astore} (hT : T σ σ')
    {ns : List Node} (h : ShapeList (L σ) ns) : ShapeList (L σ') ns :=
  ShapeList_mono (fun m hm => R.mono σ σ' m hT hm) ns h

theorem analyze_var_sound (R : AnaRules state I T L) (s : Sym) :
    Sound I T L (analyze_var s) :=
  fun σ n σ' hI h => R.var s σ n σ' hI h

theorem analyze_defer_sound (R : AnaRules state I T L) (nm : Option Sym) (f b : Val) :
    Sound I T L (analyze_defer state nm f b) :=
  fun σ n σ' hI h => R.defer nm f b σ n σ' hI h

theorem analyze_declare_sound (R : AnaRules state I T L) (s : Sym) :
    Sound I T L (analyze_declare s) := by
  intro σ n σ' hI h
  unfold analyze_declare at h
  split at h
  · cases h
  · rename_i u σ1 h1
    obtain ⟨I1, T1⟩ := R.define s σ σ1 hI h1
    obtain ⟨I2, T2, S2⟩ := R.var s σ1 n σ' I1 h
    exact ⟨I2, R.trans _ _ _ T1 T2, S2⟩

theorem analyze_lambda_sound (R : AnaRules state I T L) (obj : List Val) :
    Sound I T L (analyze_lambda state obj) := by
  intro σ n σ' hI h
  unfold analyze_lambda at h
  split at h
  · exact R.defer _ _ _ σ n σ' hI h
  · cases h

theorem analyze_define_sound (R : AnaRules state I T L) (ana : Val → Bool → AM Node)
    (hana : ∀ obj tp, Sound I T L (ana obj tp)) (obj : List Val) :
    Sound I T L (analyze_define state ana obj) := by
  intro σ n σ' hI h
  unfold analyze_define at h
  split at h
  · split at h
    · cases h
    · rename_i var σ1 h1
      obtain ⟨I1, T1, S1⟩ := analyze_declare_sound R _ σ var σ1 hI h1
      split at h
      · split at h
        · split at h
          · split at h
            · cases h
            · rename_i val σ2 h2
              obtain ⟨I2, T2, S2⟩ := R.defer _ _ _ σ1 val σ2 I1 h2
              simp only [Except.ok.injEq, Prod.mk.injEq] at h
              obtain ⟨e1, e2⟩ := h
              subst e1; subst e2
              exact ⟨I2, R.trans _ _ _ T1 T2, by
                simp only [Shape]; exact ⟨R.lift T2 S1, S2⟩⟩
          · cases h
          · cases h
        · split at h
          · cases h
          · rename_i val σ2 h2
            obtain ⟨I2, T2, S2⟩ := hana _ _ σ1 val σ2 I1 h2
            simp only [Except.ok.injEq, Prod.mk.injEq] at h
            obtain ⟨e1, e2⟩ := h
            subst e1; subst e2
            exact ⟨I2, R.trans _ _ _ T1 T2, by
              simp only [Shape]; exact ⟨R.lift T2 S1, S2⟩⟩
      · split at h
        · cases h
        · rename_i val σ2 h2
          obtain ⟨I2, T2, S2⟩ := hana _ _ σ1 val σ2 I1 h2
          simp only [Except.ok.injEq, Prod.mk.injEq] at h
          obtain ⟨e1, e2⟩ := h
          subst e1; subst e2
          exact ⟨I2, R.trans _ _ _ T1 T2, by
            simp only [Shape]; exact ⟨R.lift T2 S1, S2⟩⟩
  · cases h

theorem analyze_if_sound (R : AnaRules state I T L) (ana : Val → Bool → AM Node)
    (hana : ∀ obj tp, Sound I T L (ana obj tp)) (obj : List Val) (tailpos : Bool) :
    Sound I T L (analyze_if ana obj tailpos) := by
  intro σ n σ' hI h
  unfold analyze_if at h
  simp only at h
  split at h
  · cases h
  · split at h
    · cases h
    · rename_i n1 σ1 h1
      obtain ⟨I1, T1, S1⟩ := hana _ _ σ n1 σ1 hI h1
      split at h
      · cases h
      · rename_i n2 σ2 h2
        obtain ⟨I2, T2, S2⟩ := hana _ _ σ1 n2 σ2 I1 h2
        split at h
        · cases h
        · rename_i n3 σ3 h3
          obtain ⟨I3, T3, S3⟩ := hana _ _ σ2 n3 σ3 I2 h3
          simp only [Except.ok.injEq, Prod.mk.injEq] at h
          obtain ⟨e1, e2⟩ := h
          subst e1; subst e2
          exact ⟨I3, R.trans _ _ _ (R.trans _ _ _ T1 T2) T3, by
            simp only [Shape]
            exact ⟨R.lift (R.trans _ _ _ T2 T3) S1, R.lift T3 S2, S3⟩⟩

theorem analyze_seq_sound (R : AnaRules state I T L) (ana : Val → Bool → AM Node)
    (hana : ∀ obj tp, Sound I T L (ana obj tp)) :
    ∀ (es : List Val) (tail : Bool), SoundList I T L (analyze_seq ana es tail) := by
  intro es
  induction es with
  | nil =>
    intro tail σ ns σ' hI h
    simp only [analyze_seq, Except.ok.injEq, Prod.mk.injEq] at h
    obtain ⟨e1, e2⟩ := h
    subst e1; subst e2
    exact ⟨hI, R.refl _, by simp only [ShapeList]⟩
  | cons e es ih =>
    intro tail σ ns σ' hI h
    cases es with
    | nil =>
      simp only [analyze_seq] at h
      split at h
      · cases h
      · rename_i n1 σ1 h1
        obtain ⟨I1, T1, S1⟩ := hana _ _ σ n1 σ1 hI h1
        simp only [Except.ok.injEq, Prod.mk.injEq] at h
        obtain ⟨e1, e2⟩ := h
        subst e1; subst e2
        exact ⟨I1, T1, by simp only [ShapeList]; exact ⟨S1, trivial⟩⟩
    | cons e2 es =>
      simp only [analyze_seq] at h
      split at h
      · cases h
      · rename_i n1 σ1 h1
        obtain ⟨I1, T1, S1⟩ := hana _ _ σ n1 σ1 hI h1
        split at h
        · cases h
        · rename_i ns2 σ2 h2
          obtain ⟨I2, T2, S2⟩ := ih tail σ1 ns2 σ2 I1 h2
          simp only [Except.ok.injEq, Prod.mk.injEq] at h
          obtain ⟨e1, e2⟩ := h
          subst e1; subst e2
          exact ⟨I2, R.trans _ _ _ T1 T2, by
            simp only [ShapeList]; exact ⟨R.lift T2 S1, S2⟩⟩

theorem analyze_begin_sound (R : AnaRules state I T L) (ana : Val → Bool → AM Node)
    (hana : ∀ obj tp, Sound I T L (ana obj tp)) (obj : List Val) (tailpos : Bool) :
    Sound I T L (analyze_begin ana obj tailpos) := by
  intro σ n σ' hI h
  unfold analyze_begin at h
  split at h
  · exact hana _ _ σ n σ' hI h
  · exact hana _ _ σ n σ' hI h
  · split at h
    · cases h
    · rename_i ns σ1 h1
      obtain ⟨I1, T1, S1⟩ := analyze_seq_sound R ana hana _ _ σ ns σ1 hI h1
      simp only [Except.ok.injEq, Prod.mk.injEq] at h
      obtain ⟨e1, e2⟩ := h
      subst e1; subst e2
      exact ⟨I1, T1, by simp only [Shape]; exact S1⟩
  · cases h

theorem analyze_set_sound (R : AnaRules state I T L) (ana : Val → Bool → AM Node)
    (hana : ∀ obj tp, Sound I T L (ana obj tp)) (obj : List Val) :
    Sound I T L (analyze_set ana obj) := by
  intro σ n σ' hI h
  unfold analyze_set at h
  split at h
  · split at h
    · cases h
    · rename_i n1 σ1 h1
      obtain ⟨I1, T1, S1⟩ := hana _ _ σ n1 σ1 hI h1
      split at h
      · cases h
      · rename_i n2 σ2 h2
        obtain ⟨I2, T2, S2⟩ := hana _ _ σ1 n2 σ2 I1 h2
        simp only [Except.ok.injEq, Prod.mk.injEq] at h
        obtain ⟨e1, e2⟩ := h
        subst e1; subst e2
        exact ⟨I2, R.trans _ _ _ T1 T2, by simp only [Shape]; exact ⟨R.lift T2 S1, S2⟩⟩
  · cases h

theorem analyze_quote_sound (R : AnaRules state I T L) (obj : List Val) :
    Sound I T L (analyze_quote obj) := by
  intro σ n σ' hI h
  unfold analyze_quote at h
  split at h
  · simp only [Except.ok.injEq, Prod.mk.injEq] at h
    obtain ⟨e1, e2⟩ := h
    subst e1; subst e2
    exact ⟨hI, R.refl _, by simp only [Shape]⟩
  · cases h

theorem fold_args_sound (R : AnaRules state I T L) (ana : Val → Bool → AM Node)
    (hana : ∀ obj tp, Sound I T L (ana obj tp)) (op : Tag2) :
    ∀ (args : List Val) (acc : Node) (σ : astore) (n : Node) (σ' : astore),
      I σ → Shape (L σ) acc → fold_args ana op acc args σ = .ok (n, σ') →
      I σ' ∧ T σ σ' ∧ Shape (L σ') n := by
  intro args
  induction args with
  | nil =>
    intro acc σ n σ' hI hacc h
    simp only [fold_args, Except.ok.injEq, Prod.mk.injEq] at h
    obtain ⟨e1, e2⟩ := h
    subst e1; subst e2
    exact ⟨hI, R.refl _, hacc⟩
  | cons arg rest ih =>
    intro acc σ n σ' hI hacc h
    simp only [fold_args] at h
    split at h
    · cases h
    · rename_i n1 σ1 h1
      obtain ⟨I1, T1, S1⟩ := hana _ _ σ n1 σ1 hI h1
      obtain ⟨I2, T2, S2⟩ := ih (.op2 op acc n1) σ1 n σ' I1
        (by simp only [Shape]; exact ⟨R.lift T1 hacc, S1⟩) h
      exact ⟨I2, R.trans _ _ _ T1 T2, S2⟩

theorem FOLD_ARGS_sound (R : AnaRules state I T L) (ana : Val → Bool → AM Node)
    (hana : ∀ obj tp, Sound I T L (ana obj tp)) (op : Tag2) (args : List Val) :
    Sound I T L (FOLD_ARGS ana op args) := by
  intro σ n σ' hI h
  unfold FOLD_ARGS at h
  split at h
  · cases h
  · split at h
    · cases h
    · rename_i n1 σ1 h1
      obtain ⟨I1, T1, S1⟩ := hana _ _ σ n1 σ1 hI h1
      obtain ⟨I2, T2, S2⟩ := fold_args_sound R ana hana op _ _ σ1 n σ' I1 S1 h
      exact ⟨I2, R.trans _ _ _ T1 T2, S2⟩

theorem analyze_add_sound (R : AnaRules state I T L) (ana : Val → Bool → AM Node)
    (hana : ∀ obj tp, Sound I T L (ana obj tp)) (obj : List Val) (tailpos : Bool) :
    Sound I T L (analyze_add ana obj tailpos) := by
  intro σ n σ' hI h
  unfold analyze_add at h
  split at h
  · cases h
  · simp only [Except.ok.injEq, Prod.mk.injEq] at h
    obtain ⟨e1, e2⟩ := h
    subst e1; subst e2
    exact ⟨hI, R.refl _, by simp only [Shape]⟩
  · exact hana _ _ σ n σ' hI h
  · exact FOLD_ARGS_sound R ana hana _ _ σ n σ' hI h

theorem analyze_mul_sound (R : AnaRules state I T L) (ana : Val → Bool → AM Node)
    (hana : ∀ obj tp, Sound I T L (ana obj tp)) (obj : List Val) (tailpos : Bool) :
    Sound I T L (analyze_mul ana obj tailpos) := by
  intro σ n σ' hI h
  unfold analyze_mul at h
  split at h
  · cases h
  · simp only [Except.ok.injEq, Prod.mk.injEq] at h
    obtain ⟨e1, e2⟩ := h
    subst e1; subst e2
    exact ⟨hI, R.refl _, by simp only [Shape]⟩
  · exact hana _ _ σ n σ' hI h
  · exact FOLD_ARGS_sound R ana hana _ _ σ n σ' hI h

theorem analyze_sub_sound (R : AnaRules state I T L) (ana : Val → Bool → AM Node)
    (hana : ∀ obj tp, Sound I T L (ana obj tp)) (obj : List Val) :
    Sound I T L (analyze_sub ana obj) := by
  intro σ n σ' hI h
  unfold analyze_sub at h
  split at h
  · cases h
  · cases h
  · split at h
    · cases h
    · rename_i n1 σ1 h1
      obtain ⟨I1, T1, S1⟩ := hana _ _ σ n1 σ1 hI h1
      simp only [Except.ok.injEq, Prod.mk.injEq] at h
      obtain ⟨e1, e2⟩ := h
      subst e1; subst e2
      exact ⟨I1, T1, by simp only [Shape]; exact S1⟩
  · exact FOLD_ARGS_sound R ana hana _ _ σ n σ' hI h

theorem analyze_div_sound (R : AnaRules state I T L) (ana : Val → Bool → AM Node)
    (hana : ∀ obj tp, Sound I T L (ana obj tp)) (obj : List Val) :
    Sound I T L (analyze_div state ana obj) := by
  intro σ n σ' hI h
  unfold analyze_div at h
  split at h
  · cases h
  · cases h
  · exact hana _ _ σ n σ' hI h
  · exact FOLD_ARGS_sound R ana hana _ _ σ n σ' hI h

theorem analyze_call_sound (R : AnaRules state I T L) (ana : Val → Bool → AM Node)
    (hana : ∀ obj tp, Sound I T L (ana obj tp)) (obj : List Val) (tailpos : Bool) :
    Sound I T L (analyze_call ana obj tailpos) := by
  intro σ n σ' hI h
  unfold analyze_call at h
  split at h
  · cases h
  · rename_i ns σ1 h1
    obtain ⟨I1, T1, S1⟩ := analyze_seq_sound R ana hana _ _ σ ns σ1 hI h1
    simp only [Except.ok.injEq, Prod.mk.injEq] at h
    obtain ⟨e1, e2⟩ := h
    subst e1; subst e2
    refine ⟨I1, T1, ?_⟩
    cases tailpos <;> simp only [Bool.false_eq_true, if_false, if_true, Shape] <;> exact S1

theorem analyze_values_sound (R : AnaRules state I T L) (ana : Val → Bool → AM Node)
    (hana : ∀ obj tp, Sound I T L (ana obj tp)) (obj : List Val) (tailpos : Bool) :
    Sound I T L (analyze_values ana obj tailpos) := by
  intro σ n σ' hI h
  unfold analyze_values at h
  split at h
  · exact analyze_call_sound R ana hana _ _ σ n σ' hI h
  · split at h
    · cases h
    · rename_i ns σ1 h1
      obtain ⟨I1, T1, S1⟩ := analyze_seq_sound R ana hana _ _ σ ns σ1 hI h1
      simp only [Except.ok.injEq, Prod.mk.injEq] at h
      obtain ⟨e1, e2⟩ := h
      subst e1; subst e2
      exact ⟨I1, T1, by simp only [Shape]; exact S1⟩

theorem analyze_call_with_values_sound (R : AnaRules state I T L)
    (ana : Val → Bool → AM Node) (hana : ∀ obj tp, Sound I T L (ana obj tp))
    (obj : List Val) (tailpos : Bool) :
    Sound I T L (analyze_call_with_values ana obj tailpos) := by
  intro σ n σ' hI h
  unfold analyze_call_with_values at h
  split at h
  · split at h
    · cases h
    · rename_i n1 σ1 h1
      obtain ⟨I1, T1, S1⟩ := hana _ _ σ n1 σ1 hI h1
      split at h
      · cases h
      · rename_i n2 σ2 h2
        obtain ⟨I2, T2, S2⟩ := hana _ _ σ1 n2 σ2 I1 h2
        simp only [Except.ok.injEq, Prod.mk.injEq] at h
        obtain ⟨e1, e2⟩ := h
        subst e1; subst e2
        refine ⟨I2, R.trans _ _ _ T1 T2, ?_⟩
        cases tailpos <;> simp only [Bool.false_eq_true, if_false, if_true, Shape] <;>
          exact ⟨R.lift T2 S1, S2⟩
  · cases h

theorem CONSTRUCT_OP1_sound (_R : AnaRules state I T L) (ana : Val → Bool → AM Node)
    (hana : ∀ obj tp, Sound I T L (ana obj tp)) (op : Tag1) (obj : List Val) :
    Sound I T L (CONSTRUCT_OP1 ana op obj) := by
  intro σ n σ' hI h
  unfold CONSTRUCT_OP1 at h
  split at h
  · split at h
    · cases h
    · rename_i n1 σ1 h1
      obtain ⟨I1, T1, S1⟩ := hana _ _ σ n1 σ1 hI h1
      simp only [Except.ok.injEq, Prod.mk.injEq] at h
      obtain ⟨e1, e2⟩ := h
      subst e1; subst e2
      exact ⟨I1, T1, by simp only [Shape]; exact S1⟩
  · cases h

theorem CONSTRUCT_OP2_sound (R : AnaRules state I T L) (ana : Val → Bool → AM Node)
    (hana : ∀ obj tp, Sound I T L (ana obj tp)) (op : Tag2) (a b : Val) :
    Sound I T L (CONSTRUCT_OP2 state ana op a b) := by
  intro σ n σ' hI h
  unfold CONSTRUCT_OP2 at h
  split at h
  · split at h
    · cases h
    · rename_i n1 σ1 h1
      obtain ⟨I1, T1, S1⟩ := hana _ _ σ n1 σ1 hI h1
      split at h
      · cases h
      · rename_i n2 σ2 h2
        obtain ⟨I2, T2, S2⟩ := hana _ _ σ1 n2 σ2 I1 h2
        simp only [Except.ok.injEq, Prod.mk.injEq] at h
        obtain ⟨e1, e2⟩ := h
        subst e1; subst e2
        exact ⟨I2, R.trans _ _ _ T1 T2, by simp only [Shape]; exact ⟨S2, R.lift T2 S1⟩⟩
  · split at h
    · cases h
    · rename_i n1 σ1 h1
      obtain ⟨I1, T1, S1⟩ := hana _ _ σ n1 σ1 hI h1
      split at h
      · cases h
      · rename_i n2 σ2 h2
        obtain ⟨I2, T2, S2⟩ := hana _ _ σ1 n2 σ2 I1 h2
        simp only [Except.ok.injEq, Prod.mk.injEq] at h
        obtain ⟨e1, e2⟩ := h
        subst e1; subst e2
        exact ⟨I2, R.trans _ _ _ T1 T2, by simp only [Shape]; exact ⟨R.lift T2 S1, S2⟩⟩

theorem analyze_op2_strict_sound (R : AnaRules state I T L) (ana : Val → Bool → AM Node)
    (hana : ∀ obj tp, Sound I T L (ana obj tp)) (op : Tag2) (obj : List Val) :
    Sound I T L (analyze_op2_strict state ana op obj) := by
  intro σ n σ' hI h
  unfold analyze_op2_strict at h
  split at h
  · exact CONSTRUCT_OP2_sound R ana hana _ _ _ σ n σ' hI h
  · cases h

theorem analyze_op2_fallback_sound (R : AnaRules state I T L) (ana : Val → Bool → AM Node)
    (hana : ∀ obj tp, Sound I T L (ana obj tp)) (op : Tag2) (obj : List Val)
    (tailpos : Bool) : Sound I T L (analyze_op2_fallback state ana op obj tailpos) := by
  intro σ n σ' hI h
  unfold analyze_op2_fallback at h
  split at h
  · exact CONSTRUCT_OP2_sound R ana hana _ _ _ σ n σ' hI h
  · exact analyze_call_sound R ana hana _ _ σ n σ' hI h

theorem analyze_form_sound (R : AnaRules state I T L) (ana : Val → Bool → AM Node)
    (hana : ∀ obj tp, Sound I T L (ana obj tp)) (sym : Sym) (obj : List Val)
    (tailpos : Bool) : Sound I T L (analyze_form state ana sym obj tailpos) := by
  refine analyze_form_cases state ana sym obj tailpos (Sound I T L)
    ?_ ?_ ?_ ?_ ?_ ?_ ?_ ?_ ?_ ?_ ?_ ?_ ?_ ?_ ?_ ?_
  · exact analyze_define_sound R ana hana obj
  · exact analyze_lambda_sound R obj
  · exact analyze_if_sound R ana hana obj tailpos
  · exact analyze_begin_sound R ana hana obj tailpos
  · exact analyze_set_sound R ana hana obj
  · exact analyze_quote_sound R obj
  · exact analyze_op2_strict_sound R ana hana _ obj
  · exact fun op => CONSTRUCT_OP1_sound R ana hana op obj
  · exact analyze_add_sound R ana hana obj tailpos
  · exact analyze_sub_sound R ana hana obj
  · exact analyze_mul_sound R ana hana obj tailpos
  · exact fun _ => analyze_div_sound R ana hana obj
  · exact fun op => analyze_op2_fallback_sound R ana hana op obj tailpos
  · exact analyze_values_sound R ana hana obj tailpos
  · exact analyze_call_with_values_sound R ana hana obj tailpos
  · exact analyze_call_sound R ana hana obj tailpos

theorem analyze_node_sound (R : AnaRules state I T L) (ana : Val → Bool → AM Node)
    (hana : ∀ obj tp, Sound I T L (ana obj tp)) (obj : Val) (tailpos : Bool) :
    Sound I T L (analyze_node state ana obj tailpos) := by
  intro σ n σ' hI h
  unfold analyze_node at h
  split at h
  · exact R.var _ σ n σ' hI h
  · split at h
    · cases h
    · split at h
      · exact analyze_form_sound R ana hana _ _ _ σ n σ' hI h
      · exact analyze_call_sound R ana hana _ _ σ n σ' hI h
  · simp only [Except.ok.injEq, Prod.mk.injEq] at h
    obtain ⟨e1, e2⟩ := h
    subst e1; subst e2
    exact ⟨hI, R.refl _, by simp only [Shape]⟩

/-- The generic induction: under the rules `R`, `analyze` keeps the invariant,
relates the stores and returns a node of the shape `L`. -/
theorem analyze_sound (R : AnaRules state I T L) :
    ∀ (fuel : Nat) (obj : Val) (tailpos : Bool), Sound I T L (analyze state fuel obj tailpos) := by
  intro fuel
  induction fuel with
  | zero => intro obj tailpos σ n σ' _ h; simp [analyze] at h
  | succ fuel ih =>
    intro obj tailpos σ n σ' hI h
    simp only [analyze] at h
    split at h
    · cases h
    · rename_i res σ1 h1
      obtain ⟨I1, T1, S1⟩ := analyze_node_sound R _ ih obj tailpos σ res σ1 hI h1
      split at h
      · split at h
        · simp only [Except.ok.injEq, Prod.mk.injEq] at h
          obtain ⟨e1, e2⟩ := h
          subst e1; subst e2
          exact ⟨I1, T1, S1⟩
        · simp only [Except.ok.injEq, Prod.mk.injEq] at h
          obtain ⟨e1, e2⟩ := h
          subst e1; subst e2
          exact ⟨I1, T1, by simp only [Shape, ShapeList]; exact ⟨S1, trivial⟩⟩
      · simp only [Except.ok.injEq, Prod.mk.injEq] at h
        obtain ⟨e1, e2⟩ := h
        subst e1; subst e2
        exact ⟨I1, T1, S1⟩

end generic

/-! ### The store during `analyze` -/

theorem scope_grows_refl (a : analyze_scope) : scope_grows a a :=
  ⟨rfl, rfl, rfl, List.prefix_refl _, List.prefix_refl _⟩

theorem scope_grows_trans {a b c : analyze_scope} (h1 : scope_grows a b)
    (h2 : scope_grows b c) : scope_grows a c :=
  ⟨h2.1.trans h1.1, h2.2.1.trans h1.2.1, h2.2.2.1.trans h1.2.2.1,
    h1.2.2.2.1.trans h2.2.2.2.1, h1.2.2.2.2.trans h2.2.2.2.2⟩

theorem scope_grows_keep_refl (a : analyze_scope) : scope_grows_keep a a :=
  ⟨scope_grows_refl a, rfl⟩

theorem scope_grows_keep_trans {a b c : analyze_scope} (h1 : scope_grows_keep a b)
    (h2 : scope_grows_keep b c) : scope_grows_keep a c :=
  ⟨scope_grows_trans h1.1 h2.1, h2.2.trans h1.2⟩

theorem forall₂_refl' {α : Type} {R : α → α → Prop} (hR : ∀ a, R a a) :
    ∀ l : List α, List.Forall₂ R l l
  | [] => List.Forall₂.nil
  | a :: l => List.Forall₂.cons (hR a) (forall₂_refl' hR l)

theorem forall₂_trans' {α : Type} {R : α → α → Prop}
    (hR : ∀ a b c, R a b → R b c → R a c) :
    ∀ {l1 l2 l3 : List α}, List.Forall₂ R l1 l2 → List.Forall₂ R l2 l3 → List.Forall₂ R l1 l3
  | [], _, _, h1, h2 => by cases h1; cases h2; exact List.Forall₂.nil
  | a :: l, _, _, h1, h2 => by
    cases h1 with
    | cons hab h1 =>
      cases h2 with
      | cons hbc h2 => exact List.Forall₂.cons (hR _ _ _ hab hbc) (forall₂_trans' hR h1 h2)

theorem stack_grows_refl (stk : List analyze_scope) : stack_grows stk stk :=
  forall₂_refl' scope_grows_refl stk

theorem stack_grows_trans {a b c : List analyze_scope} (h1 : stack_grows a b)
    (h2 : stack_grows b c) : stack_grows a c :=
  forall₂_trans' (R := scope_grows) (fun _ _ _ => scope_grows_trans) h1 h2

theorem stack_grows_of_keep {a b : List analyze_scope}
    (h : List.Forall₂ scope_grows_keep a b) : stack_grows a b :=
  List.Forall₂.imp (fun _ _ h => h.1) h

theorem keep_refl (stk : List analyze_scope) : List.Forall₂ scope_grows_keep stk stk :=
  forall₂_refl' scope_grows_keep_refl stk

theorem keep_trans {a b c : List analyze_scope} (h1 : List.Forall₂ scope_grows_keep a b)
    (h2 : List.Forall₂ scope_grows_keep b c) : List.Forall₂ scope_grows_keep a c :=
  forall₂_trans' (R := scope_grows_keep) (fun _ _ _ => scope_grows_keep_trans) h1 h2

theorem stack_wf_of_grows : ∀ {a b : List analyze_scope}, stack_grows a b → stack_wf a →
    stack_wf b
  | [], _, h, _ => by cases h; trivial
  | x :: a, _, h, hw => by
    cases h with
    | cons hxy h =>
      rename_i y b
      have hl : b.length = a.length := (List.Forall₂.length_eq h).symm
      exact ⟨by rw [hxy.1, hw.1, hl], stack_wf_of_grows h hw.2⟩

theorem ana_frame_refl (state : analyze_state) (σ : astore) : ana_frame state σ σ := by
  refine ⟨0, by simp, ?_⟩
  cases h : σ.scope with
  | nil => simp
  | cons sc up => exact ⟨scope_grows_refl sc, keep_refl up, by simp⟩

theorem ana_frame_trans (state : analyze_state) (σ1 σ2 σ3 : astore)
    (h1 : ana_frame state σ1 σ2) (h2 : ana_frame state σ2 σ3) : ana_frame state σ1 σ3 := by
  obtain ⟨k1, e1, m1⟩ := h1
  obtain ⟨k2, e2, m2⟩ := h2
  refine ⟨k1 + k2, by rw [e2, e1, List.append_assoc, List.replicate_add], ?_⟩
  cases hs1 : σ1.scope with
  | nil =>
    rw [hs1] at m1
    cases hs2 : σ2.scope with
    | nil =>
      rw [hs2] at m1 m2
      cases hs3 : σ3.scope with
      | nil => rw [hs3] at m2; simp only at m1 m2 ⊢; omega
      | cons c3 u3 => rw [hs3] at m2; exact m2.elim
    | cons c2 u2 => rw [hs2] at m1; exact m1.elim
  | cons c1 u1 =>
    rw [hs1] at m1
    cases hs2 : σ2.scope with
    | nil => rw [hs2] at m1; exact m1.elim
    | cons c2 u2 =>
      rw [hs2] at m1 m2
      cases hs3 : σ3.scope with
      | nil => rw [hs3] at m2; exact m2.elim
      | cons c3 u3 =>
        rw [hs3] at m2
        simp only at m1 m2 ⊢
        obtain ⟨g1, f1, d1⟩ := m1
        obtain ⟨g2, f2, d2⟩ := m2
        refine ⟨scope_grows_trans g1 g2, keep_trans f1 f2, ?_⟩
        rw [d2, d1, e1, List.length_append, List.length_replicate, ← List.append_assoc,
          ← List.reverse_append]
        have := List.range'_append σ1.heap.length k1 k2 1
        simp only [Nat.one_mul] at this
        rw [this, Nat.add_comm k2 k1]

theorem ana_frame_grows {state : analyze_state} {σ σ' : astore} (h : ana_frame state σ σ') :
    stack_grows σ.scope σ'.scope := by
  obtain ⟨k, _, m⟩ := h
  cases hs1 : σ.scope with
  | nil =>
    rw [hs1] at m
    cases hs2 : σ'.scope with
    | nil => exact List.Forall₂.nil
    | cons c u => rw [hs2] at m; exact m.elim
  | cons c1 u1 =>
    rw [hs1] at m
    cases hs2 : σ'.scope with
    | nil => rw [hs2] at m; exact m.elim
    | cons c2 u2 =>
      rw [hs2] at m
      exact List.Forall₂.cons m.1 (stack_grows_of_keep m.2.1)

theorem deep_leaf_mono {state : analyze_state} {Q : List analyze_scope → Node → Prop}
    (hQ : ∀ stk stk' n, stack_grows stk stk' → Q stk n → Q stk' n)
    (σ σ' : astore) (n : Node) (hT : ana_frame state σ σ') (h : deep_leaf Q σ n) :
    deep_leaf Q σ' n := by
  have hg := ana_frame_grows hT
  cases n
  case skel c =>
    simp only [deep_leaf] at h ⊢
    obtain ⟨sc, up, hs, hc⟩ := h
    obtain ⟨k, _, m⟩ := hT
    rw [hs] at m
    cases hs2 : σ'.scope with
    | nil => rw [hs2] at m; exact m.elim
    | cons c2 u2 =>
      rw [hs2] at m
      exact ⟨c2, u2, rfl, by rw [m.2.2]; exact List.mem_append_right _ hc⟩
  all_goals exact hQ _ _ _ hg h

theorem capture_var_keep (sc : analyze_scope) (s : Sym) :
    scope_grows_keep sc (capture_var sc s) := by
  unfold capture_var
  split
  · exact scope_grows_keep_refl sc
  · exact ⟨⟨rfl, rfl, rfl, List.prefix_refl _, List.prefix_append _ _⟩, rfl⟩

theorem find_var_loop_keep (sym : Sym) :
    ∀ (stk : List analyze_scope) (depth : Int),
      List.Forall₂ scope_grows_keep stk (find_var_loop sym stk depth).2
  | [], _ => by simp [find_var_loop]
  | sc :: up, depth => by
    simp only [find_var_loop]
    split
    · refine List.Forall₂.cons ?_ (keep_refl up)
      split
      · exact capture_var_keep sc sym
      · exact scope_grows_keep_refl sc
    · exact List.Forall₂.cons (scope_grows_keep_refl sc) (find_var_loop_keep sym up _)

theorem find_var_loop_inv {J : analyze_scope → Prop}
    (hJ : ∀ sc s, J sc → lookup_scope sc s = true → J (capture_var sc s)) (sym : Sym) :
    ∀ (stk : List analyze_scope) (depth : Int), (∀ sc ∈ stk, J sc) →
      ∀ sc ∈ (find_var_loop sym stk depth).2, J sc
  | [], _, _ => by simp [find_var_loop]
  | sc :: up, depth, h => by
    simp only [find_var_loop]
    split
    · rename_i hl
      intro x hx
      rcases List.mem_cons.mp hx with rfl | hx
      · split
        · exact hJ sc sym (h sc (List.mem_cons_self _ _)) hl
        · exact h sc (List.mem_cons_self _ _)
      · exact h x (List.mem_cons_of_mem _ hx)
    · intro x hx
      rcases List.mem_cons.mp hx with rfl | hx
      · exact h _ (List.mem_cons_self _ _)
      · exact find_var_loop_inv hJ sym up _ (fun y hy => h y (List.mem_cons_of_mem _ hy)) x hx

/-- The store after `analyze_var`: the heap is unchanged and the scopes are those
`find_var` leaves. -/
theorem analyze_var_store (s : Sym) (σ : astore) (n : Node) (σ' : astore)
    (h : analyze_var s σ = .ok (n, σ')) :
    σ'.heap = σ.heap ∧ σ'.scope = (find_var s σ.scope).2 ∧ σ'.scope ≠ [] := by
  unfold analyze_var at h
  simp only at h
  split at h
  · cases h
  · split at h
    · cases h
    · rename_i sc up hr
      have : σ' = { σ with scope := sc :: up } := by
        split at h
        · simp only [Except.ok.injEq, Prod.mk.injEq] at h; exact h.2.symm
        · split at h <;>
            (simp only [Except.ok.injEq, Prod.mk.injEq] at h; exact h.2.symm)
      subst this
      exact ⟨rfl, hr.symm, by simp⟩

theorem keep_frame {state : analyze_state} {σ σ' : astore} (hh : σ'.heap = σ.heap)
    (hk : List.Forall₂ scope_grows_keep σ.scope σ'.scope) : ana_frame state σ σ' := by
  refine ⟨0, by simp [hh], ?_⟩
  cases hs1 : σ.scope with
  | nil =>
    rw [hs1] at hk
    cases hs2 : σ'.scope with
    | nil => simp
    | cons c2 u2 => rw [hs2] at hk; cases hk
  | cons c1 u1 =>
    rw [hs1] at hk
    cases hs2 : σ'.scope with
    | nil => rw [hs2] at hk; cases hk
    | cons c2 u2 =>
      rw [hs2] at hk
      cases hk with
      | cons hxy hk =>
        simp only
        exact ⟨hxy.1, hk, by simp [defer_ids, hxy.2]⟩

theorem deep_rules_var {state : analyze_state} {J : analyze_scope → Prop}
    {Q : List analyze_scope → Node → Prop} (R : DeepRules J Q) (s : Sym) (σ : astore)
    (n : Node) (σ' : astore) (hI : deep_inv J σ) (h : analyze_var s σ = .ok (n, σ')) :
    deep_inv J σ' ∧ ana_frame state σ σ' ∧ Shape (deep_leaf Q σ') n := by
  obtain ⟨hh, hs, _⟩ := analyze_var_store s σ n σ' h
  have hk : List.Forall₂ scope_grows_keep σ.scope σ'.scope := by
    rw [hs]; exact find_var_loop_keep s _ _
  have hq := R.var s σ n σ' hI h
  refine ⟨⟨stack_wf_of_grows (stack_grows_of_keep hk) hI.1, ?_⟩, keep_frame hh hk, ?_⟩
  · rw [hs]; exact find_var_loop_inv R.capture s _ _ hI.2
  · rcases analyze_var_tagged s σ n σ' h with rfl | rfl | ⟨d, rfl⟩ <;>
      (simp only [Shape, deep_leaf]; exact hq)

theorem deep_rules_define {state : analyze_state} {J : analyze_scope → Prop}
    {Q : List analyze_scope → Node → Prop} (R : DeepRules J Q) (s : Sym) (σ σ' : astore)
    (hI : deep_inv J σ) (h : define_var s σ = .ok ((), σ')) :
    deep_inv J σ' ∧ ana_frame state σ σ' := by
  unfold define_var at h
  split at h
  · cases h
  · rename_i sc up hs
    split at h
    · simp only [Except.ok.injEq, Prod.mk.injEq, true_and] at h
      subst h
      exact ⟨hI, ana_frame_refl state σ⟩
    · rename_i hl
      simp only [Except.ok.injEq, Prod.mk.injEq, true_and] at h
      subst h
      have hl' : lookup_scope sc s = false := by simpa using hl
      obtain ⟨hw, hJ⟩ := hI
      rw [hs] at hw hJ
      refine ⟨⟨⟨hw.1, hw.2⟩, ?_⟩, ?_⟩
      · intro x hx
        rcases List.mem_cons.mp hx with rfl | hx
        · exact R.define sc s (hJ sc (List.mem_cons_self _ _)) hl'
        · exact hJ x (List.mem_cons_of_mem _ hx)
      · refine ⟨0, by simp, ?_⟩
        rw [hs]
        exact ⟨⟨rfl, rfl, rfl, List.prefix_append _ _, List.prefix_refl _⟩, keep_refl up,
          by simp [defer_ids]⟩

theorem deep_rules_defer {state : analyze_state} {J : analyze_scope → Prop}
    {Q : List analyze_scope → Node → Prop} (R : DeepRules J Q) (nm : Option Sym)
    (f b : Val) (σ : astore) (n : Node) (σ' : astore) (hI : deep_inv J σ)
    (h : analyze_defer state nm f b σ = .ok (n, σ')) :
    deep_inv J σ' ∧ ana_frame state σ σ' ∧ Shape (deep_leaf Q σ') n := by
  unfold analyze_defer at h
  split at h
  · cases h
  · rename_i sc up hs
    simp only [Except.ok.injEq, Prod.mk.injEq] at h
    obtain ⟨e1, e2⟩ := h
    subst e1; subst e2
    obtain ⟨hw, hJ⟩ := hI
    rw [hs] at hw hJ
    refine ⟨⟨⟨hw.1, hw.2⟩, ?_⟩, ?_, ?_⟩
    · intro x hx
      rcases List.mem_cons.mp hx with rfl | hx
      · exact R.defer sc _ (hJ sc (List.mem_cons_self _ _))
      · exact hJ x (List.mem_cons_of_mem _ hx)
    · refine ⟨1, by simp, ?_⟩
      rw [hs]
      exact ⟨⟨rfl, rfl, rfl, List.prefix_refl _, List.prefix_refl _⟩, keep_refl up,
        by simp [defer_ids]⟩
    · simp only [Shape, deep_leaf]
      exact ⟨_, _, rfl, by simp [defer_ids]⟩

/-- The rules of the generic induction hold for the invariant, frame and leaf
property of the deep analysis. -/
theorem deep_anaRules (state : analyze_state) {J : analyze_scope → Prop}
    {Q : List analyze_scope → Node → Prop} (R : DeepRules J Q) :
    AnaRules state (deep_inv J) (ana_frame state) (deep_leaf Q) where
  refl := ana_frame_refl state
  trans := ana_frame_trans state
  mono := deep_leaf_mono R.mono
  var := deep_rules_var R
  define := deep_rules_define R
  defer := deep_rules_defer R

/-! ### Reading a tree through the skeleton cells -/

mutual
theorem TailNorm_read (d : Nat → Node) :
    ∀ n : Node, TailNorm n = true → TailNorm (read_node d n) = true
  | .IF c t e, h => by
    simp only [TailNorm, Bool.and_eq_true] at h
    simp only [read_node, TailNorm, Bool.and_eq_true]
    exact ⟨TailNorm_read d t h.1, TailNorm_read d e h.2⟩
  | .BEGIN es, h => by
    simp only [TailNorm] at h
    simp only [read_node, TailNorm]
    exact TailNormLast_read d es h
  | .TAILCALL es, _ => by simp only [read_node, TailNorm]
  | .TAILCALL_WITH_VALUES p c, _ => by simp only [read_node, TailNorm]
  | .RETURN es, _ => by simp only [read_node, TailNorm]
  | .GREF _, h => by simp [TailNorm] at h
  | .LREF _, h => by simp [TailNorm] at h
  | .CREF _ _, h => by simp [TailNorm] at h
  | .SETBANG _ _, h => by simp [TailNorm] at h
  | .LAMBDA _ _ _ _ _ _, h => by simp [TailNorm] at h
  | .QUOTE _, h => by simp [TailNorm] at h
  | .CALL _, h => by simp [TailNorm] at h
  | .CALL_WITH_VALUES _ _, h => by simp [TailNorm] at h
  | .op1 _ _, h => by simp [TailNorm] at h
  | .op2 _ _ _, h => by simp [TailNorm] at h
  | .skel _, h => by simp [TailNorm] at h
theorem TailNormLast_read (d : Nat → Node) :
    ∀ es : List Node, TailNormLast es = true → TailNormLast (read_nodes d es) = true
  | [], _ => by simp only [read_nodes, TailNormLast]
  | [e], h => by
    simp only [TailNormLast] at h
    simp only [read_nodes, TailNormLast]
    exact TailNorm_read d e h
  | e :: e2 :: es, h => by
    simp only [TailNormLast] at h
    have := TailNormLast_read d (e2 :: es) h
    simp only [read_nodes, TailNormLast] at this ⊢
    exact this
end

section deep

variable {J : analyze_scope → Prop} {Q : List analyze_scope → Node → Prop}

mutual
/-- A node of the shape `P`, read through `d`, is a deep tree when its references
satisfy `Q` and its skeleton cells are read as deep trees. -/
theorem shape_deep (P : Node → Prop) (ctx : List analyze_scope) (d : Nat → Node)
    (href : ∀ m, (∀ c, m ≠ .skel c) → P m → Q ctx m) (hskel : ∀ c, P (.skel c) → Deep J Q ctx (d c)) :
    ∀ n : Node, Shape P n → Deep J Q ctx (read_node d n)
  | .GREF s, h => by simp only [Shape] at h; simp only [read_node, Deep]; exact href _ (by intro c; simp) h
  | .LREF s, h => by simp only [Shape] at h; simp only [read_node, Deep]; exact href _ (by intro c; simp) h
  | .CREF k s, h => by simp only [Shape] at h; simp only [read_node, Deep]; exact href _ (by intro c; simp) h
  | .SETBANG a b, h => by
    simp only [Shape] at h; simp only [read_node, Deep]
    exact ⟨shape_deep P ctx d href hskel a h.1, shape_deep P ctx d href hskel b h.2⟩
  | .LAMBDA _ _ _ _ _ _, h => by simp only [Shape] at h
  | .IF c t e, h => by
    simp only [Shape] at h; simp only [read_node, Deep]
    exact ⟨shape_deep P ctx d href hskel c h.1, shape_deep P ctx d href hskel t h.2.1,
      shape_deep P ctx d href hskel e h.2.2⟩
  | .BEGIN es, h => by
    simp only [Shape] at h; simp only [read_node, Deep]
    exact shape_deep_list P ctx d href hskel es h
  | .QUOTE _, _ => by simp only [read_node, Deep]
  | .CALL es, h => by
    simp only [Shape] at h; simp only [read_node, Deep]
    exact shape_deep_list P ctx d href hskel es h
  | .TAILCALL es, h => by
    simp only [Shape] at h; simp only [read_node, Deep]
    exact shape_deep_list P ctx d href hskel es h
  | .CALL_WITH_VALUES a b, h => by
    simp only [Shape] at h; simp only [read_node, Deep]
    exact ⟨shape_deep P ctx d href hskel a h.1, shape_deep P ctx d href hskel b h.2⟩
  | .TAILCALL_WITH_VALUES a b, h => by
    simp only [Shape] at h; simp only [read_node, Deep]
    exact ⟨shape_deep P ctx d href hskel a h.1, shape_deep P ctx d href hskel b h.2⟩
  | .RETURN es, h => by
    simp only [Shape] at h; simp only [read_node, Deep]
    exact shape_deep_list P ctx d href hskel es h
  | .op1 _ a, h => by
    simp only [Shape] at h; simp only [read_node, Deep]
    exact shape_deep P ctx d href hskel a h
  | .op2 _ a b, h => by
    simp only [Shape] at h; simp only [read_node, Deep]
    exact ⟨shape_deep P ctx d href hskel a h.1, shape_deep P ctx d href hskel b h.2⟩
  | .skel c, h => by simp only [Shape] at h; simp only [read_node]; exact hskel c h
theorem shape_deep_list (P : Node → Prop) (ctx : List analyze_scope) (d : Nat → Node)
    (href : ∀ m, (∀ c, m ≠ .skel c) → P m → Q ctx m) (hskel : ∀ c, P (.skel c) → Deep J Q ctx (d c)) :
    ∀ es : List Node, ShapeList P es → DeepList J Q ctx (read_nodes d es)
  | [], _ => by simp only [read_nodes, DeepList]
  | e :: es, h => by
    simp only [ShapeList] at h; simp only [read_nodes, DeepList]
    exact ⟨shape_deep P ctx d href hskel e h.1, shape_deep_list P ctx d href hskel es h.2⟩
end

end deep

theorem resolve_succ (heap : List Node) (d : Nat) (n : Node) :
    resolve heap (d + 1) n = read_node (deref heap d) n := rfl

theorem deref_of_get {heap : List Node} {c : Nat} {n : Node} (h : heap[c]? = some n)
    (d : Nat) : deref heap d c = resolve heap d n := by
  simp only [deref, h]

/-! ### The deferred lambdas -/

section deep

variable {J : analyze_scope → Prop} {Q : List analyze_scope → Node → Prop}

theorem push_scope_ok (formals : Val) (stk scopes : List analyze_scope)
    (h : push_scope formals stk = (true, scopes)) :
    ∃ varg args locals, analyze_args formals [] = some (varg, args, locals) ∧
      scopes = { depth := depth_above stk, varg := varg, args := args, locals := locals,
                 captures := [], defer := [] } :: stk := by
  unfold push_scope at h
  split at h
  · rename_i varg args locals ha
    simp only [Prod.mk.injEq, true_and] at h
    exact ⟨varg, args, locals, ha, h.symm⟩
  · simp at h

theorem stack_wf_push (stk : List analyze_scope) (hw : stack_wf stk) (sc : analyze_scope)
    (hd : sc.depth = depth_above stk) : stack_wf (sc :: stk) := by
  refine ⟨?_, hw⟩
  rw [hd]
  cases stk with
  | nil => rfl
  | cons up rest => simp only [depth_above, List.length_cons]; rw [hw.1]; push_cast; ring

theorem lambda_scope_depth (up3 stk'' : List analyze_scope) (hw : stack_wf up3)
    (hg : stack_grows up3 stk'') (a l : List Sym) (v : Bool) (c : List Sym) :
    (lambda_scope stk'' a l v c).depth = (up3.length : Int) := by
  unfold lambda_scope
  cases up3 with
  | nil => cases hg; rfl
  | cons u us =>
    cases hg with
    | cons huv hg =>
      simp only [depth_above, List.length_cons]
      rw [huv.1, hw.1]; push_cast; ring

theorem deep_leaf_ref (σ : astore) (m : Node) (hm : ∀ c, m ≠ .skel c)
    (h : deep_leaf Q σ m) : Q σ.scope m := by
  cases m <;> first | exact h | exact absurd rfl (hm _)

theorem mem_range'_rev {c s m : Nat} (h : c ∈ (List.range' s m).reverse) :
    s ≤ c ∧ c < s + m := by
  simpa using h

/-- `analyze_procedure` meets its specification when flushing the `defer` list
does. -/
theorem proc_spec_of (state : analyze_state) (R : DeepRules J Q) (fuel : Nat)
    (flush : AM Unit) (hflush : FlushSpec J Q flush) :
    ProcSpec J Q (analyze_procedure state (analyze state fuel) flush) := by
  intro nm formals body σ L σ' hI h
  unfold analyze_procedure at h
  split at h
  · cases h
  · rename_i scopes hpush
    obtain ⟨varg, args, locals, hargs, hsc⟩ := push_scope_ok formals σ.scope scopes hpush
    subst hsc
    simp only at h
    split at h
    · cases h
    · rename_i body' σ2 hbody
      -- the store after the body
      have hI1 : deep_inv J
          { σ with scope :=
            { depth := depth_above σ.scope, varg := varg, args := args, locals := locals,
              captures := [], defer := [] } :: σ.scope } :=
        ⟨stack_wf_push σ.scope hI.1 _ rfl, by
          intro x hx
          rcases List.mem_cons.mp hx with rfl | hx
          · exact R.push formals varg args locals _ hargs
          · exact hI.2 x hx⟩
      obtain ⟨hI2, hT2, hS2⟩ :=
        analyze_sound (deep_anaRules state R) fuel _ true _ body' σ2 hI1 hbody
      have htail := analyze_tail state fuel _ _ _ _ hbody
      obtain ⟨m, hheap2, hm2⟩ := hT2
      simp only at hheap2 hm2
      cases hs2 : σ2.scope with
      | nil => rw [hs2] at hm2; exact hm2.elim
      | cons S2 up2 =>
        rw [hs2] at hm2
        obtain ⟨hg2, hk2, hids2⟩ := hm2
        simp only [defer_ids, List.map_nil, List.append_nil] at hids2
        have hids2' : defer_ids S2 = (List.range' σ.heap.length m).reverse := hids2
        split at h
        · cases h
        · rename_i u σ3 hfl
          have hnodup : (defer_ids S2).Nodup := by
            rw [hids2']; exact List.nodup_reverse.mpr (List.nodup_range' _ _)
          have hlt : ∀ c ∈ defer_ids S2, c < σ2.heap.length := by
            intro c hc
            rw [hids2'] at hc
            have := mem_range'_rev hc
            rw [hheap2, List.length_append, List.length_replicate]; exact this.2
          obtain ⟨hI3, ⟨S3, up3, hs3, hg3, hd3, hk3⟩, hlen3, hfr3, hdeep3⟩ :=
            hflush σ2 σ3 S2 up2 hI2 hs2 hnodup hlt hfl
          rw [hs3] at h
          simp only [pop_scope, List.tail_cons, Except.ok.injEq, Prod.mk.injEq] at h
          obtain ⟨hL, hσ'⟩ := h
          subst hL; subst hσ'
          have hlen2 : σ2.heap.length = σ.heap.length + m := by
            rw [hheap2, List.length_append, List.length_replicate]
          have hw3 : stack_wf (S3 :: up3) := by rw [← hs3]; exact hI3.1
          refine ⟨⟨hw3.2, fun x hx => hI3.2 x (by rw [hs3]; exact List.mem_cons_of_mem _ hx)⟩,
            keep_trans hk2 hk3, by simp only; omega, ?_, ?_⟩
          · intro i _ hi
            simp only
            have hni : i ∉ defer_ids S2 := by
              intro hc
              rw [hids2'] at hc
              have := mem_range'_rev hc
              omega
            rw [hfr3 i (by omega) hni, hheap2, List.getElem?_append_left hi]
          · intro h'' stk'' d hag hgr hd
            simp only at hag hgr hd
            rw [resolve_succ]
            simp only [read_node, Deep]
            have hdepth := lambda_scope_depth up3 stk'' hw3.2 hgr args S3.locals varg
              S3.captures
            have hgS : scope_grows S3 (lambda_scope stk'' args S3.locals varg S3.captures) :=
              ⟨by rw [hdepth, hw3.1], by
                  simp only [lambda_scope]; rw [hg3.2.1, hg2.2.1],
                by simp only [lambda_scope]; rw [hg3.2.2.1, hg2.2.2.1],
                List.prefix_refl _, List.prefix_refl _⟩
            have hLS : lambda_scope stk'' args S3.locals varg S3.captures =
                { S3 with defer := [] } := by
              have h1 := hgS.1
              have h2 := hgS.2.1
              have h3 := hgS.2.2.1
              simp only [lambda_scope] at h1 h2 h3 ⊢
              cases S3
              simp only at h1 h2 h3 ⊢
              subst h2; subst h3
              simp only [analyze_scope.mk.injEq, and_true, true_and]
              exact h1
            have hstk3 : stack_grows σ3.scope
                (lambda_scope stk'' args S3.locals varg S3.captures :: stk'') := by
              rw [hs3]; exact List.Forall₂.cons hgS hgr
            have hstk2 : stack_grows σ2.scope
                (lambda_scope stk'' args S3.locals varg S3.captures :: stk'') := by
              refine stack_grows_trans ?_ hstk3
              rw [hs2, hs3]
              exact List.Forall₂.cons hg3 (stack_grows_of_keep hk3)
            refine ⟨?_, TailNorm_read _ _ htail, ?_⟩
            · rw [hLS]
              exact R.defer S3 [] (hI3.2 S3 (by rw [hs3]; exact List.mem_cons_self _ _))
            · refine shape_deep (deep_leaf Q σ2) _ _ ?_ ?_ body' hS2
              · intro x hx hq
                exact R.mono _ _ _ hstk2 (deep_leaf_ref σ2 x hx hq)
              · intro c hc
                simp only [deep_leaf] at hc
                obtain ⟨sc, up, hsc, hcm⟩ := hc
                rw [hs2] at hsc
                simp only [List.cons.injEq] at hsc
                obtain ⟨e1, _⟩ := hsc
                subst e1
                have hcr : σ.heap.length ≤ c ∧ c < σ.heap.length + m := by
                  rw [hids2'] at hcm; exact mem_range'_rev hcm
                refine hdeep3 c hcm h'' _ d (hag c hcr.1 (by omega)) ?_ hstk3 (by omega)
                intro i hi1 hi2
                exact hag i (by omega) hi2

end deep

section deep

variable {J : analyze_scope → Prop} {Q : List analyze_scope → Node → Prop}

theorem loop_spec (proc : Option Sym → Val → Val → AM Node) (hproc : ProcSpec J Q proc) :
    ∀ (ds : List deferred) (σ σ' : astore), deep_inv J σ → (ds.map (·.dst)).Nodup →
      (∀ c ∈ ds.map (·.dst), c < σ.heap.length) →
      analyze_deferred_loop proc ds σ = .ok ((), σ') →
      deep_inv J σ' ∧ List.Forall₂ scope_grows_keep σ.scope σ'.scope ∧
      σ.heap.length ≤ σ'.heap.length ∧
      (∀ i, i < σ.heap.length → i ∉ ds.map (·.dst) → σ'.heap[i]? = σ.heap[i]?) ∧
      ∀ c ∈ ds.map (·.dst), ∀ h'' stk'' d, h''[c]? = σ'.heap[c]? →
        agree_on σ'.heap h'' σ.heap.length σ'.heap.length → stack_grows σ'.scope stk'' →
        σ'.heap.length - σ.heap.length < d → Deep J Q stk'' (deref h'' d c) := by
  intro ds
  induction ds with
  | nil =>
    intro σ σ' hI _ _ h
    simp only [analyze_deferred_loop, Except.ok.injEq, Prod.mk.injEq, true_and] at h
    subst h
    exact ⟨hI, keep_refl _, Nat.le_refl _, fun _ _ _ => rfl, fun c hc => by simp at hc⟩
  | cons it ds ih =>
    intro σ σ' hI hnd hlt h
    simp only [analyze_deferred_loop] at h
    split at h
    · cases h
    · rename_i val σ1 hp
      obtain ⟨hI1, hk1, hlen1, hag1, hD1⟩ := hproc _ _ _ σ val σ1 hI hp
      simp only [List.map_cons, List.nodup_cons] at hnd
      have hlt0 : it.dst < σ.heap.length := hlt _ (by simp)
      have hltds : ∀ c ∈ ds.map (·.dst), c < σ.heap.length :=
        fun c hc => hlt c (by simp only [List.map_cons]; exact List.mem_cons_of_mem _ hc)
      obtain ⟨hI2, hk2, hlen2, hfr2, hD2⟩ :=
        ih { σ1 with heap := σ1.heap.set it.dst val } σ' hI1 hnd.2
          (fun c hc => by
            have := hltds c hc
            simp only [List.length_set]; omega) h
      simp only [List.length_set] at hlen2 hfr2 hD2
      refine ⟨hI2, keep_trans hk1 hk2, by omega, ?_, ?_⟩
      · intro i hi hni
        simp only [List.map_cons, List.mem_cons, not_or] at hni
        rw [hfr2 i (by omega) hni.2, List.getElem?_set_ne (Ne.symm hni.1)]
        exact hag1 i (Nat.zero_le _) hi
      · intro c hc h'' stk'' d hget hag hgr hd
        simp only [List.map_cons, List.mem_cons] at hc
        rcases hc with rfl | hc
        · have hval : σ'.heap[it.dst]? = some val := by
            rw [hfr2 it.dst (by omega) hnd.1]
            exact List.getElem?_set_self (by omega)
          rw [deref_of_get (hget.trans hval)]
          obtain ⟨d', rfl⟩ : ∃ d', d = d' + 1 := ⟨d - 1, by omega⟩
          refine hD1 h'' stk'' d' ?_ (stack_grows_trans (stack_grows_of_keep hk2) hgr)
            (by omega)
          intro i hi1 hi2
          rw [hag i hi1 (by omega), hfr2 i hi2 (fun hm => by
            have := hltds i hm
            omega)]
          exact List.getElem?_set_ne (by omega)
        · refine hD2 c hc h'' stk'' d hget ?_ hgr (by omega)
          intro i hi1 hi2
          exact hag i (by omega) hi2

/-- Flushing the `defer` list meets its specification when `analyze_procedure`
does. -/
theorem flush_spec_of (state : analyze_state) (R : DeepRules J Q) (fuel : Nat)
    (hproc : ProcSpec J Q
      (analyze_procedure state (analyze state fuel) (analyze_deferred state fuel))) :
    FlushSpec J Q (analyze_deferred state (fuel + 1)) := by
  intro σ σ' sc up hI hs hnd hlt h
  simp only [analyze_deferred, hs] at h
  split at h
  · cases h
  · rename_i u σ2 hloop
    have hids : sc.defer.reverse.map (·.dst) = (defer_ids sc).reverse := by
      simp [defer_ids]
    obtain ⟨hI2, hk2, hlen2, hfr2, hD2⟩ :=
      loop_spec _ hproc sc.defer.reverse σ σ2 hI
        (by rw [hids]; exact List.nodup_reverse.mpr hnd)
        (by rw [hids]; intro c hc; exact hlt c (List.mem_reverse.mp hc)) hloop
    rw [hids] at hfr2 hD2
    rw [hs] at hk2
    cases hs2 : σ2.scope with
    | nil => rw [hs2] at hk2; cases hk2
    | cons sc2 up2 =>
      rw [hs2] at hk2 h
      simp only [Except.ok.injEq, Prod.mk.injEq, true_and] at h
      subst h
      cases hk2 with
      | cons hsc hup =>
        obtain ⟨hw2, hJ2⟩ := hI2
        rw [hs2] at hw2 hJ2
        have hg : scope_grows sc2 { sc2 with defer := [] } := scope_grows_refl sc2
        refine ⟨⟨⟨hw2.1, hw2.2⟩, ?_⟩, ⟨_, _, rfl, hsc.1, rfl, hup⟩, hlen2, ?_, ?_⟩
        · intro x hx
          rcases List.mem_cons.mp hx with rfl | hx
          · exact R.defer sc2 [] (hJ2 sc2 (List.mem_cons_self _ _))
          · exact hJ2 x (List.mem_cons_of_mem _ hx)
        · intro i hi hni
          exact hfr2 i hi (fun hm => hni (List.mem_reverse.mp hm))
        · intro c hc h'' stk'' d hget hag hgr hd
          refine hD2 c (List.mem_reverse.mpr hc) h'' stk'' d hget hag ?_ hd
          rw [hs2]
          cases hgr with
          | cons h1 h2 =>
            exact List.Forall₂.cons (scope_grows_trans hg h1) h2

/-- Flushing the `defer` list meets its specification for every fuel. -/
theorem flush_spec (state : analyze_state) (R : DeepRules J Q) :
    ∀ fuel, FlushSpec J Q (analyze_deferred state fuel) := by
  intro fuel
  induction fuel with
  | zero => intro σ σ' sc up _ _ _ _ h; simp [analyze_deferred] at h
  | succ fuel ih => exact flush_spec_of state R fuel (proc_spec_of state R fuel _ ih)

theorem new_analyze_state_store (pic : pic_state) (state : analyze_state) (σ : astore)
    (h : new_analyze_state pic = .ok (state, σ)) :
    σ = { scope := [root_scope pic], heap := [] } := by
  unfold new_analyze_state at h
  split at h
  · cases h
  · simp only [push_scope, analyze_args, depth_above, List.nil_append, Except.ok.injEq,
      Prod.mk.injEq] at h
    rw [← h.2]; rfl

/-- The tree `pic_analyze` returns is a deep tree below the root scope as it is
at the end of the analysis, and it is in tail normal form. -/
theorem pic_analyze_deep (R : DeepRules J Q) (pic : pic_state) (hroot : J (root_scope pic))
    (fuel : Nat) (obj : Val) (t : Node) (h : pic_analyze pic fuel obj = .ok t) :
    ∃ root, scope_grows (root_scope pic) root ∧ J root ∧ Deep J Q [root] t ∧
      TailNorm t = true := by
  unfold pic_analyze at h
  split at h
  · cases h
  · rename_i state σ0 hnew
    have hσ0 := new_analyze_state_store pic state σ0 hnew
    subst hσ0
    split at h
    · cases h
    · rename_i res σ1 hana
      have hI0 : deep_inv J { scope := [root_scope pic], heap := [] } :=
        ⟨⟨rfl, trivial⟩, by intro x hx; rw [List.mem_singleton.mp hx]; exact hroot⟩
      obtain ⟨hI1, hT1, hS1⟩ :=
        analyze_sound (deep_anaRules state R) fuel obj true _ res σ1 hI0 hana
      have htail := analyze_tail state fuel _ _ _ _ hana
      obtain ⟨m, hheap1, hm1⟩ := hT1
      simp only [List.nil_append] at hheap1 hm1
      cases hs1 : σ1.scope with
      | nil => rw [hs1] at hm1; exact hm1.elim
      | cons S1 up1 =>
        rw [hs1] at hm1
        obtain ⟨hg1, hk1, hids1⟩ := hm1
        cases hk1
        simp only [List.length_nil, defer_ids, root_scope, List.map_nil,
          List.append_nil] at hids1
        have hids1' : defer_ids S1 = (List.range' 0 m).reverse := hids1
        split at h
        · cases h
        · rename_i u σ2 hfl
          have hlen1 : σ1.heap.length = m := by rw [hheap1, List.length_replicate]
          obtain ⟨hI2, ⟨S2, up2, hs2, hg2, _, hk2⟩, hlen2, _, hD2⟩ :=
            flush_spec state R fuel σ1 σ2 S1 [] hI1 hs1
              (by rw [hids1']; exact List.nodup_reverse.mpr (List.nodup_range' _ _))
              (by intro c hc
                  rw [hids1'] at hc
                  have := mem_range'_rev hc
                  omega) hfl
          cases hk2
          simp only [Except.ok.injEq] at h
          subst h
          refine ⟨S2, scope_grows_trans hg1 hg2,
            hI2.2 S2 (by rw [hs2]; exact List.mem_singleton.mpr rfl), ?_, ?_⟩
          · rw [resolve_succ]
            have hst : stack_grows σ1.scope [S2] := by
              rw [hs1]; exact List.Forall₂.cons hg2 List.Forall₂.nil
            refine shape_deep (deep_leaf Q σ1) _ _ ?_ ?_ res hS1
            · intro x hx hq
              exact R.mono _ _ _ hst (deep_leaf_ref σ1 x hx hq)
            · intro c hc
              simp only [deep_leaf] at hc
              obtain ⟨sc, up, hsc, hcm⟩ := hc
              rw [hs1] at hsc
              simp only [List.cons.injEq] at hsc
              obtain ⟨e1, _⟩ := hsc
              subst e1
              have hcr := mem_range'_rev (by rw [hids1'] at hcm; exact hcm)
              refine hD2 c hcm σ2.heap [S2] σ2.heap.length rfl (fun _ _ _ => rfl) ?_
                (by omega)
              rw [hs2]; exact stack_grows_refl _
          · rw [resolve_succ]
            exact TailNorm_read _ _ htail

end deep

/-! ### Properties of single scopes -/

section scopes

variable {J : analyze_scope → Prop}

theorem find_var_all (R : ScopeRules J) (sym : Sym) (stk : List analyze_scope)
    (h : ∀ sc ∈ stk, J sc) : ∀ sc ∈ (find_var sym stk).2, J sc :=
  find_var_loop_inv R.capture sym stk 0 h

theorem define_var_all (R : ScopeRules J) (sym : Sym) (σ σ' : astore)
    (hI : all_scopes J σ) (h : define_var sym σ = .ok ((), σ')) : all_scopes J σ' := by
  unfold define_var at h
  split at h
  · cases h
  · rename_i sc up hs
    split at h
    · simp only [Except.ok.injEq, Prod.mk.injEq, true_and] at h
      subst h; exact hI
    · rename_i hl
      simp only [Except.ok.injEq, Prod.mk.injEq, true_and] at h
      subst h
      have hl' : lookup_scope sc sym = false := by simpa using hl
      unfold all_scopes at hI ⊢
      rw [hs] at hI
      intro x hx
      rcases List.mem_cons.mp hx with rfl | hx
      · exact R.define sc sym (hI sc (List.mem_cons_self _ _)) hl'
      · exact hI x (List.mem_cons_of_mem _ hx)

/-- The rules of the generic induction for a property of every scope. -/
theorem scope_anaRules (state : analyze_state) (R : ScopeRules J) :
    AnaRules state (all_scopes J) (fun _ _ => True) (fun _ _ => True) where
  refl := fun _ => trivial
  trans := fun _ _ _ _ _ => trivial
  mono := fun _ _ _ _ _ => trivial
  var := by
    intro s σ n σ' hI h
    obtain ⟨_, hs, _⟩ := analyze_var_store s σ n σ' h
    refine ⟨?_, trivial, ?_⟩
    · unfold all_scopes; rw [hs]; exact find_var_all R s _ hI
    · rcases analyze_var_tagged s σ n σ' h with rfl | rfl | ⟨d, rfl⟩ <;> simp [Shape]
  define := fun s σ σ' hI h => ⟨define_var_all R s σ σ' hI h, trivial⟩
  defer := by
    intro nm f b σ n σ' hI h
    unfold analyze_defer at h
    split at h
    · cases h
    · rename_i sc up hs
      simp only [Except.ok.injEq, Prod.mk.injEq] at h
      obtain ⟨e1, e2⟩ := h
      subst e1; subst e2
      refine ⟨?_, trivial, by simp [Shape]⟩
      unfold all_scopes at hI ⊢
      rw [hs] at hI
      intro x hx
      rcases List.mem_cons.mp hx with rfl | hx
      · exact R.defer sc _ (hI sc (List.mem_cons_self _ _))
      · exact hI x (List.mem_cons_of_mem _ hx)

/-- `analyze` keeps a property of every scope on the stack. -/
theorem analyze_all_scopes (state : analyze_state) (R : ScopeRules J) (fuel : Nat)
    (obj : Val) (tailpos : Bool) (σ : astore) (n : Node) (σ' : astore)
    (hI : all_scopes J σ) (h : analyze state fuel obj tailpos σ = .ok (n, σ')) :
    all_scopes J σ' :=
  (analyze_sound (scope_anaRules state R) fuel obj tailpos σ n σ' hI h).1

theorem push_scope_all (R : ScopeRules J) (formals : Val) (stk : List analyze_scope)
    (h : ∀ sc ∈ stk, J sc) : ∀ sc ∈ (push_scope formals stk).2, J sc := by
  unfold push_scope
  split
  · rename_i varg args locals ha
    intro x hx
    rcases List.mem_cons.mp hx with rfl | hx
    · exact R.push formals varg args locals _ ha
    · exact h x hx
  · exact h

theorem loop_all_scopes (proc : Option Sym → Val → Val → AM Node)
    (hproc : ∀ nm f b σ L σ', all_scopes J σ → proc nm f b σ = .ok (L, σ') →
      all_scopes J σ') :
    ∀ (ds : List deferred) (σ σ' : astore), all_scopes J σ →
      analyze_deferred_loop proc ds σ = .ok ((), σ') → all_scopes J σ' := by
  intro ds
  induction ds with
  | nil =>
    intro σ σ' hI h
    simp only [analyze_deferred_loop, Except.ok.injEq, Prod.mk.injEq, true_and] at h
    subst h; exact hI
  | cons it ds ih =>
    intro σ σ' hI h
    simp only [analyze_deferred_loop] at h
    split at h
    · cases h
    · rename_i val σ1 hp
      exact ih { σ1 with heap := σ1.heap.set it.dst val } σ'
        (hproc _ _ _ σ val σ1 hI hp) h

theorem procedure_all_scopes (state : analyze_state) (R : ScopeRules J) (fuel : Nat)
    (flush : AM Unit)
    (hflush : ∀ σ σ', all_scopes J σ → flush σ = .ok ((), σ') → all_scopes J σ')
    (nm : Option Sym) (f b : Val) (σ : astore) (L : Node) (σ' : astore)
    (hI : all_scopes J σ)
    (h : analyze_procedure state (analyze state fuel) flush nm f b σ = .ok (L, σ')) :
    all_scopes J σ' := by
  unfold analyze_procedure at h
  split at h
  · cases h
  · rename_i scopes hpush
    have hall : ∀ sc ∈ scopes, J sc := by
      have := push_scope_all R f σ.scope hI
      rw [hpush] at this; exact this
    split at h
    · cases h
    · split at h
      · cases h
      · rename_i body σ2 hbody
        have hI2 := analyze_all_scopes state R fuel _ _
          { σ with scope := _ } body σ2 hall hbody
        split at h
        · cases h
        · rename_i u σ3 hfl
          have hI3 := hflush σ2 σ3 hI2 hfl
          split at h
          · cases h
          · rename_i sc up hs
            simp only [Except.ok.injEq, Prod.mk.injEq] at h
            rw [← h.2]
            intro x hx
            simp only [pop_scope, hs, List.tail_cons] at hx
            exact hI3 x (by rw [hs]; exact List.mem_cons_of_mem _ hx)

/-- `analyze_deferred` keeps a property of every scope on the stack. -/
theorem flush_all_scopes (state : analyze_state) (R : ScopeRules J) :
    ∀ (fuel : Nat) (σ σ' : astore), all_scopes J σ →
      analyze_deferred state fuel σ = .ok ((), σ') → all_scopes J σ' := by
  intro fuel
  induction fuel with
  | zero => intro σ σ' _ h; simp [analyze_deferred] at h
  | succ fuel ih =>
    intro σ σ' hI h
    simp only [analyze_deferred] at h
    split at h
    · cases h
    · split at h
      · cases h
      · rename_i u σ2 hloop
        have hI2 := loop_all_scopes _
          (fun nm f b σ L σ' hI hp =>
            procedure_all_scopes state R fuel _ ih nm f b σ L σ' hI hp) _ σ σ2 hI hloop
        split at h
        · cases h
        · rename_i sc up hs
          simp only [Except.ok.injEq, Prod.mk.injEq, true_and] at h
          subst h
          unfold all_scopes at hI2 ⊢
          rw [hs] at hI2
          intro x hx
          rcases List.mem_cons.mp hx with rfl | hx
          · exact R.defer sc [] (hI2 sc (List.mem_cons_self _ _))
          · exact hI2 x (List.mem_cons_of_mem _ hx)

theorem deepRules_of_scopeRules (R : ScopeRules J) : DeepRules J (fun _ _ => True) where
  capture := R.capture
  define := R.define
  defer := R.defer
  push := R.push
  mono := fun _ _ _ _ _ => trivial
  var := fun _ _ _ _ _ _ => trivial

mutual
theorem deep_allLambdas {Q : List analyze_scope → Node → Prop}
    (φ : Option Sym → List Sym → List Sym → Bool → List Sym → Node → Prop)
    (hφ : ∀ ctx nm a l v c b, J (lambda_scope ctx a l v c) → TailNorm b = true →
      φ nm a l v c b) :
    ∀ (n : Node) (ctx : List analyze_scope), Deep J Q ctx n → AllLambdas φ n
  | .GREF _, _, _ => by simp only [AllLambdas]
  | .LREF _, _, _ => by simp only [AllLambdas]
  | .CREF _ _, _, _ => by simp only [AllLambdas]
  | .SETBANG a b, ctx, h => by
    simp only [Deep] at h; simp only [AllLambdas]
    exact ⟨deep_allLambdas φ hφ a ctx h.1, deep_allLambdas φ hφ b ctx h.2⟩
  | .LAMBDA nm a l v c b, ctx, h => by
    simp only [Deep] at h; simp only [AllLambdas]
    exact ⟨hφ ctx nm a l v c b h.1 h.2.1, deep_allLambdas φ hφ b _ h.2.2⟩
  | .IF c t e, ctx, h => by
    simp only [Deep] at h; simp only [AllLambdas]
    exact ⟨deep_allLambdas φ hφ c ctx h.1, deep_allLambdas φ hφ t ctx h.2.1,
      deep_allLambdas φ hφ e ctx h.2.2⟩
  | .BEGIN es, ctx, h => by
    simp only [Deep] at h; simp only [AllLambdas]
    exact deep_allLambdas_list φ hφ es ctx h
  | .QUOTE _, _, _ => by simp only [AllLambdas]
  | .CALL es, ctx, h => by
    simp only [Deep] at h; simp only [AllLambdas]
    exact deep_allLambdas_list φ hφ es ctx h
  | .TAILCALL es, ctx, h => by
    simp only [Deep] at h; simp only [AllLambdas]
    exact deep_allLambdas_list φ hφ es ctx h
  | .CALL_WITH_VALUES a b, ctx, h => by
    simp only [Deep] at h; simp only [AllLambdas]
    exact ⟨deep_allLambdas φ hφ a ctx h.1, deep_allLambdas φ hφ b ctx h.2⟩
  | .TAILCALL_WITH_VALUES a b, ctx, h => by
    simp only [Deep] at h; simp only [AllLambdas]
    exact ⟨deep_allLambdas φ hφ a ctx h.1, deep_allLambdas φ hφ b ctx h.2⟩
  | .RETURN es, ctx, h => by
    simp only [Deep] at h; simp only [AllLambdas]
    exact deep_allLambdas_list φ hφ es ctx h
  | .op1 _ a, ctx, h => by
    simp only [Deep] at h; simp only [AllLambdas]
    exact deep_allLambdas φ hφ a ctx h
  | .op2 _ a b, ctx, h => by
    simp only [Deep] at h; simp only [AllLambdas]
    exact ⟨deep_allLambdas φ hφ a ctx h.1, deep_allLambdas φ hφ b ctx h.2⟩
  | .skel _, _, _ => by simp only [AllLambdas]
theorem deep_allLambdas_list {Q : List analyze_scope → Node → Prop}
    (φ : Option Sym → List Sym → List Sym → Bool → List Sym → Node → Prop)
    (hφ : ∀ ctx nm a l v c b, J (lambda_scope ctx a l v c) → TailNorm b = true →
      φ nm a l v c b) :
    ∀ (es : List Node) (ctx : List analyze_scope), DeepList J Q ctx es → AllLambdasList φ es
  | [], _, _ => by simp only [AllLambdasList]
  | e :: es, ctx, h => by
    simp only [DeepList] at h; simp only [AllLambdasList]
    exact ⟨deep_allLambdas φ hφ e ctx h.1, deep_allLambdas_list φ hφ es ctx h.2⟩
end

/-- Every `LAMBDA` node of the tree `pic_analyze` returns satisfies what follows
from a property of single scopes and from the tail normal form of its body. -/
theorem pic_analyze_lambdas (R : ScopeRules J) (pic : pic_state) (hroot : J (root_scope pic))
    (φ : Option Sym → List Sym → List Sym → Bool → List Sym → Node → Prop)
    (hφ : ∀ ctx nm a l v c b, J (lambda_scope ctx a l v c) → TailNorm b = true →
      φ nm a l v c b)
    (fuel : Nat) (obj : Val) (t : Node) (h : pic_analyze pic fuel obj = .ok t) :
    AllLambdas φ t := by
  obtain ⟨root, _, _, hd, _⟩ :=
    pic_analyze_deep (deepRules_of_scopeRules R) pic hroot fuel obj t h
  exact deep_allLambdas φ hφ t _ hd

end scopes

theorem trivial_scopeRules : ScopeRules (fun _ => True) :=
  ⟨fun _ _ _ _ => trivial, fun _ _ _ _ => trivial, fun _ _ _ => trivial,
    fun _ _ _ _ _ _ => trivial⟩

theorem captures_bound_rules : ScopeRules captures_bound where
  capture := by
    intro sc s h hl
    unfold capture_var
    split
    · exact h
    · intro c hc
      simp only [List.mem_append, List.mem_singleton] at hc
      rcases hc with hc | rfl
      · exact h c hc
      · simpa [lookup_scope] using hl
  define := by
    intro sc s h _ c hc
    rcases h c hc with h1 | h1
    · exact Or.inl h1
    · exact Or.inr (List.mem_append_left _ h1)
  defer := fun sc d h => h
  push := by
    intro formals varg args locals depth _ c hc
    simp at hc

theorem captures_nodup_rules : ScopeRules captures_nodup where
  capture := by
    intro sc s h _
    unfold capture_var
    split
    · exact h
    · rename_i hc
      unfold captures_nodup
      simp only
      refine List.Nodup.append h (List.nodup_singleton s) ?_
      intro a ha hb
      rw [List.mem_singleton] at hb
      subst hb
      exact hc (by simpa using ha)
  define := fun sc s h _ => h
  defer := fun sc d h => h
  push := by
    intro formals varg args locals depth _
    exact List.nodup_nil

/-! ### Depth of captured references -/

theorem mem_capture_var (sc : analyze_scope) (s : Sym) : s ∈ (capture_var sc s).captures := by
  unfold capture_var
  split
  · rename_i h; simpa using h
  · simp

theorem find_var_loop_hit (sym : Sym) :
    ∀ (stk : List analyze_scope) (depth : Int), 0 ≤ depth →
      (find_var_loop sym stk depth).1 = -1 ∨
      (depth ≤ (find_var_loop sym stk depth).1 ∧
        ((find_var_loop sym stk depth).1 - depth).toNat < stk.length ∧
        ∃ sc, (find_var_loop sym stk depth).2[((find_var_loop sym stk depth).1 -
            depth).toNat]? = some sc ∧
          (0 < (find_var_loop sym stk depth).1 → sym ∈ sc.captures))
  | [], _, _ => Or.inl rfl
  | sc :: up, depth, hd => by
    simp only [find_var_loop]
    split
    · refine Or.inr ⟨le_refl _, by simp, ?_⟩
      simp only [sub_self, Int.toNat_zero, List.getElem?_cons_zero, Option.some.injEq,
        exists_eq_left']
      intro h0
      simp only [h0, if_true]
      exact mem_capture_var sc sym
    · rcases find_var_loop_hit sym up (depth + 1) (by omega) with h | ⟨h1, h2, sc', h3, h4⟩
      · exact Or.inl h
      · refine Or.inr ⟨by omega, ?_, sc', ?_, h4⟩
        · simp only [List.length_cons]; omega
        · have : ((find_var_loop sym up (depth + 1)).1 - depth).toNat =
              ((find_var_loop sym up (depth + 1)).1 - (depth + 1)).toNat + 1 := by omega
          rw [this, List.getElem?_cons_succ]
          exact h3

theorem forall₂_getElem? {α : Type} {R : α → α → Prop} :
    ∀ {l l' : List α}, List.Forall₂ R l l' → ∀ (i : Nat) (a : α), l[i]? = some a →
      ∃ b, l'[i]? = some b ∧ R a b
  | _, _, .nil, i, a, h => by simp at h
  | _, _, .cons hab hl, 0, a, h => by
    simp only [List.getElem?_cons_zero, Option.some.injEq] at h
    subst h
    exact ⟨_, by simp, hab⟩
  | _, _, .cons _ hl, i + 1, a, h => by
    simp only [List.getElem?_cons_succ] at h ⊢
    exact forall₂_getElem? hl i a h

theorem cref_ok_mono (stk stk' : List analyze_scope) (n : Node) (hg : stack_grows stk stk')
    (h : cref_ok stk n) : cref_ok stk' n := by
  cases n
  case CREF d s =>
    simp only [cref_ok] at h ⊢
    obtain ⟨h1, h2, sc, h3, h4⟩ := h
    obtain ⟨sc', h5, h6⟩ := forall₂_getElem? hg _ _ h3
    exact ⟨h1, by rw [← List.Forall₂.length_eq hg]; exact h2, sc', h5,
      h6.2.2.2.2.subset h4⟩
  all_goals trivial

theorem analyze_var_cref (s : Sym) (σ : astore) (n : Node) (σ' : astore)
    (hw : stack_wf σ.scope) (h : analyze_var s σ = .ok (n, σ')) : cref_ok σ'.scope n := by
  obtain ⟨_, hs, _⟩ := analyze_var_store s σ n σ' h
  have hk := find_var_loop_keep s σ.scope 0
  have hw' : stack_wf σ'.scope := by
    rw [hs]; exact stack_wf_of_grows (stack_grows_of_keep hk) hw
  have hlen : σ'.scope.length = σ.scope.length := by
    rw [hs]; exact (List.Forall₂.length_eq hk).symm
  unfold analyze_var at h
  simp only at h
  split at h
  · cases h
  · rename_i hne
    split at h
    · cases h
    · rename_i sc up hr
      split at h
      · simp only [Except.ok.injEq, Prod.mk.injEq] at h; rw [← h.1]; trivial
      · rename_i hnd
        split at h
        · simp only [Except.ok.injEq, Prod.mk.injEq] at h; rw [← h.1]; trivial
        · rename_i hn0
          simp only [Except.ok.injEq, Prod.mk.injEq] at h
          rw [← h.1]
          simp only [cref_ok]
          have hscope : σ'.scope = sc :: up := by rw [hs]; exact hr
          rw [hscope] at hw' hlen
          rcases find_var_loop_hit s σ.scope 0 (le_refl _) with h1 | ⟨h1, h2, sc', h3, h4⟩
          · exact absurd h1 hne
          · simp only [sub_zero] at h2 h3
            have hd : (find_var s σ.scope).1 = (find_var_loop s σ.scope 0).1 := rfl
            have hdepth := hw'.1
            simp only [List.length_cons] at hlen
            rw [hd] at hnd hn0 ⊢
            refine ⟨by omega, ?_, sc', ?_, h4 (by omega)⟩
            · rw [hscope, List.length_cons]
              have : (find_var_loop s σ.scope 0).1 ≠ (up.length : Int) := by
                rw [← hdepth]; exact hnd
              omega
            · rw [hs]; exact h3

theorem cref_deepRules : DeepRules (fun _ => True) cref_ok where
  capture := fun _ _ _ _ => trivial
  define := fun _ _ _ _ => trivial
  defer := fun _ _ _ => trivial
  push := fun _ _ _ _ _ _ => trivial
  mono := cref_ok_mono
  var := fun s σ n σ' hI h => analyze_var_cref s σ n σ' hI.1 h

mutual
theorem deep_crefs_found :
    ∀ (n : Node) (ctx : List analyze_scope) (caps : List (List Sym)),
      Deep (fun _ => True) cref_ok ctx n → caps.length = ctx.length →
      (∀ i, i + 1 < ctx.length → caps[i]? = ctx[i]?.map (·.captures)) →
      crefs_found caps n = true
  | .GREF _, _, _, _, _, _ => by simp only [crefs_found]
  | .LREF _, _, _, _, _, _ => by simp only [crefs_found]
  | .CREF d s, ctx, caps, h, hl, hc => by
    simp only [Deep, cref_ok] at h
    obtain ⟨h1, h2, sc, h3, h4⟩ := h
    have := hc d.toNat h2
    rw [h3] at this
    simp only [crefs_found, this, Option.map_some', hl, h1, h2, decide_True, Bool.true_and]
    simpa using h4
  | .SETBANG a b, ctx, caps, h, hl, hc => by
    simp only [Deep] at h
    simp only [crefs_found, deep_crefs_found a ctx caps h.1 hl hc,
      deep_crefs_found b ctx caps h.2 hl hc, Bool.and_self]
  | .LAMBDA nm a l v c b, ctx, caps, h, hl, hc => by
    simp only [Deep] at h
    simp only [crefs_found]
    refine deep_crefs_found b _ (c :: caps) h.2.2 (by simp [hl]) ?_
    intro i hi
    cases i with
    | zero => simp [lambda_scope]
    | succ j =>
      simp only [List.length_cons] at hi
      simp only [List.getElem?_cons_succ]
      exact hc j (by omega)
  | .IF c t e, ctx, caps, h, hl, hc => by
    simp only [Deep] at h
    simp only [crefs_found, deep_crefs_found c ctx caps h.1 hl hc,
      deep_crefs_found t ctx caps h.2.1 hl hc, deep_crefs_found e ctx caps h.2.2 hl hc,
      Bool.and_self]
  | .BEGIN es, ctx, caps, h, hl, hc => by
    simp only [Deep] at h
    simp only [crefs_found]
    exact deep_crefs_found_list es ctx caps h hl hc
  | .QUOTE _, _, _, _, _, _ => by simp only [crefs_found]
  | .CALL es, ctx, caps, h, hl, hc => by
    simp only [Deep] at h
    simp only [crefs_found]
    exact deep_crefs_found_list es ctx caps h hl hc
  | .TAILCALL es, ctx, caps, h, hl, hc => by
    simp only [Deep] at h
    simp only [crefs_found]
    exact deep_crefs_found_list es ctx caps h hl hc
  | .CALL_WITH_VALUES a b, ctx, caps, h, hl, hc => by
    simp only [Deep] at h
    simp only [crefs_found, deep_crefs_found a ctx caps h.1 hl hc,
      deep_crefs_found b ctx caps h.2 hl hc, Bool.and_self]
  | .TAILCALL_WITH_VALUES a b, ctx, caps, h, hl, hc => by
    simp only [Deep] at h
    simp only [crefs_found, deep_crefs_found a ctx caps h.1 hl hc,
      deep_crefs_found b ctx caps h.2 hl hc, Bool.and_self]
  | .RETURN es, ctx, caps, h, hl, hc => by
    simp only [Deep] at h
    simp only [crefs_found]
    exact deep_crefs_found_list es ctx caps h hl hc
  | .op1 _ a, ctx, caps, h, hl, hc => by
    simp only [Deep] at h
    simp only [crefs_found]
    exact deep_crefs_found a ctx caps h hl hc
  | .op2 _ a b, ctx, caps, h, hl, hc => by
    simp only [Deep] at h
    simp only [crefs_found, deep_crefs_found a ctx caps h.1 hl hc,
      deep_crefs_found b ctx caps h.2 hl hc, Bool.and_self]
  | .skel _, _, _, h, _, _ => by simp only [Deep] at h
theorem deep_crefs_found_list :
    ∀ (es : List Node) (ctx : List analyze_scope) (caps : List (List Sym)),
      DeepList (fun _ => True) cref_ok ctx es → caps.length = ctx.length →
      (∀ i, i + 1 < ctx.length → caps[i]? = ctx[i]?.map (·.captures)) →
      crefs_found_list caps es = true
  | [], _, _, _, _, _ => by simp only [crefs_found_list]
  | e :: es, ctx, caps, h, hl, hc => by
    simp only [DeepList] at h
    simp only [crefs_found_list, deep_crefs_found e ctx caps h.1 hl hc,
      deep_crefs_found_list es ctx caps h.2 hl hc, Bool.and_self]
end

theorem pic_analyze_crefs_found (pic : pic_state) (fuel : Nat) (obj : Val) (t : Node)
    (h : pic_analyze pic fuel obj = .ok t) : crefs_found [[]] t = true := by
  obtain ⟨root, _, _, hd, _⟩ := pic_analyze_deep cref_deepRules pic trivial fuel obj t h
  exact deep_crefs_found t [root] [[]] hd rfl (by intro i hi; simp at hi)

theorem index_capture_found (st : codegen_state) (s : Sym) (d : Int) (cs : List Sym)
    (hc : (st.map (·.captures))[d.toNat]? = some cs) (hs : s ∈ cs) :
    ∃ i : Nat, index_capture st s d = .ok (i : Int) ∧ cs[i]? = some s := by
  simp only [List.getElem?_map, Option.map_eq_some'] at hc
  obtain ⟨cxt, hcxt, rfl⟩ := hc
  have hlt : d.toNat < st.length := by
    by_contra hcon
    rw [List.getElem?_eq_none (by omega)] at hcxt
    cases hcxt
  have hdrop : st.drop d.toNat = cxt :: st.drop (d.toNat + 1) := by
    rw [List.drop_eq_getElem_cons hlt]
    congr 1
    rw [List.getElem?_eq_getElem hlt] at hcxt
    exact Option.some.inj hcxt
  refine ⟨cxt.captures.indexOf s, ?_, List.getElem?_indexOf hs⟩
  simp only [index_capture, hdrop, xv_scan_eq, hs, if_true, Nat.zero_add]

theorem push_codegen_context_captures {pic : pic_state} {nm : Option Sym}
    {a l : List Sym} {v : Bool} {c : List Sym} {st st' : codegen_state}
    (h : push_codegen_context pic nm a l v c st = .ok st') :
    st'.map (·.captures) = c :: st.map (·.captures) := by
  unfold push_codegen_context create_activation at h
  obtain ⟨ht, hh⟩ := create_activation_loop_frame _ _ _ _ h
  cases st' with
  | nil => simp at hh
  | cons c' up' =>
    simp only [List.tail_cons] at ht
    simp only [List.head?_cons, Option.map_some', Option.some.injEq, cxt_header,
      Prod.mk.injEq] at hh
    simp [ht, hh.2.2.2.2]

theorem same_frame_captures {st st' : codegen_state} (h : same_frame st st') :
    st'.map (·.captures) = st.map (·.captures) := by
  obtain ⟨ht, hh⟩ := h
  cases st with
  | nil =>
    cases st' with
    | nil => rfl
    | cons c' up' => simp at hh
  | cons c up =>
    cases st' with
    | nil => simp at hh
    | cons c' up' =>
      simp only [List.tail_cons] at ht
      simp only [List.head?_cons, Option.map_some', Option.some.injEq, cxt_header,
        Prod.mk.injEq] at hh
      simp [ht, hh.2.2.2.2]

theorem capture_example_ast :
    pic_analyze base_pic 10 capture_example =
      .ok (.TAILCALL [.LAMBDA none [100] [] false [100]
              (.RETURN [.LAMBDA none [101] [] false [] (.RETURN [.CREF 1 100])]),
            .QUOTE (.int 1)]) :=
  eq_of_same_ast (by decide!)

/-- C1: every node `analyze` returns in tail position is headed by one of `IF`,
`BEGIN`, `TAILCALL`, `TAILCALL_WITH_VALUES`, `RETURN`, and so is, recursively,
every subtree in tail position of it; this holds of the tree `pic_analyze`
returns and of the body of every `LAMBDA` node in it. -/
theorem C1_tail_normalization :
    (∀ (state : analyze_state) (fuel : Nat) (obj : Val) (σ : astore) (n : Node)
        (σ' : astore),
      analyze state fuel obj true σ = .ok (n, σ') → TailNorm n = true) ∧
    (∀ (pic : pic_state) (fuel : Nat) (obj : Val) (t : Node),
      pic_analyze pic fuel obj = .ok t →
        TailNorm t = true ∧
        AllLambdas (fun _ _ _ _ _ body => TailNorm body = true) t) := by
  refine ⟨analyze_tail, ?_⟩
  intro pic fuel obj t h
  obtain ⟨root, _, _, hd, ht⟩ :=
    pic_analyze_deep (deepRules_of_scopeRules trivial_scopeRules) pic trivial fuel obj t h
  exact ⟨ht, deep_allLambdas _ (fun _ _ _ _ _ _ _ _ hb => hb) t _ hd⟩

/-- C1 at `((lambda (x) (lambda (y) x)) 1)`: the analysis succeeds and its result
and the bodies of its two lambdas are in tail normal form. -/
theorem C1_tail_normalization_witness :
    ∃ t, pic_analyze base_pic 10 capture_example = .ok t ∧ TailNorm t = true ∧
      AllLambdas (fun _ _ _ _ _ body => TailNorm body = true) t :=
  ⟨_, capture_example_ast, C1_tail_normalization.2 _ _ _ _ capture_example_ast⟩

theorem find_vars_all {J : analyze_scope → Prop} (R : ScopeRules J) :
    ∀ (syms : List Sym) (stk : List analyze_scope), (∀ sc ∈ stk, J sc) →
      ∀ sc ∈ find_vars syms stk, J sc
  | [], _, h => h
  | s :: rest, stk, h => find_vars_all R rest _ (find_var_all R s stk h)

theorem pop_scope_all {J : analyze_scope → Prop} (stk : List analyze_scope)
    (h : ∀ sc ∈ stk, J sc) : ∀ sc ∈ pop_scope stk, J sc :=
  fun sc hsc => h sc (List.mem_of_mem_tail hsc)

theorem new_analyze_state_all {J : analyze_scope → Prop} (pic : pic_state)
    (hroot : J (root_scope pic)) (state : analyze_state) (σ : astore)
    (h : new_analyze_state pic = .ok (state, σ)) : all_scopes J σ := by
  rw [new_analyze_state_store pic state σ h]
  intro sc hsc
  rw [List.mem_singleton.mp hsc]
  exact hroot

/-- C2: scope closure, that every captured symbol of every scope on the stack is
among its `args` or `locals`, holds of the initial store and is kept by every
step that changes a scope (`find_var`, `define_var`, `push_scope`, `pop_scope`)
and by `analyze` and `analyze_deferred`; so in every `LAMBDA` node of the tree
`pic_analyze` returns each captured symbol is among the node's args or
locals. -/
theorem C2_scope_closure :
    (∀ (pic : pic_state) (state : analyze_state) (σ : astore),
      new_analyze_state pic = .ok (state, σ) → all_scopes captures_bound σ) ∧
    (∀ (sym : Sym) (stk : List analyze_scope), (∀ sc ∈ stk, captures_bound sc) →
      ∀ sc ∈ (find_var sym stk).2, captures_bound sc) ∧
    (∀ (sym : Sym) (σ σ' : astore), all_scopes captures_bound σ →
      define_var sym σ = .ok ((), σ') → all_scopes captures_bound σ') ∧
    (∀ (formals : Val) (stk : List analyze_scope), (∀ sc ∈ stk, captures_bound sc) →
      ∀ sc ∈ (push_scope formals stk).2, captures_bound sc) ∧
    (∀ (stk : List analyze_scope), (∀ sc ∈ stk, captures_bound sc) →
      ∀ sc ∈ pop_scope stk, captures_bound sc) ∧
    (∀ (state : analyze_state) (fuel : Nat) (obj : Val) (tailpos : Bool) (σ : astore)
        (n : Node) (σ' : astore),
      all_scopes captures_bound σ → analyze state fuel obj tailpos σ = .ok (n, σ') →
        all_scopes captures_bound σ') ∧
    (∀ (state : analyze_state) (fuel : Nat) (σ σ' : astore),
      all_scopes captures_bound σ → analyze_deferred state fuel σ = .ok ((), σ') →
        all_scopes captures_bound σ') ∧
    (∀ (pic : pic_state) (fuel : Nat) (obj : Val) (t : Node),
      pic_analyze pic fuel obj = .ok t →
        AllLambdas (fun _ args locals _ captures _ =>
          ∀ c ∈ captures, c ∈ args ∨ c ∈ locals) t) := by
  refine ⟨fun pic state σ h => new_analyze_state_all pic (by intro c hc; simp [root_scope] at hc)
      state σ h,
    find_var_all captures_bound_rules, define_var_all captures_bound_rules,
    push_scope_all captures_bound_rules, pop_scope_all,
    fun state fuel obj tailpos σ n σ' hI h =>
      analyze_all_scopes state captures_bound_rules fuel obj tailpos σ n σ' hI h,
    fun state => flush_all_scopes state captures_bound_rules, ?_⟩
  intro pic fuel obj t h
  exact pic_analyze_lambdas captures_bound_rules pic
    (by intro c hc; simp [root_scope] at hc) _
    (fun ctx nm a l v c b hJ _ => hJ) fuel obj t h

/-- C2 at `((lambda (x) (lambda (y) x)) 1)`, whose outer lambda captures its
argument `x`. -/
theorem C2_scope_closure_witness :
    ∃ t, pic_analyze base_pic 10 capture_example = .ok t ∧
      AllLambdas (fun _ args locals _ captures _ =>
        ∀ c ∈ captures, c ∈ args ∨ c ∈ locals) t :=
  ⟨_, capture_example_ast, C2_scope_closure.2.2.2.2.2.2.2 _ _ _ _ capture_example_ast⟩

/-- C3: `capture_var` appends a symbol at the end of `captures` when it is absent
and otherwise changes nothing; so no captures list gets a symbol twice, whatever
sequence of `find_var` calls runs and throughout `analyze` and
`analyze_deferred`, and the captures list of every `LAMBDA` node of the tree
`pic_analyze` returns is duplicate-free. -/
theorem C3_no_duplicate_captures :
    (∀ (sc : analyze_scope) (s : Sym),
      (s ∈ sc.captures → capture_var sc s = sc) ∧
      (s ∉ sc.captures → capture_var sc s = { sc with captures := sc.captures ++ [s] })) ∧
    (∀ (syms : List Sym) (stk : List analyze_scope), (∀ sc ∈ stk, sc.captures.Nodup) →
      ∀ sc ∈ find_vars syms stk, sc.captures.Nodup) ∧
    (∀ (formals : Val) (stk : List analyze_scope), (∀ sc ∈ stk, sc.captures.Nodup) →
      ∀ sc ∈ (push_scope formals stk).2, sc.captures.Nodup) ∧
    (∀ (state : analyze_state) (fuel : Nat) (obj : Val) (tailpos : Bool) (σ : astore)
        (n : Node) (σ' : astore),
      all_scopes captures_nodup σ → analyze state fuel obj tailpos σ = .ok (n, σ') →
        all_scopes captures_nodup σ') ∧
    (∀ (state : analyze_state) (fuel : Nat) (σ σ' : astore),
      all_scopes captures_nodup σ → analyze_deferred state fuel σ = .ok ((), σ') →
        all_scopes captures_nodup σ') ∧
    (∀ (pic : pic_state) (fuel : Nat) (obj : Val) (t : Node),
      pic_analyze pic fuel obj = .ok t →
        AllLambdas (fun _ _ _ _ captures _ => captures.Nodup) t) := by
  refine ⟨?_, find_vars_all captures_nodup_rules, push_scope_all captures_nodup_rules,
    fun state fuel obj tailpos σ n σ' hI h =>
      analyze_all_scopes state captures_nodup_rules fuel obj tailpos σ n σ' hI h,
    fun state => flush_all_scopes state captures_nodup_rules, ?_⟩
  · intro sc s
    unfold capture_var
    constructor
    · intro h; simp [h]
    · intro h; simp [h]
  · intro pic fuel obj t h
    exact pic_analyze_lambdas captures_nodup_rules pic List.nodup_nil _
      (fun ctx nm a l v c b hJ _ => hJ) fuel obj t h

/-- C3 at three `find_var` calls for the same variable from two scopes further
in: the owner's captures list holds it once. -/
theorem C3_no_duplicate_captures_witness :
    ∀ sc ∈ find_vars [100, 100, 100]
        [{ depth := 2, varg := false, args := [], locals := [], captures := [], defer := [] },
         { depth := 1, varg := false, args := [100], locals := [], captures := [],
           defer := [] },
         { depth := 0, varg := false, args := [], locals := [], captures := [],
           defer := [] }],
      sc.captures.Nodup :=
  C3_no_duplicate_captures.2.1 _ _ (by
    intro sc hsc
    simp only [List.mem_cons, List.mem_singleton, List.not_mem_nil, or_false] at hsc
    rcases hsc with rfl | rfl | rfl <;> exact List.nodup_nil)

/-! ### Classification of references -/

theorem find_var_loop_nearest (sym : Sym) :
    ∀ (stk : List analyze_scope) (depth : Int),
      (find_var_loop sym stk depth).1 =
        match nearest_binding sym stk with
        | none => -1
        | some d => depth + (d : Int)
  | [], _ => rfl
  | sc :: up, depth => by
    simp only [find_var_loop, nearest_binding]
    by_cases h : sym ∈ sc.args ++ sc.locals
    · simp [(lookup_scope_iff sc sym).mpr h, h]
    · have hl : lookup_scope sc sym = false := by
        cases hb : lookup_scope sc sym
        · rfl
        · exact absurd ((lookup_scope_iff sc sym).mp hb) h
      simp only [hl, h, if_false, Bool.false_eq_true]
      rw [find_var_loop_nearest sym up (depth + 1)]
      cases nearest_binding sym up with
      | none => rfl
      | some d => simp only [Option.map_some']; push_cast; ring

theorem nearest_binding_lt (sym : Sym) :
    ∀ (stk : List analyze_scope) (d : Nat), nearest_binding sym stk = some d → d < stk.length
  | [], _, h => by simp [nearest_binding] at h
  | sc :: up, d, h => by
    simp only [nearest_binding] at h
    split at h
    · simp only [Option.some.injEq] at h; subst h; simp
    · cases hn : nearest_binding sym up with
      | none => simp [hn] at h
      | some d' =>
        simp only [hn, Option.map_some', Option.some.injEq] at h
        subst h
        simpa using nearest_binding_lt sym up d' hn

theorem analyze_var_classify (sym : Sym) (σ : astore) (hw : stack_wf σ.scope) :
    (analyze_var sym σ).map Prod.fst = classify sym σ.scope := by
  have hfst := find_var_loop_nearest sym σ.scope 0
  have hk := find_var_loop_keep sym σ.scope 0
  unfold analyze_var classify find_var
  simp only
  cases hn : nearest_binding sym σ.scope with
  | none =>
    rw [hn] at hfst
    simp only [hfst, if_true]
    rfl
  | some d =>
    rw [hn] at hfst
    simp only [zero_add] at hfst
    have hlt := nearest_binding_lt sym σ.scope d hn
    have hne : ¬ ((find_var_loop sym σ.scope 0).1 = -1) := by
      rw [hfst]; intro hc; have := Int.natCast_nonneg d; rw [hc] at this; exact absurd this (by decide)
    simp only [hne, if_false]
    cases hs : σ.scope with
    | nil => rw [hs] at hlt; simp at hlt
    | cons sc up =>
      rw [hs] at hk hw hfst
      cases hr : (find_var_loop sym (sc :: up) 0).2 with
      | nil => rw [hr] at hk; cases hk
      | cons sc' up' =>
        rw [hr] at hk
        cases hk with
        | cons h1 h2 =>
          have hd : sc'.depth = (up.length : Int) := by rw [h1.1.1, hw.1]
          simp only [hfst, hd, List.length_cons]
          by_cases h0 : d = up.length
          · simp [h0, Except.map]
          · have h0' : ¬ ((d : Int) = (up.length : Int)) := by exact_mod_cast h0
            have h0'' : ¬ (d + 1 = up.length + 1) := by omega
            simp only [h0', h0'', if_false]
            by_cases h1 : d = 0
            · simp [h1, Except.map]
            · have h1' : ¬ ((d : Int) = 0) := by exact_mod_cast h1
              simp [h1, h1', Except.map]

/-! ### The dispatch on the head symbol -/

theorem form_of_table (state : analyze_state) (sym : Sym) :
    form_of state sym = first_match sym (form_table state) := rfl

theorem first_match_not_mem (sym : Sym) :
    ∀ (tbl : List (Sym × form_kind)), sym ∉ tbl.map Prod.fst → first_match sym tbl = .other
  | [], _ => rfl
  | (x, k) :: rest, h => by
    simp only [List.map_cons, List.mem_cons, not_or] at h
    simp only [first_match, h.1, if_false]
    exact first_match_not_mem sym rest h.2

theorem first_match_mem (sym : Sym) (k : form_kind) :
    ∀ (tbl : List (Sym × form_kind)), (tbl.map Prod.fst).Nodup → (sym, k) ∈ tbl →
      first_match sym tbl = k
  | [], _, h => by simp at h
  | (x, k') :: rest, hnd, h => by
    simp only [List.map_cons, List.nodup_cons] at hnd
    simp only [first_match]
    rcases List.mem_cons.mp h with h | h
    · simp only [Prod.mk.injEq] at h
      simp [h.1, h.2]
    · have hne : sym ≠ x := by
        intro e
        apply hnd.1
        rw [← e]
        exact List.mem_map_of_mem Prod.fst h
      simp only [hne, if_false]
      exact first_match_mem sym k rest hnd.2 h

theorem form_of_other (state : analyze_state) (sym : Sym)
    (h : sym ∉ special_symbols state) : form_of state sym = .other := by
  rw [form_of_table]
  exact first_match_not_mem sym _ h

theorem form_of_special (state : analyze_state) (hnd : (special_symbols state).Nodup)
    (sym : Sym) (k : form_kind) (h : (sym, k) ∈ form_table state) : form_of state sym = k := by
  rw [form_of_table]
  exact first_match_mem sym k _ hnd h

theorem list_elems_pic_list : ∀ (xs : List Val), list_elems (pic_list xs) = some xs
  | [] => rfl
  | x :: xs => by simp [pic_list, list_elems, list_elems_pic_list xs]

theorem analyze_node_form (state : analyze_state) (ana : Val → Bool → AM Node) (sym : Sym)
    (args : List Val) (tailpos : Bool) (σ : astore) :
    analyze_node state ana (pic_list (.sym sym :: args)) tailpos σ =
      analyze_form state ana sym (.sym sym :: args) tailpos σ := by
  have h := list_elems_pic_list (.sym sym :: args)
  simp only [pic_list] at h
  simp only [pic_list, analyze_node, h]

theorem new_analyze_state_base :
    new_analyze_state base_pic = .ok (base_state, base_store) := rfl

theorem pic_compile_fuel_mono (pic : pic_state) (fuel fuel' : Nat) (hle : fuel ≤ fuel')
    (obj : Val) (r : pic_irep) (h : pic_compile pic fuel obj = .ok r) :
    pic_compile pic fuel' obj = .ok r := by
  unfold pic_compile at h ⊢
  split at h
  · cases h
  · rename_i ast h1
    rw [pic_analyze_fuel_mono pic fuel fuel' hle obj ast h1]
    exact h

/-! ### Calls -/

theorem analyze_call_shape (ana : Val → Bool → AM Node) (obj : List Val) (tailpos : Bool)
    (σ : astore) (n : Node) (σ' : astore) (h : analyze_call ana obj tailpos σ = .ok (n, σ')) :
    ∃ ns, analyze_seq ana obj false σ = .ok (ns, σ') ∧
      n = if tailpos then .TAILCALL ns else .CALL ns := by
  unfold analyze_call at h
  split at h
  · cases h
  · rename_i ns σ1 h1
    simp only [Except.ok.injEq, Prod.mk.injEq] at h
    exact ⟨ns, by rw [h1, h.2], h.1.symm⟩

theorem analyze_passes (state : analyze_state) (fuel : Nat) (obj : Val) (tailpos : Bool)
    (σ : astore) (n : Node) (σ' : astore)
    (h : analyze_node state (analyze state fuel) obj tailpos σ = .ok (n, σ'))
    (hp : tailpos = true → tail_tag n = true) (hs : ∀ c, n ≠ .skel c) :
    analyze state (fuel + 1) obj tailpos σ = .ok (n, σ') := by
  rw [analyze, h]
  simp only
  cases tailpos with
  | false => rfl
  | true =>
    have : passes_through σ'.heap n = true := by
      cases n <;> first | exact hp rfl | exact absurd rfl (hs _)
    simp [this]

theorem analyze_call_node (state : analyze_state) (fuel : Nat) (sym : Sym) (args : List Val)
    (tailpos : Bool) (σ : astore) (n : Node) (σ' : astore)
    (hsym : sym ∉ special_symbols state)
    (h : analyze state fuel (pic_list (.sym sym :: args)) tailpos σ = .ok (n, σ')) :
    ∃ ns, n = if tailpos then .TAILCALL ns else .CALL ns := by
  cases fuel with
  | zero => simp [analyze] at h
  | succ fuel =>
    rw [analyze, analyze_node_form, analyze_form, form_of_other state sym hsym] at h
    simp only at h
    split at h
    · cases h
    · rename_i res σ1 h1
      obtain ⟨ns, _, hn⟩ := analyze_call_shape _ _ _ _ _ _ h1
      subst hn
      cases tailpos with
      | false =>
        simp only [Bool.false_eq_true, if_false, Except.ok.injEq, Prod.mk.injEq] at h
        exact ⟨ns, by simp [← h.1]⟩
      | true =>
        simp only [if_true, passes_through, tail_tag, Except.ok.injEq, Prod.mk.injEq] at h
        exact ⟨ns, by simp [← h.1]⟩

/-- C20: on a scope stack whose `depth` fields count the scopes below, the node
`analyze_var` returns for a symbol is the one the classification by the nearest
binding scope gives: an unbound-variable error when no scope binds the symbol,
`(GREF sym)` when the nearest binding scope is the outermost one, else
`(LREF sym)` at distance 0 and `(CREF d sym)` at distance `d > 0`. -/
theorem C20_variable_classification (sym : Sym) (σ : astore) (hw : stack_wf σ.scope) :
    (analyze_var sym σ).map Prod.fst = classify sym σ.scope ∧
    (classify sym σ.scope = .error (.unbound_variable sym) ↔
      ∀ sc ∈ σ.scope, sym ∉ sc.args ++ sc.locals) := by
  refine ⟨analyze_var_classify sym σ hw, ?_⟩
  have hnone : ∀ stk : List analyze_scope,
      nearest_binding sym stk = none ↔ ∀ sc ∈ stk, sym ∉ sc.args ++ sc.locals := by
    intro stk
    induction stk with
    | nil => simp [nearest_binding]
    | cons sc up ih =>
      simp only [nearest_binding, List.mem_cons, forall_eq_or_imp]
      by_cases h : sym ∈ sc.args ++ sc.locals
      · simp [h]
      · simp only [h, if_false, Option.map_eq_none', ih, not_false_eq_true, true_and]
  rw [← hnone]
  unfold classify
  cases hn : nearest_binding sym σ.scope with
  | none => simp
  | some d =>
    simp only [reduceCtorEq, iff_false]
    split_ifs <;> simp

/-- C20 at a stack of three scopes: the argument `x` of the middle scope, seen
from the innermost scope, is `(CREF 1 x)`. -/
theorem C20_variable_classification_witness :
    stack_wf scopes_example.scope ∧
    (analyze_var 100 scopes_example).map Prod.fst = .ok (.CREF 1 100) :=
  ⟨⟨rfl, rfl, rfl, trivial⟩,
    (C20_variable_classification 100 scopes_example ⟨rfl, rfl, rfl, trivial⟩).1.trans rfl⟩

/-- C14: a form whose head symbol is none of the special-form symbols and none of
the renamed primitive symbols is analyzed by `analyze_call`, whose result is a
`CALL` node in non-tail and a `TAILCALL` node in tail position, and so is the
result of `analyze`; in `((lambda (cons) (cons 1 2)) list)`, where the parameter
is a symbol other than the renamed primitive, the inner call is a `TAILCALL`
node, compiled to `OP_TAILCALL`, and no `OP_CONS` is emitted. -/
theorem C14_call_by_identity :
    (∀ (state : analyze_state) (ana : Val → Bool → AM Node) (sym : Sym) (args : List Val)
        (tailpos : Bool) (σ : astore), sym ∉ special_symbols state →
      analyze_node state ana (pic_list (.sym sym :: args)) tailpos σ =
        analyze_call ana (.sym sym :: args) tailpos σ) ∧
    (∀ (ana : Val → Bool → AM Node) (obj : List Val) (tailpos : Bool) (σ : astore)
        (n : Node) (σ' : astore), analyze_call ana obj tailpos σ = .ok (n, σ') →
      ∃ ns, analyze_seq ana obj false σ = .ok (ns, σ') ∧
        n = if tailpos then .TAILCALL ns else .CALL ns) ∧
    (∀ (state : analyze_state) (fuel : Nat) (sym : Sym) (args : List Val) (tailpos : Bool)
        (σ : astore) (n : Node) (σ' : astore), sym ∉ special_symbols state →
      analyze state fuel (pic_list (.sym sym :: args)) tailpos σ = .ok (n, σ') →
      ∃ ns, n = if tailpos then .TAILCALL ns else .CALL ns) ∧
    (∀ k : Nat,
      pic_analyze list_pic (k + 10) shadow_example =
        .ok (.TAILCALL [.LAMBDA none [100] [] false []
                (.TAILCALL [.LREF 100, .QUOTE (.int 1), .QUOTE (.int 2)]),
              .GREF 28]) ∧
      ∃ r, pic_compile list_pic (k + 10) shadow_example = .ok r ∧
        r.child_code 0 = [⟨.OP_LREF, .i 1⟩, ⟨.OP_PUSHINT, .i 1⟩, ⟨.OP_PUSHINT, .i 2⟩,
                          ⟨.OP_TAILCALL, .i 3⟩] ∧
        ∀ c ∈ r.all_code, c.insn ≠ .OP_CONS) := by
  refine ⟨?_, analyze_call_shape, ?_, ?_⟩
  · intro state ana sym args tailpos σ hsym
    rw [analyze_node_form, analyze_form, form_of_other state sym hsym]
  · intro state fuel sym args tailpos σ n σ' hsym h
    exact analyze_call_node state fuel sym args tailpos σ n σ' hsym h
  · intro k
    have ha : pic_analyze list_pic 10 shadow_example =
        .ok (.TAILCALL [.LAMBDA none [100] [] false []
                (.TAILCALL [.LREF 100, .QUOTE (.int 1), .QUOTE (.int 2)]),
              .GREF 28]) := eq_of_same_ast (by decide!)
    have hc : pic_compile list_pic 10 shadow_example =
        .ok (.mk 7 false 1 0 0
              [⟨.OP_LAMBDA, .i 0⟩, ⟨.OP_GREF, .i 0⟩, ⟨.OP_TAILCALL, .i 2⟩]
              [some (.mk 7 false 2 0 0
                [⟨.OP_LREF, .i 1⟩, ⟨.OP_PUSHINT, .i 1⟩, ⟨.OP_PUSHINT, .i 2⟩,
                 ⟨.OP_TAILCALL, .i 3⟩] [] [] [])]
              [] [28]) := eq_of_same_irep (by decide!)
    refine ⟨pic_analyze_fuel_mono _ 10 _ (Nat.le_add_left 10 k) _ _ ha,
      _, pic_compile_fuel_mono _ 10 _ (Nat.le_add_left 10 k) _ _ hc, rfl, ?_⟩
    decide

/-- C14 at the head symbol 100 of `(cons 1 2)` under `base_pic`, whose renamed
primitive `cons` is the symbol 10: the form is analyzed to a `CALL` node. -/
theorem C14_call_by_identity_witness :
    (100 : Sym) ∉ special_symbols base_state ∧
    analyze base_state 3 (pic_list [.sym 100, .int 1, .int 2]) false param_store =
      .ok (.CALL [.GREF 100, .QUOTE (.int 1), .QUOTE (.int 2)], param_store) ∧
    ∃ ns, Node.CALL [.GREF 100, .QUOTE (.int 1), .QUOTE (.int 2)] = .CALL ns := by
  have h : analyze base_state 3 (pic_list [.sym 100, .int 1, .int 2]) false param_store =
      .ok (.CALL [.GREF 100, .QUOTE (.int 1), .QUOTE (.int 2)], param_store) := rfl
  exact ⟨by decide, h, C14_call_by_identity.2.2.1 base_state 3 100
    [.int 1, .int 2] false _ _ _ (by decide) h⟩

/-! ### Arithmetic forms -/

theorem fold_args_spec (ana : Val → Bool → AM Node) (op : Tag2) :
    ∀ (args : List Val) (acc : Node) (σ : astore),
      fold_args ana op acc args σ =
        match operands_in_order ana args σ with
        | .error err => .error err
        | .ok (ns, σ') => .ok (left_nested op acc ns, σ')
  | [], acc, σ => rfl
  | a :: rest, acc, σ => by
    simp only [fold_args, operands_in_order]
    cases ana a false σ with
    | error e => rfl
    | ok p =>
      simp only
      rw [fold_args_spec ana op rest]
      cases operands_in_order ana rest p.2 with
      | error e => rfl
      | ok q => rfl

theorem FOLD_ARGS_spec (ana : Val → Bool → AM Node) (op : Tag2) (es : List Val) (σ : astore) :
    FOLD_ARGS ana op es σ = arith_fold ana op es σ := by
  cases es with
  | nil => rfl
  | cons a rest =>
    simp only [FOLD_ARGS, arith_fold, operands_in_order]
    cases ana a false σ with
    | error e => rfl
    | ok p =>
      simp only
      rw [fold_args_spec ana op rest]
      cases operands_in_order ana rest p.2 with
      | error e => rfl
      | ok q => rfl

theorem left_nested_op2 (op : Tag2) :
    ∀ (ns : List Node) (acc : Node), ns ≠ [] → ∃ a b, left_nested op acc ns = .op2 op a b
  | [], _, h => absurd rfl h
  | [n], acc, _ => ⟨acc, n, rfl⟩
  | n :: m :: ns, acc, _ => by
    simp only [left_nested]
    exact left_nested_op2 op (m :: ns) _ (by simp)

theorem operands_in_order_length (ana : Val → Bool → AM Node) :
    ∀ (es : List Val) (σ : astore) (ns : List Node) (σ' : astore),
      operands_in_order ana es σ = .ok (ns, σ') → ns.length = es.length
  | [], σ, ns, σ', h => by
    simp only [operands_in_order, Except.ok.injEq, Prod.mk.injEq] at h
    rw [← h.1]; rfl
  | e :: es, σ, ns, σ', h => by
    simp only [operands_in_order] at h
    split at h
    · cases h
    · rename_i n σ1 h1
      split at h
      · cases h
      · rename_i ns1 σ2 h2
        simp only [Except.ok.injEq, Prod.mk.injEq] at h
        rw [← h.1, List.length_cons, List.length_cons,
          operands_in_order_length ana es σ1 ns1 σ2 h2]

theorem arith_fold_op2 (ana : Val → Bool → AM Node) (op : Tag2) (e1 e2 : Val)
    (rest : List Val) (σ : astore) (n : Node) (σ' : astore)
    (h : arith_fold ana op (e1 :: e2 :: rest) σ = .ok (n, σ')) : ∃ a b, n = .op2 op a b := by
  unfold arith_fold at h
  split at h
  · cases h
  · cases h
  · rename_i n1 ns σ1 h1
    simp only [Except.ok.injEq, Prod.mk.injEq] at h
    have hl := operands_in_order_length ana _ _ _ _ h1
    have hne : ns ≠ [] := by
      intro e; subst e; simp at hl
    obtain ⟨a, b, e⟩ := left_nested_op2 op ns n1 hne
    exact ⟨a, b, by rw [← h.1, e]⟩

theorem analyze_quote_const (state : analyze_state) (fuel : Nat) (v : Val) (σ : astore)
    (hs : ∀ s, v ≠ .sym s) (hp : ∀ a d, v ≠ .pair a d) :
    analyze state (fuel + 1) v false σ = .ok (.QUOTE v, σ) := by
  rw [analyze]
  cases v <;> first
    | rfl
    | exact absurd rfl (hs _)
    | exact absurd rfl (hp _ _)

theorem analyze_nontail (state : analyze_state) (fuel : Nat) (obj : Val) (σ : astore) :
    analyze state (fuel + 1) obj false σ = analyze_node state (analyze state fuel) obj false σ := by
  rw [analyze]
  cases analyze_node state (analyze state fuel) obj false σ with
  | error e => rfl
  | ok p => rfl

theorem analyze_div_one (state : analyze_state) (hnd : (special_symbols state).Nodup)
    (fuel : Nat) (x : Val) (σ : astore) :
    analyze state (fuel + 3) (pic_list [.sym state.rDIV, x]) false σ =
      match analyze state (fuel + 1) x false σ with
      | .error err => .error err
      | .ok (n, σ') =>
        .ok (.op2 .DIV
          (.QUOTE (if state.pic.PIC_ENABLE_FLOAT then .float 1 else .int 1)) n, σ') := by
  have hk : form_of state state.rDIV = .DIV :=
    form_of_special state hnd _ _ (by simp [form_table])
  rw [analyze_nontail, analyze_node_form, analyze_form, hk]
  simp only [analyze_div]
  rw [analyze_nontail, analyze_node_form, analyze_form, hk]
  simp only [analyze_div, FOLD_ARGS]
  have hq : analyze state (fuel + 1)
      (if state.pic.PIC_ENABLE_FLOAT then Val.float 1 else Val.int 1) false σ =
      .ok (.QUOTE (if state.pic.PIC_ENABLE_FLOAT then .float 1 else .int 1), σ) := by
    apply analyze_quote_const
    · intro s; split <;> simp
    · intro a d; split <;> simp
  rw [hq]
  simp only [fold_args]

/-- C12: when the special symbols of a state are pairwise distinct, a form whose
head is the renamed `+`, `-`, `*` or `/` and which has at least two operands is
analyzed to the left-nested `ADD`, `SUB`, `MUL` resp. `DIV` node of its operands,
which are analyzed in source order in non-tail position; the result is an
intrinsic node, not a call. -/
theorem C12_arithmetic_left_fold :
    (∀ (state : analyze_state), (special_symbols state).Nodup →
      ∀ (ana : Val → Bool → AM Node) (e1 e2 : Val) (rest : List Val) (tailpos : Bool)
        (σ : astore),
      analyze_node state ana (pic_list (.sym state.rADD :: e1 :: e2 :: rest)) tailpos σ =
        arith_fold ana .ADD (e1 :: e2 :: rest) σ ∧
      analyze_node state ana (pic_list (.sym state.rSUB :: e1 :: e2 :: rest)) tailpos σ =
        arith_fold ana .SUB (e1 :: e2 :: rest) σ ∧
      analyze_node state ana (pic_list (.sym state.rMUL :: e1 :: e2 :: rest)) tailpos σ =
        arith_fold ana .MUL (e1 :: e2 :: rest) σ ∧
      analyze_node state ana (pic_list (.sym state.rDIV :: e1 :: e2 :: rest)) tailpos σ =
        arith_fold ana .DIV (e1 :: e2 :: rest) σ) ∧
    (∀ (ana : Val → Bool → AM Node) (op : Tag2) (e1 e2 : Val) (rest : List Val) (σ : astore)
        (n : Node) (σ' : astore),
      arith_fold ana op (e1 :: e2 :: rest) σ = .ok (n, σ') →
        (∃ a b, n = .op2 op a b) ∧
        ∃ n1 ns, operands_in_order ana (e1 :: e2 :: rest) σ = .ok (n1 :: ns, σ') ∧
          ns.length = rest.length + 1 ∧ n = left_nested op n1 ns) ∧
    (∀ k : Nat, pic_analyze base_pic (k + 10) add_example =
      .ok (.RETURN [.op2 .ADD (.op2 .ADD (.QUOTE (.int 1)) (.QUOTE (.int 2)))
        (.QUOTE (.int 3))])) := by
  refine ⟨?_, ?_, ?_⟩
  · intro state hnd ana e1 e2 rest tailpos σ
    refine ⟨?_, ?_, ?_, ?_⟩
    · rw [analyze_node_form, analyze_form,
        form_of_special state hnd _ .ADD (by simp [form_table])]
      simp only [analyze_add]
      exact FOLD_ARGS_spec ana .ADD _ σ
    · rw [analyze_node_form, analyze_form,
        form_of_special state hnd _ .SUB (by simp [form_table])]
      simp only [analyze_sub]
      exact FOLD_ARGS_spec ana .SUB _ σ
    · rw [analyze_node_form, analyze_form,
        form_of_special state hnd _ .MUL (by simp [form_table])]
      simp only [analyze_mul]
      exact FOLD_ARGS_spec ana .MUL _ σ
    · rw [analyze_node_form, analyze_form,
        form_of_special state hnd _ .DIV (by simp [form_table])]
      simp only [analyze_div]
      exact FOLD_ARGS_spec ana .DIV _ σ
  · intro ana op e1 e2 rest σ n σ' h
    refine ⟨arith_fold_op2 ana op e1 e2 rest σ n σ' h, ?_⟩
    unfold arith_fold at h
    split at h
    · cases h
    · cases h
    · rename_i n1 ns σ1 h1
      simp only [Except.ok.injEq, Prod.mk.injEq] at h
      have hl := operands_in_order_length ana _ _ _ _ h1
      exact ⟨n1, ns, by rw [h1, h.2], by simpa using hl, h.1.symm⟩
  · intro k
    exact pic_analyze_fuel_mono _ 10 _ (Nat.le_add_left 10 k) _ _
      (eq_of_same_ast (by decide!))

/-- C12 at `(+ 1 2 3)` under `base_pic`: the analysis in non-tail position is
`(ADD (ADD (QUOTE 1) (QUOTE 2)) (QUOTE 3))`. -/
theorem C12_arithmetic_left_fold_witness :
    (special_symbols base_state).Nodup ∧
    analyze_node base_state (analyze base_state 2) add_example false base_store =
      .ok (.op2 .ADD (.op2 .ADD (.QUOTE (.int 1)) (.QUOTE (.int 2))) (.QUOTE (.int 3)),
        base_store) :=
  ⟨by decide, ((C12_arithmetic_left_fold.1 base_state (by decide) (analyze base_state 2)
    (.int 1) (.int 2) [.int 3] false base_store).1).trans rfl⟩

/-- C13: when the special symbols of a state are pairwise distinct, `(+)` is
analyzed to `(QUOTE 0)` and `(*)` to `(QUOTE 1)`; `(+ x)` and `(* x)` to the
analysis of `x` in the same position; `(- x)` to `(MINUS x')`; `(/ x)` to the
analysis of `(/ 1 x)`, which is `(DIV (QUOTE 1) x')`, the `1` a float when floats
are enabled; `(-)` and `(/)` are wrong-number-of-arguments errors; and
`pic_analyze` of `(- 5)` is `(RETURN (MINUS (QUOTE 5)))`, compiled to
`PUSHINT 5; MINUS; RET 1`. -/
theorem C13_arithmetic_short_forms :
    (∀ (state : analyze_state), (special_symbols state).Nodup →
      ∀ (ana : Val → Bool → AM Node) (x : Val) (tailpos : Bool) (σ : astore),
      analyze_node state ana (pic_list [.sym state.rADD]) tailpos σ =
        .ok (.QUOTE (.int 0), σ) ∧
      analyze_node state ana (pic_list [.sym state.rMUL]) tailpos σ =
        .ok (.QUOTE (.int 1), σ) ∧
      analyze_node state ana (pic_list [.sym state.rADD, x]) tailpos σ = ana x tailpos σ ∧
      analyze_node state ana (pic_list [.sym state.rMUL, x]) tailpos σ = ana x tailpos σ ∧
      analyze_node state ana (pic_list [.sym state.rSUB, x]) tailpos σ =
        (match ana x false σ with
         | .error err => .error err
         | .ok (n, σ') => .ok (.op1 .MINUS n, σ')) ∧
      analyze_node state ana (pic_list [.sym state.rDIV, x]) tailpos σ =
        ana (pic_list [.sym state.rDIV,
          if state.pic.PIC_ENABLE_FLOAT then .float 1 else .int 1, x]) false σ ∧
      analyze_node state ana (pic_list [.sym state.rSUB]) tailpos σ =
        .error .wrong_number_of_arguments ∧
      analyze_node state ana (pic_list [.sym state.rDIV]) tailpos σ =
        .error .wrong_number_of_arguments) ∧
    (∀ (state : analyze_state), (special_symbols state).Nodup →
      ∀ (fuel : Nat) (x : Val) (σ : astore),
      analyze state (fuel + 3) (pic_list [.sym state.rDIV, x]) false σ =
        match analyze state (fuel + 1) x false σ with
        | .error err => .error err
        | .ok (n, σ') =>
          .ok (.op2 .DIV
            (.QUOTE (if state.pic.PIC_ENABLE_FLOAT then .float 1 else .int 1)) n, σ')) ∧
    (∀ k : Nat,
      pic_analyze base_pic (k + 10) minus_example =
        .ok (.RETURN [.op1 .MINUS (.QUOTE (.int 5))]) ∧
      pic_compile base_pic (k + 10) minus_example =
        .ok (.mk 7 false 1 0 0
          [⟨.OP_PUSHINT, .i 5⟩, ⟨.OP_MINUS, .none⟩, ⟨.OP_RET, .i 1⟩] [] [] [])) := by
  refine ⟨?_, analyze_div_one, ?_⟩
  · intro state hnd ana x tailpos σ
    have hadd : form_of state state.rADD = .ADD :=
      form_of_special state hnd _ _ (by simp [form_table])
    have hsub : form_of state state.rSUB = .SUB :=
      form_of_special state hnd _ _ (by simp [form_table])
    have hmul : form_of state state.rMUL = .MUL :=
      form_of_special state hnd _ _ (by simp [form_table])
    have hdiv : form_of state state.rDIV = .DIV :=
      form_of_special state hnd _ _ (by simp [form_table])
    refine ⟨?_, ?_, ?_, ?_, ?_, ?_, ?_, ?_⟩
    · rw [analyze_node_form, analyze_form, hadd]; rfl
    · rw [analyze_node_form, analyze_form, hmul]; rfl
    · rw [analyze_node_form, analyze_form, hadd]; rfl
    · rw [analyze_node_form, analyze_form, hmul]; rfl
    · rw [analyze_node_form, analyze_form, hsub]; rfl
    · rw [analyze_node_form, analyze_form, hdiv]; rfl
    · rw [analyze_node_form, analyze_form, hsub]; rfl
    · rw [analyze_node_form, analyze_form, hdiv]; rfl
  · intro k
    exact ⟨pic_analyze_fuel_mono _ 10 _ (Nat.le_add_left 10 k) _ _
        (eq_of_same_ast (by decide!)),
      pic_compile_fuel_mono _ 10 _ (Nat.le_add_left 10 k) _ _
        (eq_of_same_irep (by decide!))⟩

/-- C13 at `(/ 5)` under `base_pic`, where floats are disabled: the analysis in
non-tail position is `(DIV (QUOTE 1) (QUOTE 5))`. -/
theorem C13_arithmetic_short_forms_witness :
    (special_symbols base_state).Nodup ∧
    analyze base_state 3 (pic_list [.sym 19, .int 5]) false base_store =
      .ok (.op2 .DIV (.QUOTE (.int 1)) (.QUOTE (.int 5)), base_store) :=
  ⟨by decide, (C13_arithmetic_short_forms.2.1 base_state (by decide) 0 (.int 5)
    base_store).trans rfl⟩

/-! ### Definitions in the root scope -/

theorem new_analyze_symbols_pic (pic : pic_state) (state : analyze_state)
    (h : new_analyze_symbols pic = .ok state) : state.pic = pic := by
  unfold new_analyze_symbols at h
  simp only [bind, Except.bind, pure, Except.pure] at h
  repeat' split at h
  all_goals (cases h; try rfl)

theorem new_analyze_state_pic (pic : pic_state) (state : analyze_state) (σ : astore)
    (h : new_analyze_state pic = .ok (state, σ)) : state.pic = pic := by
  unfold new_analyze_state at h
  split at h
  · cases h
  · rename_i st hst
    split at h
    · simp only [Except.ok.injEq, Prod.mk.injEq] at h
      rw [← h.1]
      exact new_analyze_symbols_pic pic st hst
    · cases h

theorem analyze_declare_root (name : Sym) (σ : astore) (root : analyze_scope)
    (hs : σ.scope = [root]) (hd : root.depth = 0) (var : Node) (σ1 : astore)
    (h : analyze_declare name σ = .ok (var, σ1)) : var = .GREF name := by
  unfold analyze_declare at h
  obtain ⟨scope, heap⟩ := σ
  simp only at hs
  subst hs
  rw [define_var_spec] at h
  simp only at h
  have hc := analyze_var_classify name
    { scope := [if name ∈ root.args ++ root.locals then root
        else { root with locals := root.locals ++ [name] }], heap := heap }
    (by
      refine ⟨?_, trivial⟩
      split
      · simpa using hd
      · simpa using hd)
  rw [h] at hc
  have hn : nearest_binding name
      [if name ∈ root.args ++ root.locals then root
        else { root with locals := root.locals ++ [name] }] = some 0 := by
    simp only [nearest_binding]
    by_cases hm : name ∈ root.args ++ root.locals
    · simp [hm]
    · simp [hm]
  simp only [Except.map, classify, hn, List.length_cons, List.length_nil, zero_add,
    if_true, Except.ok.injEq] at hc
  exact hc

theorem analyze_define_root (state : analyze_state) (ana : Val → Bool → AM Node)
    (hd : Val) (name : Sym) (v : Val) (σ : astore) (root : analyze_scope)
    (hs : σ.scope = [root]) (hdepth : root.depth = 0) (n : Node) (σ' : astore)
    (h : analyze_define state ana [hd, .sym name, v] σ = .ok (n, σ')) :
    ∃ val, n = .SETBANG (.GREF name) val := by
  unfold analyze_define at h
  simp only at h
  split at h
  · cases h
  · rename_i var σ1 h1
    have hv := analyze_declare_root name σ root hs hdepth var σ1 h1
    subst hv
    split at h
    · split at h
      · split at h
        · split at h
          · cases h
          · simp only [Except.ok.injEq, Prod.mk.injEq] at h
            exact ⟨_, h.1.symm⟩
        · cases h
        · cases h
      · split at h
        · cases h
        · simp only [Except.ok.injEq, Prod.mk.injEq] at h
          exact ⟨_, h.1.symm⟩
    · split at h
      · cases h
      · simp only [Except.ok.injEq, Prod.mk.injEq] at h
        exact ⟨_, h.1.symm⟩

theorem pic_analyze_define (pic : pic_state) (fuel : Nat) (name : Sym) (v : Val) (t : Node)
    (h : pic_analyze pic fuel (pic_list [.sym pic.rDEFINE, .sym name, v]) = .ok t) :
    ∃ val, t = .RETURN [.SETBANG (.GREF name) val] := by
  unfold pic_analyze at h
  split at h
  · cases h
  · rename_i state σ hst
    have hpic := new_analyze_state_pic pic state σ hst
    have hσ := new_analyze_state_store pic state σ hst
    split at h
    · cases h
    · rename_i res σ1 h1
      split at h
      · cases h
      · rename_i u σ2 h2
        simp only [Except.ok.injEq] at h
        cases fuel with
        | zero => simp [analyze] at h1
        | succ fuel =>
          rw [analyze, analyze_node_form, analyze_form] at h1
          have hk : form_of state pic.rDEFINE = .DEFINE := by
            simp [form_of, hpic]
          rw [hk] at h1
          simp only at h1
          split at h1
          · cases h1
          · rename_i n0 σa ha
            obtain ⟨val, hn⟩ := analyze_define_root state _ _ name v σ (root_scope pic)
              (by rw [hσ]) rfl n0 σa ha
            subst hn
            simp only [if_true, passes_through, tail_tag, Bool.false_eq_true, if_false,
              Except.ok.injEq, Prod.mk.injEq] at h1
            rw [← h, ← h1.1]
            simp only [resolve, read_node, read_nodes]
            exact ⟨_, rfl⟩

/-- C11 (as stated) fails: `pic_analyze` analyzes the top-level form in tail
position, so for `(define x 7)` it returns
`(RETURN (SETBANG (GREF x) (QUOTE 7)))`, not `(SETBANG (GREF x) (QUOTE 7))`. -/
theorem C11_counterexample :
    pic_analyze base_pic 10 define_example =
      .ok (.RETURN [.SETBANG (.GREF 100) (.QUOTE (.int 7))]) ∧
    pic_analyze base_pic 10 define_example ≠
      .ok (.SETBANG (.GREF 100) (.QUOTE (.int 7))) := by
  have h : pic_analyze base_pic 10 define_example =
      .ok (.RETURN [.SETBANG (.GREF 100) (.QUOTE (.int 7))]) := eq_of_same_ast (by decide!)
  refine ⟨h, ?_⟩
  rw [h]
  intro e
  cases e

/-- C11 (amended): `analyze_define` in the root scope returns a `SETBANG` node
whose target is `(GREF name)`; `pic_analyze` of a top-level `(define name v)`
returns it wrapped in `RETURN`; for `(define x 7)` the tree is
`(RETURN (SETBANG (GREF x) (QUOTE 7)))` and the code is
`PUSHINT 7; GSET 0; PUSHNONE; RET 1` with `x` the symbol 0 of the IRep. -/
theorem C11_toplevel_define :
    (∀ (state : analyze_state) (ana : Val → Bool → AM Node) (hd : Val) (name : Sym)
        (v : Val) (σ : astore) (root : analyze_scope) (n : Node) (σ' : astore),
      σ.scope = [root] → root.depth = 0 →
      analyze_define state ana [hd, .sym name, v] σ = .ok (n, σ') →
      ∃ val, n = .SETBANG (.GREF name) val) ∧
    (∀ (pic : pic_state) (fuel : Nat) (name : Sym) (v : Val) (t : Node),
      pic_analyze pic fuel (pic_list [.sym pic.rDEFINE, .sym name, v]) = .ok t →
      ∃ val, t = .RETURN [.SETBANG (.GREF name) val]) ∧
    (∀ k : Nat,
      pic_analyze base_pic (k + 10) define_example =
        .ok (.RETURN [.SETBANG (.GREF 100) (.QUOTE (.int 7))]) ∧
      pic_compile base_pic (k + 10) define_example =
        .ok (.mk 7 false 1 0 0
          [⟨.OP_PUSHINT, .i 7⟩, ⟨.OP_GSET, .i 0⟩, ⟨OP_PUSHNONE, .none⟩, ⟨.OP_RET, .i 1⟩]
          [] [] [100])) := by
  refine ⟨?_, pic_analyze_define, ?_⟩
  · intro state ana hd name v σ root n σ' hs hdepth h
    exact analyze_define_root state ana hd name v σ root hs hdepth n σ' h
  · intro k
    exact ⟨pic_analyze_fuel_mono _ 10 _ (Nat.le_add_left 10 k) _ _
        (eq_of_same_ast (by decide!)),
      pic_compile_fuel_mono _ 10 _ (Nat.le_add_left 10 k) _ _
        (eq_of_same_irep (by decide!))⟩

/-- C11 (amended) at `(define x 7)` under `base_pic`. -/
theorem C11_toplevel_define_witness :
    pic_analyze base_pic 10 define_example =
      .ok (.RETURN [.SETBANG (.GREF 100) (.QUOTE (.int 7))]) ∧
    ∃ val, Node.RETURN [.SETBANG (.GREF 100) (.QUOTE (.int 7))] =
      .RETURN [.SETBANG (.GREF 100) val] := by
  have h : pic_analyze base_pic 10 define_example =
      .ok (.RETURN [.SETBANG (.GREF 100) (.QUOTE (.int 7))]) := eq_of_same_ast (by decide!)
  exact ⟨h, C11_toplevel_define.2.1 base_pic 10 100 (.int 7) _ h⟩

/-! ### call-with-values -/

/-- C16: when the special symbols of a state are pairwise distinct,
`(call-with-values p c)` is analyzed to `(CALL_WITH_VALUES p' c')` in non-tail and
`(TAILCALL_WITH_VALUES p' c')` in tail position, `p` analyzed before `c`, and any
other operand count is a wrong-number-of-arguments error; `codegen` emits the
code of `c'`, the code of `p'`, `CALL 1`, then `CALL -1` resp. `TAILCALL -1`; for
`(call-with-values (lambda () (values 1 2)) +)` the root code ends with
`CALL 1; TAILCALL -1` and the code of the producer's IRep ends with `RET 2`. -/
theorem C16_call_with_values :
    (∀ (state : analyze_state), (special_symbols state).Nodup →
      ∀ (ana : Val → Bool → AM Node) (p c : Val) (tailpos : Bool) (σ : astore),
      analyze_node state ana (pic_list [.sym state.rCALL_WITH_VALUES, p, c]) tailpos σ =
        match ana p false σ with
        | .error err => .error err
        | .ok (prod, σ1) =>
          match ana c false σ1 with
          | .error err => .error err
          | .ok (cnsm, σ2) =>
            .ok (if tailpos then .TAILCALL_WITH_VALUES prod cnsm
                 else .CALL_WITH_VALUES prod cnsm, σ2)) ∧
    (∀ (state : analyze_state), (special_symbols state).Nodup →
      ∀ (ana : Val → Bool → AM Node) (args : List Val) (tailpos : Bool) (σ : astore),
      args.length ≠ 2 →
      analyze_node state ana (pic_list (.sym state.rCALL_WITH_VALUES :: args)) tailpos σ =
        .error .wrong_number_of_arguments) ∧
    (∀ (pic : pic_state) (p c : Node) (st : codegen_state),
      codegen pic (.CALL_WITH_VALUES p c) st =
        ((((codegen pic c st).bind (codegen pic p)).bind (emit_i .OP_CALL 1)).bind
          (emit_i .OP_CALL (-1))) ∧
      codegen pic (.TAILCALL_WITH_VALUES p c) st =
        ((((codegen pic c st).bind (codegen pic p)).bind (emit_i .OP_CALL 1)).bind
          (emit_i .OP_TAILCALL (-1)))) ∧
    (∀ k : Nat,
      pic_analyze base_pic (k + 10) values_example =
        .ok (.TAILCALL_WITH_VALUES
          (.LAMBDA none [] [] false [] (.RETURN [.QUOTE (.int 1), .QUOTE (.int 2)]))
          (.GREF 16)) ∧
      pic_compile base_pic (k + 10) values_example =
        .ok (.mk 7 false 1 0 0
          [⟨.OP_GREF, .i 0⟩, ⟨.OP_LAMBDA, .i 0⟩, ⟨.OP_CALL, .i 1⟩, ⟨.OP_TAILCALL, .i (-1)⟩]
          [some (.mk 7 false 1 0 0
            [⟨.OP_PUSHINT, .i 1⟩, ⟨.OP_PUSHINT, .i 2⟩, ⟨.OP_RET, .i 2⟩] [] [] [])]
          [] [16])) := by
  refine ⟨?_, ?_, ?_, ?_⟩
  · intro state hnd ana p c tailpos σ
    rw [analyze_node_form, analyze_form,
      form_of_special state hnd _ .CALL_WITH_VALUES (by simp [form_table])]
    rfl
  · intro state hnd ana args tailpos σ hlen
    rw [analyze_node_form, analyze_form,
      form_of_special state hnd _ .CALL_WITH_VALUES (by simp [form_table])]
    simp only [analyze_call_with_values]
    split
    · rename_i heq
      simp only [List.cons.injEq] at heq
      rw [heq.2] at hlen
      simp at hlen
    · rfl
  · intro pic p c st
    constructor
    · simp only [codegen]
      cases codegen pic c st with
      | error e => rfl
      | ok s1 =>
        simp only [Except.bind]
        cases codegen pic p s1 with
        | error e => rfl
        | ok s2 =>
          simp only
          cases emit_i .OP_CALL 1 s2 with
          | error e => rfl
          | ok s3 => rfl
    · simp only [codegen]
      cases codegen pic c st with
      | error e => rfl
      | ok s1 =>
        simp only [Except.bind]
        cases codegen pic p s1 with
        | error e => rfl
        | ok s2 =>
          simp only
          cases emit_i .OP_CALL 1 s2 with
          | error e => rfl
          | ok s3 => rfl
  · intro k
    exact ⟨pic_analyze_fuel_mono _ 10 _ (Nat.le_add_left 10 k) _ _
        (eq_of_same_ast (by decide!)),
      pic_compile_fuel_mono _ 10 _ (Nat.le_add_left 10 k) _ _
        (eq_of_same_irep (by decide!))⟩

/-- C16 under `base_pic`: `(call-with-values car cdr)` in non-tail position is
`(CALL_WITH_VALUES (GREF car) (GREF cdr))`. -/
theorem C16_call_with_values_witness :
    (special_symbols base_state).Nodup ∧
    analyze_node base_state (analyze base_state 2)
        (pic_list [.sym 27, .sym 11, .sym 12]) false base_store =
      .ok (.CALL_WITH_VALUES (.GREF 11) (.GREF 12), base_store) :=
  ⟨by decide, (C16_call_with_values.1 base_state (by decide) (analyze base_state 2)
    (.sym 11) (.sym 12) false base_store).trans rfl⟩

/-! ### Code generation appends to the current context -/

theorem lambda_operands_append (a b : List pic_code) :
    lambda_operands (a ++ b) = lambda_operands a ++ lambda_operands b := by
  induction a with
  | nil => rfl
  | cons c cs ih =>
    by_cases h : c.insn = .OP_LAMBDA
    · simp [lambda_operands, h, ih]
    · simp [lambda_operands, h, ih]

theorem slot_operands_append (k m n : Nat) :
    slot_operands k m ++ slot_operands (k + m) n = slot_operands k (m + n) := by
  unfold slot_operands
  have := List.range'_append k m n 1
  simp only [one_mul] at this
  rw [Nat.add_comm m n, ← this, List.map_append]

theorem grows_refl (st : codegen_state) (h : st ≠ []) : grows st st [] [] :=
  ⟨h, h, rfl, by simp, by simp, rfl, by simp⟩

theorem grows_trans {a b c : codegen_state} {cs1 cs2 : List pic_code}
    {rs1 rs2 : List pic_irep} (h1 : grows a b cs1 rs1) (h2 : grows b c cs2 rs2) :
    grows a c (cs1 ++ cs2) (rs1 ++ rs2) := by
  obtain ⟨a1, a2, a3, a4, a5, a6, a7⟩ := h1
  obtain ⟨b1, b2, b3, b4, b5, b6, b7⟩ := h2
  refine ⟨a1, b2, b3.trans a3, ?_, ?_, ?_, ?_⟩
  · rw [b4, a4, List.append_assoc]
  · rw [b5, a5, List.append_assoc, List.map_append]
  · rw [lambda_operands_append, a6, b6, a5, List.length_append, List.length_map,
      List.length_append, slot_operands_append]
  · intro r hr
    rcases List.mem_append.mp hr with h | h
    · exact a7 r h
    · exact b7 r h

theorem emit_grows {insn : pic_opcode} {u : operand} {st st' : codegen_state}
    (hne : insn ≠ .OP_LAMBDA) (h : emit insn u st = .ok st') :
    grows st st' [⟨insn, u⟩] [] := by
  cases st with
  | nil => simp [emit] at h
  | cons c up =>
    simp only [emit, Except.ok.injEq] at h
    subst h
    refine ⟨by simp, by simp, rfl, rfl, by simp [cur_irep], ?_, by simp⟩
    simp [lambda_operands, hne, slot_operands]

theorem index_symbol_grows {s : Sym} {i : Int} {st st' : codegen_state}
    (h : index_symbol s st = .ok (i, st')) : grows st st' [] [] := by
  cases st with
  | nil => simp [index_symbol] at h
  | cons c up =>
    simp only [index_symbol] at h
    split at h <;> simp only [Except.ok.injEq, Prod.mk.injEq] at h <;>
      (obtain ⟨_, h⟩ := h; subst h
       exact ⟨by simp, by simp, rfl, by simp [cur_code], by simp [cur_irep], rfl, by simp⟩)

theorem emit_n_grows {insn : pic_opcode} {st st' : codegen_state}
    (hne : insn ≠ .OP_LAMBDA) (h : emit_n insn st = .ok st') :
    grows st st' [⟨insn, .none⟩] [] := emit_grows hne h

theorem emit_i_grows {insn : pic_opcode} {i : Int} {st st' : codegen_state}
    (hne : insn ≠ .OP_LAMBDA) (h : emit_i insn i st = .ok st') :
    grows st st' [⟨insn, .i i⟩] [] := emit_grows hne h

theorem emit_c_grows {insn : pic_opcode} {i : Nat} {st st' : codegen_state}
    (hne : insn ≠ .OP_LAMBDA) (h : emit_c insn i st = .ok st') :
    grows st st' [⟨insn, .c i⟩] [] := emit_grows hne h

theorem emit_r_grows {insn : pic_opcode} {d i : Int} {st st' : codegen_state}
    (hne : insn ≠ .OP_LAMBDA) (h : emit_r insn d i st = .ok st') :
    grows st st' [⟨insn, .r d i⟩] [] := emit_grows hne h

theorem grows_some {st st' : codegen_state} {cs : List pic_code} {rs : List pic_irep}
    (h : grows st st' cs rs) : ∃ cs rs, grows st st' cs rs := ⟨cs, rs, h⟩

theorem grows_trans_ex {a b c : codegen_state}
    (h1 : ∃ cs rs, grows a b cs rs) (h2 : ∃ cs rs, grows b c cs rs) :
    ∃ cs rs, grows a c cs rs := by
  obtain ⟨cs1, rs1, g1⟩ := h1
  obtain ⟨cs2, rs2, g2⟩ := h2
  exact ⟨_, _, grows_trans g1 g2⟩

theorem codegen_quote_grows {d : Val} {st st' : codegen_state}
    (h : codegen_quote d st = .ok st') : ∃ cs rs, grows st st' cs rs := by
  unfold codegen_quote at h
  split at h
  · refine grows_some (emit_n_grows ?_ h)
    split <;> decide
  · exact grows_some (emit_i_grows (by decide) h)
  · exact grows_some (emit_n_grows (by decide) h)
  · exact grows_some (emit_c_grows (by decide) h)
  · split at h
    · cases h
    · rename_i cxt up
      simp only [emit_i, emit, Except.ok.injEq] at h
      subst h
      exact ⟨[⟨.OP_PUSHCONST, .i (cxt.pool.length : Int)⟩], [],
        by simp, by simp, rfl, rfl, by simp [cur_irep],
        by simp [lambda_operands, slot_operands], by simp⟩

theorem bind_emit_grows {f g : codegen_state → Except Err codegen_state}
    (hf : ∀ st st', f st = .ok st' → ∃ cs rs, grows st st' cs rs)
    (hg : ∀ st st', g st = .ok st' → ∃ cs rs, grows st st' cs rs)
    {st st' : codegen_state} (h : (f st).bind g = .ok st') : ∃ cs rs, grows st st' cs rs := by
  cases hfs : f st with
  | error e => simp [hfs, Except.bind] at h
  | ok s1 =>
    simp only [hfs, Except.bind] at h
    exact grows_trans_ex (hf _ _ hfs) (hg _ _ h)

theorem codegen_set_grows {var : Node} {st st' : codegen_state}
    (h : codegen_set var st = .ok st') : ∃ cs rs, grows st st' cs rs := by
  unfold codegen_set at h
  split at h
  · split at h
    · cases h
    · rename_i i s1 hs
      exact grows_trans_ex (grows_some (index_symbol_grows hs))
        (bind_emit_grows (fun _ _ h => grows_some (emit_i_grows (by decide) h))
          (fun _ _ h => grows_some (emit_n_grows (by decide) h)) h)
  · split at h
    · cases h
    · exact bind_emit_grows (fun _ _ h => grows_some (emit_r_grows (by decide) h))
          (fun _ _ h => grows_some (emit_n_grows (by decide) h)) h
  · split at h
    · cases h
    · exact bind_emit_grows (fun _ _ h => grows_some (emit_i_grows (by decide) h))
          (fun _ _ h => grows_some (emit_n_grows (by decide) h)) h
  · cases h

theorem create_activation_loop_grows (cxt : codegen_context) (l : List Sym) :
    ∀ st st', st ≠ [] → create_activation_loop cxt l st = .ok st' →
      ∃ cs, grows st st' cs [] := by
  induction l with
  | nil =>
    intro st st' hne h
    simp only [create_activation_loop, Except.ok.injEq] at h
    subst h
    exact ⟨[], grows_refl _ hne⟩
  | cons s rest ih =>
    intro st st' hne h
    simp only [create_activation_loop] at h
    split at h
    · cases h
    · split at h
      · cases h
      · rename_i s1 hs
        have g1 : ∃ cs, grows st s1 cs [] := by
          split at hs
          · exact ⟨_, emit_i_grows (by decide) hs⟩
          · exact ⟨_, emit_n_grows (by decide) hs⟩
        obtain ⟨cs1, g1⟩ := g1
        obtain ⟨cs2, g2⟩ := ih _ _ g1.2.1 h
        exact ⟨cs1 ++ cs2, grows_trans g1 g2⟩

theorem push_codegen_context_fresh {pic name args locals varg captures}
    {st st' : codegen_state}
    (h : push_codegen_context pic name args locals varg captures st = .ok st') :
    st' ≠ [] ∧ st'.tail = st ∧ cur_irep st' = [] ∧ lambda_operands (cur_code st') = [] := by
  unfold push_codegen_context create_activation at h
  obtain ⟨cs, g⟩ := create_activation_loop_grows _ _ _ _ (by simp) h
  obtain ⟨_, g2, g3, g4, g5, g6, _⟩ := g
  refine ⟨g2, by simpa using g3, by simpa [cur_irep] using g5, ?_⟩
  rw [g4]
  simpa [cur_code, slot_operands] using g6

theorem children_indexed_map : ∀ (rs : List pic_irep), (∀ r ∈ rs, irep_indexed r) →
    children_indexed (rs.map some)
  | [], _ => by simp [children_indexed]
  | r :: rs, h => by
    simp only [List.map_cons, children_indexed]
    exact ⟨h r (by simp), children_indexed_map rs (fun x hx => h x (by simp [hx]))⟩

theorem pop_codegen_context_indexed (rs : List pic_irep) {st st' : codegen_state}
    {r : pic_irep} (h : pop_codegen_context st = .ok (r, st'))
    (hc : lambda_operands (cur_code st) = slot_operands 0 rs.length)
    (hi : cur_irep st = rs.map some) (hr : ∀ x ∈ rs, irep_indexed x) :
    irep_indexed r ∧ st' = st.tail := by
  cases st with
  | nil => simp [pop_codegen_context] at h
  | cons c up =>
    simp only [pop_codegen_context, Except.ok.injEq, Prod.mk.injEq] at h
    obtain ⟨h1, h2⟩ := h
    subst h1
    simp only [cur_code, cur_irep] at hc hi
    refine ⟨?_, h2.symm⟩
    simp only [irep_indexed, hi, List.length_map]
    exact ⟨hc, children_indexed_map rs hr⟩

theorem lambda_grows {pic : pic_state} {name : Option Sym} {args locals : List Sym}
    {varg : Bool} {captures : List Sym} {k : Nat} {r : pic_irep}
    {st s1 s2 s3 s4 s5 st' : codegen_state} {cs : List pic_code} {rs : List pic_irep}
    (h1 : reserve_irep st = .ok (k, s1)) (h2 : emit_i .OP_LAMBDA (k : Int) s1 = .ok s2)
    (h3 : push_codegen_context pic name args locals varg captures s2 = .ok s3)
    (g4 : grows s3 s4 cs rs) (h5 : pop_codegen_context s4 = .ok (r, s5))
    (h6 : store_irep k r s5 = .ok st') :
    k = (cur_irep st).length ∧ grows st st' [⟨.OP_LAMBDA, .i (k : Int)⟩] [r] := by
  cases st with
  | nil => simp [reserve_irep] at h1
  | cons c up =>
    simp only [reserve_irep, Except.ok.injEq, Prod.mk.injEq] at h1
    obtain ⟨hk, hs1⟩ := h1
    subst hs1
    simp only [emit_i, emit, Except.ok.injEq] at h2
    subst h2
    obtain ⟨_, p2, p3, p4⟩ := push_codegen_context_fresh h3
    obtain ⟨_, _, q3, q4, q5, q6, q7⟩ := g4
    have hpop := pop_codegen_context_indexed rs h5
      (by rw [q4, lambda_operands_append, p4, q6, p3]; rfl)
      (by rw [q5, p3]; rfl) q7
    obtain ⟨hidx, hs5⟩ := hpop
    rw [q3, p2] at hs5
    subst hs5
    simp only [store_irep, Except.ok.injEq] at h6
    subst h6
    refine ⟨hk.symm, by simp, by simp, rfl, rfl, ?_, ?_, ?_⟩
    · simp only [cur_irep, ← hk, List.map_cons, List.map_nil]
      rw [List.set_append_right _ _ (Nat.le_refl _)]
      simp
    · simp [lambda_operands, slot_operands, cur_irep, hk]
    · intro x hx
      rw [List.mem_singleton] at hx
      rw [hx]; exact hidx

theorem modify_append_at {α : Type} (f : α → α) (l1 : List α) (a : α) (l2 : List α) :
    (l1 ++ a :: l2).modify f l1.length = l1 ++ f a :: l2 := by
  induction l1 with
  | nil => simp [List.modify, List.modifyTailIdx, List.modifyHead]
  | cons x xs ih => simpa [List.modify, List.modifyTailIdx] using ih

theorem clen_spec {st : codegen_state} {s : Nat} (h : clen st = .ok s) :
    s = (cur_code st).length := by
  cases st with
  | nil => simp [clen] at h
  | cons c up =>
    simp only [clen, Except.ok.injEq] at h
    exact h.symm

theorem patch_jump_spec {pc : Nat} {i : Int} {st st' : codegen_state}
    (h : patch_jump pc i st = .ok st') :
    st ≠ [] ∧ st' ≠ [] ∧ st'.tail = st.tail ∧
    cur_code st' = (cur_code st).modify (fun c => { c with u := .i i }) pc ∧
    cur_irep st' = cur_irep st := by
  cases st with
  | nil => simp [patch_jump] at h
  | cons c up =>
    simp only [patch_jump, Except.ok.injEq] at h
    subst h
    exact ⟨by simp, by simp, rfl, rfl, rfl⟩

/-- The layout of the `IF` case: the code of the condition, `JMPIF` over the
else branch and its `JMP`, the else branch, `JMP` over the then branch, the then
branch. -/
theorem if_grows {st s1 s2 s3 s4 s5 s6 st' : codegen_state} {s t' now now' : Nat}
    {cc ce ct : List pic_code} {r1 r2 r3 : List pic_irep}
    (g1 : grows st s1 cc r1) (hs : clen s1 = .ok s) (h2 : emit_n .OP_JMPIF s1 = .ok s2)
    (g3 : grows s2 s3 ce r2) (ht : clen s3 = .ok t') (h4 : emit_n .OP_JMP s3 = .ok s4)
    (hn : clen s4 = .ok now) (h5 : patch_jump s ((now : Int) - (s : Int)) s4 = .ok s5)
    (g6 : grows s5 s6 ct r3) (hn' : clen s6 = .ok now')
    (h7 : patch_jump t' ((now' : Int) - (t' : Int)) s6 = .ok st') :
    grows st st'
      (cc ++ [⟨.OP_JMPIF, .i ((ce.length : Int) + 2)⟩] ++ ce ++
        [⟨.OP_JMP, .i ((ct.length : Int) + 1)⟩] ++ ct)
      (r1 ++ r2 ++ r3) := by
  have e2 := emit_n_grows (by decide) h2
  have e4 := emit_n_grows (by decide) h4
  obtain ⟨a1, a2, a3, a4, a5, a6, a7⟩ := g1
  obtain ⟨_, b2, b3, b4, b5, _, _⟩ := e2
  obtain ⟨_, c2, c3, c4, c5, c6, c7⟩ := g3
  obtain ⟨_, d2, d3, d4, d5, _, _⟩ := e4
  obtain ⟨_, p2, p3, p4, p5⟩ := patch_jump_spec h5
  obtain ⟨_, q2, q3, q4, q5, q6, q7⟩ := g6
  obtain ⟨_, w2, w3, w4, w5⟩ := patch_jump_spec h7
  have hs' := clen_spec hs
  have ht' := clen_spec ht
  have hn1 := clen_spec hn
  have hn2 := clen_spec hn'
  simp only [List.map_nil, List.append_nil] at b5 d5
  -- the code after the first patch
  have k4 : cur_code s4 = (cur_code st ++ cc) ++ ⟨.OP_JMPIF, .none⟩ :: (ce ++ [⟨.OP_JMP, .none⟩]) := by
    rw [d4, c4, b4, a4]; simp
  have k5 : cur_code s5 = (cur_code st ++ cc) ++
      ⟨.OP_JMPIF, .i ((ce.length : Int) + 2)⟩ :: (ce ++ [⟨.OP_JMP, .none⟩]) := by
    rw [p4, k4, hs', a4, modify_append_at]
    have : ((now : Int) - ((cur_code st ++ cc).length : Int)) = (ce.length : Int) + 2 := by
      rw [hn1, k4]
      simp only [List.length_append, List.length_cons, List.length_nil]
      push_cast
      ring
    rw [this]
  have k6 : cur_code s6 = (cur_code st ++ cc ++ ⟨.OP_JMPIF, .i ((ce.length : Int) + 2)⟩ :: ce) ++
      ⟨.OP_JMP, .none⟩ :: ct := by
    rw [q4, k5]; simp
  have k3 : (cur_code s3).length =
      (cur_code st ++ cc ++ ⟨.OP_JMPIF, .i ((ce.length : Int) + 2)⟩ :: ce).length := by
    rw [c4, b4, a4]; simp
  have k7 : cur_code st' = (cur_code st ++ cc ++ ⟨.OP_JMPIF, .i ((ce.length : Int) + 2)⟩ :: ce) ++
      ⟨.OP_JMP, .i ((ct.length : Int) + 1)⟩ :: ct := by
    rw [w4, k6, ht', k3, modify_append_at]
    have : ((now' : Int) - ((cur_code st ++ cc ++
        ⟨.OP_JMPIF, .i ((ce.length : Int) + 2)⟩ :: ce).length : Int)) = (ct.length : Int) + 1 := by
      rw [hn2, k6]
      simp only [List.length_append, List.length_cons]
      push_cast
      ring
    rw [this]
  refine ⟨a1, w2, ?_, ?_, ?_, ?_, ?_⟩
  · rw [w3, q3, p3, d3, c3, b3, a3]
  · rw [k7]; simp
  · rw [w5, q5, p5, d5, c5, b5, a5]; simp
  · simp only [lambda_operands_append]
    have l1 : lambda_operands [(⟨.OP_JMPIF, .i ((ce.length : Int) + 2)⟩ : pic_code)] = [] := by
      simp [lambda_operands]
    have l2 : lambda_operands [(⟨.OP_JMP, .i ((ct.length : Int) + 1)⟩ : pic_code)] = [] := by
      simp [lambda_operands]
    rw [l1, l2, a6, c6, q6, b5, a5, p5, d5, c5, b5, a5]
    simp only [List.append_nil, List.length_append, List.length_map]
    rw [slot_operands_append, Nat.add_assoc, slot_operands_append]
  · intro r hr
    simp only [List.mem_append] at hr
    rcases hr with (h | h) | h
    · exact a7 r h
    · exact c7 r h
    · exact q7 r h

theorem grows_ne {st st' : codegen_state} (h : ∃ cs rs, grows st st' cs rs) : st' ≠ [] := by
  obtain ⟨_, _, g⟩ := h
  exact g.2.1

mutual
theorem codegen_grows (pic : pic_state) :
    ∀ (n : Node) (st st' : codegen_state), st ≠ [] → codegen pic n st = .ok st' →
      ∃ cs rs, grows st st' cs rs
  | .GREF s, st, st', _, h => by
    simp only [codegen] at h
    split at h
    · cases h
    · rename_i i s1 hs
      exact grows_trans_ex (grows_some (index_symbol_grows hs))
        (grows_some (emit_i_grows (by decide) h))
  | .CREF d s, st, st', _, h => by
    simp only [codegen] at h
    split at h
    · cases h
    · exact grows_some (emit_r_grows (by decide) h)
  | .LREF s, st, st', _, h => by
    simp only [codegen] at h
    split at h
    · cases h
    · exact grows_some (emit_i_grows (by decide) h)
  | .SETBANG var val, st, st', hne, h => by
    simp only [codegen] at h
    split at h
    · cases h
    · rename_i s1 hs
      exact grows_trans_ex (codegen_grows pic val _ _ hne hs) (codegen_set_grows h)
  | .LAMBDA name args locals varg captures body, st, st', _, h => by
    simp only [codegen] at h
    split at h
    · cases h
    · rename_i k s1 h1
      split at h
      · cases h
      · rename_i s2 h2
        split at h
        · cases h
        · rename_i s3 h3
          split at h
          · cases h
          · rename_i s4 h4
            split at h
            · cases h
            · rename_i r s5 h5
              obtain ⟨cs, rs, g4⟩ :=
                codegen_grows pic body _ _ (push_codegen_context_fresh h3).1 h4
              exact grows_some (lambda_grows h1 h2 h3 g4 h5 h).2
  | .IF c t e, st, st', hne, h => by
    simp only [codegen] at h
    split at h
    · cases h
    · rename_i s1 h1
      split at h
      · cases h
      · rename_i s hs
        split at h
        · cases h
        · rename_i s2 h2
          split at h
          · cases h
          · rename_i s3 h3
            split at h
            · cases h
            · rename_i t' ht
              split at h
              · cases h
              · rename_i s4 h4
                split at h
                · cases h
                · rename_i now hn
                  split at h
                  · cases h
                  · rename_i s5 h5
                    split at h
                    · cases h
                    · rename_i s6 h6
                      split at h
                      · cases h
                      · rename_i now' hn'
                        obtain ⟨cc, r1, g1⟩ := codegen_grows pic c _ _ hne h1
                        obtain ⟨ce, r2, g3⟩ := codegen_grows pic e _ _
                          (emit_n_grows (by decide) h2).2.1 h3
                        obtain ⟨ct, r3, g6⟩ := codegen_grows pic t _ _
                          (patch_jump_spec h5).2.1 h6
                        exact grows_some (if_grows g1 hs h2 g3 ht h4 hn h5 g6 hn' h)
  | .BEGIN es, st, st', hne, h => by
    simp only [codegen] at h
    exact codegen_begin_grows pic es _ _ _ hne h
  | .QUOTE d, st, st', _, h => by
    simp only [codegen] at h
    exact codegen_quote_grows h
  | .op1 t a, st, st', hne, h => by
    simp only [codegen] at h
    split at h
    · cases h
    · rename_i s1 h1
      refine grows_trans_ex (codegen_grows pic a _ _ hne h1) (grows_some (emit_n_grows ?_ h))
      cases t <;> decide
  | .op2 t a b, st, st', hne, h => by
    simp only [codegen] at h
    have hop : opcode2 t ≠ .OP_LAMBDA := by cases t <;> decide
    split at h
    · split at h
      · cases h
      · rename_i s1 h1
        split at h
        · cases h
        · rename_i s2 h2
          have g1 := codegen_grows pic b _ _ hne h1
          exact grows_trans_ex g1
            (grows_trans_ex (codegen_grows pic a _ _ (grows_ne g1) h2)
              (grows_some (emit_n_grows hop h)))
    · split at h
      · cases h
      · rename_i s1 h1
        split at h
        · cases h
        · rename_i s2 h2
          have g1 := codegen_grows pic a _ _ hne h1
          exact grows_trans_ex g1
            (grows_trans_ex (codegen_grows pic b _ _ (grows_ne g1) h2)
              (grows_some (emit_n_grows hop h)))
  | .CALL es, st, st', hne, h => by
    simp only [codegen] at h
    split at h
    · cases h
    · rename_i s1 h1
      exact grows_trans_ex (codegen_each_grows pic es _ _ hne h1)
        (grows_some (emit_i_grows (by decide) h))
  | .TAILCALL es, st, st', hne, h => by
    simp only [codegen] at h
    split at h
    · cases h
    · rename_i s1 h1
      exact grows_trans_ex (codegen_each_grows pic es _ _ hne h1)
        (grows_some (emit_i_grows (by decide) h))
  | .CALL_WITH_VALUES p c, st, st', hne, h => by
    simp only [codegen] at h
    split at h
    · cases h
    · rename_i s1 h1
      split at h
      · cases h
      · rename_i s2 h2
        split at h
        · cases h
        · rename_i s3 h3
          have g1 := codegen_grows pic c _ _ hne h1
          exact grows_trans_ex g1
            (grows_trans_ex (codegen_grows pic p _ _ (grows_ne g1) h2)
            (grows_trans_ex (grows_some (emit_i_grows (by decide) h3))
              (grows_some (emit_i_grows (by decide) h))))
  | .TAILCALL_WITH_VALUES p c, st, st', hne, h => by
    simp only [codegen] at h
    split at h
    · cases h
    · rename_i s1 h1
      split at h
      · cases h
      · rename_i s2 h2
        split at h
        · cases h
        · rename_i s3 h3
          have g1 := codegen_grows pic c _ _ hne h1
          exact grows_trans_ex g1
            (grows_trans_ex (codegen_grows pic p _ _ (grows_ne g1) h2)
            (grows_trans_ex (grows_some (emit_i_grows (by decide) h3))
              (grows_some (emit_i_grows (by decide) h))))
  | .RETURN es, st, st', hne, h => by
    simp only [codegen] at h
    split at h
    · cases h
    · rename_i s1 h1
      exact grows_trans_ex (codegen_each_grows pic es _ _ hne h1)
        (grows_some (emit_i_grows (by decide) h))
  | .skel c, st, st', _, h => by
    simp [codegen] at h
theorem codegen_each_grows (pic : pic_state) :
    ∀ (es : List Node) (st st' : codegen_state), st ≠ [] →
      codegen_each pic es st = .ok st' → ∃ cs rs, grows st st' cs rs
  | [], st, st', hne, h => by
    simp only [codegen_each, Except.ok.injEq] at h
    subst h; exact grows_some (grows_refl _ hne)
  | e :: es, st, st', hne, h => by
    simp only [codegen_each] at h
    split at h
    · cases h
    · rename_i s1 h1
      have g1 := codegen_grows pic e _ _ hne h1
      exact grows_trans_ex g1 (codegen_each_grows pic es _ _ (grows_ne g1) h)
theorem codegen_begin_grows (pic : pic_state) :
    ∀ (es : List Node) (b : Bool) (st st' : codegen_state), st ≠ [] →
      codegen_begin pic es b st = .ok st' → ∃ cs rs, grows st st' cs rs
  | [], b, st, st', hne, h => by
    simp only [codegen_begin, Except.ok.injEq] at h
    subst h; exact grows_some (grows_refl _ hne)
  | e :: es, b, st, st', hne, h => by
    simp only [codegen_begin] at h
    split at h
    · cases h
    · rename_i s1 h1
      split at h
      · cases h
      · rename_i s2 h2
        have g0 : ∃ cs rs, grows st s1 cs rs := by
          split at h1
          · exact grows_some (emit_n_grows (by decide) h1)
          · cases h1; exact grows_some (grows_refl _ hne)
        have g1 := codegen_grows pic e _ _ (grows_ne g0) h2
        exact grows_trans_ex g0
          (grows_trans_ex g1 (codegen_begin_grows pic es _ _ _ (grows_ne g1) h))
end

theorem codegen_if_layout (pic : pic_state) (c t e : Node) (st st' : codegen_state)
    (hne : st ≠ []) (h : codegen pic (.IF c t e) st = .ok st') :
    ∃ s1 s2 s3 s4 s5 s6 cc ce ct,
      codegen pic c st = .ok s1 ∧ cur_code s1 = cur_code st ++ cc ∧
      emit_n .OP_JMPIF s1 = .ok s2 ∧
      codegen pic e s2 = .ok s3 ∧ cur_code s3 = cur_code s2 ++ ce ∧
      emit_n .OP_JMP s3 = .ok s4 ∧
      patch_jump (cur_code s1).length ((ce.length : Int) + 2) s4 = .ok s5 ∧
      codegen pic t s5 = .ok s6 ∧ cur_code s6 = cur_code s5 ++ ct ∧
      patch_jump (cur_code s3).length ((ct.length : Int) + 1) s6 = .ok st' ∧
      cur_code st' = cur_code st ++ cc ++ [⟨.OP_JMPIF, .i ((ce.length : Int) + 2)⟩] ++ ce ++
        [⟨.OP_JMP, .i ((ct.length : Int) + 1)⟩] ++ ct := by
  simp only [codegen] at h
  split at h
  · cases h
  · rename_i s1 h1
    split at h
    · cases h
    · rename_i s hs
      split at h
      · cases h
      · rename_i s2 h2
        split at h
        · cases h
        · rename_i s3 h3
          split at h
          · cases h
          · rename_i t' ht
            split at h
            · cases h
            · rename_i s4 h4
              split at h
              · cases h
              · rename_i now hn
                split at h
                · cases h
                · rename_i s5 h5
                  split at h
                  · cases h
                  · rename_i s6 h6
                    split at h
                    · cases h
                    · rename_i now' hn'
                      obtain ⟨cc, r1, g1⟩ := codegen_grows pic c _ _ hne h1
                      have e2 := emit_n_grows (by decide) h2
                      obtain ⟨ce, r2, g3⟩ := codegen_grows pic e _ _ e2.2.1 h3
                      have e4 := emit_n_grows (by decide) h4
                      obtain ⟨ct, r3, g6⟩ := codegen_grows pic t _ _
                        (patch_jump_spec h5).2.1 h6
                      have gf := if_grows g1 hs h2 g3 ht h4 hn h5 g6 hn' h
                      have hs' := clen_spec hs
                      have ht' := clen_spec ht
                      have hn1 := clen_spec hn
                      have hn2 := clen_spec hn'
                      have d1 : ((now : Int) - (s : Int)) = (ce.length : Int) + 2 := by
                        rw [hn1, hs', e4.2.2.2.1, g3.2.2.2.1, e2.2.2.2.1]
                        simp only [List.length_append, List.length_cons, List.length_nil]
                        push_cast
                        ring
                      have d2 : ((now' : Int) - (t' : Int)) = (ct.length : Int) + 1 := by
                        rw [hn2, ht', g6.2.2.2.1, (patch_jump_spec h5).2.2.2.1,
                          List.length_append, List.length_modify, e4.2.2.2.1]
                        simp only [List.length_append, List.length_cons, List.length_nil]
                        push_cast
                        ring
                      rw [d1, hs'] at h5
                      rw [d2, ht'] at h
                      exact ⟨s1, s2, s3, s4, s5, s6, cc, ce, ct, h1, g1.2.2.2.1, h2, h3,
                        g3.2.2.2.1, h4, h5, h6, g6.2.2.2.1, h, by rw [gf.2.2.2.1]; simp⟩

/-- C15: `codegen` of `(IF c t e)` on a non-empty context stack appends to the
code of the current context the code of `c`, `JMPIF d1`, the code of `e`,
`JMP d2`, the code of `t`, with `d1` the length of the code of `e` plus 2 and
`d2` the length of the code of `t` plus 1: the `JMPIF` at its position plus
`d1` is the start of the code of `t`, the `JMP` at its position plus `d2` is the
end of it.  For `(IF (QUOTE #t) (QUOTE 1) (QUOTE 2))` the code is
`PUSHTRUE; JMPIF 3; PUSHINT 2; JMP 2; PUSHINT 1`; the whole program `(if #t 1 2)`,
whose branches are in tail position, compiles to
`PUSHTRUE; JMPIF 4; PUSHINT 2; RET 1; JMP 3; PUSHINT 1; RET 1`. -/
theorem C15_if_layout :
    (∀ (pic : pic_state) (c t e : Node) (st st' : codegen_state), st ≠ [] →
      codegen pic (.IF c t e) st = .ok st' →
      ∃ s1 s2 s3 s4 s5 s6 cc ce ct,
        codegen pic c st = .ok s1 ∧ cur_code s1 = cur_code st ++ cc ∧
        emit_n .OP_JMPIF s1 = .ok s2 ∧
        codegen pic e s2 = .ok s3 ∧ cur_code s3 = cur_code s2 ++ ce ∧
        emit_n .OP_JMP s3 = .ok s4 ∧
        patch_jump (cur_code s1).length ((ce.length : Int) + 2) s4 = .ok s5 ∧
        codegen pic t s5 = .ok s6 ∧ cur_code s6 = cur_code s5 ++ ct ∧
        patch_jump (cur_code s3).length ((ct.length : Int) + 1) s6 = .ok st' ∧
        cur_code st' = cur_code st ++ cc ++
          [(⟨.OP_JMPIF, .i ((ce.length : Int) + 2)⟩ : pic_code)] ++ ce ++
          [(⟨.OP_JMP, .i ((ct.length : Int) + 1)⟩ : pic_code)] ++ ct ∧
        (cur_code st').drop ((cur_code st ++ cc).length + (ce.length + 2)) = ct ∧
        (cur_code st ++ cc ++
            [(⟨.OP_JMPIF, .i ((ce.length : Int) + 2)⟩ : pic_code)] ++ ce).length +
          (ct.length + 1) = (cur_code st').length) ∧
    (∃ st0 st', new_codegen_state base_pic = .ok st0 ∧
      codegen base_pic (.IF (.QUOTE (.bool true)) (.QUOTE (.int 1)) (.QUOTE (.int 2))) st0 =
        .ok st' ∧
      cur_code st' = ([⟨.OP_PUSHTRUE, .none⟩, ⟨.OP_JMPIF, .i 3⟩, ⟨.OP_PUSHINT, .i 2⟩,
        ⟨.OP_JMP, .i 2⟩, ⟨.OP_PUSHINT, .i 1⟩] : List pic_code)) ∧
    (∀ k : Nat, pic_compile base_pic (k + 10) if_example =
      .ok (.mk 7 false 1 0 0
        [⟨.OP_PUSHTRUE, .none⟩, ⟨.OP_JMPIF, .i 4⟩, ⟨.OP_PUSHINT, .i 2⟩, ⟨.OP_RET, .i 1⟩,
         ⟨.OP_JMP, .i 3⟩, ⟨.OP_PUSHINT, .i 1⟩, ⟨.OP_RET, .i 1⟩] [] [] [])) := by
  refine ⟨?_, ⟨_, _, rfl, rfl, rfl⟩, ?_⟩
  · intro pic c t e st st' hne h
    obtain ⟨s1, s2, s3, s4, s5, s6, cc, ce, ct, h1, h2, h3, h4, h5, h6, h7, h8, h9, h10, h11⟩ :=
      codegen_if_layout pic c t e st st' hne h
    refine ⟨s1, s2, s3, s4, s5, s6, cc, ce, ct, h1, h2, h3, h4, h5, h6, h7, h8, h9, h10, h11,
      ?_, ?_⟩
    · rw [h11]
      have : (cur_code st ++ cc).length + (ce.length + 2) =
          (cur_code st ++ cc ++ [(⟨.OP_JMPIF, .i ((ce.length : Int) + 2)⟩ : pic_code)] ++ ce ++
            [(⟨.OP_JMP, .i ((ct.length : Int) + 1)⟩ : pic_code)]).length := by
        simp only [List.length_append, List.length_cons, List.length_nil]
        omega
      rw [this]
      exact List.drop_left _ _
    · rw [h11]
      simp only [List.length_append, List.length_cons, List.length_nil]
      omega
  · intro k
    exact pic_compile_fuel_mono _ 10 _ (Nat.le_add_left 10 k) _ _
      (eq_of_same_irep (by decide!))

/-- C15 at `(IF (QUOTE #t) (QUOTE 1) (QUOTE 2))` on the initial state of
`base_pic`: the code is `PUSHTRUE; JMPIF 3; PUSHINT 2; JMP 2; PUSHINT 1`. -/
theorem C15_if_layout_witness :
    new_codegen_state base_pic = .ok base_codegen_state ∧ base_codegen_state ≠ [] ∧
    ∃ st' cc ce ct,
      codegen base_pic (.IF (.QUOTE (.bool true)) (.QUOTE (.int 1)) (.QUOTE (.int 2)))
        base_codegen_state = .ok st' ∧
      cur_code st' = cur_code base_codegen_state ++ cc ++
          [(⟨.OP_JMPIF, .i ((ce.length : Int) + 2)⟩ : pic_code)] ++ ce ++
          [(⟨.OP_JMP, .i ((ct.length : Int) + 1)⟩ : pic_code)] ++ ct := by
  obtain ⟨s1, s2, s3, s4, s5, s6, cc, ce, ct, _, _, _, _, _, _, _, _, _, _, h11, _⟩ :=
    C15_if_layout.1 base_pic (.QUOTE (.bool true)) (.QUOTE (.int 1)) (.QUOTE (.int 2))
      base_codegen_state _ (by simp [base_codegen_state]) rfl
  exact ⟨rfl, by simp [base_codegen_state], _, cc, ce, ct, rfl, h11⟩

/-! ### Child IReps -/

theorem codegen_lambda_case (pic : pic_state) (name : Option Sym) (args locals : List Sym)
    (varg : Bool) (captures : List Sym) (body : Node) (st st' : codegen_state)
    (h : codegen pic (.LAMBDA name args locals varg captures body) st = .ok st') :
    ∃ s1 s2 r,
      reserve_irep st = .ok ((cur_irep st).length, s1) ∧
      emit_i .OP_LAMBDA ((cur_irep st).length : Int) s1 = .ok s2 ∧
      codegen_lambda pic name args locals varg captures body s2 = .ok (r, s2) ∧
      store_irep (cur_irep st).length r s2 = .ok st' ∧
      cur_code st' = cur_code st ++ [⟨.OP_LAMBDA, .i ((cur_irep st).length : Int)⟩] ∧
      cur_irep st' = cur_irep st ++ [some r] ∧ irep_indexed r := by
  simp only [codegen] at h
  split at h
  · cases h
  · rename_i k s1 h1
    split at h
    · cases h
    · rename_i s2 h2
      split at h
      · cases h
      · rename_i s3 h3
        split at h
        · cases h
        · rename_i s4 h4
          split at h
          · cases h
          · rename_i r s5 h5
            obtain ⟨p1, p2, _, _⟩ := push_codegen_context_fresh h3
            obtain ⟨cs, rs, g4⟩ := codegen_grows pic body _ _ p1 h4
            obtain ⟨hk, g⟩ := lambda_grows h1 h2 h3 g4 h5 h
            have e5 : s5 = s2 := by
              rw [pop_codegen_context_tail h5, g4.2.2.1, p2]
            subst e5
            subst hk
            refine ⟨s1, s5, r, h1, h2, ?_, h, g.2.2.2.1, ?_, g.2.2.2.2.2.2 r (by simp)⟩
            · simp only [codegen_lambda, h3, h4, h5]
            · simpa using g.2.2.2.2.1

theorem codegen_lambda_indexed (pic : pic_state) (name : Option Sym) (args locals : List Sym)
    (varg : Bool) (captures : List Sym) (body : Node) (st st' : codegen_state) (r : pic_irep)
    (h : codegen_lambda pic name args locals varg captures body st = .ok (r, st')) :
    irep_indexed r ∧ st' = st := by
  unfold codegen_lambda at h
  split at h
  · cases h
  · rename_i s3 h3
    split at h
    · cases h
    · rename_i s4 h4
      obtain ⟨p1, p2, p3, p4⟩ := push_codegen_context_fresh h3
      obtain ⟨cs, rs, g4⟩ := codegen_grows pic body _ _ p1 h4
      obtain ⟨_, _, q3, q4, q5, q6, q7⟩ := g4
      obtain ⟨hidx, hs5⟩ := pop_codegen_context_indexed rs h
        (by rw [q4, lambda_operands_append, p4, q6, p3]; rfl)
        (by rw [q5, p3]; rfl) q7
      exact ⟨hidx, by rw [hs5, q3, p2]⟩

theorem pic_codegen_indexed (pic : pic_state) (ast : Node) (r : pic_irep)
    (h : pic_codegen pic ast = .ok r) : irep_indexed r := by
  unfold pic_codegen new_codegen_state at h
  split at h
  · cases h
  · rename_i s3 h3
    split at h
    · cases h
    · rename_i s4 h4
      obtain ⟨p1, p2, p3, p4⟩ := push_codegen_context_fresh h3
      obtain ⟨cs, rs, g4⟩ := codegen_grows pic ast _ _ p1 h4
      obtain ⟨_, _, q3, q4, q5, q6, q7⟩ := g4
      unfold destroy_codegen_state at h
      split at h
      · cases h
      · rename_i r' s5 h5
        simp only [Except.ok.injEq] at h
        subst h
        exact (pop_codegen_context_indexed rs h5
          (by rw [q4, lambda_operands_append, p4, q6, p3]; rfl)
          (by rw [q5, p3]; rfl) q7).1

/-- C19: every IRep `pic_codegen` produces is indexed: the `OP_LAMBDA`
instructions of its code carry, in program order, the operands 0 to `ilen - 1`,
every child slot is written, and the same holds of every child at any depth.
Compiling a `LAMBDA` node appends `LAMBDA k` to the code of the current
context, `k` the number of its child slots so far, and makes slot `k` the IRep
`codegen_lambda` returns for the node, whose instructions go to the new
context; and every step of `codegen` keeps the instructions and child slots
already there, numbering the `LAMBDA` instructions it adds by the slots it
adds. -/
theorem C19_child_irep_indexing :
    (∀ (pic : pic_state) (ast : Node) (r : pic_irep),
      pic_codegen pic ast = .ok r → irep_indexed r) ∧
    (∀ (pic : pic_state) (name : Option Sym) (args locals : List Sym) (varg : Bool)
        (captures : List Sym) (body : Node) (st st' : codegen_state),
      codegen pic (.LAMBDA name args locals varg captures body) st = .ok st' →
      ∃ s1 s2 r,
        reserve_irep st = .ok ((cur_irep st).length, s1) ∧
        emit_i .OP_LAMBDA ((cur_irep st).length : Int) s1 = .ok s2 ∧
        codegen_lambda pic name args locals varg captures body s2 = .ok (r, s2) ∧
        store_irep (cur_irep st).length r s2 = .ok st' ∧
        cur_code st' = cur_code st ++ [⟨.OP_LAMBDA, .i ((cur_irep st).length : Int)⟩] ∧
        cur_irep st' = cur_irep st ++ [some r] ∧ irep_indexed r) ∧
    (∀ (pic : pic_state) (name : Option Sym) (args locals : List Sym) (varg : Bool)
        (captures : List Sym) (body : Node) (st st' : codegen_state) (r : pic_irep),
      codegen_lambda pic name args locals varg captures body st = .ok (r, st') →
      irep_indexed r ∧ st' = st) ∧
    (∀ (pic : pic_state) (n : Node) (st st' : codegen_state), st ≠ [] →
      codegen pic n st = .ok st' → ∃ cs rs, grows st st' cs rs) := by
  exact ⟨pic_codegen_indexed, codegen_lambda_case, codegen_lambda_indexed, codegen_grows⟩

/-- C19 at `((lambda (x) x) (lambda (y) 7))`: the root code is
`LAMBDA 0; LAMBDA 1; TAILCALL 2`, child 0 is the IRep of the first lambda and
child 1 that of the second. -/
theorem C19_child_irep_indexing_witness :
    pic_codegen base_pic
        (.TAILCALL [.LAMBDA none [100] [] false [] (.RETURN [.LREF 100]),
                    .LAMBDA none [101] [] false [] (.RETURN [.QUOTE (.int 7)])]) =
      .ok (.mk 7 false 1 0 0
        [⟨.OP_LAMBDA, .i 0⟩, ⟨.OP_LAMBDA, .i 1⟩, ⟨.OP_TAILCALL, .i 2⟩]
        [some (.mk 7 false 2 0 0 [⟨.OP_LREF, .i 1⟩, ⟨.OP_RET, .i 1⟩] [] [] []),
         some (.mk 7 false 2 0 0 [⟨.OP_PUSHINT, .i 7⟩, ⟨.OP_RET, .i 1⟩] [] [] [])]
        [] []) ∧
    irep_indexed (.mk 7 false 1 0 0
        [⟨.OP_LAMBDA, .i 0⟩, ⟨.OP_LAMBDA, .i 1⟩, ⟨.OP_TAILCALL, .i 2⟩]
        [some (.mk 7 false 2 0 0 [⟨.OP_LREF, .i 1⟩, ⟨.OP_RET, .i 1⟩] [] [] []),
         some (.mk 7 false 2 0 0 [⟨.OP_PUSHINT, .i 7⟩, ⟨.OP_RET, .i 1⟩] [] [] [])]
        [] []) := by
  have h : pic_codegen base_pic
        (.TAILCALL [.LAMBDA none [100] [] false [] (.RETURN [.LREF 100]),
                    .LAMBDA none [101] [] false [] (.RETURN [.QUOTE (.int 7)])]) =
      .ok (.mk 7 false 1 0 0
        [⟨.OP_LAMBDA, .i 0⟩, ⟨.OP_LAMBDA, .i 1⟩, ⟨.OP_TAILCALL, .i 2⟩]
        [some (.mk 7 false 2 0 0 [⟨.OP_LREF, .i 1⟩, ⟨.OP_RET, .i 1⟩] [] [] []),
         some (.mk 7 false 2 0 0 [⟨.OP_PUSHINT, .i 7⟩, ⟨.OP_RET, .i 1⟩] [] [] [])]
        [] []) := eq_of_same_irep (by decide!)
  exact ⟨h, C19_child_irep_indexing.1 _ _ _ h⟩

/-! ### The skeleton cells -/

mutual
theorem deep_no_skel {J : analyze_scope → Prop} {Q : List analyze_scope → Node → Prop} :
    ∀ (n : Node) (ctx : List analyze_scope), Deep J Q ctx n → no_skel n = true
  | .GREF _, _, _ => rfl
  | .LREF _, _, _ => rfl
  | .CREF _ _, _, _ => rfl
  | .SETBANG var val, ctx, h => by
    simp only [Deep] at h; simp only [no_skel, Bool.and_eq_true]
    exact ⟨deep_no_skel var ctx h.1, deep_no_skel val ctx h.2⟩
  | .LAMBDA _ _ _ _ _ body, ctx, h => by
    simp only [Deep] at h; simp only [no_skel]
    exact deep_no_skel body _ h.2.2
  | .IF c t e, ctx, h => by
    simp only [Deep] at h; simp only [no_skel, Bool.and_eq_true]
    exact ⟨⟨deep_no_skel c ctx h.1, deep_no_skel t ctx h.2.1⟩, deep_no_skel e ctx h.2.2⟩
  | .BEGIN es, ctx, h => by
    simp only [Deep] at h; simp only [no_skel]
    exact deep_no_skel_list es ctx h
  | .QUOTE _, _, _ => rfl
  | .CALL es, ctx, h => by
    simp only [Deep] at h; simp only [no_skel]
    exact deep_no_skel_list es ctx h
  | .TAILCALL es, ctx, h => by
    simp only [Deep] at h; simp only [no_skel]
    exact deep_no_skel_list es ctx h
  | .CALL_WITH_VALUES a b, ctx, h => by
    simp only [Deep] at h; simp only [no_skel, Bool.and_eq_true]
    exact ⟨deep_no_skel a ctx h.1, deep_no_skel b ctx h.2⟩
  | .TAILCALL_WITH_VALUES a b, ctx, h => by
    simp only [Deep] at h; simp only [no_skel, Bool.and_eq_true]
    exact ⟨deep_no_skel a ctx h.1, deep_no_skel b ctx h.2⟩
  | .RETURN es, ctx, h => by
    simp only [Deep] at h; simp only [no_skel]
    exact deep_no_skel_list es ctx h
  | .op1 _ a, ctx, h => by
    simp only [Deep] at h; simp only [no_skel]
    exact deep_no_skel a ctx h
  | .op2 _ a b, ctx, h => by
    simp only [Deep] at h; simp only [no_skel, Bool.and_eq_true]
    exact ⟨deep_no_skel a ctx h.1, deep_no_skel b ctx h.2⟩
  | .skel _, _, h => by simp only [Deep] at h
theorem deep_no_skel_list {J : analyze_scope → Prop}
    {Q : List analyze_scope → Node → Prop} :
    ∀ (es : List Node) (ctx : List analyze_scope), DeepList J Q ctx es →
      no_skel_list es = true
  | [], _, _ => rfl
  | e :: es, ctx, h => by
    simp only [DeepList] at h; simp only [no_skel_list, Bool.and_eq_true]
    exact ⟨deep_no_skel e ctx h.1, deep_no_skel_list es ctx h.2⟩
end

theorem trivial_deepRules : DeepRules (fun _ => True) (fun _ _ => True) :=
  deepRules_of_scopeRules trivial_scopeRules

theorem pic_analyze_no_skel (pic : pic_state) (fuel : Nat) (obj : Val) (t : Node)
    (h : pic_analyze pic fuel obj = .ok t) : no_skel t = true := by
  obtain ⟨root, _, _, hd, _⟩ := pic_analyze_deep trivial_deepRules pic trivial fuel obj t h
  exact deep_no_skel t _ hd

theorem keep_ids : ∀ {a b : List analyze_scope}, List.Forall₂ scope_grows_keep a b →
    ∀ c, (∃ sc ∈ a, c ∈ defer_ids sc) → ∃ sc ∈ b, c ∈ defer_ids sc
  | _, _, .nil, _, h => h
  | _, _, .cons (a := x) (b := y) hxy hrest, c, ⟨sc, hsc, hc⟩ => by
    rcases List.mem_cons.mp hsc with rfl | hsc
    · exact ⟨y, List.mem_cons_self _ _, by simpa [defer_ids, hxy.2] using hc⟩
    · obtain ⟨sc', h1, h2⟩ := keep_ids hrest c ⟨sc, hsc, hc⟩
      exact ⟨sc', List.mem_cons_of_mem _ h1, h2⟩

theorem keep_ids_back : ∀ {a b : List analyze_scope}, List.Forall₂ scope_grows_keep a b →
    ∀ c, (∃ sc ∈ b, c ∈ defer_ids sc) → ∃ sc ∈ a, c ∈ defer_ids sc
  | _, _, .nil, _, h => h
  | _, _, .cons (a := x) (b := y) hxy hrest, c, ⟨sc, hsc, hc⟩ => by
    rcases List.mem_cons.mp hsc with rfl | hsc
    · exact ⟨x, List.mem_cons_self _ _, by simpa [defer_ids, hxy.2] using hc⟩
    · obtain ⟨sc', h1, h2⟩ := keep_ids_back hrest c ⟨sc, hsc, hc⟩
      exact ⟨sc', List.mem_cons_of_mem _ h1, h2⟩

theorem cells_inv_frame (state : analyze_state) (σ σ' : astore)
    (hC : cells_inv state σ) (hT : ana_frame state σ σ') : cells_inv state σ' := by
  obtain ⟨k, hheap, hm⟩ := hT
  obtain ⟨hb, hc⟩ := hC
  have hlen : σ'.heap.length = σ.heap.length + k := by
    rw [hheap, List.length_append, List.length_replicate]
  unfold cells_inv
  cases hs : σ.scope with
  | nil =>
    rw [hs] at hm hb hc
    cases hs' : σ'.scope with
    | cons c u => rw [hs'] at hm; exact hm.elim
    | nil =>
      rw [hs'] at hm
      simp only at hm
      subst hm
      simp only [List.replicate_zero, List.append_nil] at hheap
      refine ⟨fun sc hsc => (by cases hsc), ?_⟩
      intro c n hn
      rw [hheap] at hn
      exact hc c n hn
  | cons sc up =>
    rw [hs] at hm hb hc
    cases hs' : σ'.scope with
    | nil => rw [hs'] at hm; exact hm.elim
    | cons sc' up' =>
      rw [hs'] at hm
      obtain ⟨hg, hk, hids⟩ := hm
      constructor
      · intro x hx c hcx
        rcases List.mem_cons.mp hx with rfl | hx
        · rw [hids, List.mem_append] at hcx
          rcases hcx with h1 | h1
          · have := mem_range'_rev h1
            omega
          · have := hb sc (List.mem_cons_self _ _) c h1
            omega
        · obtain ⟨sc0, h0, h1⟩ := keep_ids_back hk c ⟨x, hx, hcx⟩
          have := hb sc0 (List.mem_cons_of_mem _ h0) c h1
          omega
      · intro c n hn
        by_cases hlt : c < σ.heap.length
        · rw [hheap, List.getElem?_append_left hlt] at hn
          rcases hc c n hn with h1 | ⟨x, hx, hcx⟩
          · exact Or.inl h1
          · right
            rcases List.mem_cons.mp hx with rfl | hx
            · exact ⟨sc', List.mem_cons_self _ _, by
                rw [hids]; exact List.mem_append_right _ hcx⟩
            · obtain ⟨y, hy, hcy⟩ := keep_ids hk c ⟨x, hx, hcx⟩
              exact ⟨y, List.mem_cons_of_mem _ hy, hcy⟩
        · right
          have hc' : c < σ'.heap.length := by
            by_contra hge
            rw [List.getElem?_eq_none (by omega)] at hn
            cases hn
          refine ⟨sc', List.mem_cons_self _ _, ?_⟩
          rw [hids]
          apply List.mem_append_left
          simp only [List.mem_reverse, List.mem_range'_1]
          omega

/-- What `analyze_procedure` keeps of the skeleton cells. -/
theorem cells_inv_keep (state : analyze_state) (σ σ' : astore)
    (hC : cells_inv state σ) (hk : List.Forall₂ scope_grows_keep σ.scope σ'.scope)
    (hh : σ'.heap = σ.heap) : cells_inv state σ' := by
  obtain ⟨hb, hc⟩ := hC
  constructor
  · intro x hx c hcx
    obtain ⟨y, hy, hcy⟩ := keep_ids_back hk c ⟨x, hx, hcx⟩
    rw [hh]; exact hb y hy c hcy
  · intro c n hn
    rw [hh] at hn
    rcases hc c n hn with h1 | h1
    · exact Or.inl h1
    · exact Or.inr (keep_ids hk c h1)

theorem getElem?_lt {α : Type} {l : List α} {i : Nat} {a : α} (h : l[i]? = some a) :
    i < l.length := by
  obtain ⟨h1, _⟩ := List.getElem?_eq_some.mp h
  exact h1

theorem keep_head {sc : analyze_scope} {up stk : List analyze_scope}
    (h : List.Forall₂ scope_grows_keep (sc :: up) stk) :
    ∃ sc' up', stk = sc' :: up' ∧ sc'.defer = sc.defer ∧
      List.Forall₂ scope_grows_keep up up' := by
  cases h with
  | cons h1 h2 => exact ⟨_, _, rfl, h1.2, h2⟩

theorem loop_cells (state : analyze_state) (proc : Option Sym → Val → Val → AM Node)
    (hproc : ProcSpec (fun _ => True) (fun _ _ => True) proc)
    (hpc : ∀ nm f b σ L σ', deep_inv (fun _ => True) σ → cells_inv state σ →
      proc nm f b σ = .ok (L, σ') → cells_inv state σ')
    (hm : ∀ (d : deferred) σ L σ' sc up, σ.scope = sc :: up → d ∈ sc.defer →
      proc d.name d.formal d.body σ = .ok (L, σ') → materialized state d.dst L) :
    ∀ (ds : List deferred) (σ σ' : astore), deep_inv (fun _ => True) σ → cells_inv state σ →
      (∀ d ∈ ds, ∃ sc up, σ.scope = sc :: up ∧ d ∈ sc.defer) →
      analyze_deferred_loop proc ds σ = .ok ((), σ') →
      deep_inv (fun _ => True) σ' ∧ cells_inv state σ' ∧
      List.Forall₂ scope_grows_keep σ.scope σ'.scope ∧
      σ.heap.length ≤ σ'.heap.length ∧
      (∀ c n, σ.heap[c]? = some n → materialized state c n →
        ∃ n', σ'.heap[c]? = some n' ∧ materialized state c n') ∧
      ∀ d ∈ ds, ∃ n, σ'.heap[d.dst]? = some n ∧ materialized state d.dst n := by
  intro ds
  induction ds with
  | nil =>
    intro σ σ' hI hC _ h
    simp only [analyze_deferred_loop, Except.ok.injEq, Prod.mk.injEq, true_and] at h
    subst h
    exact ⟨hI, hC, keep_refl _, Nat.le_refl _, fun c n hn hmat => ⟨n, hn, hmat⟩,
      fun d hd => by cases hd⟩
  | cons d ds ih =>
    intro σ σ' hI hC hmem h
    simp only [analyze_deferred_loop] at h
    split at h
    · cases h
    · rename_i val σ1 hp
      obtain ⟨hI1, hk1, hlen1, hag1, _⟩ := hproc d.name d.formal d.body σ val σ1 hI hp
      have hC1 := hpc _ _ _ σ val σ1 hI hC hp
      obtain ⟨sc, up, hs, hd⟩ := hmem d (List.mem_cons_self _ _)
      have hmd := hm d σ val σ1 sc up hs hd hp
      have hdlt : d.dst < σ.heap.length :=
        hC.1 sc (by rw [hs]; exact List.mem_cons_self _ _) d.dst
          (List.mem_map_of_mem _ hd)
      have hC1' : cells_inv state { σ1 with heap := σ1.heap.set d.dst val } := by
        constructor
        · intro x hx c hcx
          simp only [List.length_set]
          exact hC1.1 x hx c hcx
        · intro c n hn
          simp only at hn
          by_cases hcd : d.dst = c
          · subst hcd
            rw [List.getElem?_set_self (by omega)] at hn
            simp only [Option.some.injEq] at hn
            subst hn
            exact Or.inl hmd
          · rw [List.getElem?_set_ne hcd] at hn
            exact hC1.2 c n hn
      have hmem' : ∀ d' ∈ ds, ∃ sc up,
          ({ σ1 with heap := σ1.heap.set d.dst val } : astore).scope = sc :: up ∧
            d' ∈ sc.defer := by
        intro d' hd'
        obtain ⟨sc0, up0, hs0, hd0⟩ := hmem d' (List.mem_cons_of_mem _ hd')
        rw [hs0] at hk1
        obtain ⟨sc1, up1, e1, e2, _⟩ := keep_head hk1
        exact ⟨sc1, up1, e1, by rw [e2]; exact hd0⟩
      obtain ⟨hI', hC', hk', hlen', hM', hD'⟩ :=
        ih { σ1 with heap := σ1.heap.set d.dst val } σ' hI1 hC1' hmem' h
      simp only [List.length_set] at hlen'
      have hstep : ∀ c n, σ.heap[c]? = some n → materialized state c n →
          ∃ n', (σ1.heap.set d.dst val)[c]? = some n' ∧ materialized state c n' := by
        intro c n hn hmat
        have hc := getElem?_lt hn
        by_cases hcd : d.dst = c
        · subst hcd
          exact ⟨val, List.getElem?_set_self (by omega), hmd⟩
        · refine ⟨n, ?_, hmat⟩
          rw [List.getElem?_set_ne hcd, hag1 c (Nat.zero_le _) hc]
          exact hn
      refine ⟨hI', hC', keep_trans hk1 hk', by omega, ?_, ?_⟩
      · intro c n hn hmat
        obtain ⟨n1, h1, m1⟩ := hstep c n hn hmat
        exact hM' c n1 h1 m1
      · intro d' hd'
        rcases List.mem_cons.mp hd' with rfl | hd'
        · exact hM' d'.dst val (List.getElem?_set_self (by omega)) hmd
        · exact hD' d' hd'

theorem procedure_cells (state : analyze_state) (fuel : Nat) (flush : AM Unit)
    (hflush : FlushSpec (fun _ => True) (fun _ _ => True) flush)
    (hfc : ∀ σ σ', deep_inv (fun _ => True) σ → cells_inv state σ →
      flush σ = .ok ((), σ') → cells_inv state σ')
    (nm : Option Sym) (formals body : Val) (σ : astore) (L : Node) (σ' : astore)
    (hI : deep_inv (fun _ => True) σ) (hC : cells_inv state σ)
    (h : analyze_procedure state (analyze state fuel) flush nm formals body σ = .ok (L, σ')) :
    cells_inv state σ' := by
  unfold analyze_procedure at h
  split at h
  · cases h
  · rename_i scopes hpush
    obtain ⟨varg, args, locals, hargs, hsc⟩ := push_scope_ok formals σ.scope scopes hpush
    subst hsc
    simp only at h
    split at h
    · cases h
    · rename_i body' σ2 hbody
      have hI1 : deep_inv (fun _ => True)
          { σ with scope :=
            { depth := depth_above σ.scope, varg := varg, args := args, locals := locals,
              captures := [], defer := [] } :: σ.scope } :=
        ⟨stack_wf_push σ.scope hI.1 _ rfl, fun _ _ => trivial⟩
      have hC1 : cells_inv state
          { σ with scope :=
            { depth := depth_above σ.scope, varg := varg, args := args, locals := locals,
              captures := [], defer := [] } :: σ.scope } := by
        constructor
        · intro x hx c hcx
          rcases List.mem_cons.mp hx with rfl | hx
          · simp [defer_ids] at hcx
          · exact hC.1 x hx c hcx
        · intro c n hn
          rcases hC.2 c n hn with h1 | ⟨x, hx, hcx⟩
          · exact Or.inl h1
          · exact Or.inr ⟨x, List.mem_cons_of_mem _ hx, hcx⟩
      obtain ⟨hI2, hT2, _⟩ :=
        analyze_sound (deep_anaRules state trivial_deepRules) fuel _ true _ body' σ2 hI1 hbody
      have hC2 := cells_inv_frame state _ σ2 hC1 hT2
      obtain ⟨m, hheap2, hm2⟩ := hT2
      simp only at hheap2 hm2
      cases hs2 : σ2.scope with
      | nil => rw [hs2] at hm2; exact hm2.elim
      | cons S2 up2 =>
        rw [hs2] at hm2
        obtain ⟨hg2, hk2, hids2⟩ := hm2
        simp only [defer_ids, List.map_nil, List.append_nil] at hids2
        have hids2' : defer_ids S2 = (List.range' σ.heap.length m).reverse := hids2
        split at h
        · cases h
        · rename_i u σ3 hfl
          have hnodup : (defer_ids S2).Nodup := by
            rw [hids2']; exact List.nodup_reverse.mpr (List.nodup_range' _ _)
          have hlt : ∀ c ∈ defer_ids S2, c < σ2.heap.length := by
            intro c hc
            rw [hids2'] at hc
            have := mem_range'_rev hc
            rw [hheap2, List.length_append, List.length_replicate]; exact this.2
          obtain ⟨_, ⟨S3, up3, hs3, _, hd3, _⟩, _, _, _⟩ :=
            hflush σ2 σ3 S2 up2 hI2 hs2 hnodup hlt hfl
          have hC3 := hfc σ2 σ3 hI2 hC2 hfl
          rw [hs3] at h
          simp only [pop_scope, List.tail_cons, Except.ok.injEq, Prod.mk.injEq] at h
          obtain ⟨_, hσ'⟩ := h
          subst hσ'
          constructor
          · intro x hx c hcx
            exact hC3.1 x (by rw [hs3]; exact List.mem_cons_of_mem _ hx) c hcx
          · intro c n hn
            rcases hC3.2 c n hn with h1 | ⟨x, hx, hcx⟩
            · exact Or.inl h1
            · rw [hs3] at hx
              rcases List.mem_cons.mp hx with rfl | hx
              · simp [defer_ids, hd3] at hcx
              · exact Or.inr ⟨x, hx, hcx⟩

theorem flush_cells (state : analyze_state) :
    ∀ (fuel : Nat) (σ σ' : astore), deep_inv (fun _ => True) σ → cells_inv state σ →
      analyze_deferred state fuel σ = .ok ((), σ') →
      cells_inv state σ' ∧
      ∀ sc up, σ.scope = sc :: up → ∀ d ∈ sc.defer,
        ∃ n, σ'.heap[d.dst]? = some n ∧ materialized state d.dst n := by
  intro fuel
  induction fuel with
  | zero => intro σ σ' _ _ h; simp [analyze_deferred] at h
  | succ fuel ih =>
    intro σ σ' hI hC h
    simp only [analyze_deferred] at h
    split at h
    · cases h
    · rename_i sc up hs
      split at h
      · cases h
      · rename_i u σ2 hloop
        obtain ⟨hI2, hC2, hk2, hlen2, hM, hD⟩ :=
          loop_cells state _
            (proc_spec_of state trivial_deepRules fuel _
              (flush_spec state trivial_deepRules fuel))
            (fun nm f b σ L σ' hI hC hp =>
              procedure_cells state fuel _ (flush_spec state trivial_deepRules fuel)
                (fun σ σ' hI hC hf => (ih σ σ' hI hC hf).1) nm f b σ L σ' hI hC hp)
            (fun d σ L σ' sc up hs hd hp => ⟨fuel, d, σ, σ', sc, up, hs, hd, rfl, hp⟩)
            sc.defer.reverse σ σ2 hI hC
            (fun d hd => ⟨sc, up, hs, List.mem_reverse.mp hd⟩) hloop
        rw [hs] at hk2
        obtain ⟨sc2, up2, hs2, hdef2, _⟩ := keep_head hk2
        rw [hs2] at h
        simp only [Except.ok.injEq, Prod.mk.injEq, true_and] at h
        subst h
        refine ⟨⟨?_, ?_⟩, ?_⟩
        · intro x hx c hcx
          rcases List.mem_cons.mp hx with rfl | hx
          · simp [defer_ids] at hcx
          · exact hC2.1 x (by rw [hs2]; exact List.mem_cons_of_mem _ hx) c hcx
        · intro c n hn
          rcases hC2.2 c n hn with h1 | ⟨x, hx, hcx⟩
          · exact Or.inl h1
          · rw [hs2] at hx
            rcases List.mem_cons.mp hx with rfl | hx
            · left
              simp only [defer_ids, hdef2, List.mem_map] at hcx
              obtain ⟨d, hd, hdc⟩ := hcx
              obtain ⟨n', hn', hm'⟩ := hD d (List.mem_reverse.mpr hd)
              rw [hdc] at hn' hm'
              simp only at hn
              rw [hn] at hn'
              simp only [Option.some.injEq] at hn'
              rw [hn']; exact hm'
            · exact Or.inr ⟨x, List.mem_cons_of_mem _ hx, hcx⟩
        · intro sc0 up0 hs0 d hd
          rw [hs] at hs0
          simp only [List.cons.injEq] at hs0
          obtain ⟨e1, _⟩ := hs0
          subst e1
          exact hD d (List.mem_reverse.mpr hd)

theorem analyze_procedure_lambda (state : analyze_state) (ana : Val → Bool → AM Node)
    (flush : AM Unit) (nm : Option Sym) (formals body : Val) (σ : astore) (L : Node)
    (σ' : astore) (h : analyze_procedure state ana flush nm formals body σ = .ok (L, σ')) :
    ∃ a l v cs b, L = .LAMBDA nm a l v cs b := by
  unfold analyze_procedure at h
  split at h
  · cases h
  · split at h
    · cases h
    · simp only at h
      split at h
      · cases h
      · split at h
        · cases h
        · split at h
          · cases h
          · simp only [Except.ok.injEq, Prod.mk.injEq] at h
            exact ⟨_, _, _, _, _, h.1.symm⟩

theorem materialized_lambda (state : analyze_state) (c : Nat) (n : Node)
    (h : materialized state c n) : ∃ nm a l v cs b, n = .LAMBDA nm a l v cs b := by
  obtain ⟨fuel, d, σa, σb, sc, up, _, _, _, hp⟩ := h
  obtain ⟨a, l, v, cs, b, e⟩ := analyze_procedure_lambda _ _ _ _ _ _ _ _ _ hp
  exact ⟨_, a, l, v, cs, b, e⟩

theorem analyze_defer_spec (state : analyze_state) (nm : Option Sym) (f b : Val)
    (σ : astore) (n : Node) (σ' : astore) (h : analyze_defer state nm f b σ = .ok (n, σ')) :
    n = .skel σ.heap.length ∧ σ'.heap = σ.heap ++ [.GREF state.pic.sNOWHERE] ∧
    ∃ sc up, σ.scope = sc :: up ∧
      σ'.scope = { sc with defer :=
        { name := nm, formal := f, body := b, dst := σ.heap.length } :: sc.defer } :: up := by
  unfold analyze_defer at h
  split at h
  · cases h
  · rename_i sc up hs
    simp only [Except.ok.injEq, Prod.mk.injEq] at h
    obtain ⟨e1, e2⟩ := h
    subst e1; subst e2
    exact ⟨rfl, rfl, sc, up, hs, rfl⟩

theorem pic_analyze_cells (pic : pic_state) (fuel : Nat) (obj : Val) (t : Node)
    (h : pic_analyze pic fuel obj = .ok t) :
    ∃ state σ0 res σ1 σ2, new_analyze_state pic = .ok (state, σ0) ∧
      analyze state fuel obj true σ0 = .ok (res, σ1) ∧
      analyze_deferred state fuel σ1 = .ok ((), σ2) ∧
      t = resolve σ2.heap (σ2.heap.length + 1) res ∧
      ∀ c n, σ2.heap[c]? = some n → materialized state c n := by
  have h0 := h
  unfold pic_analyze at h
  split at h
  · cases h
  · rename_i state σ0 hnew
    have hσ0 := new_analyze_state_store pic state σ0 hnew
    split at h
    · cases h
    · rename_i res σ1 hana
      split at h
      · cases h
      · rename_i u σ2 hfl
        simp only [Except.ok.injEq] at h
        refine ⟨state, σ0, res, σ1, σ2, hnew, hana, hfl, h.symm, ?_⟩
        have hI0 : deep_inv (fun _ => True) σ0 := by
          rw [hσ0]; exact ⟨⟨rfl, trivial⟩, fun _ _ => trivial⟩
        have hC0 : cells_inv state σ0 := by
          rw [hσ0]
          constructor
          · intro x hx c hcx
            rw [List.mem_singleton.mp hx] at hcx
            simp [defer_ids, root_scope] at hcx
          · intro c n hn
            simp at hn
        obtain ⟨hI1, hT1, _⟩ :=
          analyze_sound (deep_anaRules state trivial_deepRules) fuel obj true σ0 res σ1 hI0 hana
        have hC1 := cells_inv_frame state σ0 σ1 hC0 hT1
        obtain ⟨hC2, _⟩ := flush_cells state fuel σ1 σ2 hI1 hC1 hfl
        -- the scope stack at the end
        obtain ⟨m, hheap1, hm1⟩ := hT1
        rw [hσ0] at hm1 hheap1
        simp only [List.nil_append] at hheap1 hm1
        cases hs1 : σ1.scope with
        | nil => rw [hs1] at hm1; exact hm1.elim
        | cons S1 up1 =>
          rw [hs1] at hm1
          obtain ⟨_, hk1, hids1⟩ := hm1
          cases hk1
          simp only [List.length_nil, defer_ids, root_scope, List.map_nil,
            List.append_nil] at hids1
          have hids1' : defer_ids S1 = (List.range' 0 m).reverse := hids1
          have hlen1 : σ1.heap.length = m := by rw [hheap1, List.length_replicate]
          obtain ⟨_, ⟨S2, up2, hs2, _, hd2, hk2⟩, _, _, _⟩ :=
            flush_spec state trivial_deepRules fuel σ1 σ2 S1 [] hI1 hs1
              (by rw [hids1']; exact List.nodup_reverse.mpr (List.nodup_range' _ _))
              (by intro c hc
                  rw [hids1'] at hc
                  have := mem_range'_rev hc
                  omega) hfl
          cases hk2
          intro c n hn
          rcases hC2.2 c n hn with h1 | ⟨x, hx, hcx⟩
          · exact h1
          · rw [hs2, List.mem_singleton] at hx
            subst hx
            simp [defer_ids, hd2] at hcx

/-! ### The order of the deferred lambdas -/

theorem scope_grows_lookup {a b : analyze_scope} (h : scope_grows a b) (x : Sym)
    (hx : lookup_scope a x = true) : lookup_scope b x = true := by
  rw [lookup_scope_iff] at hx ⊢
  obtain ⟨_, _, ha, hl, _⟩ := h
  rw [ha]
  rcases List.mem_append.mp hx with h1 | h1
  · exact List.mem_append_left _ h1
  · exact List.mem_append_right _ (hl.subset h1)

theorem keeps_bindings_of_grows {stk stk' : List analyze_scope} (h : stack_grows stk stk') :
    keeps_bindings stk stk' :=
  List.Forall₂.imp (fun _ _ h x hx => scope_grows_lookup h x hx) h

theorem keeps_bindings_of_keep {stk stk' : List analyze_scope}
    (h : List.Forall₂ scope_grows_keep stk stk') : keeps_bindings stk stk' :=
  keeps_bindings_of_grows (stack_grows_of_keep h)

theorem deferred_stores_keep (proc : Option Sym → Val → Val → AM Node)
    (hproc : ProcSpec (fun _ => True) (fun _ _ => True) proc) :
    ∀ (ds : List deferred) (σ : astore), deep_inv (fun _ => True) σ →
      ∀ σi ∈ deferred_stores proc ds σ, List.Forall₂ scope_grows_keep σ.scope σi.scope := by
  intro ds
  induction ds with
  | nil => intro σ _ σi h; simp [deferred_stores] at h
  | cons d ds ih =>
    intro σ hI σi h
    simp only [deferred_stores, List.mem_cons] at h
    rcases h with rfl | h
    · exact keep_refl _
    · split at h
      · simp at h
      · rename_i val σ1 hp
        obtain ⟨hI1, hk1, _, _, _⟩ := hproc d.name d.formal d.body σ val σ1 hI hp
        exact keep_trans hk1 (ih { σ1 with heap := σ1.heap.set d.dst val } hI1 σi h)

theorem analyze_grows (state : analyze_state) (fuel : Nat) (obj : Val) (tailpos : Bool)
    (σ : astore) (n : Node) (σ' : astore) (hI : deep_inv (fun _ => True) σ)
    (h : analyze state fuel obj tailpos σ = .ok (n, σ')) :
    deep_inv (fun _ => True) σ' ∧ ana_frame state σ σ' := by
  obtain ⟨h1, h2, _⟩ :=
    analyze_sound (deep_anaRules state trivial_deepRules) fuel obj tailpos σ n σ' hI h
  exact ⟨h1, h2⟩

theorem top_lookup_of_frame {state : analyze_state} {σ σ' : astore} {sc : analyze_scope}
    {up : List analyze_scope} (hT : ana_frame state σ σ') (hs : σ.scope = sc :: up) (x : Sym)
    (hx : lookup_scope sc x = true) :
    ∃ sc' up', σ'.scope = sc' :: up' ∧ lookup_scope sc' x = true := by
  have hg := ana_frame_grows hT
  rw [hs] at hg
  cases hs' : σ'.scope with
  | nil => rw [hs'] at hg; cases hg
  | cons sc' up' =>
    rw [hs'] at hg
    cases hg with
    | cons h1 h2 => exact ⟨_, _, rfl, scope_grows_lookup h1 x hx⟩

theorem analyze_declare_binds (state : analyze_state) (name : Sym) (σ : astore) (var : Node)
    (σ1 : astore) (hI : deep_inv (fun _ => True) σ)
    (h : analyze_declare name σ = .ok (var, σ1)) :
    deep_inv (fun _ => True) σ1 ∧
    ∃ sc up, σ1.scope = sc :: up ∧ lookup_scope sc name = true := by
  unfold analyze_declare at h
  split at h
  · cases h
  · rename_i u σa hd
    obtain ⟨hIa, _⟩ := @deep_rules_define state _ _ trivial_deepRules name σ σa hI hd
    obtain ⟨hI1, hT1, _⟩ := @deep_rules_var state _ _ trivial_deepRules name σa var σ1 hIa h
    refine ⟨hI1, ?_⟩
    have hb : ∃ sc up, σa.scope = sc :: up ∧ lookup_scope sc name = true := by
      unfold define_var at hd
      split at hd
      · cases hd
      · rename_i sc up hs
        split at hd
        · rename_i hl
          simp only [Except.ok.injEq, Prod.mk.injEq, true_and] at hd
          subst hd
          exact ⟨sc, up, hs, hl⟩
        · simp only [Except.ok.injEq, Prod.mk.injEq, true_and] at hd
          subst hd
          exact ⟨_, up, rfl, by simp [lookup_scope]⟩
    obtain ⟨sc, up, hs, hl⟩ := hb
    exact top_lookup_of_frame hT1 hs name hl

theorem analyze_define_binds (state : analyze_state) (fuel : Nat) (hd : Val) (name : Sym)
    (v : Val) (σ : astore) (n : Node) (σ' : astore) (hI : deep_inv (fun _ => True) σ)
    (h : analyze_define state (analyze state fuel) [hd, .sym name, v] σ = .ok (n, σ')) :
    ∃ sc up, σ'.scope = sc :: up ∧ lookup_scope sc name = true := by
  unfold analyze_define at h
  simp only at h
  split at h
  · cases h
  · rename_i var σ1 h1
    obtain ⟨hI1, sc1, up1, hs1, hl1⟩ := analyze_declare_binds state name σ var σ1 hI h1
    have hana : ∀ val σ2, analyze state fuel v false σ1 = .ok (val, σ2) →
        ∃ sc up, σ2.scope = sc :: up ∧ lookup_scope sc name = true := by
      intro val σ2 h2
      exact top_lookup_of_frame (analyze_grows state fuel v false σ1 val σ2 hI1 h2).2 hs1
        name hl1
    split at h
    · split at h
      · split at h
        · split at h
          · cases h
          · rename_i val σ2 h2
            simp only [Except.ok.injEq, Prod.mk.injEq] at h
            rw [← h.2]
            obtain ⟨_, hT, _⟩ := @deep_rules_defer state _ _ trivial_deepRules _ _ _
              σ1 val σ2 hI1 h2
            exact top_lookup_of_frame hT hs1 name hl1
        · cases h
        · cases h
      · split at h
        · cases h
        · rename_i val σ2 h2
          simp only [Except.ok.injEq, Prod.mk.injEq] at h
          rw [← h.2]
          exact hana val σ2 h2
    · split at h
      · cases h
      · rename_i val σ2 h2
        simp only [Except.ok.injEq, Prod.mk.injEq] at h
        rw [← h.2]
        exact hana val σ2 h2

theorem analyze_store (state : analyze_state) (fuel : Nat) (obj : Val) (tailpos : Bool)
    (σ : astore) (n : Node) (σ' : astore)
    (h : analyze state (fuel + 1) obj tailpos σ = .ok (n, σ')) :
    ∃ n0, analyze_node state (analyze state fuel) obj tailpos σ = .ok (n0, σ') := by
  rw [analyze] at h
  split at h
  · cases h
  · rename_i res σ1 h1
    split at h
    · split at h
      · simp only [Except.ok.injEq, Prod.mk.injEq] at h
        exact ⟨res, by rw [← h.2]; exact h1⟩
      · simp only [Except.ok.injEq, Prod.mk.injEq] at h
        exact ⟨res, by rw [← h.2]; exact h1⟩
    · simp only [Except.ok.injEq, Prod.mk.injEq] at h
      exact ⟨res, by rw [← h.2]; exact h1⟩

theorem analyze_define_form_binds (state : analyze_state) (fuel : Nat) (name : Sym) (v : Val)
    (tailpos : Bool) (σ : astore) (n : Node) (σ' : astore)
    (hI : deep_inv (fun _ => True) σ)
    (h : analyze state fuel (pic_list [.sym state.pic.rDEFINE, .sym name, v]) tailpos σ =
      .ok (n, σ')) :
    ∃ sc up, σ'.scope = sc :: up ∧ lookup_scope sc name = true := by
  cases fuel with
  | zero => simp [analyze] at h
  | succ fuel =>
    obtain ⟨n0, h0⟩ := analyze_store state fuel _ _ _ _ _ h
    rw [analyze_node_form, analyze_form] at h0
    have hk : form_of state state.pic.rDEFINE = .DEFINE := by simp [form_of]
    rw [hk] at h0
    exact analyze_define_binds state fuel _ name v σ n0 σ' hI h0

theorem analyze_lambda_queues (state : analyze_state) (hnd : (special_symbols state).Nodup)
    (ana : Val → Bool → AM Node) (formals : Val) (body : List Val) (tailpos : Bool)
    (σ : astore) :
    analyze_node state ana (pic_list (.sym state.pic.rLAMBDA :: formals :: body)) tailpos σ =
      analyze_defer state none formals (pic_list body) σ := by
  rw [analyze_node_form, analyze_form,
    form_of_special state hnd _ .LAMBDA (by simp [form_table])]
  rfl

theorem analyze_procedure_order (state : analyze_state) (ana : Val → Bool → AM Node)
    (flush : AM Unit) (nm : Option Sym) (formals body : Val) (σ : astore) (L : Node)
    (σ' : astore) (h : analyze_procedure state ana flush nm formals body σ = .ok (L, σ')) :
    ∃ scope0 bodyN σ2 σ3 sc3 up3,
      push_scope formals σ.scope = (true, scope0 :: σ.scope) ∧ scope0.defer = [] ∧
      ana (.pair (.sym state.pic.rBEGIN) body) true { σ with scope := scope0 :: σ.scope } =
        .ok (bodyN, σ2) ∧
      flush σ2 = .ok ((), σ3) ∧ σ3.scope = sc3 :: up3 ∧
      L = .LAMBDA nm scope0.args sc3.locals scope0.varg sc3.captures bodyN ∧
      σ' = { σ3 with scope := up3 } := by
  unfold analyze_procedure at h
  split at h
  · cases h
  · rename_i scopes hpush
    obtain ⟨varg, args, locals, hargs, hsc⟩ := push_scope_ok formals σ.scope scopes hpush
    subst hsc
    simp only at h
    split at h
    · cases h
    · rename_i bodyN σ2 hbody
      split at h
      · cases h
      · rename_i u σ3 hfl
        split at h
        · cases h
        · rename_i sc3 up3 hs3
          simp only [Except.ok.injEq, Prod.mk.injEq] at h
          refine ⟨_, bodyN, σ2, σ3, sc3, up3, hpush, rfl, hbody, hfl, hs3, h.1.symm, ?_⟩
          rw [← h.2, hs3]
          rfl

theorem analyze_deferred_order (state : analyze_state) (fuel : Nat) (σ σ' : astore)
    (h : analyze_deferred state (fuel + 1) σ = .ok ((), σ')) :
    ∃ sc up σ2 sc2 up2, σ.scope = sc :: up ∧
      analyze_deferred_loop
        (analyze_procedure state (analyze state fuel) (analyze_deferred state fuel))
        sc.defer.reverse σ = .ok ((), σ2) ∧
      σ2.scope = sc2 :: up2 ∧
      σ' = { σ2 with scope := { sc2 with defer := [] } :: up2 } := by
  simp only [analyze_deferred] at h
  split at h
  · cases h
  · rename_i sc up hs
    split at h
    · cases h
    · rename_i u σ2 hloop
      split at h
      · cases h
      · rename_i sc2 up2 hs2
        simp only [Except.ok.injEq, Prod.mk.injEq, true_and] at h
        exact ⟨sc, up, σ2, sc2, up2, hs, hloop, hs2, h.symm⟩

theorem analyze_defer_order (state : analyze_state) (fuel : Nat) (obj : Val) (tailpos : Bool)
    (σ : astore) (n : Node) (σ' : astore) (sc : analyze_scope) (up : List analyze_scope)
    (hI : deep_inv (fun _ => True) σ) (hs : σ.scope = sc :: up)
    (h : analyze state fuel obj tailpos σ = .ok (n, σ')) :
    ∃ k sc' up', σ'.scope = sc' :: up' ∧ σ'.heap.length = σ.heap.length + k ∧
      sc'.defer.reverse.map (·.dst) =
        sc.defer.reverse.map (·.dst) ++ List.range' σ.heap.length k := by
  obtain ⟨_, k, hheap, hm⟩ := analyze_grows state fuel obj tailpos σ n σ' hI h
  rw [hs] at hm
  cases hs' : σ'.scope with
  | nil => rw [hs'] at hm; exact hm.elim
  | cons sc' up' =>
    rw [hs'] at hm
    obtain ⟨_, _, hids⟩ := hm
    refine ⟨k, sc', up', rfl, by rw [hheap, List.length_append, List.length_replicate], ?_⟩
    have := congrArg List.reverse hids
    simp only [defer_ids, List.reverse_append, List.reverse_reverse] at this
    rw [List.map_reverse, List.map_reverse]
    exact this

theorem analyze_keeps_bindings (state : analyze_state) (fuel : Nat) (obj : Val)
    (tailpos : Bool) (σ : astore) (n : Node) (σ' : astore)
    (hI : deep_inv (fun _ => True) σ)
    (h : analyze state fuel obj tailpos σ = .ok (n, σ')) :
    deep_inv (fun _ => True) σ' ∧ keeps_bindings σ.scope σ'.scope := by
  obtain ⟨h1, h2⟩ := analyze_grows state fuel obj tailpos σ n σ' hI h
  exact ⟨h1, keeps_bindings_of_grows (ana_frame_grows h2)⟩

/-- C18: a lambda form is only queued when it is analyzed, at the front of the
`defer` list of the current scope and with the next free cell, so the reversed
list holds the cells in the order the forms were met; `analyze_procedure`
analyzes the whole body before it calls `analyze_deferred`, which goes through
the reversed list; analysis never unbinds a symbol, a `define` form leaves its
name bound in the current scope, and every queued lambda is analyzed on scopes
that bind whatever the scopes bound when the flush began.  So
`(lambda () (define f (lambda () (g))) (define g (lambda () (f))) (f))` is
analyzed without error, and the reference to `g` inside `f` is
`(CREF 1 g)`. -/
theorem C18_deferred_order :
    (∀ (state : analyze_state), (special_symbols state).Nodup →
      ∀ (ana : Val → Bool → AM Node) (formals : Val) (body : List Val) (tailpos : Bool)
        (σ : astore),
      analyze_node state ana (pic_list (.sym state.pic.rLAMBDA :: formals :: body))
          tailpos σ =
        analyze_defer state none formals (pic_list body) σ) ∧
    (∀ (state : analyze_state) (fuel : Nat) (obj : Val) (tailpos : Bool) (σ : astore)
        (n : Node) (σ' : astore) (sc : analyze_scope) (up : List analyze_scope),
      deep_inv (fun _ => True) σ → σ.scope = sc :: up →
      analyze state fuel obj tailpos σ = .ok (n, σ') →
      ∃ k sc' up', σ'.scope = sc' :: up' ∧ σ'.heap.length = σ.heap.length + k ∧
        sc'.defer.reverse.map (·.dst) =
          sc.defer.reverse.map (·.dst) ++ List.range' σ.heap.length k) ∧
    (∀ (state : analyze_state) (ana : Val → Bool → AM Node) (flush : AM Unit)
        (nm : Option Sym) (formals body : Val) (σ : astore) (L : Node) (σ' : astore),
      analyze_procedure state ana flush nm formals body σ = .ok (L, σ') →
      ∃ scope0 bodyN σ2 σ3 sc3 up3,
        push_scope formals σ.scope = (true, scope0 :: σ.scope) ∧ scope0.defer = [] ∧
        ana (.pair (.sym state.pic.rBEGIN) body) true { σ with scope := scope0 :: σ.scope } =
          .ok (bodyN, σ2) ∧
        flush σ2 = .ok ((), σ3) ∧ σ3.scope = sc3 :: up3 ∧
        L = .LAMBDA nm scope0.args sc3.locals scope0.varg sc3.captures bodyN ∧
        σ' = { σ3 with scope := up3 }) ∧
    (∀ (state : analyze_state) (fuel : Nat) (σ σ' : astore),
      analyze_deferred state (fuel + 1) σ = .ok ((), σ') →
      ∃ sc up σ2 sc2 up2, σ.scope = sc :: up ∧
        analyze_deferred_loop
          (analyze_procedure state (analyze state fuel) (analyze_deferred state fuel))
          sc.defer.reverse σ = .ok ((), σ2) ∧
        σ2.scope = sc2 :: up2 ∧
        σ' = { σ2 with scope := { sc2 with defer := [] } :: up2 }) ∧
    (∀ (state : analyze_state) (fuel : Nat) (obj : Val) (tailpos : Bool) (σ : astore)
        (n : Node) (σ' : astore), deep_inv (fun _ => True) σ →
      analyze state fuel obj tailpos σ = .ok (n, σ') →
      deep_inv (fun _ => True) σ' ∧ keeps_bindings σ.scope σ'.scope) ∧
    (∀ (state : analyze_state) (fuel : Nat) (name : Sym) (v : Val) (tailpos : Bool)
        (σ : astore) (n : Node) (σ' : astore), deep_inv (fun _ => True) σ →
      analyze state fuel (pic_list [.sym state.pic.rDEFINE, .sym name, v]) tailpos σ =
        .ok (n, σ') →
      ∃ sc up, σ'.scope = sc :: up ∧ lookup_scope sc name = true) ∧
    (∀ (state : analyze_state) (fuel : Nat) (ds : List deferred) (σ : astore),
      deep_inv (fun _ => True) σ →
      ∀ σi ∈ deferred_stores
          (analyze_procedure state (analyze state fuel) (analyze_deferred state fuel)) ds σ,
        keeps_bindings σ.scope σi.scope) ∧
    (∀ k : Nat, pic_analyze base_pic (k + 10) forward_example =
      .ok (.RETURN [.LAMBDA none [] [100, 101] false [101, 100]
        (.BEGIN
          [.SETBANG (.LREF 100)
             (.LAMBDA (some 100) [] [] false [] (.TAILCALL [.CREF 1 101])),
           .SETBANG (.LREF 101)
             (.LAMBDA (some 101) [] [] false [] (.TAILCALL [.CREF 1 100])),
           .TAILCALL [.LREF 100]])])) := by
  refine ⟨analyze_lambda_queues, ?_, analyze_procedure_order, analyze_deferred_order,
    analyze_keeps_bindings, analyze_define_form_binds, ?_, ?_⟩
  · intro state fuel obj tailpos σ n σ' sc up hI hs h
    exact analyze_defer_order state fuel obj tailpos σ n σ' sc up hI hs h
  · intro state fuel ds σ hI σi hi
    exact keeps_bindings_of_keep
      (deferred_stores_keep _
        (proc_spec_of state trivial_deepRules fuel _ (flush_spec state trivial_deepRules fuel))
        ds σ hI σi hi)
  · intro k
    exact pic_analyze_fuel_mono _ 10 _ (Nat.le_add_left 10 k) _ _
      (eq_of_same_ast (by decide!))

/-- C18 at the definition `(define g 1)` analyzed in a scope other than the root
scope: `g` is a local of the current scope afterwards. -/
theorem C18_deferred_order_witness :
    deep_inv (fun _ => True) scopes_example ∧
    ∃ n σ', analyze base_state 3 (pic_list [.sym 1, .sym 102, .int 1]) false scopes_example =
        .ok (n, σ') ∧
      ∃ sc up, σ'.scope = sc :: up ∧ lookup_scope sc 102 = true := by
  have hI : deep_inv (fun _ => True) scopes_example :=
    ⟨⟨rfl, rfl, rfl, trivial⟩, fun _ _ => trivial⟩
  have h : ∃ n σ', analyze base_state 3 (pic_list [.sym 1, .sym 102, .int 1]) false
      scopes_example = .ok (n, σ') := ⟨_, _, rfl⟩
  obtain ⟨n, σ', h⟩ := h
  exact ⟨hI, n, σ', h,
    C18_deferred_order.2.2.2.2.2.1 base_state 3 102 (.int 1) false scopes_example n σ' hI h⟩

/-! ### The effect of `find_var` on the captures -/

theorem find_var_loop_stack (sym : Sym) :
    ∀ (stk : List analyze_scope) (depth : Int),
      (find_var_loop sym stk depth).2 =
        match nearest_binding sym stk with
        | none => stk
        | some d =>
          if 0 < depth + (d : Int) then stk.modify (fun sc => capture_var sc sym) d else stk
  | [], _ => rfl
  | sc :: up, depth => by
    simp only [find_var_loop, nearest_binding]
    by_cases h : sym ∈ sc.args ++ sc.locals
    · simp only [(lookup_scope_iff sc sym).mpr h, h, if_true, Nat.cast_zero, add_zero]
      by_cases hd : 0 < depth
      · simp [hd, List.modify, List.modifyTailIdx, List.modifyHead]
      · simp [hd]
    · have hl : lookup_scope sc sym = false := by
        cases hb : lookup_scope sc sym
        · rfl
        · exact absurd ((lookup_scope_iff sc sym).mp hb) h
      simp only [hl, h, if_false, Bool.false_eq_true]
      rw [find_var_loop_stack sym up (depth + 1)]
      cases nearest_binding sym up with
      | none => rfl
      | some d =>
        simp only [Option.map_some']
        have e : depth + 1 + (d : Int) = depth + ((d + 1 : Nat) : Int) := by push_cast; ring
        rw [e]
        by_cases hd : 0 < depth + ((d + 1 : Nat) : Int)
        · rw [if_pos hd, if_pos hd]
          simp [List.modify, List.modifyTailIdx]
        · rw [if_neg hd, if_neg hd]

theorem find_var_spec (sym : Sym) (stk : List analyze_scope) :
    find_var sym stk =
      match nearest_binding sym stk with
      | none => (-1, stk)
      | some d =>
        ((d : Int), if 0 < d then stk.modify (fun sc => capture_var sc sym) d else stk) := by
  have h1 := find_var_loop_nearest sym stk 0
  have h2 := find_var_loop_stack sym stk 0
  unfold find_var
  cases hn : nearest_binding sym stk with
  | none =>
    rw [hn] at h1 h2
    exact Prod.ext h1 h2
  | some d =>
    rw [hn] at h1 h2
    simp only [zero_add] at h1 h2
    refine Prod.ext h1 ?_
    rw [h2]
    by_cases hd : 0 < d
    · have : (0 : Int) < (d : Int) := by exact_mod_cast hd
      simp [hd, this]
    · have : ¬ ((0 : Int) < (d : Int)) := by
        intro hc; exact hd (by exact_mod_cast hc)
      simp [hd, this]

/-- C21 (as stated) fails: `find_var` calls `capture_var` on the hit scope
whenever the hit depth is greater than 0, also when the hit scope is the
outermost one.  On a stack of three scopes the global 10, resolved from the
innermost scope, is classified `(GREF 10)` and is added to the captures of the
root scope; the same happens to the root scope of `base_pic` when
`(lambda () car)` is analyzed. -/
theorem C21_counterexample :
    nearest_binding 10 scopes_example.scope = some 2 ∧
    2 + 1 = scopes_example.scope.length ∧
    (analyze_var 10 scopes_example).map Prod.fst = .ok (.GREF 10) ∧
    scopes_example.scope.map (·.captures) = [[], [], []] ∧
    (find_var 10 scopes_example.scope).2.map (·.captures) = [[], [], [10]] ∧
    ∃ n σ1 σ2,
      analyze base_state 5 (pic_list [.sym 2, pic_list [], .sym 11]) true base_store =
        .ok (n, σ1) ∧
      analyze_deferred base_state 5 σ1 = .ok ((), σ2) ∧
      base_store.scope.map (·.captures) = [[]] ∧
      σ2.scope.map (·.captures) = [[11]] := by
  refine ⟨rfl, rfl, rfl, rfl, rfl, _, _, _, rfl, rfl, rfl, rfl⟩

/-- C21 (amended): `find_var` returns `-1` and leaves the stack as it is when no
scope binds the symbol, returns 0 and leaves the stack as it is when the current
scope binds it, and otherwise returns the distance `d > 0` of the nearest
binding scope and replaces that scope, whether or not it is the outermost one,
by its `capture_var`, which appends the symbol to the captures unless it is
there already; every other scope is unchanged. -/
theorem C21_capture_on_outer_hit (sym : Sym) (stk : List analyze_scope) :
    (nearest_binding sym stk = none → find_var sym stk = (-1, stk)) ∧
    (nearest_binding sym stk = some 0 → find_var sym stk = (0, stk)) ∧
    (∀ d, 0 < d → nearest_binding sym stk = some d →
      find_var sym stk = ((d : Int), stk.modify (fun sc => capture_var sc sym) d) ∧
      ∀ i sc, stk[i]? = some sc →
        (find_var sym stk).2[i]? = some (if d = i then capture_var sc sym else sc)) ∧
    (∀ sc : analyze_scope,
      (capture_var sc sym).captures =
        (if sym ∈ sc.captures then sc.captures else sc.captures ++ [sym]) ∧
      (capture_var sc sym).args = sc.args ∧ (capture_var sc sym).locals = sc.locals ∧
      (capture_var sc sym).depth = sc.depth ∧ (capture_var sc sym).varg = sc.varg ∧
      (capture_var sc sym).defer = sc.defer) := by
  have h := find_var_spec sym stk
  refine ⟨?_, ?_, ?_, ?_⟩
  · intro hn; rw [h, hn]
  · intro hn; rw [h, hn]; rfl
  · intro d hd hn
    have e : find_var sym stk = ((d : Int), stk.modify (fun sc => capture_var sc sym) d) := by
      rw [h, hn]; simp [hd]
    refine ⟨e, ?_⟩
    intro i sc hi
    rw [e]
    simp only [List.getElem?_modify, hi, Option.map_eq_map, Option.map_some']
  · intro sc
    unfold capture_var
    by_cases hc : sym ∈ sc.captures
    · simp [hc]
    · simp [hc]

/-- C21 (amended) at the global 10 seen from the innermost of three scopes: the
root scope, at distance 2, is replaced by its `capture_var`. -/
theorem C21_capture_on_outer_hit_witness :
    (0 < 2) ∧ nearest_binding 10 scopes_example.scope = some 2 ∧
    find_var 10 scopes_example.scope =
      (2, scopes_example.scope.modify (fun sc => capture_var sc 10) 2) :=
  ⟨by decide, rfl,
    ((C21_capture_on_outer_hit 10 scopes_example.scope).2.2.1 2 (by decide) rfl).1⟩

/-! ### Formals -/

theorem improper_list_nil : ∀ (xs : List Val), improper_list xs .nil = pic_list xs
  | [] => rfl
  | x :: xs => by simp [improper_list, pic_list, improper_list_nil xs]

theorem analyze_args_proper : ∀ (syms args0 : List Sym),
    analyze_args (pic_list (syms.map .sym)) args0 = some (false, args0 ++ syms, [])
  | [], args0 => by simp [pic_list, analyze_args]
  | s :: syms, args0 => by
    simp only [List.map_cons, pic_list, analyze_args]
    rw [analyze_args_proper syms (args0 ++ [s])]
    simp

theorem analyze_args_improper (r : Sym) : ∀ (syms args0 : List Sym),
    analyze_args (improper_list (syms.map .sym) (.sym r)) args0 =
      some (true, args0 ++ syms, [r])
  | [], args0 => by simp [improper_list, analyze_args]
  | s :: syms, args0 => by
    simp only [List.map_cons, improper_list, analyze_args]
    rw [analyze_args_improper r syms (args0 ++ [s])]
    simp

theorem analyze_args_shape (v : Val) :
    ∀ (acc : List Sym) (varg : Bool) (args locals : List Sym),
      analyze_args v acc = some (varg, args, locals) →
      ∃ syms, args = acc ++ syms ∧
        ((varg = false ∧ locals = [] ∧ v = pic_list (syms.map .sym)) ∨
         (∃ r, varg = true ∧ locals = [r] ∧ v = improper_list (syms.map .sym) (.sym r))) := by
  induction v with
  | pair a d _ ihd =>
    intro acc varg args locals h
    cases a <;> simp only [analyze_args] at h <;> try cases h
    rename_i s _
    obtain ⟨syms, h1, h2⟩ := ihd _ _ _ _ h
    refine ⟨s :: syms, by rw [h1]; simp, ?_⟩
    rcases h2 with ⟨h3, h4, h5⟩ | ⟨r, h3, h4, h5⟩
    · exact Or.inl ⟨h3, h4, by rw [h5]; rfl⟩
    · exact Or.inr ⟨r, h3, h4, by rw [h5]; rfl⟩
  | nil =>
    intro acc varg args locals h
    simp only [analyze_args, Option.some.injEq, Prod.mk.injEq] at h
    obtain ⟨h0, h1, h2⟩ := h
    exact ⟨[], by simp [h1], Or.inl ⟨h0.symm, h2.symm, rfl⟩⟩
  | sym s =>
    intro acc varg args locals h
    simp only [analyze_args, Option.some.injEq, Prod.mk.injEq] at h
    obtain ⟨h0, h1, h2⟩ := h
    exact ⟨[], by simp [h1], Or.inr ⟨s, h0.symm, h2.symm, rfl⟩⟩
  | bool b => intro acc varg args locals h; simp [analyze_args] at h
  | int b => intro acc varg args locals h; simp [analyze_args] at h
  | float b => intro acc varg args locals h; simp [analyze_args] at h
  | char b => intro acc varg args locals h; simp [analyze_args] at h
  | other b => intro acc varg args locals h; simp [analyze_args] at h

/-- C28: `analyze_args` succeeds on a proper list of symbols, with `varg` false,
`args` the symbols in order and no local, and on a list of symbols that ends in
a symbol `r`, with `varg` true, `args` the listed symbols and `locals = [r]`, and
on nothing else; when it fails `push_scope` returns false and the stack it was
given, `analyze_procedure` raises the invalid-formals error, and so does
`pic_analyze` of `(lambda (1) 1)`. -/
theorem C28_formals_validation :
    (∀ syms : List Sym,
      analyze_args (pic_list (syms.map .sym)) [] = some (false, syms, [])) ∧
    (∀ (syms : List Sym) (r : Sym),
      analyze_args (improper_list (syms.map .sym) (.sym r)) [] = some (true, syms, [r])) ∧
    (∀ (formals : Val) (varg : Bool) (args locals : List Sym),
      analyze_args formals [] = some (varg, args, locals) →
      (varg = false ∧ locals = [] ∧ formals = pic_list (args.map .sym)) ∨
      (∃ r, varg = true ∧ locals = [r] ∧
        formals = improper_list (args.map .sym) (.sym r))) ∧
    (∀ (formals : Val) (stk : List analyze_scope),
      (∀ varg args locals, analyze_args formals [] = some (varg, args, locals) →
        push_scope formals stk =
          (true, { depth := depth_above stk, varg := varg, args := args, locals := locals,
                   captures := [], defer := [] } :: stk)) ∧
      (analyze_args formals [] = none → push_scope formals stk = (false, stk))) ∧
    (∀ (state : analyze_state) (ana : Val → Bool → AM Node) (flush : AM Unit)
        (nm : Option Sym) (formals body : Val) (σ : astore),
      analyze_args formals [] = none →
      analyze_procedure state ana flush nm formals body σ = .error .invalid_formals) ∧
    (∀ k : Nat, pic_analyze base_pic (k + 2) bad_formals_example = .error .invalid_formals) := by
  refine ⟨?_, ?_, ?_, ?_, ?_, ?_⟩
  · intro syms
    simpa using analyze_args_proper syms []
  · intro syms r
    simpa using analyze_args_improper r syms []
  · intro formals varg args locals h
    obtain ⟨syms, h1, h2⟩ := analyze_args_shape formals [] varg args locals h
    simp only [List.nil_append] at h1
    subst h1
    exact h2
  · intro formals stk
    refine ⟨?_, ?_⟩
    · intro varg args locals h
      simp only [push_scope, h]
    · intro h
      simp only [push_scope, h]
  · intro state ana flush nm formals body σ h
    simp only [analyze_procedure, push_scope, h]
  · intro k
    rfl

/-- C28 at the formals `(x y . r)` with `x = 100`, `y = 101`, `r = 102`. -/
theorem C28_formals_validation_witness :
    analyze_args (.pair (.sym 100) (.pair (.sym 101) (.sym 102))) [] =
      some (true, [100, 101], [102]) ∧
    ((true = false ∧ [102] = [] ∧
        Val.pair (.sym 100) (.pair (.sym 101) (.sym 102)) =
          pic_list (([100, 101] : List Sym).map .sym)) ∨
      (∃ r, true = true ∧ [102] = [r] ∧
        Val.pair (.sym 100) (.pair (.sym 101) (.sym 102)) =
          improper_list (([100, 101] : List Sym).map .sym) (.sym r))) :=
  ⟨rfl, C28_formals_validation.2.2.1 _ _ _ _ rfl⟩

/-! ### Arity of the intrinsic forms -/

theorem analyze_seq_nontail (ana : Val → Bool → AM Node) :
    ∀ (es : List Val) (σ : astore), analyze_seq ana es false σ = operands_in_order ana es σ
  | [], _ => rfl
  | [e], σ => by
    simp only [analyze_seq, operands_in_order]
  | e :: e2 :: es, σ => by
    simp only [analyze_seq]
    rw [operands_in_order]
    cases ana e false σ with
    | error err => rfl
    | ok p =>
      simp only
      have ih := analyze_seq_nontail ana (e2 :: es) p.2
      generalize analyze_seq ana (e2 :: es) false p.2 = r at ih ⊢
      subst ih
      cases operands_in_order ana (e2 :: es) p.2 with
      | error err => rfl
      | ok q => rfl

theorem analyze_call_spec (ana : Val → Bool → AM Node) (callee : Val) (args : List Val)
    (tailpos : Bool) (σ : astore) :
    analyze_call ana (callee :: args) tailpos σ =
      match ana callee false σ with
      | .error err => .error err
      | .ok (f, σ1) =>
        match operands_in_order ana args σ1 with
        | .error err => .error err
        | .ok (ns, σ2) => .ok (if tailpos then .TAILCALL (f :: ns) else .CALL (f :: ns), σ2) := by
  unfold analyze_call
  rw [analyze_seq_nontail, operands_in_order]
  cases ana callee false σ with
  | error err => rfl
  | ok p =>
    simp only
    cases operands_in_order ana args p.2 with
    | error err => rfl
    | ok q => rfl

theorem CONSTRUCT_OP2_shape (state : analyze_state) (ana : Val → Bool → AM Node) (op : Tag2)
    (a b : Val) (σ : astore) (n : Node) (σ' : astore)
    (h : CONSTRUCT_OP2 state ana op a b σ = .ok (n, σ')) :
    ∃ na nb σ1, n = .op2 op na nb ∧
      ((ana a false σ = .ok (na, σ1) ∧ ana b false σ1 = .ok (nb, σ')) ∨
       (ana b false σ = .ok (nb, σ1) ∧ ana a false σ1 = .ok (na, σ'))) := by
  unfold CONSTRUCT_OP2 at h
  split at h
  · split at h
    · cases h
    · rename_i nb σ1 h1
      split at h
      · cases h
      · rename_i na σ2 h2
        simp only [Except.ok.injEq, Prod.mk.injEq] at h
        obtain ⟨e1, e2⟩ := h
        subst e1; subst e2
        exact ⟨na, nb, σ1, rfl, Or.inr ⟨h1, h2⟩⟩
  · split at h
    · cases h
    · rename_i na σ1 h1
      split at h
      · cases h
      · rename_i nb σ2 h2
        simp only [Except.ok.injEq, Prod.mk.injEq] at h
        obtain ⟨e1, e2⟩ := h
        subst e1; subst e2
        exact ⟨na, nb, σ1, rfl, Or.inl ⟨h1, h2⟩⟩

theorem op2_fallback_two (state : analyze_state) (ana : Val → Bool → AM Node) (op : Tag2)
    (hd a b : Val) (tailpos : Bool) (σ : astore) :
    analyze_op2_fallback state ana op [hd, a, b] tailpos σ = CONSTRUCT_OP2 state ana op a b σ :=
  rfl

theorem op2_fallback_other (state : analyze_state) (ana : Val → Bool → AM Node) (op : Tag2)
    (hd : Val) (args : List Val) (hlen : args.length ≠ 2) (tailpos : Bool) (σ : astore) :
    analyze_op2_fallback state ana op (hd :: args) tailpos σ =
      analyze_call ana (hd :: args) tailpos σ := by
  unfold analyze_op2_fallback
  split
  · rename_i x a b heq
    simp only [List.cons.injEq] at heq
    rw [heq.2] at hlen
    simp at hlen
  · rfl

theorem op1_strict_other (ana : Val → Bool → AM Node) (op : Tag1)
    (hd : Val) (args : List Val) (hlen : args.length ≠ 1) (σ : astore) :
    CONSTRUCT_OP1 ana op (hd :: args) σ = .error .wrong_number_of_arguments := by
  unfold CONSTRUCT_OP1
  split
  · rename_i x a heq
    simp only [List.cons.injEq] at heq
    rw [heq.2] at hlen
    simp at hlen
  · rfl

theorem op2_strict_other (state : analyze_state) (ana : Val → Bool → AM Node) (op : Tag2)
    (hd : Val) (args : List Val) (hlen : args.length ≠ 2) (σ : astore) :
    analyze_op2_strict state ana op (hd :: args) σ = .error .wrong_number_of_arguments := by
  unfold analyze_op2_strict
  split
  · rename_i x a b heq
    simp only [List.cons.injEq] at heq
    rw [heq.2] at hlen
    simp at hlen
  · rfl

theorem analyze_symbol (state : analyze_state) (fuel : Nat) (r : Sym) (σ : astore) :
    analyze state (fuel + 1) (.sym r) false σ = analyze_var r σ := by
  rw [analyze]
  simp only [analyze_node]
  cases analyze_var r σ with
  | error err => rfl
  | ok p => rfl

/-- C23: when the special symbols of a state are pairwise distinct, a form headed
by the renamed `=`, `<`, `<=`, `>` or `>=` with two operands is analyzed by
`CONSTRUCT_OP2` to the node `(EQ a' b')` resp. `LT`, `LE`, `GT`, `GE` of its
analyzed operands, and with any other number of operands by `analyze_call`, with
no arity error, to the `CALL` or `TAILCALL` node of the analyzed head symbol,
which is its variable reference, and the analyzed operands; a form headed by the
renamed `not`, `null?`, `symbol?`, `pair?`, `car` or `cdr` with other than one
operand, or by the renamed `cons` with other than two, is a
wrong-number-of-arguments error.  So `(< 1 2 3)` is analyzed to
`(TAILCALL (GREF <) 1 2 3)` and `(car 1 2)` is an error. -/
theorem C23_arity_asymmetry :
    (∀ (state : analyze_state), (special_symbols state).Nodup →
      ∀ (ana : Val → Bool → AM Node) (tailpos : Bool) (σ : astore),
      (∀ p ∈ [(state.rEQ, Tag2.EQ), (state.rLT, Tag2.LT), (state.rLE, Tag2.LE),
              (state.rGT, Tag2.GT), (state.rGE, Tag2.GE)],
        (∀ a b : Val, analyze_node state ana (pic_list [.sym p.1, a, b]) tailpos σ =
          CONSTRUCT_OP2 state ana p.2 a b σ) ∧
        (∀ args : List Val, args.length ≠ 2 →
          analyze_node state ana (pic_list (.sym p.1 :: args)) tailpos σ =
            analyze_call ana (.sym p.1 :: args) tailpos σ)) ∧
      (∀ r ∈ [state.rNOT, state.rNILP, state.rSYMBOLP, state.rPAIRP, state.rCAR, state.rCDR],
        ∀ args : List Val, args.length ≠ 1 →
          analyze_node state ana (pic_list (.sym r :: args)) tailpos σ =
            .error .wrong_number_of_arguments) ∧
      (∀ args : List Val, args.length ≠ 2 →
        analyze_node state ana (pic_list (.sym state.rCONS :: args)) tailpos σ =
          .error .wrong_number_of_arguments)) ∧
    (∀ (state : analyze_state) (ana : Val → Bool → AM Node) (op : Tag2) (a b : Val)
        (σ : astore) (n : Node) (σ' : astore),
      CONSTRUCT_OP2 state ana op a b σ = .ok (n, σ') →
      ∃ na nb σ1, n = .op2 op na nb ∧
        ((ana a false σ = .ok (na, σ1) ∧ ana b false σ1 = .ok (nb, σ')) ∨
         (ana b false σ = .ok (nb, σ1) ∧ ana a false σ1 = .ok (na, σ')))) ∧
    (∀ (ana : Val → Bool → AM Node) (callee : Val) (args : List Val) (tailpos : Bool)
        (σ : astore),
      analyze_call ana (callee :: args) tailpos σ =
        match ana callee false σ with
        | .error err => .error err
        | .ok (f, σ1) =>
          match operands_in_order ana args σ1 with
          | .error err => .error err
          | .ok (ns, σ2) =>
            .ok (if tailpos then .TAILCALL (f :: ns) else .CALL (f :: ns), σ2)) ∧
    (∀ (state : analyze_state) (fuel : Nat) (r : Sym) (σ : astore),
      analyze state (fuel + 1) (.sym r) false σ = analyze_var r σ) ∧
    (∀ k : Nat, pic_analyze base_pic (k + 10) lt3_example =
      .ok (.TAILCALL [.GREF 21, .QUOTE (.int 1), .QUOTE (.int 2), .QUOTE (.int 3)])) ∧
    (∀ k : Nat, pic_analyze base_pic (k + 1) car2_example =
      .error .wrong_number_of_arguments) := by
  refine ⟨?_, CONSTRUCT_OP2_shape, analyze_call_spec, analyze_symbol, ?_, ?_⟩
  · intro state hnd ana tailpos σ
    refine ⟨?_, ?_, ?_⟩
    · intro p hp
      simp only [List.mem_cons, List.mem_singleton, List.not_mem_nil, or_false] at hp
      have hk : form_of state p.1 = .EQ ∧ p.2 = .EQ ∨ form_of state p.1 = .LT ∧ p.2 = .LT ∨
          form_of state p.1 = .LE ∧ p.2 = .LE ∨ form_of state p.1 = .GT ∧ p.2 = .GT ∨
          form_of state p.1 = .GE ∧ p.2 = .GE := by
        rcases hp with h | h | h | h | h <;> subst h
        · exact Or.inl ⟨form_of_special state hnd _ _ (by simp [form_table]), rfl⟩
        · exact Or.inr (Or.inl ⟨form_of_special state hnd _ _ (by simp [form_table]), rfl⟩)
        · exact Or.inr (Or.inr (Or.inl
            ⟨form_of_special state hnd _ _ (by simp [form_table]), rfl⟩))
        · exact Or.inr (Or.inr (Or.inr (Or.inl
            ⟨form_of_special state hnd _ _ (by simp [form_table]), rfl⟩)))
        · exact Or.inr (Or.inr (Or.inr (Or.inr
            ⟨form_of_special state hnd _ _ (by simp [form_table]), rfl⟩)))
      refine ⟨?_, ?_⟩
      · intro a b
        rw [analyze_node_form, analyze_form]
        rcases hk with ⟨h1, h2⟩ | ⟨h1, h2⟩ | ⟨h1, h2⟩ | ⟨h1, h2⟩ | ⟨h1, h2⟩ <;>
          rw [h1, h2] <;> rfl
      · intro args hlen
        rw [analyze_node_form, analyze_form]
        rcases hk with ⟨h1, h2⟩ | ⟨h1, h2⟩ | ⟨h1, h2⟩ | ⟨h1, h2⟩ | ⟨h1, h2⟩ <;>
          rw [h1] <;> exact op2_fallback_other state ana _ _ args hlen tailpos σ
    · intro r hr args hlen
      simp only [List.mem_cons, List.mem_singleton, List.not_mem_nil, or_false] at hr
      rw [analyze_node_form, analyze_form]
      rcases hr with h | h | h | h | h | h <;> subst h
      · rw [form_of_special state hnd _ .NOT (by simp [form_table])]
        exact op1_strict_other ana _ _ args hlen σ
      · rw [form_of_special state hnd _ .NILP (by simp [form_table])]
        exact op1_strict_other ana _ _ args hlen σ
      · rw [form_of_special state hnd _ .SYMBOLP (by simp [form_table])]
        exact op1_strict_other ana _ _ args hlen σ
      · rw [form_of_special state hnd _ .PAIRP (by simp [form_table])]
        exact op1_strict_other ana _ _ args hlen σ
      · rw [form_of_special state hnd _ .CAR (by simp [form_table])]
        exact op1_strict_other ana _ _ args hlen σ
      · rw [form_of_special state hnd _ .CDR (by simp [form_table])]
        exact op1_strict_other ana _ _ args hlen σ
    · intro args hlen
      rw [analyze_node_form, analyze_form,
        form_of_special state hnd _ .CONS (by simp [form_table])]
      exact op2_strict_other state ana _ _ args hlen σ
  · intro k
    exact pic_analyze_fuel_mono _ 10 _ (Nat.le_add_left 10 k) _ _
      (eq_of_same_ast (by decide!))
  · intro k
    rfl

/-- C23 at `(< 1 2 3)` under `base_pic` in non-tail position: the form is
analyzed as a call. -/
theorem C23_arity_asymmetry_witness :
    (special_symbols base_state).Nodup ∧
    analyze_node base_state (analyze base_state 2) lt3_example false base_store =
      analyze_call (analyze base_state 2) [.sym 21, .int 1, .int 2, .int 3] false
        base_store ∧
    analyze_node base_state (analyze base_state 2) lt3_example false base_store =
      .ok (.CALL [.GREF 21, .QUOTE (.int 1), .QUOTE (.int 2), .QUOTE (.int 3)],
        base_store) :=
  ⟨by decide,
    ((C23_arity_asymmetry.1 base_state (by decide) (analyze base_state 2) false
      base_store).1 (21, .LT) (by simp [base_state])).2 [.int 1, .int 2, .int 3] (by decide),
    rfl⟩

/-! ### `values` and `RETURN` -/

theorem codegen_each_in_order (pic : pic_state) :
    ∀ (es : List Node) (st st' : codegen_state), st ≠ [] →
      codegen_each pic es st = .ok st' →
      ∃ cs, in_order pic es st cs st' ∧ cs.length = es.length ∧
        cur_code st' = cur_code st ++ cs.flatten
  | [], st, st', _, h => by
    simp only [codegen_each, Except.ok.injEq] at h
    subst h
    exact ⟨[], ⟨rfl, rfl⟩, rfl, by simp⟩
  | e :: es, st, st', hne, h => by
    simp only [codegen_each] at h
    split at h
    · cases h
    · rename_i s1 h1
      obtain ⟨c, rs, g1⟩ := codegen_grows pic e _ _ hne h1
      obtain ⟨cs, h2, h3, h4⟩ := codegen_each_in_order pic es s1 st' g1.2.1 h
      refine ⟨c :: cs, ⟨c, cs, s1, rfl, h1, g1.2.2.2.1, h2⟩, by simp [h3], ?_⟩
      rw [h4, g1.2.2.2.1]
      simp

theorem codegen_return (pic : pic_state) (es : List Node) (st st' : codegen_state)
    (hne : st ≠ []) (h : codegen pic (.RETURN es) st = .ok st') :
    ∃ cs s1, in_order pic es st cs s1 ∧ cs.length = es.length ∧
      emit_i .OP_RET (es.length : Int) s1 = .ok st' ∧
      cur_code st' = cur_code st ++ cs.flatten ++ [⟨.OP_RET, .i (es.length : Int)⟩] := by
  simp only [codegen] at h
  split at h
  · cases h
  · rename_i s1 h1
    obtain ⟨cs, h2, h3, h4⟩ := codegen_each_in_order pic es st s1 hne h1
    have e : (((es.length + 1 : Nat) : Int) - 1) = (es.length : Int) := by push_cast; ring
    rw [e] at h
    refine ⟨cs, s1, h2, h3, h, ?_⟩
    have g := emit_i_grows (by decide) h
    rw [g.2.2.2.1, h4]

/-- C24: when the special symbols of a state are pairwise distinct,
`(values e1 ... ek)` in tail position is analyzed to `(RETURN e1' ... ek')`, the
operands analyzed in order in non-tail position, and `analyze` passes the node
through; in non-tail position it is analyzed as a call, to the `CALL` node of
the analyzed symbol `values` and the analyzed operands.  `codegen` of
`(RETURN n1 ... nk)` appends the code of each `ni` in order, then `RET k`.  So
`(values 1 2)` compiles to `PUSHINT 1; PUSHINT 2; RET 2`, the literal `5` to
`PUSHINT 5; RET 1`, and `(not (values 1 2))` contains a call of `values`. -/
theorem C24_values_return :
    (∀ (state : analyze_state), (special_symbols state).Nodup →
      ∀ (ana : Val → Bool → AM Node) (es : List Val) (σ : astore),
      analyze_node state ana (pic_list (.sym state.rVALUES :: es)) true σ =
        (match operands_in_order ana es σ with
         | .error err => .error err
         | .ok (ns, σ') => .ok (.RETURN ns, σ')) ∧
      analyze_node state ana (pic_list (.sym state.rVALUES :: es)) false σ =
        (match ana (.sym state.rVALUES) false σ with
         | .error err => .error err
         | .ok (f, σ1) =>
           match operands_in_order ana es σ1 with
           | .error err => .error err
           | .ok (ns, σ2) => .ok (.CALL (f :: ns), σ2))) ∧
    (∀ (state : analyze_state), (special_symbols state).Nodup →
      ∀ (fuel : Nat) (es : List Val) (σ : astore),
      analyze state (fuel + 1) (pic_list (.sym state.rVALUES :: es)) true σ =
        match operands_in_order (analyze state fuel) es σ with
        | .error err => .error err
        | .ok (ns, σ') => .ok (.RETURN ns, σ')) ∧
    (∀ (pic : pic_state) (es : List Node) (st st' : codegen_state), st ≠ [] →
      codegen pic (.RETURN es) st = .ok st' →
      ∃ cs s1, in_order pic es st cs s1 ∧ cs.length = es.length ∧
        emit_i .OP_RET (es.length : Int) s1 = .ok st' ∧
        cur_code st' = cur_code st ++ cs.flatten ++ [⟨.OP_RET, .i (es.length : Int)⟩]) ∧
    (∀ k : Nat,
      pic_analyze base_pic (k + 10) values12_example =
        .ok (.RETURN [.QUOTE (.int 1), .QUOTE (.int 2)]) ∧
      pic_compile base_pic (k + 10) values12_example =
        .ok (.mk 7 false 1 0 0
          [⟨.OP_PUSHINT, .i 1⟩, ⟨.OP_PUSHINT, .i 2⟩, ⟨.OP_RET, .i 2⟩] [] [] []) ∧
      pic_compile base_pic (k + 10) (.int 5) =
        .ok (.mk 7 false 1 0 0 [⟨.OP_PUSHINT, .i 5⟩, ⟨.OP_RET, .i 1⟩] [] [] []) ∧
      pic_analyze base_pic (k + 10) not_values_example =
        .ok (.RETURN [.op1 .NOT
          (.CALL [.GREF 26, .QUOTE (.int 1), .QUOTE (.int 2)])])) := by
  have htail : ∀ (state : analyze_state), (special_symbols state).Nodup →
      ∀ (ana : Val → Bool → AM Node) (es : List Val) (σ : astore),
      analyze_node state ana (pic_list (.sym state.rVALUES :: es)) true σ =
        (match operands_in_order ana es σ with
         | .error err => .error err
         | .ok (ns, σ') => .ok (.RETURN ns, σ')) := by
    intro state hnd ana es σ
    rw [analyze_node_form, analyze_form,
      form_of_special state hnd _ .VALUES (by simp [form_table])]
    simp only [analyze_values, Bool.not_true, Bool.false_eq_true, if_false, List.tail_cons]
    have ih := analyze_seq_nontail ana es σ
    generalize analyze_seq ana es false σ = r at ih ⊢
    subst ih
    cases operands_in_order ana es σ with
    | error err => rfl
    | ok q => rfl
  refine ⟨?_, ?_, codegen_return, ?_⟩
  · intro state hnd ana es σ
    refine ⟨htail state hnd ana es σ, ?_⟩
    rw [analyze_node_form, analyze_form,
      form_of_special state hnd _ .VALUES (by simp [form_table])]
    simp only [analyze_values, Bool.not_false, if_true]
    rw [analyze_call_spec]
    rfl
  · intro state hnd fuel es σ
    rw [analyze, htail state hnd]
    cases operands_in_order (analyze state fuel) es σ with
    | error err => rfl
    | ok p => rfl
  · intro k
    exact ⟨pic_analyze_fuel_mono _ 10 _ (Nat.le_add_left 10 k) _ _
        (eq_of_same_ast (by decide!)),
      pic_compile_fuel_mono _ 10 _ (Nat.le_add_left 10 k) _ _
        (eq_of_same_irep (by decide!)),
      pic_compile_fuel_mono _ 10 _ (Nat.le_add_left 10 k) _ _
        (eq_of_same_irep (by decide!)),
      pic_analyze_fuel_mono _ 10 _ (Nat.le_add_left 10 k) _ _
        (eq_of_same_ast (by decide!))⟩

/-- C24 at `(RETURN (QUOTE 1) (QUOTE 2))` on the initial state of `base_pic`: the
code is `PUSHINT 1; PUSHINT 2; RET 2`. -/
theorem C24_values_return_witness :
    base_codegen_state ≠ [] ∧
    ∃ (st' : codegen_state) (cs : List (List pic_code)),
      codegen base_pic (.RETURN [.QUOTE (.int 1), .QUOTE (.int 2)]) base_codegen_state =
        .ok st' ∧
      cs.length = 2 ∧
      cur_code st' = cur_code base_codegen_state ++ cs.flatten ++
        [⟨.OP_RET, .i ((2 : Nat) : Int)⟩] := by
  obtain ⟨cs, s1, _, h2, _, h4⟩ :=
    C24_values_return.2.2.1 base_pic [.QUOTE (.int 1), .QUOTE (.int 2)]
      base_codegen_state _ (by simp [base_codegen_state]) rfl
  exact ⟨by simp [base_codegen_state], _, cs, rfl, h2, h4⟩

/-! ### The `QUOTE` and `SETBANG` cases of `codegen` -/

theorem codegen_quote_pool (d : Val) (hd : inlined d = false) (cxt : codegen_context)
    (up : codegen_state) : codegen_quote d (cxt :: up) = .ok (with_const cxt d :: up) := by
  cases d <;> first | rfl | (simp [inlined] at hd)

/-- C26: for `(QUOTE d)` `codegen` appends one instruction to the code of the
current context: `PUSHTRUE` or `PUSHFALSE` for a boolean, `PUSHINT n` for an
integer, `PUSHNIL` for the empty list, `PUSHCHAR c` for a character, and nothing
else of the context changes; any other datum is appended to the pool and the
instruction is `PUSHCONST idx`, `idx` the length of the pool before, where the
datum now is.  `(quote 42)` is analyzed to `(RETURN (QUOTE 42))` and compiled to
`PUSHINT 42; RET 1`. -/
theorem C26_quote_emission :
    (∀ (pic : pic_state) (cxt : codegen_context) (up : codegen_state),
      (∀ b : Bool, codegen pic (.QUOTE (.bool b)) (cxt :: up) =
        .ok (with_insn cxt ⟨if b then .OP_PUSHTRUE else .OP_PUSHFALSE, .none⟩ :: up)) ∧
      (∀ n : Int, codegen pic (.QUOTE (.int n)) (cxt :: up) =
        .ok (with_insn cxt ⟨.OP_PUSHINT, .i n⟩ :: up)) ∧
      codegen pic (.QUOTE .nil) (cxt :: up) = .ok (with_insn cxt ⟨.OP_PUSHNIL, .none⟩ :: up) ∧
      (∀ c : Nat, codegen pic (.QUOTE (.char c)) (cxt :: up) =
        .ok (with_insn cxt ⟨.OP_PUSHCHAR, .c c⟩ :: up)) ∧
      (∀ d : Val, inlined d = false →
        codegen pic (.QUOTE d) (cxt :: up) = .ok (with_const cxt d :: up))) ∧
    (∀ (cxt : codegen_context) (c : pic_code),
      (with_insn cxt c).code = cxt.code ++ [c] ∧ (with_insn cxt c).pool = cxt.pool ∧
      (with_insn cxt c).syms = cxt.syms ∧ (with_insn cxt c).irep = cxt.irep) ∧
    (∀ (cxt : codegen_context) (d : Val),
      (with_const cxt d).code = cxt.code ++ [⟨.OP_PUSHCONST, .i (cxt.pool.length : Int)⟩] ∧
      (with_const cxt d).pool = cxt.pool ++ [d] ∧
      (with_const cxt d).pool[cxt.pool.length]? = some d ∧
      (with_const cxt d).syms = cxt.syms ∧ (with_const cxt d).irep = cxt.irep) ∧
    (∀ k : Nat,
      pic_analyze base_pic (k + 10) quote_example = .ok (.RETURN [.QUOTE (.int 42)]) ∧
      pic_compile base_pic (k + 10) quote_example =
        .ok (.mk 7 false 1 0 0 [⟨.OP_PUSHINT, .i 42⟩, ⟨.OP_RET, .i 1⟩] [] [] [])) := by
  refine ⟨?_, ?_, ?_, ?_⟩
  · intro pic cxt up
    refine ⟨fun b => ?_, fun n => ?_, ?_, fun c => ?_, fun d hd => ?_⟩
    · simp only [codegen]; rfl
    · simp only [codegen]; rfl
    · simp only [codegen]; rfl
    · simp only [codegen]; rfl
    · simp only [codegen]; exact codegen_quote_pool d hd cxt up
  · intro cxt c
    exact ⟨rfl, rfl, rfl, rfl⟩
  · intro cxt d
    refine ⟨rfl, rfl, ?_, rfl, rfl⟩
    simp [with_const]
  · intro k
    exact ⟨pic_analyze_fuel_mono _ 10 _ (Nat.le_add_left 10 k) _ _
        (eq_of_same_ast (by decide!)),
      pic_compile_fuel_mono _ 10 _ (Nat.le_add_left 10 k) _ _
        (eq_of_same_irep (by decide!))⟩

/-- C26 at the symbol datum of `(QUOTE x)` on the initial state of `base_pic`:
the datum goes to slot 0 of the pool and the code is `PUSHCONST 0`. -/
theorem C26_quote_emission_witness :
    inlined (.sym 100) = false ∧
    ∃ cxt, codegen base_pic (.QUOTE (.sym 100)) base_codegen_state = .ok [cxt] ∧
      cxt.code = [⟨.OP_PUSHCONST, .i 0⟩] ∧ cxt.pool = [.sym 100] :=
  ⟨rfl, _, (C26_quote_emission.1 base_pic _ []).2.2.2.2 (.sym 100) rfl, rfl, rfl⟩

theorem codegen_set_spec (var : Node) (st st' : codegen_state)
    (h : codegen_set var st = .ok st') :
    (∃ sym i s2, var = .GREF sym ∧ index_symbol sym st = .ok (i, s2) ∧
      cur_code st' = cur_code st ++ [⟨.OP_GSET, .i i⟩, ⟨OP_PUSHNONE, .none⟩]) ∨
    (∃ d sym i, var = .CREF d sym ∧ index_capture st sym d = .ok i ∧
      cur_code st' = cur_code st ++ [⟨.OP_CSET, .r d i⟩, ⟨OP_PUSHNONE, .none⟩]) ∨
    (∃ sym i, var = .LREF sym ∧ local_slot st sym = .ok i ∧
      cur_code st' = cur_code st ++ [⟨.OP_LSET, .i i⟩, ⟨OP_PUSHNONE, .none⟩]) := by
  have two : ∀ (a b : codegen_state) (insn : pic_opcode) (u : operand),
      insn ≠ .OP_LAMBDA → (emit insn u a).bind (emit_n OP_PUSHNONE) = .ok b →
      cur_code b = cur_code a ++ [⟨insn, u⟩, ⟨OP_PUSHNONE, .none⟩] := by
    intro a b insn u hne hb
    cases ha : emit insn u a with
    | error e => simp [ha, Except.bind] at hb
    | ok a1 =>
      simp only [ha, Except.bind] at hb
      have g1 := emit_grows hne ha
      have g2 := emit_n_grows (by decide) hb
      rw [g2.2.2.2.1, g1.2.2.2.1]
      simp
  unfold codegen_set at h
  split at h
  · rename_i s
    split at h
    · cases h
    · rename_i i s1 hs
      refine Or.inl ⟨s, i, s1, rfl, hs, ?_⟩
      have := two _ _ _ _ (by decide) h
      rw [this, (index_symbol_grows hs).2.2.2.1]
      simp
  · rename_i d name
    split at h
    · cases h
    · rename_i i hi
      exact Or.inr (Or.inl ⟨d, name, i, rfl, hi, two _ _ _ _ (by decide) h⟩)
  · rename_i name
    split at h
    · cases h
    · rename_i i hi
      exact Or.inr (Or.inr ⟨name, i, rfl, hi, two _ _ _ _ (by decide) h⟩)
  · cases h

/-- C27: `codegen` of `(SETBANG ref val)` on a non-empty context stack appends
the code of `val`, then one store and `PUSHNONE`, which is `PUSHFALSE`: the store
is `GSET i` with `i` the result of `index_symbol` for `ref = (GREF sym)`,
`CSET d i` with `i` the result of `index_capture` for `ref = (CREF d sym)`, and
`LSET i` with `i` the slot of the local for `ref = (LREF sym)`.  The top-level
`(define x 7)` compiles to `PUSHINT 7; GSET 0; PUSHFALSE; RET 1`, `x` being
symbol 0 of the IRep. -/
theorem C27_setbang_emission :
    (∀ (pic : pic_state) (var val : Node) (st st' : codegen_state), st ≠ [] →
      codegen pic (.SETBANG var val) st = .ok st' →
      ∃ s1 cv, codegen pic val st = .ok s1 ∧ cur_code s1 = cur_code st ++ cv ∧
        ((∃ sym i s2, var = .GREF sym ∧ index_symbol sym s1 = .ok (i, s2) ∧
          cur_code st' = cur_code st ++ cv ++ [⟨.OP_GSET, .i i⟩, ⟨OP_PUSHNONE, .none⟩]) ∨
         (∃ d sym i, var = .CREF d sym ∧ index_capture s1 sym d = .ok i ∧
          cur_code st' = cur_code st ++ cv ++ [⟨.OP_CSET, .r d i⟩, ⟨OP_PUSHNONE, .none⟩]) ∨
         (∃ sym i, var = .LREF sym ∧ local_slot s1 sym = .ok i ∧
          cur_code st' = cur_code st ++ cv ++ [⟨.OP_LSET, .i i⟩, ⟨OP_PUSHNONE, .none⟩]))) ∧
    OP_PUSHNONE = .OP_PUSHFALSE ∧
    (∀ k : Nat, pic_compile base_pic (k + 10) define_example =
      .ok (.mk 7 false 1 0 0
        [⟨.OP_PUSHINT, .i 7⟩, ⟨.OP_GSET, .i 0⟩, ⟨.OP_PUSHFALSE, .none⟩, ⟨.OP_RET, .i 1⟩]
        [] [] [100])) := by
  refine ⟨?_, rfl, ?_⟩
  · intro pic var val st st' hne h
    simp only [codegen] at h
    split at h
    · cases h
    · rename_i s1 h1
      obtain ⟨cv, rs, g⟩ := codegen_grows pic val _ _ hne h1
      refine ⟨s1, cv, h1, g.2.2.2.1, ?_⟩
      rcases codegen_set_spec var s1 st' h with ⟨sym, i, s2, e1, e2, e3⟩ |
        ⟨d, sym, i, e1, e2, e3⟩ | ⟨sym, i, e1, e2, e3⟩
      · exact Or.inl ⟨sym, i, s2, e1, e2, by rw [e3, g.2.2.2.1]⟩
      · exact Or.inr (Or.inl ⟨d, sym, i, e1, e2, by rw [e3, g.2.2.2.1]⟩)
      · exact Or.inr (Or.inr ⟨sym, i, e1, e2, by rw [e3, g.2.2.2.1]⟩)
  · intro k
    exact pic_compile_fuel_mono _ 10 _ (Nat.le_add_left 10 k) _ _
      (eq_of_same_irep (by decide!))

/-- C27 at `(SETBANG (GREF x) (QUOTE 7))` on the initial state of `base_pic`: the
code is `PUSHINT 7; GSET 0; PUSHFALSE`. -/
theorem C27_setbang_emission_witness :
    base_codegen_state ≠ [] ∧
    ∃ st', codegen base_pic (.SETBANG (.GREF 100) (.QUOTE (.int 7))) base_codegen_state =
        .ok st' ∧
      cur_code st' =
        [⟨.OP_PUSHINT, .i 7⟩, ⟨.OP_GSET, .i 0⟩, ⟨.OP_PUSHFALSE, .none⟩] := by
  have h : ∃ st', codegen base_pic (.SETBANG (.GREF 100) (.QUOTE (.int 7)))
      base_codegen_state = .ok st' := ⟨_, rfl⟩
  obtain ⟨st', h⟩ := h
  obtain ⟨s1, cv, h1, _, _⟩ :=
    C27_setbang_emission.1 base_pic _ _ _ _ (by simp [base_codegen_state]) h
  refine ⟨by simp [base_codegen_state], st', h, ?_⟩
  have e : codegen base_pic (.SETBANG (.GREF 100) (.QUOTE (.int 7))) base_codegen_state =
      .ok [{ name := 7, varg := false, args := [], locals := [], captures := [],
             code := [⟨.OP_PUSHINT, .i 7⟩, ⟨.OP_GSET, .i 0⟩, ⟨.OP_PUSHFALSE, .none⟩],
             irep := [], pool := [], syms := [100] }] := rfl
  rw [e] at h
  cases h
  rfl

/-! ### The activation prelude -/

theorem activation_regs_append (s : Sym) : ∀ (xs ys : List Sym) (n : Nat) (found : Option Nat),
    activation_regs s (xs ++ ys) n found =
      activation_regs s ys (n + xs.length) (activation_regs s xs n found)
  | [], ys, n, found => by simp [activation_regs]
  | x :: xs, ys, n, found => by
    show activation_regs s (x :: (xs ++ ys)) n found = _
    simp only [activation_regs, List.length_cons]
    rw [activation_regs_append s xs ys (n + 1)]
    congr 1
    omega

theorem activation_regs_not_mem (s : Sym) : ∀ (vars : List Sym) (n : Nat) (found : Option Nat),
    s ∉ vars → activation_regs s vars n found = found
  | [], _, _, _ => rfl
  | x :: xs, n, found, h => by
    simp only [List.mem_cons, not_or] at h
    simp only [activation_regs]
    rw [activation_regs_not_mem s xs (n + 1) _ h.2, if_neg (fun e => h.1 e.symm)]

theorem activation_regs_slot (s : Sym) : ∀ (vars : List Sym) (n : Nat) (found : Option Nat)
    (m : Nat), activation_regs s vars n found = some m →
      found = some m ∨ (n ≤ m ∧ vars[m - n]? = some s)
  | [], _, _, _, h => Or.inl h
  | x :: xs, n, found, m, h => by
    simp only [activation_regs] at h
    rcases activation_regs_slot s xs (n + 1) _ m h with h1 | ⟨h1, h2⟩
    · by_cases hx : x = s
      · rw [if_pos hx] at h1
        simp only [Option.some.injEq] at h1
        subst h1
        exact Or.inr ⟨le_refl _, by simp [hx]⟩
      · rw [if_neg hx] at h1
        exact Or.inl h1
    · refine Or.inr ⟨by omega, ?_⟩
      have : m - n = (m - (n + 1)) + 1 := by omega
      rw [this, List.getElem?_cons_succ]
      exact h2

theorem activation_regs_mem (s : Sym) : ∀ (vars : List Sym) (n : Nat) (found : Option Nat),
    s ∈ vars → ∃ m, activation_regs s vars n found = some m ∧ n ≤ m
  | [], _, _, h => by simp at h
  | x :: xs, n, found, h => by
    simp only [activation_regs]
    by_cases hs : s ∈ xs
    · obtain ⟨m, h1, h2⟩ := activation_regs_mem s xs (n + 1) (if x = s then some n else found) hs
      exact ⟨m, h1, by omega⟩
    · have hx : x = s := by
        rcases List.mem_cons.mp h with h1 | h1
        · exact h1.symm
        · exact absurd h1 hs
      rw [activation_regs_not_mem s xs (n + 1) _ hs, if_pos hx]
      exact ⟨n, rfl, le_refl _⟩

theorem activation_regs_nodup (s : Sym) : ∀ (vars : List Sym) (n : Nat) (found : Option Nat),
    s ∈ vars → vars.Nodup → activation_regs s vars n found = some (vars.indexOf s + n)
  | [], _, _, h, _ => by simp at h
  | x :: xs, n, found, h, hnd => by
    simp only [activation_regs]
    rw [List.nodup_cons] at hnd
    by_cases hx : x = s
    · subst hx
      rw [activation_regs_not_mem x xs (n + 1) _ hnd.1]
      simp
    · have hs : s ∈ xs := by
        rcases List.mem_cons.mp h with h1 | h1
        · exact absurd h1.symm hx
        · exact h1
      rw [activation_regs_nodup s xs (n + 1) _ hs hnd.2, List.indexOf_cons_ne _ hx]
      congr 1
      omega

theorem prelude_step (cxt : codegen_context) (n : Nat) (c0 : codegen_context)
    (up : codegen_state) :
    (if n ≤ cxt.args.length || (cxt.varg && n == cxt.args.length + 1) then
        emit_i .OP_LREF (n : Int) (c0 :: up)
      else emit_n OP_PUSHNONE (c0 :: up)) =
      .ok (with_insn c0 (prelude_insn cxt.args.length cxt.varg n) :: up) := by
  unfold prelude_insn
  by_cases h1 : n ≤ cxt.args.length
  · simp [h1, emit_i, emit, with_insn]
  · by_cases h2 : cxt.varg = true ∧ n = cxt.args.length + 1
    · simp [h2.1, h2.2, emit_i, emit, with_insn]
    · have h3 : ¬ (n ≤ cxt.args.length ∨ (cxt.varg = true ∧ n = cxt.args.length + 1)) := by
        intro hc
        rcases hc with hc | hc
        · exact h1 hc
        · exact h2 hc
      have h4 : (decide (n ≤ cxt.args.length) || (cxt.varg && n == cxt.args.length + 1)) =
          false := by
        cases hv : cxt.varg
        · simp [h1]
        · have : n ≠ cxt.args.length + 1 := fun e => h2 ⟨hv, e⟩
          simp [h1, this]
      rw [h4, if_neg h3]
      simp [emit_n, emit, with_insn]

/-- The loop of `create_activation` appends one instruction for each captured
symbol, chosen by the register the table holds for it. -/
theorem create_activation_loop_spec (cxt : codegen_context) :
    ∀ (l : List Sym) (c0 : codegen_context) (up st' : codegen_state),
      create_activation_loop cxt l (c0 :: up) = .ok st' →
      ∃ regs, List.Forall₂
          (fun s n => activation_regs s (cxt.args ++ cxt.locals) 1 none = some n) l regs ∧
        st' = with_code c0 (regs.map (prelude_insn cxt.args.length cxt.varg)) :: up
  | [], c0, up, st', h => by
    simp only [create_activation_loop, Except.ok.injEq] at h
    subst h
    exact ⟨[], List.Forall₂.nil, by simp [with_code]⟩
  | s :: rest, c0, up, st', h => by
    simp only [create_activation_loop] at h
    split at h
    · cases h
    · rename_i n hn
      rw [prelude_step] at h
      simp only at h
      obtain ⟨regs, h1, h2⟩ := create_activation_loop_spec cxt rest _ up st' h
      refine ⟨n :: regs, List.Forall₂.cons hn h1, ?_⟩
      rw [h2]
      simp [with_insn, with_code]

theorem create_activation_loop_ok (cxt : codegen_context) :
    ∀ (l : List Sym) (c0 : codegen_context) (up : codegen_state),
      (∀ s ∈ l, s ∈ cxt.args ++ cxt.locals) →
      ∃ st', create_activation_loop cxt l (c0 :: up) = .ok st'
  | [], c0, up, _ => ⟨_, rfl⟩
  | s :: rest, c0, up, h => by
    obtain ⟨m, hm, _⟩ := activation_regs_mem s (cxt.args ++ cxt.locals) 1 none
      (h s (List.mem_cons_self _ _))
    simp only [create_activation_loop, hm]
    rw [prelude_step]
    exact create_activation_loop_ok cxt rest _ up
      (fun x hx => h x (List.mem_cons_of_mem _ hx))

theorem push_codegen_context_spec (pic : pic_state) (name : Option Sym)
    (args locals : List Sym) (varg : Bool) (captures : List Sym) (st st' : codegen_state)
    (h : push_codegen_context pic name args locals varg captures st = .ok st') :
    ∃ regs, List.Forall₂
        (fun s n => activation_regs s (args ++ locals) 1 none = some n) captures regs ∧
      st' = with_code (fresh_context pic name args locals varg captures)
              (regs.map (prelude_insn args.length varg)) :: st := by
  unfold push_codegen_context create_activation at h
  obtain ⟨regs, h1, h2⟩ := create_activation_loop_spec _ _ _ _ _ h
  exact ⟨regs, h1, h2⟩

theorem push_codegen_context_ok (pic : pic_state) (name : Option Sym)
    (args locals : List Sym) (varg : Bool) (captures : List Sym) (st : codegen_state)
    (hc : ∀ s ∈ captures, s ∈ args ++ locals) :
    ∃ st', push_codegen_context pic name args locals varg captures st = .ok st' := by
  unfold push_codegen_context create_activation
  exact create_activation_loop_ok _ _ _ _ hc

theorem forall₂_regs_nodup (args locals : List Sym) (hnd : (args ++ locals).Nodup) :
    ∀ (captures : List Sym) (regs : List Nat), (∀ s ∈ captures, s ∈ args ++ locals) →
      List.Forall₂ (fun s n => activation_regs s (args ++ locals) 1 none = some n)
        captures regs →
      regs = captures.map (slot_of args locals)
  | [], _, _, h => by cases h; rfl
  | s :: rest, _, hc, h => by
    cases h with
    | cons h1 h2 =>
      rw [activation_regs_nodup s _ 1 none (hc s (List.mem_cons_self _ _)) hnd] at h1
      simp only [Option.some.injEq] at h1
      rw [List.map_cons, ← h1,
        forall₂_regs_nodup args locals hnd rest _
          (fun x hx => hc x (List.mem_cons_of_mem _ hx)) h2]
      rfl

/-- C22: when every symbol occurs once in `args ++ locals` and every captured
symbol is among them, `push_codegen_context` succeeds and the code of the new
context is one instruction for each captured symbol, in order: `LREF n` when the
slot `n` of the symbol, its 1-based position in `args ++ locals`, is at most
the number of arguments, or `varg` holds and `n` is that number plus 1, and
`PUSHNONE`, which is `PUSHFALSE`, otherwise; the rest of the context is as
given, with no child, constant or symbol.  With no captures, as in the root
context of `new_codegen_state`, the code is empty.  (With a symbol twice among
the arguments the register is that of its last occurrence.) -/
theorem C22_activation_prelude :
    (∀ (pic : pic_state) (name : Option Sym) (args locals : List Sym) (varg : Bool)
        (captures : List Sym) (st : codegen_state),
      (args ++ locals).Nodup → (∀ s ∈ captures, s ∈ args ++ locals) →
      ∃ cxt, push_codegen_context pic name args locals varg captures st = .ok (cxt :: st) ∧
        cxt.code = captures.map (fun s => prelude_insn args.length varg (slot_of args locals s)) ∧
        cxt.code.length = captures.length ∧
        cxt.args = args ∧ cxt.locals = locals ∧ cxt.varg = varg ∧ cxt.captures = captures ∧
        cxt.irep = [] ∧ cxt.pool = [] ∧ cxt.syms = []) ∧
    (∀ (nargs : Nat) (varg : Bool) (n : Nat),
      prelude_insn nargs varg n =
        if n ≤ nargs ∨ (varg = true ∧ n = nargs + 1) then ⟨.OP_LREF, .i (n : Int)⟩
        else ⟨.OP_PUSHFALSE, .none⟩) ∧
    (∀ (args locals : List Sym) (s : Sym), s ∈ args ++ locals →
      1 ≤ slot_of args locals s ∧ (args ++ locals)[slot_of args locals s - 1]? = some s) ∧
    (∀ (pic : pic_state) (name : Option Sym) (args locals : List Sym) (varg : Bool)
        (st : codegen_state),
      push_codegen_context pic name args locals varg [] st =
        .ok (fresh_context pic name args locals varg [] :: st) ∧
      (fresh_context pic name args locals varg []).code = []) ∧
    (∀ pic : pic_state, new_codegen_state pic = .ok [fresh_context pic none [] [] false []]) ∧
    (∃ cxt, push_codegen_context base_pic none [100, 100] [] false [100] [] = .ok [cxt] ∧
      cxt.code = [⟨.OP_LREF, .i 2⟩] ∧ slot_of [100, 100] [] 100 = 1) := by
  refine ⟨?_, fun _ _ _ => rfl, ?_, fun _ _ _ _ _ _ => ⟨rfl, rfl⟩, fun _ => rfl,
    ⟨_, rfl, rfl, rfl⟩⟩
  · intro pic name args locals varg captures st hnd hc
    obtain ⟨st', h⟩ := push_codegen_context_ok pic name args locals varg captures st hc
    obtain ⟨regs, h1, h2⟩ := push_codegen_context_spec pic name args locals varg captures st st' h
    have hr := forall₂_regs_nodup args locals hnd captures regs hc h1
    subst hr
    subst h2
    refine ⟨_, h, ?_, ?_, rfl, rfl, rfl, rfl, rfl, rfl, rfl⟩
    · simp [with_code, fresh_context, List.map_map, Function.comp]
    · simp [with_code, fresh_context]
  · intro args locals s hs
    refine ⟨by simp [slot_of], ?_⟩
    simp only [slot_of, Nat.add_sub_cancel]
    exact List.getElem?_indexOf hs

/-- C22 at the context of `(lambda (x . r) ...)` with a local `y`, capturing `r`,
`y` and `x`: the prelude is `LREF 2; PUSHFALSE; LREF 1`. -/
theorem C22_activation_prelude_witness :
    ([100] ++ [101, 102] : List Sym).Nodup ∧
    (∀ s ∈ ([101, 102, 100] : List Sym), s ∈ ([100] ++ [101, 102] : List Sym)) ∧
    ∃ cxt, push_codegen_context base_pic none [100] [101, 102] true [101, 102, 100] [] =
        .ok [cxt] ∧
      cxt.code = [⟨.OP_LREF, .i 2⟩, ⟨.OP_PUSHFALSE, .none⟩, ⟨.OP_LREF, .i 1⟩] := by
  have hnd : ([100] ++ [101, 102] : List Sym).Nodup := by decide
  have hc : ∀ s ∈ ([101, 102, 100] : List Sym), s ∈ ([100] ++ [101, 102] : List Sym) := by
    decide
  obtain ⟨cxt, h1, h2, _⟩ :=
    C22_activation_prelude.1 base_pic none [100] [101, 102] true [101, 102, 100] [] hnd hc
  exact ⟨hnd, hc, cxt, h1, by rw [h2]; rfl⟩

/-! ### The rest parameter -/

theorem analyze_args_rest (v : Val) :
    ∀ (acc : List Sym) (varg : Bool) (args locals : List Sym),
      analyze_args v acc = some (varg, args, locals) →
      varg = (rest_parameter v).isSome ∧ locals = (rest_parameter v).toList := by
  induction v with
  | pair a d _ ihd =>
    intro acc varg args locals h
    cases a <;> simp only [analyze_args] at h <;> try cases h
    exact ihd _ _ _ _ h
  | nil =>
    intro acc varg args locals h
    simp only [analyze_args, Option.some.injEq, Prod.mk.injEq] at h
    exact ⟨h.1.symm, h.2.2.symm⟩
  | sym s =>
    intro acc varg args locals h
    simp only [analyze_args, Option.some.injEq, Prod.mk.injEq] at h
    exact ⟨h.1.symm, h.2.2.symm⟩
  | bool b => intro acc varg args locals h; simp [analyze_args] at h
  | int b => intro acc varg args locals h; simp [analyze_args] at h
  | float b => intro acc varg args locals h; simp [analyze_args] at h
  | char b => intro acc varg args locals h; simp [analyze_args] at h
  | other b => intro acc varg args locals h; simp [analyze_args] at h

theorem rest_first_rules : ScopeRules rest_first where
  capture := by
    intro sc s h _
    unfold capture_var
    split
    · exact h
    · exact h
  define := by
    intro sc s h hl
    refine ⟨fun _ => by simp, ?_⟩
    intro hv x hx
    simp only [List.mem_append, List.mem_singleton] at hx
    rcases hx with hx | rfl
    · exact h.2 hv x hx
    · intro hc
      have : lookup_scope sc x = true := (lookup_scope_iff sc x).mpr (List.mem_append_left _ hc)
      rw [hl] at this
      cases this
  defer := fun sc d h => h
  push := by
    intro formals varg args locals depth ha
    obtain ⟨h1, h2⟩ := analyze_args_rest formals [] varg args locals ha
    refine ⟨?_, ?_⟩
    · intro hv
      simp only at hv ⊢
      rw [h2]
      rw [hv] at h1
      cases hr : rest_parameter formals with
      | none => rw [hr] at h1; cases h1
      | some r => simp
    · intro hv x hx
      simp only at hv hx
      rw [h2] at hx
      rw [hv] at h1
      cases hr : rest_parameter formals with
      | none => rw [hr] at hx; simp at hx
      | some r => rw [hr] at h1; cases h1

/-- The locals of the `LAMBDA` node `analyze_procedure` returns begin with the
locals `push_scope` found in the formals. -/
theorem analyze_procedure_locals (state : analyze_state) (fuel : Nat) (nm : Option Sym)
    (formals body : Val) (σ : astore) (L : Node) (σ' : astore)
    (hI : deep_inv (fun _ => True) σ)
    (h : analyze_procedure state (analyze state fuel) (analyze_deferred state fuel)
      nm formals body σ = .ok (L, σ')) :
    ∃ varg args locals0 defs caps b, analyze_args formals [] = some (varg, args, locals0) ∧
      L = .LAMBDA nm args (locals0 ++ defs) varg caps b := by
  obtain ⟨scope0, bodyN, σ2, σ3, sc3, up3, hpush, _, hbody, hfl, hs3, hL, _⟩ :=
    analyze_procedure_order state _ _ nm formals body σ L σ' h
  obtain ⟨varg, args, locals, hargs, hsc⟩ := push_scope_ok formals σ.scope _ hpush
  simp only [List.cons.injEq, and_true] at hsc
  have hI1 : deep_inv (fun _ => True) { σ with scope := scope0 :: σ.scope } :=
    ⟨stack_wf_push σ.scope hI.1 _ (by rw [hsc]), fun _ _ => trivial⟩
  obtain ⟨hI2, hT2⟩ := analyze_grows state fuel _ true _ bodyN σ2 hI1 hbody
  obtain ⟨m, hheap2, hm2⟩ := hT2
  simp only at hheap2 hm2
  cases hs2 : σ2.scope with
  | nil => rw [hs2] at hm2; exact hm2.elim
  | cons S2 up2 =>
    rw [hs2] at hm2
    obtain ⟨hg2, _, hids2⟩ := hm2
    have hd0 : defer_ids scope0 = [] := by rw [hsc]; rfl
    rw [hd0, List.append_nil] at hids2
    have hnodup : (defer_ids S2).Nodup := by
      rw [hids2]; exact List.nodup_reverse.mpr (List.nodup_range' _ _)
    have hlt : ∀ c ∈ defer_ids S2, c < σ2.heap.length := by
      intro c hc
      rw [hids2] at hc
      have := mem_range'_rev hc
      rw [hheap2, List.length_append, List.length_replicate]; exact this.2
    obtain ⟨_, ⟨S3, up3', hs3', hg3, _, _⟩, _⟩ :=
      flush_spec state trivial_deepRules fuel σ2 σ3 S2 up2 hI2 hs2 hnodup hlt hfl
    rw [hs3] at hs3'
    simp only [List.cons.injEq] at hs3'
    obtain ⟨e1, _⟩ := hs3'
    subst e1
    have hg := scope_grows_trans hg2 hg3
    obtain ⟨defs, hdefs⟩ := hg.2.2.2.1
    refine ⟨varg, args, locals, defs, sc3.captures, bodyN, hargs, ?_⟩
    rw [hL, ← hdefs, hsc]

theorem regs_rest_slot (args locals : List Sym) (s : Sym)
    (h : activation_regs s (args ++ locals) 1 none = some (args.length + 1)) :
    locals.head? = some s := by
  rcases activation_regs_slot s _ 1 none _ h with h1 | ⟨_, h2⟩
  · cases h1
  · simp only [Nat.add_sub_cancel] at h2
    rw [List.getElem?_append_right (le_refl _), Nat.sub_self] at h2
    cases locals with
    | nil => simp at h2
    | cons r rest => simpa using h2

theorem regs_argument_slot (args locals : List Sym) (s : Sym) (n : Nat)
    (h : activation_regs s (args ++ locals) 1 none = some n) (hn : n ≤ args.length) :
    1 ≤ n ∧ args[n - 1]? = some s ∧ s ∉ locals := by
  rw [activation_regs_append] at h
  have hs : s ∉ locals := by
    intro hc
    obtain ⟨m, h1, h2⟩ := activation_regs_mem s locals (1 + args.length)
      (activation_regs s args 1 none) hc
    rw [h1] at h
    simp only [Option.some.injEq] at h
    omega
  rw [activation_regs_not_mem s locals _ _ hs] at h
  rcases activation_regs_slot s _ 1 none _ h with h1 | ⟨h1, h2⟩
  · cases h1
  · exact ⟨h1, h2, hs⟩

/-- C30: `analyze_args` sets `varg` exactly when the formals end in a symbol, the
rest parameter, which is then the only local it returns; the `LAMBDA` node
`analyze_procedure` returns has this `varg`, and its locals are the rest
parameter, if there is one, followed by the names defined in the body.  In
every `LAMBDA` node of an analyzed tree, `varg` comes with a non-empty `locals`
and, without `varg`, no local is an argument.  In the activation prelude the
register of a captured symbol is `args.length + 1` only for the first local,
which with `varg` is the rest parameter, and a register up to `args.length` is
the slot of an argument that is no local; without `varg` only these are
copied.  In `((lambda (x . r) (lambda () r)) 1)` the prelude of the outer
lambda copies slot 2, the rest parameter. -/
theorem C30_rest_parameter_slot :
    (∀ (formals : Val) (varg : Bool) (args locals : List Sym),
      analyze_args formals [] = some (varg, args, locals) →
      varg = (rest_parameter formals).isSome ∧ locals = (rest_parameter formals).toList) ∧
    (∀ (state : analyze_state) (fuel : Nat) (nm : Option Sym) (formals body : Val)
        (σ : astore) (L : Node) (σ' : astore), deep_inv (fun _ => True) σ →
      analyze_procedure state (analyze state fuel) (analyze_deferred state fuel)
        nm formals body σ = .ok (L, σ') →
      ∃ args defs caps b,
        L = .LAMBDA nm args ((rest_parameter formals).toList ++ defs)
          (rest_parameter formals).isSome caps b) ∧
    (∀ (pic : pic_state) (fuel : Nat) (obj : Val) (t : Node),
      pic_analyze pic fuel obj = .ok t →
      AllLambdas (fun _ args locals varg _ _ =>
        (varg = true → locals ≠ []) ∧ (varg = false → ∀ x ∈ locals, x ∉ args)) t) ∧
    (∀ (pic : pic_state) (name : Option Sym) (args locals : List Sym) (varg : Bool)
        (captures : List Sym) (st st' : codegen_state),
      push_codegen_context pic name args locals varg captures st = .ok st' →
      ∃ regs, List.Forall₂
          (fun s n => activation_regs s (args ++ locals) 1 none = some n) captures regs ∧
        cur_code st' = regs.map (prelude_insn args.length varg)) ∧
    (∀ (args locals : List Sym) (s : Sym),
      activation_regs s (args ++ locals) 1 none = some (args.length + 1) →
      locals.head? = some s) ∧
    (∀ (args locals : List Sym) (s : Sym) (n : Nat),
      activation_regs s (args ++ locals) 1 none = some n → n ≤ args.length →
      1 ≤ n ∧ args[n - 1]? = some s ∧ s ∉ locals) ∧
    (∀ nargs n : Nat, prelude_insn nargs false n =
      if n ≤ nargs then ⟨.OP_LREF, .i (n : Int)⟩ else ⟨OP_PUSHNONE, .none⟩) ∧
    (∀ k : Nat,
      pic_analyze base_pic (k + 10) rest_example =
        .ok (.TAILCALL [.LAMBDA none [100] [101] true [101]
            (.RETURN [.LAMBDA none [] [] false [] (.RETURN [.CREF 1 101])]),
          .QUOTE (.int 1)]) ∧
      ∃ r, pic_compile base_pic (k + 10) rest_example = .ok r ∧
        r.child_code 0 = [⟨.OP_LREF, .i 2⟩, ⟨.OP_LAMBDA, .i 0⟩, ⟨.OP_RET, .i 1⟩]) := by
  refine ⟨fun formals varg args locals h => analyze_args_rest formals [] varg args locals h,
    ?_, ?_, ?_, regs_rest_slot, regs_argument_slot, ?_, ?_⟩
  · intro state fuel nm formals body σ L σ' hI h
    obtain ⟨varg, args, locals0, defs, caps, b, ha, hL⟩ :=
      analyze_procedure_locals state fuel nm formals body σ L σ' hI h
    obtain ⟨h1, h2⟩ := analyze_args_rest formals [] varg args locals0 ha
    exact ⟨args, defs, caps, b, by rw [hL, h1, h2]⟩
  · intro pic fuel obj t h
    exact pic_analyze_lambdas rest_first_rules pic
      ⟨(by intro hv; cases hv), (by intro _ x _ hc; simp [root_scope] at hc)⟩ _
      (fun ctx nm a l v c b hJ _ => hJ) fuel obj t h
  · intro pic name args locals varg captures st st' h
    obtain ⟨regs, h1, h2⟩ := push_codegen_context_spec pic name args locals varg captures st st' h
    exact ⟨regs, h1, by rw [h2]; simp [cur_code, with_code, fresh_context]⟩
  · intro nargs n
    simp [prelude_insn]
  · intro k
    have ha : pic_analyze base_pic 10 rest_example =
        .ok (.TAILCALL [.LAMBDA none [100] [101] true [101]
            (.RETURN [.LAMBDA none [] [] false [] (.RETURN [.CREF 1 101])]),
          .QUOTE (.int 1)]) := eq_of_same_ast (by decide!)
    have hc : pic_compile base_pic 10 rest_example =
        .ok (.mk 7 false 1 0 0
          [⟨.OP_LAMBDA, .i 0⟩, ⟨.OP_PUSHINT, .i 1⟩, ⟨.OP_TAILCALL, .i 2⟩]
          [some (.mk 7 true 2 1 1
            [⟨.OP_LREF, .i 2⟩, ⟨.OP_LAMBDA, .i 0⟩, ⟨.OP_RET, .i 1⟩]
            [some (.mk 7 false 1 0 0 [⟨.OP_CREF, .r 1 0⟩, ⟨.OP_RET, .i 1⟩] [] [] [])]
            [] [])]
          [] []) := eq_of_same_irep (by decide!)
    exact ⟨pic_analyze_fuel_mono _ 10 _ (Nat.le_add_left 10 k) _ _ ha,
      _, pic_compile_fuel_mono _ 10 _ (Nat.le_add_left 10 k) _ _ hc, rfl⟩

/-- C30 at the formals `(x . r)` with `x = 100`, `r = 101`: `varg` is set and the
rest parameter is the only local. -/
theorem C30_rest_parameter_slot_witness :
    analyze_args (.pair (.sym 100) (.sym 101)) [] = some (true, [100], [101]) ∧
    true = (rest_parameter (.pair (.sym 100) (.sym 101))).isSome ∧
    [101] = (rest_parameter (.pair (.sym 100) (.sym 101))).toList :=
  ⟨rfl, C30_rest_parameter_slot.1 _ _ _ _ rfl⟩

/-! ### The symbol table of a context -/

theorem gref_ok_mono {syms syms' : List Sym} (h : syms <+: syms') {c : pic_code}
    (hc : gref_ok syms c) : gref_ok syms' c := by
  intro hi
  obtain ⟨i, h1, h2⟩ := hc hi
  exact ⟨i, h1, lt_of_lt_of_le h2 h.length_le⟩

theorem gref_ok_other {syms : List Sym} {insn : pic_opcode} {u : operand}
    (h1 : insn ≠ .OP_GREF) (h2 : insn ≠ .OP_GSET) : gref_ok syms ⟨insn, u⟩ := by
  intro hi
  rcases hi with hi | hi
  · exact absurd hi h1
  · exact absurd hi h2

theorem index_symbol_spec (s : Sym) (cxt : codegen_context) (up : codegen_state) :
    (s ∈ cxt.syms →
      index_symbol s (cxt :: up) = .ok (((cxt.syms.indexOf s : Nat) : Int), cxt :: up)) ∧
    (s ∉ cxt.syms →
      index_symbol s (cxt :: up) =
        .ok (((cxt.syms.length : Nat) : Int), { cxt with syms := cxt.syms ++ [s] } :: up)) := by
  simp only [index_symbol, xv_scan_eq, Nat.zero_add]
  refine ⟨fun h => by simp [h], fun h => by simp [h]⟩

theorem index_symbol_index {s : Sym} {i : Int} {st st' : codegen_state}
    (h : index_symbol s st = .ok (i, st')) :
    ∃ k : Nat, i = (k : Int) ∧ (cur_syms st')[k]? = some s ∧ cur_syms st <+: cur_syms st' ∧
      ((cur_syms st).Nodup → (cur_syms st').Nodup) := by
  cases st with
  | nil => simp [index_symbol] at h
  | cons cxt up =>
    by_cases hs : s ∈ cxt.syms
    · rw [(index_symbol_spec s cxt up).1 hs] at h
      simp only [Except.ok.injEq, Prod.mk.injEq] at h
      obtain ⟨e1, e2⟩ := h
      subst e2
      exact ⟨_, e1.symm, List.getElem?_indexOf hs, List.prefix_refl _, fun hn => hn⟩
    · rw [(index_symbol_spec s cxt up).2 hs] at h
      simp only [Except.ok.injEq, Prod.mk.injEq] at h
      obtain ⟨e1, e2⟩ := h
      subst e2
      refine ⟨_, e1.symm, by simp [cur_syms], by simp [cur_syms], ?_⟩
      intro hn
      simp only [cur_syms] at hn ⊢
      exact List.Nodup.append hn (List.nodup_singleton s)
        (by intro a ha hb; rw [List.mem_singleton] at hb; subst hb; exact hs ha)

theorem getElem?_lt_length {α : Type} {l : List α} {k : Nat} {a : α} (h : l[k]? = some a) :
    k < l.length := by
  by_contra hc
  rw [List.getElem?_eq_none (by omega)] at h
  cases h

theorem emit_syms {insn : pic_opcode} {u : operand} {st st' : codegen_state}
    (h : emit insn u st = .ok st') : cur_syms st' = cur_syms st := by
  cases st with
  | nil => simp [emit] at h
  | cons c up =>
    simp only [emit, Except.ok.injEq] at h
    subst h; rfl

theorem patch_jump_syms {pc : Nat} {i : Int} {st st' : codegen_state}
    (h : patch_jump pc i st = .ok st') : cur_syms st' = cur_syms st := by
  cases st with
  | nil => simp [patch_jump] at h
  | cons c up =>
    simp only [patch_jump, Except.ok.injEq] at h
    subst h; rfl

theorem indexes_refl (st : codegen_state) (h : st ≠ []) : indexes st st [] [] :=
  ⟨grows_refl st h, List.prefix_refl _, fun hn => hn, by simp, by simp⟩

theorem indexes_trans {a b c : codegen_state} {cs1 cs2 : List pic_code}
    {rs1 rs2 : List pic_irep} (h1 : indexes a b cs1 rs1) (h2 : indexes b c cs2 rs2) :
    indexes a c (cs1 ++ cs2) (rs1 ++ rs2) := by
  obtain ⟨a1, a2, a3, a4, a5⟩ := h1
  obtain ⟨b1, b2, b3, b4, b5⟩ := h2
  refine ⟨grows_trans a1 b1, a2.trans b2, fun hn => b3 (a3 hn), ?_, ?_⟩
  · intro x hx
    rcases List.mem_append.mp hx with h | h
    · exact gref_ok_mono b2 (a4 x h)
    · exact b4 x h
  · intro r hr
    rcases List.mem_append.mp hr with h | h
    · exact a5 r h
    · exact b5 r h

theorem indexes_some {st st' : codegen_state} {cs : List pic_code} {rs : List pic_irep}
    (h : indexes st st' cs rs) : ∃ cs rs, indexes st st' cs rs := ⟨cs, rs, h⟩

theorem indexes_trans_ex {a b c : codegen_state}
    (h1 : ∃ cs rs, indexes a b cs rs) (h2 : ∃ cs rs, indexes b c cs rs) :
    ∃ cs rs, indexes a c cs rs := by
  obtain ⟨cs1, rs1, g1⟩ := h1
  obtain ⟨cs2, rs2, g2⟩ := h2
  exact ⟨_, _, indexes_trans g1 g2⟩

theorem indexes_ne {st st' : codegen_state} (h : ∃ cs rs, indexes st st' cs rs) : st' ≠ [] := by
  obtain ⟨_, _, g⟩ := h
  exact g.1.2.1

theorem emit_indexes {insn : pic_opcode} {u : operand} {st st' : codegen_state}
    (h0 : insn ≠ .OP_LAMBDA) (h1 : insn ≠ .OP_GREF) (h2 : insn ≠ .OP_GSET)
    (h : emit insn u st = .ok st') : indexes st st' [⟨insn, u⟩] [] := by
  refine ⟨emit_grows h0 h, by rw [emit_syms h], by rw [emit_syms h]; exact fun hn => hn, ?_,
    by simp⟩
  intro c hc
  rw [List.mem_singleton] at hc
  subst hc
  exact gref_ok_other h1 h2

theorem emit_ex {insn : pic_opcode} {u : operand} {st st' : codegen_state}
    (h0 : insn ≠ .OP_LAMBDA) (h1 : insn ≠ .OP_GREF) (h2 : insn ≠ .OP_GSET)
    (h : emit insn u st = .ok st') : ∃ cs rs, indexes st st' cs rs :=
  indexes_some (emit_indexes h0 h1 h2 h)

theorem symbol_indexes {s : Sym} {i : Int} {insn : pic_opcode} {st s1 st' : codegen_state}
    (h0 : insn ≠ .OP_LAMBDA) (hs : index_symbol s st = .ok (i, s1))
    (h : emit_i insn i s1 = .ok st') :
    ∃ k : Nat, i = (k : Int) ∧ (cur_syms st')[k]? = some s ∧
      indexes st st' [⟨insn, .i i⟩] [] := by
  obtain ⟨k, e1, e2, e3, e4⟩ := index_symbol_index hs
  have es := emit_syms h
  have g := grows_trans (index_symbol_grows hs) (emit_i_grows h0 h)
  simp only [List.nil_append] at g
  refine ⟨k, e1, by rw [es]; exact e2, g, by rw [es]; exact e3, by rw [es]; exact e4, ?_,
    by simp⟩
  intro c hc
  rw [List.mem_singleton] at hc
  subst hc
  intro _
  exact ⟨k, by rw [e1], by rw [es]; exact getElem?_lt_length e2⟩

theorem codegen_quote_indexes {d : Val} {st st' : codegen_state}
    (h : codegen_quote d st = .ok st') : ∃ cs rs, indexes st st' cs rs := by
  unfold codegen_quote at h
  split at h
  · refine emit_ex ?_ ?_ ?_ h <;> split <;> decide
  · exact emit_ex (by decide) (by decide) (by decide) h
  · exact emit_ex (by decide) (by decide) (by decide) h
  · exact emit_ex (by decide) (by decide) (by decide) h
  · split at h
    · cases h
    · rename_i cxt up
      simp only [emit_i, emit, Except.ok.injEq] at h
      subst h
      refine ⟨[⟨.OP_PUSHCONST, .i (cxt.pool.length : Int)⟩], [],
        ⟨by simp, by simp, rfl, rfl, by simp [cur_irep],
          by simp [lambda_operands, slot_operands], by simp⟩,
        List.prefix_refl _, fun hn => hn, ?_, by simp⟩
      intro c hc
      rw [List.mem_singleton] at hc
      subst hc
      exact gref_ok_other (by decide) (by decide)

theorem bind_emit_indexes {f g : codegen_state → Except Err codegen_state}
    (hf : ∀ st st', f st = .ok st' → ∃ cs rs, indexes st st' cs rs)
    (hg : ∀ st st', g st = .ok st' → ∃ cs rs, indexes st st' cs rs)
    {st st' : codegen_state} (h : (f st).bind g = .ok st') :
    ∃ cs rs, indexes st st' cs rs := by
  cases hfs : f st with
  | error e => simp [hfs, Except.bind] at h
  | ok s1 =>
    simp only [hfs, Except.bind] at h
    exact indexes_trans_ex (hf _ _ hfs) (hg _ _ h)

theorem codegen_set_indexes {var : Node} {st st' : codegen_state}
    (h : codegen_set var st = .ok st') : ∃ cs rs, indexes st st' cs rs := by
  unfold codegen_set at h
  split at h
  · split at h
    · cases h
    · rename_i i s1 hs
      cases hs2 : emit_i .OP_GSET i s1 with
      | error e => simp [hs2, Except.bind] at h
      | ok s2 =>
        simp only [hs2, Except.bind] at h
        obtain ⟨_, _, _, g⟩ := symbol_indexes (by decide) hs hs2
        exact indexes_trans_ex (indexes_some g)
          (emit_ex (by decide) (by decide) (by decide) h)
  · split at h
    · cases h
    · exact bind_emit_indexes (fun _ _ h => emit_ex (by decide) (by decide) (by decide) h)
          (fun _ _ h => emit_ex (by decide) (by decide) (by decide) h) h
  · split at h
    · cases h
    · exact bind_emit_indexes (fun _ _ h => emit_ex (by decide) (by decide) (by decide) h)
          (fun _ _ h => emit_ex (by decide) (by decide) (by decide) h) h
  · cases h

theorem prelude_insn_gref (syms : List Sym) (nargs : Nat) (varg : Bool) (n : Nat) :
    gref_ok syms (prelude_insn nargs varg n) := by
  unfold prelude_insn
  split
  · exact gref_ok_other (by decide) (by decide)
  · exact gref_ok_other (by decide) (by decide)

theorem push_codegen_context_syms {pic name args locals varg captures}
    {st st' : codegen_state}
    (h : push_codegen_context pic name args locals varg captures st = .ok st') :
    cur_syms st' = [] ∧ ∀ syms, ∀ c ∈ cur_code st', gref_ok syms c := by
  obtain ⟨regs, _, h2⟩ := push_codegen_context_spec pic name args locals varg captures st st' h
  subst h2
  refine ⟨rfl, ?_⟩
  intro syms c hc
  simp only [cur_code, with_code, fresh_context, List.nil_append, List.mem_map] at hc
  obtain ⟨n, _, e⟩ := hc
  rw [← e]
  exact prelude_insn_gref syms _ _ n

theorem syms_ok_list_map : ∀ (rs : List pic_irep), (∀ r ∈ rs, syms_ok r) →
    syms_ok_list (rs.map some)
  | [], _ => by simp [syms_ok_list]
  | r :: rs, h => by
    simp only [List.map_cons, syms_ok_list]
    exact ⟨h r (by simp), syms_ok_list_map rs (fun x hx => h x (by simp [hx]))⟩

theorem pop_codegen_context_syms {st st' : codegen_state} {r : pic_irep}
    (h : pop_codegen_context st = .ok (r, st')) (hn : (cur_syms st).Nodup)
    (hc : ∀ c ∈ cur_code st, gref_ok (cur_syms st) c) (hi : syms_ok_list (cur_irep st)) :
    syms_ok r := by
  cases st with
  | nil => simp [pop_codegen_context] at h
  | cons c up =>
    simp only [pop_codegen_context, Except.ok.injEq, Prod.mk.injEq] at h
    obtain ⟨h1, _⟩ := h
    subst h1
    exact ⟨hn, hc, hi⟩

theorem lambda_indexes {pic : pic_state} {name : Option Sym} {args locals : List Sym}
    {varg : Bool} {captures : List Sym} {k : Nat} {r : pic_irep}
    {st s1 s2 s3 s4 s5 st' : codegen_state} {cs : List pic_code} {rs : List pic_irep}
    (h1 : reserve_irep st = .ok (k, s1)) (h2 : emit_i .OP_LAMBDA (k : Int) s1 = .ok s2)
    (h3 : push_codegen_context pic name args locals varg captures s2 = .ok s3)
    (g4 : indexes s3 s4 cs rs) (h5 : pop_codegen_context s4 = .ok (r, s5))
    (h6 : store_irep k r s5 = .ok st') :
    indexes st st' [⟨.OP_LAMBDA, .i (k : Int)⟩] [r] := by
  have hg := (lambda_grows h1 h2 h3 g4.1 h5 h6).2
  obtain ⟨p1, p2⟩ := push_codegen_context_syms h3
  obtain ⟨q1, q2, q3, q4, q5⟩ := g4
  have hr : syms_ok r := by
    refine pop_codegen_context_syms h5 (q3 (by rw [p1]; exact List.nodup_nil)) ?_ ?_
    · intro c hc
      rw [q1.2.2.2.1] at hc
      rcases List.mem_append.mp hc with h | h
      · exact p2 _ c h
      · exact q4 c h
    · rw [q1.2.2.2.2.1, (push_codegen_context_fresh h3).2.2.1, List.nil_append]
      exact syms_ok_list_map rs q5
  have hsyms : cur_syms st' = cur_syms st := by
    cases st with
    | nil => simp [reserve_irep] at h1
    | cons c up =>
      simp only [reserve_irep, Except.ok.injEq, Prod.mk.injEq] at h1
      obtain ⟨_, hs1⟩ := h1
      subst hs1
      simp only [emit_i, emit, Except.ok.injEq] at h2
      subst h2
      have t3 := (push_codegen_context_fresh h3).2.1
      have t4 := q1.2.2.1
      have t5 : s5 = s4.tail := by
        cases s4 with
        | nil => simp [pop_codegen_context] at h5
        | cons c4 u4 =>
          simp only [pop_codegen_context, Except.ok.injEq, Prod.mk.injEq] at h5
          exact h5.2.symm
      rw [t4, t3] at t5
      subst t5
      simp only [store_irep, Except.ok.injEq] at h6
      subst h6
      rfl
  refine ⟨hg, by rw [hsyms], by rw [hsyms]; exact fun hn => hn, ?_, ?_⟩
  · intro c hc
    rw [List.mem_singleton] at hc
    subst hc
    exact gref_ok_other (by decide) (by decide)
  · intro x hx
    rw [List.mem_singleton] at hx
    rw [hx]; exact hr

theorem if_indexes {st s1 s2 s3 s4 s5 s6 st' : codegen_state} {s t' now now' : Nat}
    {cc ce ct : List pic_code} {r1 r2 r3 : List pic_irep}
    (g1 : indexes st s1 cc r1) (hs : clen s1 = .ok s) (h2 : emit_n .OP_JMPIF s1 = .ok s2)
    (g3 : indexes s2 s3 ce r2) (ht : clen s3 = .ok t') (h4 : emit_n .OP_JMP s3 = .ok s4)
    (hn : clen s4 = .ok now) (h5 : patch_jump s ((now : Int) - (s : Int)) s4 = .ok s5)
    (g6 : indexes s5 s6 ct r3) (hn' : clen s6 = .ok now')
    (h7 : patch_jump t' ((now' : Int) - (t' : Int)) s6 = .ok st') :
    indexes st st'
      (cc ++ [⟨.OP_JMPIF, .i ((ce.length : Int) + 2)⟩] ++ ce ++
        [⟨.OP_JMP, .i ((ct.length : Int) + 1)⟩] ++ ct)
      (r1 ++ r2 ++ r3) := by
  have hg := if_grows g1.1 hs h2 g3.1 ht h4 hn h5 g6.1 hn' h7
  have e2 : cur_syms s2 = cur_syms s1 := emit_syms h2
  have e4 : cur_syms s4 = cur_syms s3 := emit_syms h4
  have e5 : cur_syms s5 = cur_syms s4 := patch_jump_syms h5
  have e7 : cur_syms st' = cur_syms s6 := patch_jump_syms h7
  obtain ⟨_, a2, a3, a4, a5⟩ := g1
  obtain ⟨_, b2, b3, b4, b5⟩ := g3
  obtain ⟨_, c2, c3, c4, c5⟩ := g6
  rw [e2] at b2 b3
  rw [e5, e4] at c2 c3
  rw [← e7] at c2 c3 c4
  refine ⟨hg, a2.trans (b2.trans c2), fun h => c3 (b3 (a3 h)), ?_, ?_⟩
  · intro x hx
    simp only [List.mem_append, List.mem_singleton] at hx
    rcases hx with (((h | h) | h) | h) | h
    · exact gref_ok_mono (b2.trans c2) (a4 x h)
    · subst h; exact gref_ok_other (by decide) (by decide)
    · exact gref_ok_mono c2 (b4 x h)
    · subst h; exact gref_ok_other (by decide) (by decide)
    · exact c4 x h
  · intro r hr
    simp only [List.mem_append] at hr
    rcases hr with (h | h) | h
    · exact a5 r h
    · exact b5 r h
    · exact c5 r h

mutual
theorem codegen_indexes (pic : pic_state) :
    ∀ (n : Node) (st st' : codegen_state), st ≠ [] → codegen pic n st = .ok st' →
      ∃ cs rs, indexes st st' cs rs
  | .GREF s, st, st', _, h => by
    simp only [codegen] at h
    split at h
    · cases h
    · rename_i i s1 hs
      obtain ⟨_, _, _, g⟩ := symbol_indexes (by decide) hs h
      exact indexes_some g
  | .CREF d s, st, st', _, h => by
    simp only [codegen] at h
    split at h
    · cases h
    · exact emit_ex (by decide) (by decide) (by decide) h
  | .LREF s, st, st', _, h => by
    simp only [codegen] at h
    split at h
    · cases h
    · exact emit_ex (by decide) (by decide) (by decide) h
  | .SETBANG var val, st, st', hne, h => by
    simp only [codegen] at h
    split at h
    · cases h
    · rename_i s1 hs
      exact indexes_trans_ex (codegen_indexes pic val _ _ hne hs) (codegen_set_indexes h)
  | .LAMBDA name args locals varg captures body, st, st', _, h => by
    simp only [codegen] at h
    split at h
    · cases h
    · rename_i k s1 h1
      split at h
      · cases h
      · rename_i s2 h2
        split at h
        · cases h
        · rename_i s3 h3
          split at h
          · cases h
          · rename_i s4 h4
            split at h
            · cases h
            · rename_i r s5 h5
              obtain ⟨cs, rs, g4⟩ :=
                codegen_indexes pic body _ _ (push_codegen_context_fresh h3).1 h4
              exact indexes_some (lambda_indexes h1 h2 h3 g4 h5 h)
  | .IF c t e, st, st', hne, h => by
    simp only [codegen] at h
    split at h
    · cases h
    · rename_i s1 h1
      split at h
      · cases h
      · rename_i s hs
        split at h
        · cases h
        · rename_i s2 h2
          split at h
          · cases h
          · rename_i s3 h3
            split at h
            · cases h
            · rename_i t' ht
              split at h
              · cases h
              · rename_i s4 h4
                split at h
                · cases h
                · rename_i now hn
                  split at h
                  · cases h
                  · rename_i s5 h5
                    split at h
                    · cases h
                    · rename_i s6 h6
                      split at h
                      · cases h
                      · rename_i now' hn'
                        obtain ⟨cc, r1, g1⟩ := codegen_indexes pic c _ _ hne h1
                        obtain ⟨ce, r2, g3⟩ := codegen_indexes pic e _ _
                          (emit_n_grows (by decide) h2).2.1 h3
                        obtain ⟨ct, r3, g6⟩ := codegen_indexes pic t _ _
                          (patch_jump_spec h5).2.1 h6
                        exact indexes_some (if_indexes g1 hs h2 g3 ht h4 hn h5 g6 hn' h)
  | .BEGIN es, st, st', hne, h => by
    simp only [codegen] at h
    exact codegen_begin_indexes pic es _ _ _ hne h
  | .QUOTE d, st, st', _, h => by
    simp only [codegen] at h
    exact codegen_quote_indexes h
  | .op1 t a, st, st', hne, h => by
    simp only [codegen] at h
    split at h
    · cases h
    · rename_i s1 h1
      refine indexes_trans_ex (codegen_indexes pic a _ _ hne h1) (emit_ex ?_ ?_ ?_ h) <;>
        cases t <;> decide
  | .op2 t a b, st, st', hne, h => by
    simp only [codegen] at h
    have hop0 : opcode2 t ≠ .OP_LAMBDA := by cases t <;> decide
    have hop1 : opcode2 t ≠ .OP_GREF := by cases t <;> decide
    have hop2 : opcode2 t ≠ .OP_GSET := by cases t <;> decide
    split at h
    · split at h
      · cases h
      · rename_i s1 h1
        split at h
        · cases h
        · rename_i s2 h2
          have g1 := codegen_indexes pic b _ _ hne h1
          exact indexes_trans_ex g1
            (indexes_trans_ex (codegen_indexes pic a _ _ (indexes_ne g1) h2)
              (emit_ex hop0 hop1 hop2 h))
    · split at h
      · cases h
      · rename_i s1 h1
        split at h
        · cases h
        · rename_i s2 h2
          have g1 := codegen_indexes pic a _ _ hne h1
          exact indexes_trans_ex g1
            (indexes_trans_ex (codegen_indexes pic b _ _ (indexes_ne g1) h2)
              (emit_ex hop0 hop1 hop2 h))
  | .CALL es, st, st', hne, h => by
    simp only [codegen] at h
    split at h
    · cases h
    · rename_i s1 h1
      exact indexes_trans_ex (codegen_each_indexes pic es _ _ hne h1)
        (emit_ex (by decide) (by decide) (by decide) h)
  | .TAILCALL es, st, st', hne, h => by
    simp only [codegen] at h
    split at h
    · cases h
    · rename_i s1 h1
      exact indexes_trans_ex (codegen_each_indexes pic es _ _ hne h1)
        (emit_ex (by decide) (by decide) (by decide) h)
  | .CALL_WITH_VALUES p c, st, st', hne, h => by
    simp only [codegen] at h
    split at h
    · cases h
    · rename_i s1 h1
      split at h
      · cases h
      · rename_i s2 h2
        split at h
        · cases h
        · rename_i s3 h3
          have g1 := codegen_indexes pic c _ _ hne h1
          exact indexes_trans_ex g1
            (indexes_trans_ex (codegen_indexes pic p _ _ (indexes_ne g1) h2)
            (indexes_trans_ex (emit_ex (by decide) (by decide) (by decide) h3)
              (emit_ex (by decide) (by decide) (by decide) h)))
  | .TAILCALL_WITH_VALUES p c, st, st', hne, h => by
    simp only [codegen] at h
    split at h
    · cases h
    · rename_i s1 h1
      split at h
      · cases h
      · rename_i s2 h2
        split at h
        · cases h
        · rename_i s3 h3
          have g1 := codegen_indexes pic c _ _ hne h1
          exact indexes_trans_ex g1
            (indexes_trans_ex (codegen_indexes pic p _ _ (indexes_ne g1) h2)
            (indexes_trans_ex (emit_ex (by decide) (by decide) (by decide) h3)
              (emit_ex (by decide) (by decide) (by decide) h)))
  | .RETURN es, st, st', hne, h => by
    simp only [codegen] at h
    split at h
    · cases h
    · rename_i s1 h1
      exact indexes_trans_ex (codegen_each_indexes pic es _ _ hne h1)
        (emit_ex (by decide) (by decide) (by decide) h)
  | .skel c, st, st', _, h => by
    simp [codegen] at h
theorem codegen_each_indexes (pic : pic_state) :
    ∀ (es : List Node) (st st' : codegen_state), st ≠ [] →
      codegen_each pic es st = .ok st' → ∃ cs rs, indexes st st' cs rs
  | [], st, st', hne, h => by
    simp only [codegen_each, Except.ok.injEq] at h
    subst h; exact indexes_some (indexes_refl _ hne)
  | e :: es, st, st', hne, h => by
    simp only [codegen_each] at h
    split at h
    · cases h
    · rename_i s1 h1
      have g1 := codegen_indexes pic e _ _ hne h1
      exact indexes_trans_ex g1 (codegen_each_indexes pic es _ _ (indexes_ne g1) h)
theorem codegen_begin_indexes (pic : pic_state) :
    ∀ (es : List Node) (b : Bool) (st st' : codegen_state), st ≠ [] →
      codegen_begin pic es b st = .ok st' → ∃ cs rs, indexes st st' cs rs
  | [], b, st, st', hne, h => by
    simp only [codegen_begin, Except.ok.injEq] at h
    subst h; exact indexes_some (indexes_refl _ hne)
  | e :: es, b, st, st', hne, h => by
    simp only [codegen_begin] at h
    split at h
    · cases h
    · rename_i s1 h1
      split at h
      · cases h
      · rename_i s2 h2
        have g0 : ∃ cs rs, indexes st s1 cs rs := by
          split at h1
          · exact emit_ex (by decide) (by decide) (by decide) h1
          · cases h1; exact indexes_some (indexes_refl _ hne)
        have g1 := codegen_indexes pic e _ _ (indexes_ne g0) h2
        exact indexes_trans_ex g0
          (indexes_trans_ex g1 (codegen_begin_indexes pic es _ _ _ (indexes_ne g1) h))
end

theorem pic_codegen_syms_ok (pic : pic_state) (ast : Node) (r : pic_irep)
    (h : pic_codegen pic ast = .ok r) : syms_ok r := by
  unfold pic_codegen at h
  split at h
  · cases h
  · rename_i st0 h0
    split at h
    · cases h
    · rename_i st1 h1
      unfold new_codegen_state at h0
      obtain ⟨p1, p2⟩ := push_codegen_context_syms h0
      obtain ⟨cs, rs, q1, q2, q3, q4, q5⟩ :=
        codegen_indexes pic ast _ _ (push_codegen_context_fresh h0).1 h1
      unfold destroy_codegen_state at h
      split at h
      · cases h
      · rename_i r' st2 h2
        simp only [Except.ok.injEq] at h
        subst h
        refine pop_codegen_context_syms h2 (q3 (by rw [p1]; exact List.nodup_nil)) ?_ ?_
        · intro c hc
          rw [q1.2.2.2.1] at hc
          rcases List.mem_append.mp hc with h | h
          · exact p2 _ c h
          · exact q4 c h
        · rw [q1.2.2.2.2.1, (push_codegen_context_fresh h0).2.2.1, List.nil_append]
          exact syms_ok_list_map rs q5

/-! ### The look-up-or-append of `index_symbol` -/

theorem index_symbol_again {s : Sym} {i : Int} {st st' : codegen_state}
    (h : index_symbol s st = .ok (i, st')) : index_symbol s st' = .ok (i, st') := by
  cases st with
  | nil => simp [index_symbol] at h
  | cons cxt up =>
    by_cases hs : s ∈ cxt.syms
    · rw [(index_symbol_spec s cxt up).1 hs] at h
      simp only [Except.ok.injEq, Prod.mk.injEq] at h
      obtain ⟨e1, e2⟩ := h
      subst e2; subst e1
      exact (index_symbol_spec s cxt up).1 hs
    · rw [(index_symbol_spec s cxt up).2 hs] at h
      simp only [Except.ok.injEq, Prod.mk.injEq] at h
      obtain ⟨e1, e2⟩ := h
      subst e2; subst e1
      have hm : s ∈ (with_sym cxt s).syms := by simp [with_sym]
      have := (index_symbol_spec s (with_sym cxt s) up).1 hm
      rw [show ({ cxt with syms := cxt.syms ++ [s] } : codegen_context) = with_sym cxt s from rfl,
        this]
      simp only [with_sym, Except.ok.injEq, Prod.mk.injEq, and_true, Nat.cast_inj]
      rw [List.indexOf_append_of_not_mem hs]
      simp

theorem codegen_gref_spec {pic : pic_state} {s : Sym} {st st' : codegen_state}
    (h : codegen pic (.GREF s) st = .ok st') :
    ∃ k : Nat, cur_code st' = cur_code st ++ [⟨.OP_GREF, .i (k : Int)⟩] ∧
      (cur_syms st')[k]? = some s ∧ k < (cur_syms st').length := by
  rw [codegen] at h
  split at h
  · cases h
  · rename_i i s1 hs
    obtain ⟨k, e1, e2, g, _⟩ := symbol_indexes (by decide) hs h
    subst e1
    exact ⟨k, g.2.2.2.1, e2, getElem?_lt_length e2⟩

theorem codegen_gset_spec {pic : pic_state} {s : Sym} {val : Node} {st st' : codegen_state}
    (h : codegen pic (.SETBANG (.GREF s) val) st = .ok st') :
    ∃ (s1 : codegen_state) (k : Nat), codegen pic val st = .ok s1 ∧
      cur_code st' = cur_code s1 ++ [⟨.OP_GSET, .i (k : Int)⟩, ⟨OP_PUSHNONE, .none⟩] ∧
      (cur_syms st')[k]? = some s ∧ k < (cur_syms st').length := by
  rw [codegen] at h
  split at h
  · cases h
  · rename_i s1 h1
    refine ⟨s1, ?_⟩
    unfold codegen_set at h
    simp only at h
    split at h
    · cases h
    · rename_i i s2 hs
      cases hs3 : emit_i .OP_GSET i s2 with
      | error e => simp [hs3, Except.bind] at h
      | ok s3 =>
        simp only [hs3, Except.bind] at h
        obtain ⟨k, e1, e2, g, _⟩ := symbol_indexes (by decide) hs hs3
        subst e1
        have g2 := emit_n_grows (by decide) h
        have es := emit_syms h
        refine ⟨k, h1, ?_, by rw [es]; exact e2, by rw [es]; exact getElem?_lt_length e2⟩
        rw [g2.2.2.2.1, g.2.2.2.1]
        simp

/-- C25: `index_symbol` is look-up-or-append.  When the symbol is in the table of
the current context the state is unchanged and the index returned is its
position; otherwise the symbol is appended and the index is the old length.  In
both cases the entry at the returned index is the symbol afterwards, the old
table is a prefix of the new one, a table without a repeated symbol stays so,
and a second call with the same symbol returns the same index and changes
nothing.  The `GREF` case of `codegen` and the `GSET` of a `SETBANG` emit that
index, which is below the length of the table and at which the table holds the
referenced symbol; code generation only extends the table at the end; so in
every IRep `pic_codegen` returns, and in its children, the table has no symbol
twice and every `GREF` and `GSET` operand is an index into it.  For
`(cons car (cons cdr car))` the table is `[car, cdr]` and the code is
`GREF 0; GREF 1; GREF 0; CONS; CONS; RET 1`. -/
theorem C25_index_symbol :
    (∀ (s : Sym) (cxt : codegen_context) (up : codegen_state),
      (s ∈ cxt.syms →
        index_symbol s (cxt :: up) = .ok (((cxt.syms.indexOf s : Nat) : Int), cxt :: up)) ∧
      (s ∉ cxt.syms →
        index_symbol s (cxt :: up) =
          .ok (((cxt.syms.length : Nat) : Int), with_sym cxt s :: up))) ∧
    (∀ (s : Sym) (i : Int) (st st' : codegen_state), index_symbol s st = .ok (i, st') →
      (∃ k : Nat, i = (k : Int) ∧ (cur_syms st')[k]? = some s) ∧
      cur_syms st <+: cur_syms st' ∧
      ((cur_syms st).Nodup → (cur_syms st').Nodup) ∧
      index_symbol s st' = .ok (i, st')) ∧
    (∀ (pic : pic_state) (s : Sym) (st st' : codegen_state),
      codegen pic (.GREF s) st = .ok st' →
      ∃ k : Nat, cur_code st' = cur_code st ++ [⟨.OP_GREF, .i (k : Int)⟩] ∧
        (cur_syms st')[k]? = some s ∧ k < (cur_syms st').length) ∧
    (∀ (pic : pic_state) (s : Sym) (val : Node) (st st' : codegen_state),
      codegen pic (.SETBANG (.GREF s) val) st = .ok st' →
      ∃ (s1 : codegen_state) (k : Nat), codegen pic val st = .ok s1 ∧
        cur_code st' = cur_code s1 ++ [⟨.OP_GSET, .i (k : Int)⟩, ⟨OP_PUSHNONE, .none⟩] ∧
        (cur_syms st')[k]? = some s ∧ k < (cur_syms st').length) ∧
    (∀ (pic : pic_state) (n : Node) (st st' : codegen_state), st ≠ [] →
      codegen pic n st = .ok st' →
      cur_syms st <+: cur_syms st' ∧ ((cur_syms st).Nodup → (cur_syms st').Nodup)) ∧
    (∀ (pic : pic_state) (ast : Node) (r : pic_irep), pic_codegen pic ast = .ok r →
      syms_ok r) ∧
    (∀ k : Nat, pic_compile base_pic (k + 10) globals_example =
      .ok (.mk 7 false 1 0 0
        [⟨.OP_GREF, .i 0⟩, ⟨.OP_GREF, .i 1⟩, ⟨.OP_GREF, .i 0⟩, ⟨.OP_CONS, .none⟩,
         ⟨.OP_CONS, .none⟩, ⟨.OP_RET, .i 1⟩] [] [] [11, 12])) := by
  refine ⟨?_, ?_, ?_, ?_, ?_, pic_codegen_syms_ok, ?_⟩
  · intro s cxt up
    exact index_symbol_spec s cxt up
  · intro s i st st' h
    obtain ⟨k, e1, e2, e3, e4⟩ := index_symbol_index h
    exact ⟨⟨k, e1, e2⟩, e3, e4, index_symbol_again h⟩
  · intro pic s st st' h
    exact codegen_gref_spec h
  · intro pic s val st st' h
    exact codegen_gset_spec h
  · intro pic n st st' hne h
    obtain ⟨cs, rs, _, q2, q3, _⟩ := codegen_indexes pic n st st' hne h
    exact ⟨q2, q3⟩
  · intro k
    exact pic_compile_fuel_mono base_pic 10 (k + 10) (by omega) globals_example _
      (eq_of_same_irep (by decide!))

/-- C25 at the root context of `base_pic` and the symbol `car`: a first call of
`index_symbol` appends it at index 0, and `(GREF car)` compiled next emits
`GREF 0`. -/
theorem C25_index_symbol_witness :
    (11 : Sym) ∉ (fresh_context base_pic none [] [] false []).syms ∧
    index_symbol 11 [fresh_context base_pic none [] [] false []] =
      .ok (0, [with_sym (fresh_context base_pic none [] [] false []) 11]) ∧
    index_symbol 11 [with_sym (fresh_context base_pic none [] [] false []) 11] =
      .ok (0, [with_sym (fresh_context base_pic none [] [] false []) 11]) :=
  ⟨by decide,
    (C25_index_symbol.1 11 (fresh_context base_pic none [] [] false []) []).2 (by decide),
    (C25_index_symbol.2.1 11 0 _ _
      ((C25_index_symbol.1 11 (fresh_context base_pic none [] [] false []) []).2
        (by decide))).2.2.2⟩

/-! ### The targets of the `SETBANG` nodes of an analyzed tree -/

theorem is_ref_targets {n : Node} (h : is_ref n = true) : targets_ok n = true := by
  cases n <;> first | rfl | (simp [is_ref] at h)

theorem analyze_var_ref (s : Sym) (σ : astore) (n : Node) (σ' : astore)
    (h : analyze_var s σ = .ok (n, σ')) : is_ref n = true := by
  unfold analyze_var at h
  simp only at h
  split at h
  · cases h
  · split at h
    · cases h
    · split at h
      · simp only [Except.ok.injEq, Prod.mk.injEq] at h; rw [← h.1]; rfl
      · split at h <;>
          (simp only [Except.ok.injEq, Prod.mk.injEq] at h; rw [← h.1]; rfl)

theorem analyze_defer_targets (state : analyze_state) (nm : Option Sym) (f b : Val)
    (σ : astore) (n : Node) (σ' : astore) (h : analyze_defer state nm f b σ = .ok (n, σ')) :
    targets_ok n = true := by
  rw [(analyze_defer_spec state nm f b σ n σ' h).1]; rfl

theorem analyze_declare_ref (s : Sym) (σ : astore) (n : Node) (σ' : astore)
    (h : analyze_declare s σ = .ok (n, σ')) : is_ref n = true := by
  unfold analyze_declare at h
  split at h
  · cases h
  · exact analyze_var_ref _ _ _ _ h

section callback

variable {ana : Val → Bool → AM Node}

theorem analyze_define_targets (state : analyze_state)
    (H1 : ∀ obj tp σ n σ', ana obj tp σ = .ok (n, σ') → targets_ok n = true)
    (obj : List Val) (σ : astore) (n : Node) (σ' : astore)
    (h : analyze_define state ana obj σ = .ok (n, σ')) : targets_ok n = true := by
  unfold analyze_define at h
  split at h
  · split at h
    · cases h
    · rename_i var σ1 hv
      have hr := analyze_declare_ref _ _ _ _ hv
      split at h
      · split at h
        · split at h
          · split at h
            · cases h
            · rename_i val σ2 hd
              simp only [Except.ok.injEq, Prod.mk.injEq] at h
              rw [← h.1]
              simp only [targets_ok, hr, analyze_defer_targets _ _ _ _ _ _ _ hd, Bool.and_self]
          · cases h
          · cases h
        · split at h
          · cases h
          · rename_i val σ2 hd
            simp only [Except.ok.injEq, Prod.mk.injEq] at h
            rw [← h.1]
            simp only [targets_ok, hr, H1 _ _ _ _ _ hd, Bool.and_self]
      · split at h
        · cases h
        · rename_i val σ2 hd
          simp only [Except.ok.injEq, Prod.mk.injEq] at h
          rw [← h.1]
          simp only [targets_ok, hr, H1 _ _ _ _ _ hd, Bool.and_self]
  · cases h

theorem analyze_lambda_targets (state : analyze_state) (obj : List Val) (σ : astore)
    (n : Node) (σ' : astore) (h : analyze_lambda state obj σ = .ok (n, σ')) :
    targets_ok n = true := by
  unfold analyze_lambda at h
  split at h
  · exact analyze_defer_targets _ _ _ _ _ _ _ h
  · cases h

theorem analyze_if_targets
    (H1 : ∀ obj tp σ n σ', ana obj tp σ = .ok (n, σ') → targets_ok n = true)
    (obj : List Val) (tailpos : Bool) (σ : astore) (n : Node) (σ' : astore)
    (h : analyze_if ana obj tailpos σ = .ok (n, σ')) : targets_ok n = true := by
  unfold analyze_if at h
  simp only at h
  split at h
  · cases h
  · split at h
    · cases h
    · rename_i c σ1 h1
      split at h
      · cases h
      · rename_i t1 σ2 h2
        split at h
        · cases h
        · rename_i t2 σ3 h3
          simp only [Except.ok.injEq, Prod.mk.injEq] at h
          rw [← h.1]
          simp only [targets_ok, H1 _ _ _ _ _ h1, H1 _ _ _ _ _ h2, H1 _ _ _ _ _ h3,
            Bool.and_self]

theorem analyze_seq_targets
    (H1 : ∀ obj tp σ n σ', ana obj tp σ = .ok (n, σ') → targets_ok n = true) :
    ∀ (es : List Val) (tailpos : Bool) (σ : astore) (ns : List Node) (σ' : astore),
      analyze_seq ana es tailpos σ = .ok (ns, σ') → targets_ok_list ns = true
  | [], _, _, _, _, h => by
    simp only [analyze_seq, Except.ok.injEq, Prod.mk.injEq] at h
    rw [← h.1]; rfl
  | [e], _, _, _, _, h => by
    simp only [analyze_seq] at h
    split at h
    · cases h
    · rename_i n σ1 h1
      simp only [Except.ok.injEq, Prod.mk.injEq] at h
      rw [← h.1]
      simp only [targets_ok_list, H1 _ _ _ _ _ h1, Bool.and_self]
  | e :: e2 :: es, tp, _, _, _, h => by
    simp only [analyze_seq] at h
    split at h
    · cases h
    · rename_i n σ1 h1
      split at h
      · cases h
      · rename_i ns σ2 h2
        simp only [Except.ok.injEq, Prod.mk.injEq] at h
        rw [← h.1]
        simp only [targets_ok_list, H1 _ _ _ _ _ h1, Bool.true_and]
        exact analyze_seq_targets H1 (e2 :: es) tp _ _ _ h2

theorem analyze_begin_targets
    (H1 : ∀ obj tp σ n σ', ana obj tp σ = .ok (n, σ') → targets_ok n = true)
    (obj : List Val) (tailpos : Bool) (σ : astore) (n : Node) (σ' : astore)
    (h : analyze_begin ana obj tailpos σ = .ok (n, σ')) : targets_ok n = true := by
  unfold analyze_begin at h
  split at h
  · exact H1 _ _ _ _ _ h
  · exact H1 _ _ _ _ _ h
  · split at h
    · cases h
    · rename_i ns σ1 h1
      simp only [Except.ok.injEq, Prod.mk.injEq] at h
      rw [← h.1]
      simp only [targets_ok]
      exact analyze_seq_targets H1 _ _ _ _ _ h1
  · cases h

theorem analyze_set_targets
    (H1 : ∀ obj tp σ n σ', ana obj tp σ = .ok (n, σ') → targets_ok n = true)
    (H2 : ∀ s σ n σ', ana (.sym s) false σ = .ok (n, σ') → is_ref n = true)
    (obj : List Val) (σ : astore) (n : Node) (σ' : astore)
    (h : analyze_set ana obj σ = .ok (n, σ')) : targets_ok n = true := by
  unfold analyze_set at h
  split at h
  · split at h
    · cases h
    · rename_i var σ1 h1
      split at h
      · cases h
      · rename_i val σ2 h2
        simp only [Except.ok.injEq, Prod.mk.injEq] at h
        rw [← h.1]
        simp only [targets_ok, H2 _ _ _ _ h1, H1 _ _ _ _ _ h2, Bool.and_self]
  · cases h

theorem analyze_quote_targets (obj : List Val) (σ : astore) (n : Node) (σ' : astore)
    (h : analyze_quote obj σ = .ok (n, σ')) : targets_ok n = true := by
  unfold analyze_quote at h
  split at h
  · simp only [Except.ok.injEq, Prod.mk.injEq] at h
    rw [← h.1]; rfl
  · cases h

theorem fold_args_targets
    (H1 : ∀ obj tp σ n σ', ana obj tp σ = .ok (n, σ') → targets_ok n = true) (op : Tag2) :
    ∀ (args : List Val) (acc : Node) (σ : astore) (n : Node) (σ' : astore),
      targets_ok acc = true → fold_args ana op acc args σ = .ok (n, σ') →
      targets_ok n = true
  | [], acc, _, _, _, ha, h => by
    simp only [fold_args, Except.ok.injEq, Prod.mk.injEq] at h
    rw [← h.1]; exact ha
  | a :: args, acc, _, _, _, ha, h => by
    simp only [fold_args] at h
    split at h
    · cases h
    · rename_i m σ1 h1
      refine fold_args_targets H1 op args _ _ _ _ ?_ h
      simp only [targets_ok, ha, H1 _ _ _ _ _ h1, Bool.and_self]

theorem FOLD_ARGS_targets
    (H1 : ∀ obj tp σ n σ', ana obj tp σ = .ok (n, σ') → targets_ok n = true) (op : Tag2)
    (args : List Val) (σ : astore) (n : Node) (σ' : astore)
    (h : FOLD_ARGS ana op args σ = .ok (n, σ')) : targets_ok n = true := by
  unfold FOLD_ARGS at h
  split at h
  · cases h
  · split at h
    · cases h
    · rename_i m σ1 h1
      exact fold_args_targets H1 op _ _ _ _ _ (H1 _ _ _ _ _ h1) h

theorem analyze_add_targets
    (H1 : ∀ obj tp σ n σ', ana obj tp σ = .ok (n, σ') → targets_ok n = true)
    (obj : List Val) (tailpos : Bool) (σ : astore) (n : Node) (σ' : astore)
    (h : analyze_add ana obj tailpos σ = .ok (n, σ')) : targets_ok n = true := by
  unfold analyze_add at h
  split at h
  · cases h
  · simp only [Except.ok.injEq, Prod.mk.injEq] at h
    rw [← h.1]; rfl
  · exact H1 _ _ _ _ _ h
  · exact FOLD_ARGS_targets H1 _ _ _ _ _ h

theorem analyze_mul_targets
    (H1 : ∀ obj tp σ n σ', ana obj tp σ = .ok (n, σ') → targets_ok n = true)
    (obj : List Val) (tailpos : Bool) (σ : astore) (n : Node) (σ' : astore)
    (h : analyze_mul ana obj tailpos σ = .ok (n, σ')) : targets_ok n = true := by
  unfold analyze_mul at h
  split at h
  · cases h
  · simp only [Except.ok.injEq, Prod.mk.injEq] at h
    rw [← h.1]; rfl
  · exact H1 _ _ _ _ _ h
  · exact FOLD_ARGS_targets H1 _ _ _ _ _ h

theorem analyze_sub_targets
    (H1 : ∀ obj tp σ n σ', ana obj tp σ = .ok (n, σ') → targets_ok n = true)
    (obj : List Val) (σ : astore) (n : Node) (σ' : astore)
    (h : analyze_sub ana obj σ = .ok (n, σ')) : targets_ok n = true := by
  unfold analyze_sub at h
  split at h
  · cases h
  · cases h
  · split at h
    · cases h
    · rename_i m σ1 h1
      simp only [Except.ok.injEq, Prod.mk.injEq] at h
      rw [← h.1]
      simp only [targets_ok, H1 _ _ _ _ _ h1]
  · exact FOLD_ARGS_targets H1 _ _ _ _ _ h

theorem analyze_div_targets (state : analyze_state)
    (H1 : ∀ obj tp σ n σ', ana obj tp σ = .ok (n, σ') → targets_ok n = true)
    (obj : List Val) (σ : astore) (n : Node) (σ' : astore)
    (h : analyze_div state ana obj σ = .ok (n, σ')) : targets_ok n = true := by
  unfold analyze_div at h
  split at h
  · cases h
  · cases h
  · exact H1 _ _ _ _ _ h
  · exact FOLD_ARGS_targets H1 _ _ _ _ _ h

theorem analyze_call_targets
    (H1 : ∀ obj tp σ n σ', ana obj tp σ = .ok (n, σ') → targets_ok n = true)
    (obj : List Val) (tailpos : Bool) (σ : astore) (n : Node) (σ' : astore)
    (h : analyze_call ana obj tailpos σ = .ok (n, σ')) : targets_ok n = true := by
  unfold analyze_call at h
  split at h
  · cases h
  · rename_i ns σ1 h1
    have hs := analyze_seq_targets H1 _ _ _ _ _ h1
    simp only [Except.ok.injEq, Prod.mk.injEq] at h
    rw [← h.1]
    cases tailpos <;> simpa [targets_ok] using hs

theorem analyze_values_targets
    (H1 : ∀ obj tp σ n σ', ana obj tp σ = .ok (n, σ') → targets_ok n = true)
    (obj : List Val) (tailpos : Bool) (σ : astore) (n : Node) (σ' : astore)
    (h : analyze_values ana obj tailpos σ = .ok (n, σ')) : targets_ok n = true := by
  unfold analyze_values at h
  split at h
  · exact analyze_call_targets H1 _ _ _ _ _ h
  · split at h
    · cases h
    · rename_i ns σ1 h1
      simp only [Except.ok.injEq, Prod.mk.injEq] at h
      rw [← h.1]
      simp only [targets_ok]
      exact analyze_seq_targets H1 _ _ _ _ _ h1

theorem analyze_call_with_values_targets
    (H1 : ∀ obj tp σ n σ', ana obj tp σ = .ok (n, σ') → targets_ok n = true)
    (obj : List Val) (tailpos : Bool) (σ : astore) (n : Node) (σ' : astore)
    (h : analyze_call_with_values ana obj tailpos σ = .ok (n, σ')) :
    targets_ok n = true := by
  unfold analyze_call_with_values at h
  split at h
  · split at h
    · cases h
    · rename_i p σ1 h1
      split at h
      · cases h
      · rename_i c σ2 h2
        simp only [Except.ok.injEq, Prod.mk.injEq] at h
        rw [← h.1]
        cases tailpos <;> simp [targets_ok, H1 _ _ _ _ _ h1, H1 _ _ _ _ _ h2]
  · cases h

theorem CONSTRUCT_OP1_targets
    (H1 : ∀ obj tp σ n σ', ana obj tp σ = .ok (n, σ') → targets_ok n = true) (op : Tag1)
    (obj : List Val) (σ : astore) (n : Node) (σ' : astore)
    (h : CONSTRUCT_OP1 ana op obj σ = .ok (n, σ')) : targets_ok n = true := by
  unfold CONSTRUCT_OP1 at h
  split at h
  · split at h
    · cases h
    · rename_i m σ1 h1
      simp only [Except.ok.injEq, Prod.mk.injEq] at h
      rw [← h.1]
      simp only [targets_ok, H1 _ _ _ _ _ h1]
  · cases h

theorem CONSTRUCT_OP2_targets (state : analyze_state)
    (H1 : ∀ obj tp σ n σ', ana obj tp σ = .ok (n, σ') → targets_ok n = true) (op : Tag2)
    (a b : Val) (σ : astore) (n : Node) (σ' : astore)
    (h : CONSTRUCT_OP2 state ana op a b σ = .ok (n, σ')) : targets_ok n = true := by
  obtain ⟨na, nb, σ1, e, h1 | h1⟩ := CONSTRUCT_OP2_shape state ana op a b σ n σ' h
  · rw [e]; simp only [targets_ok, H1 _ _ _ _ _ h1.1, H1 _ _ _ _ _ h1.2, Bool.and_self]
  · rw [e]; simp only [targets_ok, H1 _ _ _ _ _ h1.1, H1 _ _ _ _ _ h1.2, Bool.and_self]

theorem analyze_op2_strict_targets (state : analyze_state)
    (H1 : ∀ obj tp σ n σ', ana obj tp σ = .ok (n, σ') → targets_ok n = true) (op : Tag2)
    (obj : List Val) (σ : astore) (n : Node) (σ' : astore)
    (h : analyze_op2_strict state ana op obj σ = .ok (n, σ')) : targets_ok n = true := by
  unfold analyze_op2_strict at h
  split at h
  · exact CONSTRUCT_OP2_targets state H1 _ _ _ _ _ _ h
  · cases h

theorem analyze_op2_fallback_targets (state : analyze_state)
    (H1 : ∀ obj tp σ n σ', ana obj tp σ = .ok (n, σ') → targets_ok n = true) (op : Tag2)
    (obj : List Val) (tailpos : Bool) (σ : astore) (n : Node) (σ' : astore)
    (h : analyze_op2_fallback state ana op obj tailpos σ = .ok (n, σ')) :
    targets_ok n = true := by
  unfold analyze_op2_fallback at h
  split at h
  · exact CONSTRUCT_OP2_targets state H1 _ _ _ _ _ _ h
  · exact analyze_call_targets H1 _ _ _ _ _ h

theorem analyze_form_targets (state : analyze_state)
    (H1 : ∀ obj tp σ n σ', ana obj tp σ = .ok (n, σ') → targets_ok n = true)
    (H2 : ∀ s σ n σ', ana (.sym s) false σ = .ok (n, σ') → is_ref n = true)
    (sym : Sym) (obj : List Val) (tailpos : Bool) (σ : astore) (n : Node) (σ' : astore)
    (h : analyze_form state ana sym obj tailpos σ = .ok (n, σ')) : targets_ok n = true := by
  revert h
  refine analyze_form_cases state ana sym obj tailpos
    (fun m => m σ = .ok (n, σ') → targets_ok n = true) ?_ ?_ ?_ ?_ ?_ ?_ ?_ ?_ ?_ ?_ ?_ ?_ ?_
    ?_ ?_ ?_
  · exact analyze_define_targets state H1 _ _ _ _
  · exact analyze_lambda_targets _ _ _ _ _
  · exact analyze_if_targets H1 _ _ _ _ _
  · exact analyze_begin_targets H1 _ _ _ _ _
  · exact analyze_set_targets H1 H2 _ _ _ _
  · exact analyze_quote_targets _ _ _ _
  · exact analyze_op2_strict_targets state H1 _ _ _ _ _
  · exact fun op => CONSTRUCT_OP1_targets H1 _ _ _ _ _
  · exact analyze_add_targets H1 _ _ _ _ _
  · exact analyze_sub_targets H1 _ _ _ _
  · exact analyze_mul_targets H1 _ _ _ _ _
  · exact fun _ => analyze_div_targets state H1 _ _ _ _
  · exact fun op => analyze_op2_fallback_targets state H1 _ _ _ _ _ _
  · exact analyze_values_targets H1 _ _ _ _ _
  · exact analyze_call_with_values_targets H1 _ _ _ _ _
  · exact analyze_call_targets H1 _ _ _ _ _

theorem analyze_node_targets (state : analyze_state)
    (H1 : ∀ obj tp σ n σ', ana obj tp σ = .ok (n, σ') → targets_ok n = true)
    (H2 : ∀ s σ n σ', ana (.sym s) false σ = .ok (n, σ') → is_ref n = true)
    (obj : Val) (tailpos : Bool) (σ : astore) (n : Node) (σ' : astore)
    (h : analyze_node state ana obj tailpos σ = .ok (n, σ')) : targets_ok n = true := by
  unfold analyze_node at h
  split at h
  · exact is_ref_targets (analyze_var_ref _ _ _ _ h)
  · split at h
    · cases h
    · split at h
      · exact analyze_form_targets state H1 H2 _ _ _ _ _ _ h
      · exact analyze_call_targets H1 _ _ _ _ _ h
  · simp only [Except.ok.injEq, Prod.mk.injEq] at h
    rw [← h.1]; rfl

end callback

theorem analyze_targets (state : analyze_state) :
    ∀ (fuel : Nat),
      (∀ obj tp σ n σ', analyze state fuel obj tp σ = .ok (n, σ') → targets_ok n = true) ∧
      (∀ s σ n σ', analyze state fuel (.sym s) false σ = .ok (n, σ') → is_ref n = true)
  | 0 => ⟨fun obj tp σ n σ' h => by simp [analyze] at h,
      fun s σ n σ' h => by simp [analyze] at h⟩
  | fuel + 1 => by
    obtain ⟨H1, H2⟩ := analyze_targets state fuel
    refine ⟨?_, ?_⟩
    · intro obj tp σ n σ' h
      simp only [analyze] at h
      split at h
      · cases h
      · rename_i res σ1 h1
        have hr := analyze_node_targets state H1 H2 obj tp σ res σ1 h1
        split at h
        · split at h
          · simp only [Except.ok.injEq, Prod.mk.injEq] at h
            rw [← h.1]; exact hr
          · simp only [Except.ok.injEq, Prod.mk.injEq] at h
            rw [← h.1]
            simp only [targets_ok, targets_ok_list, hr, Bool.and_self]
        · simp only [Except.ok.injEq, Prod.mk.injEq] at h
          rw [← h.1]; exact hr
    · intro s σ n σ' h
      rw [analyze_symbol] at h
      exact analyze_var_ref _ _ _ _ h

theorem analyze_procedure_targets (state : analyze_state) (fuel : Nat) (flush : AM Unit)
    (nm : Option Sym) (formals body : Val) (σ : astore) (L : Node) (σ' : astore)
    (h : analyze_procedure state (analyze state fuel) flush nm formals body σ = .ok (L, σ')) :
    targets_ok L = true := by
  unfold analyze_procedure at h
  split at h
  · cases h
  · split at h
    · cases h
    · simp only at h
      split at h
      · cases h
      · rename_i b σ1 hb
        split at h
        · cases h
        · split at h
          · cases h
          · simp only [Except.ok.injEq, Prod.mk.injEq] at h
            rw [← h.1]
            simp only [targets_ok]
            exact (analyze_targets state fuel).1 _ _ _ _ _ hb

theorem materialized_targets (state : analyze_state) (c : Nat) (n : Node)
    (h : materialized state c n) : targets_ok n = true := by
  obtain ⟨fuel, d, σa, σb, sc, up, _, _, _, hp⟩ := h
  exact analyze_procedure_targets state fuel _ _ _ _ _ _ _ hp

mutual
theorem read_node_targets (deref : Nat → Node) (hd : ∀ c, targets_ok (deref c) = true) :
    ∀ (n : Node), targets_ok n = true → targets_ok (read_node deref n) = true
  | .GREF _, _ => rfl
  | .LREF _, _ => rfl
  | .CREF _ _, _ => rfl
  | .SETBANG var val, h => by
    simp only [targets_ok, Bool.and_eq_true] at h
    have hv : read_node deref var = var := by
      cases var <;> first | rfl | (simp [is_ref] at h)
    simp only [read_node, targets_ok, hv, h.1, read_node_targets deref hd val h.2,
      Bool.and_self]
  | .LAMBDA _ _ _ _ _ body, h => by
    simp only [targets_ok] at h
    simp only [read_node, targets_ok, read_node_targets deref hd body h]
  | .IF c t e, h => by
    simp only [targets_ok, Bool.and_eq_true] at h
    simp only [read_node, targets_ok, read_node_targets deref hd c h.1.1,
      read_node_targets deref hd t h.1.2, read_node_targets deref hd e h.2, Bool.and_self]
  | .BEGIN es, h => by
    simp only [targets_ok] at h
    simp only [read_node, targets_ok, read_nodes_targets deref hd es h]
  | .QUOTE _, _ => rfl
  | .CALL es, h => by
    simp only [targets_ok] at h
    simp only [read_node, targets_ok, read_nodes_targets deref hd es h]
  | .TAILCALL es, h => by
    simp only [targets_ok] at h
    simp only [read_node, targets_ok, read_nodes_targets deref hd es h]
  | .CALL_WITH_VALUES p c, h => by
    simp only [targets_ok, Bool.and_eq_true] at h
    simp only [read_node, targets_ok, read_node_targets deref hd p h.1,
      read_node_targets deref hd c h.2, Bool.and_self]
  | .TAILCALL_WITH_VALUES p c, h => by
    simp only [targets_ok, Bool.and_eq_true] at h
    simp only [read_node, targets_ok, read_node_targets deref hd p h.1,
      read_node_targets deref hd c h.2, Bool.and_self]
  | .RETURN es, h => by
    simp only [targets_ok] at h
    simp only [read_node, targets_ok, read_nodes_targets deref hd es h]
  | .op1 _ a, h => by
    simp only [targets_ok] at h
    simp only [read_node, targets_ok, read_node_targets deref hd a h]
  | .op2 _ a b, h => by
    simp only [targets_ok, Bool.and_eq_true] at h
    simp only [read_node, targets_ok, read_node_targets deref hd a h.1,
      read_node_targets deref hd b h.2, Bool.and_self]
  | .skel c, _ => by
    simp only [read_node]; exact hd c
theorem read_nodes_targets (deref : Nat → Node) (hd : ∀ c, targets_ok (deref c) = true) :
    ∀ (es : List Node), targets_ok_list es = true →
      targets_ok_list (read_nodes deref es) = true
  | [], _ => rfl
  | e :: es, h => by
    simp only [targets_ok_list, Bool.and_eq_true] at h
    simp only [read_nodes, targets_ok_list, read_node_targets deref hd e h.1,
      read_nodes_targets deref hd es h.2, Bool.and_self]
end

theorem resolve_targets (heap : List Node)
    (hh : ∀ (c : Nat) (m : Node), heap[c]? = some m → targets_ok m = true) :
    ∀ (depth : Nat) (n : Node), targets_ok n = true → targets_ok (resolve heap depth n) = true
  | 0, n, h => h
  | depth + 1, n, h => by
    simp only [resolve]
    refine read_node_targets _ ?_ n h
    intro c
    cases hc : heap[c]? with
    | none => rfl
    | some m => exact resolve_targets heap hh depth m (hh c m hc)

/-- The target of every `SETBANG` node of the tree `pic_analyze` returns is a
variable reference. -/
theorem pic_analyze_targets (pic : pic_state) (fuel : Nat) (obj : Val) (t : Node)
    (h : pic_analyze pic fuel obj = .ok t) : targets_ok t = true := by
  obtain ⟨state, σ0, res, σ1, σ2, _, hana, _, ht, hcells⟩ := pic_analyze_cells pic fuel obj t h
  rw [ht]
  exact resolve_targets _ (fun c m hc => materialized_targets state c m (hcells c m hc)) _ _
    ((analyze_targets state fuel).1 _ _ _ _ _ hana)

/-! ### References of an analyzed tree are bound -/

theorem ref_ok_mono (stk stk' : List analyze_scope) (n : Node) (hg : stack_grows stk stk')
    (h : ref_ok stk n) : ref_ok stk' n := by
  cases n
  case LREF s =>
    obtain ⟨sc, up, e, hne, hs⟩ := h
    subst e
    cases hg with
    | cons hab hl =>
      rename_i sc' up'
      refine ⟨sc', up', rfl, ?_, ?_⟩
      · intro hc
        subst hc
        cases hl
        exact hne rfl
      · rcases List.mem_append.mp hs with h1 | h1
        · exact List.mem_append_left _ (by rw [hab.2.2.1]; exact h1)
        · exact List.mem_append_right _ (hab.2.2.2.1.subset h1)
  case CREF d s =>
    have h1 : cref_ok stk (.CREF d s) := h
    exact cref_ok_mono stk stk' (.CREF d s) hg h1
  all_goals trivial

theorem nearest_binding_zero {s : Sym} {sc : analyze_scope} {up : List analyze_scope}
    (h : nearest_binding s (sc :: up) = some 0) : s ∈ sc.args ++ sc.locals := by
  simp only [nearest_binding] at h
  split at h
  · assumption
  · cases hn : nearest_binding s up with
    | none => simp [hn] at h
    | some d => simp [hn] at h

theorem analyze_var_ref_ok (s : Sym) (σ : astore) (n : Node) (σ' : astore)
    (hw : stack_wf σ.scope) (h : analyze_var s σ = .ok (n, σ')) : ref_ok σ'.scope n := by
  have hc := analyze_var_cref s σ n σ' hw h
  have hspec := find_var_spec s σ.scope
  unfold analyze_var at h
  simp only at h
  split at h
  · cases h
  · rename_i hne
    split at h
    · cases h
    · rename_i sc up hr
      split at h
      · simp only [Except.ok.injEq, Prod.mk.injEq] at h; rw [← h.1]; trivial
      · rename_i hnd
        split at h
        · rename_i hz
          simp only [Except.ok.injEq, Prod.mk.injEq] at h
          obtain ⟨e1, e2⟩ := h
          subst e1; subst e2
          cases hn : nearest_binding s σ.scope with
          | none =>
            rw [hn] at hspec
            rw [hspec] at hne
            exact absurd rfl hne
          | some d =>
            rw [hn] at hspec
            have hd : d = 0 := by
              rw [hspec] at hz
              simp only at hz
              exact_mod_cast hz
            subst hd
            rw [hspec] at hr
            simp only [lt_self_iff_false, if_false] at hr
            rw [hr] at hn hw
            refine ⟨sc, up, rfl, ?_, nearest_binding_zero hn⟩
            intro hup
            apply hnd
            rw [hz, hw.1, hup]
            rfl
        · simp only [Except.ok.injEq, Prod.mk.injEq] at h
          rw [← h.1] at hc ⊢
          exact hc

theorem ref_deepRules : DeepRules captures_bound ref_ok where
  capture := captures_bound_rules.capture
  define := captures_bound_rules.define
  defer := captures_bound_rules.defer
  push := captures_bound_rules.push
  mono := ref_ok_mono
  var := fun s σ n σ' hI h => analyze_var_ref_ok s σ n σ' hI.1 h

/-- The tree `pic_analyze` returns is a deep tree below some root scope: the
captures of every `LAMBDA` node are among its arguments and locals, every `LREF`
is bound by the `LAMBDA` node around it, and every `CREF` finds its symbol in
the captures of a `LAMBDA` node around it. -/
theorem pic_analyze_refs (pic : pic_state) (fuel : Nat) (obj : Val) (t : Node)
    (h : pic_analyze pic fuel obj = .ok t) :
    ∃ root, Deep captures_bound ref_ok [root] t := by
  obtain ⟨root, _, _, hD, _⟩ := pic_analyze_deep ref_deepRules pic
    (by intro c hc; simp [root_scope] at hc) fuel obj t h
  exact ⟨root, hD⟩

/-! ### Code generation of an analyzed tree succeeds -/

theorem found_other {insn : pic_opcode} (u : operand) (h1 : insn ≠ .OP_LREF)
    (h2 : insn ≠ .OP_LSET) (h3 : insn ≠ .OP_CREF) (h4 : insn ≠ .OP_CSET) :
    found ⟨insn, u⟩ = true := by
  simp [found, h1, h2, h3, h4]

theorem prelude_insn_found (nargs : Nat) (varg : Bool) (n : Nat) (h : 1 ≤ n) :
    found (prelude_insn nargs varg n) = true := by
  unfold prelude_insn
  split
  · simp only [found, true_or, if_true, decide_eq_true_eq]
    exact_mod_cast h
  · rfl

theorem lands_refl (st : codegen_state) (h : st ≠ []) : lands st st [] [] :=
  ⟨grows_refl st h, by simp, by simp⟩

theorem lands_trans {a b c : codegen_state} {cs1 cs2 : List pic_code}
    {rs1 rs2 : List pic_irep} (h1 : lands a b cs1 rs1) (h2 : lands b c cs2 rs2) :
    lands a c (cs1 ++ cs2) (rs1 ++ rs2) := by
  refine ⟨grows_trans h1.1 h2.1, ?_, ?_⟩
  · intro x hx
    rcases List.mem_append.mp hx with h | h
    · exact h1.2.1 x h
    · exact h2.2.1 x h
  · intro x hx
    rcases List.mem_append.mp hx with h | h
    · exact h1.2.2 x h
    · exact h2.2.2 x h

theorem lands_ne {st st' : codegen_state} {cs : List pic_code} {rs : List pic_irep}
    (h : lands st st' cs rs) : st' ≠ [] := h.1.2.1

theorem emit_ok (insn : pic_opcode) (u : operand) {st : codegen_state} (hne : st ≠ []) :
    ∃ st', emit insn u st = .ok st' := by
  cases st with
  | nil => exact absurd rfl hne
  | cons c up => exact ⟨_, rfl⟩

theorem emit_lands (insn : pic_opcode) (u : operand) (h0 : insn ≠ .OP_LAMBDA)
    (hf : found ⟨insn, u⟩ = true) {st : codegen_state} (hne : st ≠ []) :
    ∃ st', emit insn u st = .ok st' ∧ lands st st' [⟨insn, u⟩] [] := by
  obtain ⟨st', h⟩ := emit_ok insn u hne
  refine ⟨st', h, emit_grows h0 h, ?_, by simp⟩
  intro c hc
  rw [List.mem_singleton] at hc
  subst hc
  exact hf

theorem clen_ok {st : codegen_state} (hne : st ≠ []) : ∃ s, clen st = .ok s := by
  cases st with
  | nil => exact absurd rfl hne
  | cons c up => exact ⟨_, rfl⟩

theorem patch_jump_ok (pc : Nat) (i : Int) {st : codegen_state} (hne : st ≠ []) :
    ∃ st', patch_jump pc i st = .ok st' := by
  cases st with
  | nil => exact absurd rfl hne
  | cons c up => exact ⟨_, rfl⟩

theorem reserve_irep_ok {st : codegen_state} (hne : st ≠ []) :
    ∃ k s1, reserve_irep st = .ok (k, s1) := by
  cases st with
  | nil => exact absurd rfl hne
  | cons c up => exact ⟨_, _, rfl⟩

theorem store_irep_ok (k : Nat) (r : pic_irep) {st : codegen_state} (hne : st ≠ []) :
    ∃ st', store_irep k r st = .ok st' := by
  cases st with
  | nil => exact absurd rfl hne
  | cons c up => exact ⟨_, rfl⟩

theorem pop_codegen_context_ok {st : codegen_state} (hne : st ≠ []) :
    ∃ r s1, pop_codegen_context st = .ok (r, s1) := by
  cases st with
  | nil => exact absurd rfl hne
  | cons c up => exact ⟨_, _, rfl⟩

theorem index_symbol_ok (s : Sym) {st : codegen_state} (hne : st ≠ []) :
    ∃ i s1, index_symbol s st = .ok (i, s1) := by
  cases st with
  | nil => exact absurd rfl hne
  | cons cx up =>
    by_cases hm : s ∈ cx.syms
    · exact ⟨_, _, (index_symbol_spec s cx up).1 hm⟩
    · exact ⟨_, _, (index_symbol_spec s cx up).2 hm⟩

/-! #### The context stack and the scopes -/

theorem fits_frame {ctx : List analyze_scope} {st st' : codegen_state} (hf : fits ctx st)
    (h : same_frame st st') : fits ctx st' := by
  obtain ⟨h1, h2, h3⟩ := hf
  obtain ⟨t1, t2⟩ := h
  cases st with
  | nil => exact absurd rfl h2
  | cons c up =>
    cases st' with
    | nil => simp at t2
    | cons c' up' =>
      simp only [List.tail_cons] at t1
      subst t1
      simp only [List.head?_cons, Option.map_some', Option.some.injEq, cxt_header,
        Prod.mk.injEq] at t2
      obtain ⟨_, _, ha, hl, hc⟩ := t2
      refine ⟨by simpa using h1, by simp, ?_⟩
      intro i sc cx hi hsc hcx
      cases i with
      | zero =>
        simp only [List.getElem?_cons_zero, Option.some.injEq] at hcx
        subst hcx
        obtain ⟨q1, q2, q3⟩ := h3 0 sc c hi hsc (by simp)
        exact ⟨by rw [ha]; exact q1, by rw [hl]; exact q2, by rw [hc]; exact q3⟩
      | succ j => exact h3 (j + 1) sc cx hi hsc (by simpa using hcx)

theorem fits_push {ctx : List analyze_scope} {st : codegen_state} (hf : fits ctx st)
    (sc : analyze_scope) (cx : codegen_context) (hm : made_for sc cx) :
    fits (sc :: ctx) (cx :: st) := by
  obtain ⟨h1, h2, h3⟩ := hf
  refine ⟨by simp [h1], by simp, ?_⟩
  intro i sc' cx' hi hsc hcx
  cases i with
  | zero =>
    simp only [List.getElem?_cons_zero, Option.some.injEq] at hsc hcx
    subst hsc; subst hcx
    exact hm
  | succ j =>
    simp only [List.getElem?_cons_succ] at hsc hcx
    simp only [List.length_cons] at hi
    exact h3 j sc' cx' (by omega) hsc hcx

theorem fits_local {ctx : List analyze_scope} {st : codegen_state} (hf : fits ctx st)
    {s : Sym} (h : ref_ok ctx (.LREF s)) :
    ∃ cx up, st = cx :: up ∧ s ∈ cx.args ++ cx.locals := by
  obtain ⟨sc, up, e, hne, hs⟩ := h
  subst e
  obtain ⟨h1, h2, h3⟩ := hf
  cases st with
  | nil => exact absurd rfl h2
  | cons cx cup =>
    have hlen : 0 + 1 < (sc :: up).length := by
      cases up with
      | nil => exact absurd rfl hne
      | cons _ _ => simp
    obtain ⟨q1, q2, _⟩ := h3 0 sc cx hlen (by simp) (by simp)
    exact ⟨cx, cup, rfl, by rw [q1, q2]; exact hs⟩

theorem fits_capture {ctx : List analyze_scope} {st : codegen_state} (hf : fits ctx st)
    {d : Int} {s : Sym} (h : ref_ok ctx (.CREF d s)) :
    ∃ i : Nat, index_capture st s d = .ok (i : Int) := by
  obtain ⟨_, hlt, sc, hsc, hs⟩ := h
  obtain ⟨h1, h2, h3⟩ := hf
  have hst : d.toNat < st.length := by omega
  have hcx : st[d.toNat]? = some (st.get ⟨d.toNat, hst⟩) := List.getElem?_eq_getElem hst
  obtain ⟨_, _, q3⟩ := h3 d.toNat sc _ hlt hsc hcx
  obtain ⟨i, hi, _⟩ := index_capture_found st s d sc.captures
    (by simp only [List.getElem?_map, hcx, Option.map_some', q3]) hs
  exact ⟨i, hi⟩

theorem index_local_found (cx : codegen_context) (s : Sym) (hs : s ∈ cx.args ++ cx.locals) :
    1 ≤ index_local cx s := by
  unfold index_local
  simp only [xv_scan_eq, Nat.zero_add]
  by_cases ha : s ∈ cx.args
  · simp only [ha, if_true]
    omega
  · have hl : s ∈ cx.locals := by
      rcases List.mem_append.mp hs with h | h
      · exact absurd h ha
      · exact h
    simp only [ha, if_false, hl, if_true]
    omega

theorem local_slot_found (cx : codegen_context) (up : codegen_state) (s : Sym)
    (hs : s ∈ cx.args ++ cx.locals) :
    ∃ n : Int, local_slot (cx :: up) s = .ok n ∧ 1 ≤ n := by
  by_cases hc : s ∈ cx.captures
  · exact ⟨_, local_slot_captured cx up s hc, by omega⟩
  · exact ⟨_, local_slot_not_captured cx up s hc, index_local_found cx s hs⟩

/-! #### Single steps -/

theorem found_lref {n : Int} (h : 1 ≤ n) : found ⟨.OP_LREF, .i n⟩ = true := by
  simp [found, h]

theorem found_lset {n : Int} (h : 1 ≤ n) : found ⟨.OP_LSET, .i n⟩ = true := by
  simp [found, h]

theorem found_cref (d : Int) (i : Nat) : found ⟨.OP_CREF, .r d (i : Int)⟩ = true := by
  simp [found]

theorem found_cset (d : Int) (i : Nat) : found ⟨.OP_CSET, .r d (i : Int)⟩ = true := by
  simp [found]

theorem codegen_quote_lands (d : Val) {st : codegen_state} (hne : st ≠ []) :
    ∃ st' cs rs, codegen_quote d st = .ok st' ∧ lands st st' cs rs := by
  cases st with
  | nil => exact absurd rfl hne
  | cons cxt up =>
    have hp : ∀ d, inlined d = false →
        ∃ st' cs rs, codegen_quote d (cxt :: up) = .ok st' ∧ lands (cxt :: up) st' cs rs := by
      intro d hd
      refine ⟨_, [⟨.OP_PUSHCONST, .i (cxt.pool.length : Int)⟩], [],
        codegen_quote_pool d hd cxt up,
        ⟨by simp, by simp, rfl, rfl, by simp [cur_irep, with_const],
          by simp [lambda_operands, slot_operands], by simp⟩, ?_, by simp⟩
      intro c hc
      rw [List.mem_singleton] at hc
      subst hc
      rfl
    have he : ∀ (insn : pic_opcode) (u : operand), insn ≠ .OP_LAMBDA →
        found ⟨insn, u⟩ = true →
        ∃ st' cs rs, emit insn u (cxt :: up) = .ok st' ∧ lands (cxt :: up) st' cs rs := by
      intro insn u h0 hf
      obtain ⟨st', h, l⟩ := emit_lands insn u h0 hf hne
      exact ⟨st', _, _, h, l⟩
    cases d with
    | bool b => cases b <;> exact he _ _ (by decide) rfl
    | int n => exact he _ _ (by decide) rfl
    | nil => exact he _ _ (by decide) rfl
    | char c => exact he _ _ (by decide) rfl
    | float n => exact hp _ rfl
    | sym s => exact hp _ rfl
    | pair a b => exact hp _ rfl
    | other t => exact hp _ rfl

theorem emit_push_lands (insn : pic_opcode) (u : operand) (h0 : insn ≠ .OP_LAMBDA)
    (hf : found ⟨insn, u⟩ = true) {st : codegen_state} (hne : st ≠ []) :
    ∃ st' cs rs, (emit insn u st).bind (emit_n OP_PUSHNONE) = .ok st' ∧ lands st st' cs rs := by
  obtain ⟨s1, h1, l1⟩ := emit_lands insn u h0 hf hne
  obtain ⟨s2, h2, l2⟩ := emit_lands OP_PUSHNONE .none (by decide) rfl (lands_ne l1)
  exact ⟨s2, _, _, by rw [h1]; exact h2, lands_trans l1 l2⟩

theorem codegen_set_lands {ctx : List analyze_scope} {st : codegen_state} (var : Node)
    (hr : is_ref var = true) (hD : Deep captures_bound ref_ok ctx var) (hf : fits ctx st) :
    ∃ st' cs rs, codegen_set var st = .ok st' ∧ lands st st' cs rs := by
  cases var <;> first | (simp [is_ref] at hr; done) | skip
  case GREF s =>
    obtain ⟨i, s1, hs⟩ := index_symbol_ok s hf.2.1
    have g1 := index_symbol_grows hs
    obtain ⟨s2, c2, r2, h2, l2⟩ := emit_push_lands .OP_GSET (.i i) (by decide) rfl g1.2.1
    have l1 : lands st s1 [] [] := ⟨g1, by simp, by simp⟩
    exact ⟨s2, _, _, by simp only [codegen_set, hs]; exact h2, lands_trans l1 l2⟩
  case LREF s =>
    simp only [Deep] at hD
    obtain ⟨cx, up, e, hs⟩ := fits_local hf hD
    subst e
    obtain ⟨n, hn, h1⟩ := local_slot_found cx up s hs
    obtain ⟨s2, c2, r2, h2, l2⟩ :=
      emit_push_lands .OP_LSET (.i n) (by decide) (found_lset h1) hf.2.1
    exact ⟨s2, _, _, by simp only [codegen_set, hn]; exact h2, l2⟩
  case CREF d s =>
    simp only [Deep] at hD
    obtain ⟨i, hi⟩ := fits_capture hf hD
    obtain ⟨s2, c2, r2, h2, l2⟩ :=
      emit_push_lands .OP_CSET (.r d (i : Int)) (by decide) (found_cset d i) hf.2.1
    exact ⟨s2, _, _, by simp only [codegen_set, hi]; exact h2, l2⟩

/-! #### The `LAMBDA` and `IF` cases -/

theorem all_code_list_found : ∀ (rs : List pic_irep), (∀ r ∈ rs, irep_found r) →
    ∀ c ∈ all_code_list (rs.map some), found c = true
  | [], _, c, hc => by simp [all_code_list] at hc
  | r :: rs, h, c, hc => by
    simp only [List.map_cons, all_code_list, List.mem_append] at hc
    rcases hc with h1 | h1
    · exact h r (by simp) c h1
    · exact all_code_list_found rs (fun x hx => h x (by simp [hx])) c h1

theorem pop_codegen_context_found {st st' : codegen_state} {r : pic_irep}
    (h : pop_codegen_context st = .ok (r, st')) (hc : ∀ c ∈ cur_code st, found c = true)
    (rs : List pic_irep) (hi : cur_irep st = rs.map some) (hr : ∀ r ∈ rs, irep_found r) :
    irep_found r := by
  cases st with
  | nil => simp [pop_codegen_context] at h
  | cons c up =>
    simp only [pop_codegen_context, Except.ok.injEq, Prod.mk.injEq] at h
    obtain ⟨h1, _⟩ := h
    subst h1
    intro x hx
    simp only [pic_irep.all_code, List.mem_append] at hx
    rcases hx with h2 | h2
    · exact hc x h2
    · simp only [cur_irep] at hi
      rw [hi] at h2
      exact all_code_list_found rs hr x h2

theorem forall₂_regs_pos (vars : List Sym) : ∀ (l : List Sym) (regs : List Nat),
    List.Forall₂ (fun s n => activation_regs s vars 1 none = some n) l regs →
    ∀ n ∈ regs, 1 ≤ n
  | _, _, .nil, n, hn => by simp at hn
  | _, _, .cons hab hl, n, hn => by
    rcases List.mem_cons.mp hn with h | h
    · subst h
      rcases activation_regs_slot _ vars 1 none _ hab with h1 | h1
      · cases h1
      · exact h1.1
    · exact forall₂_regs_pos vars _ _ hl n h

theorem push_codegen_context_found {pic : pic_state} {name : Option Sym}
    {args locals : List Sym} {varg : Bool} {captures : List Sym} {st st' : codegen_state}
    (h : push_codegen_context pic name args locals varg captures st = .ok st') :
    (∀ c ∈ cur_code st', found c = true) ∧
    ∃ cx, st' = cx :: st ∧ cx.args = args ∧ cx.locals = locals ∧ cx.captures = captures := by
  obtain ⟨regs, h1, h2⟩ := push_codegen_context_spec pic name args locals varg captures st st' h
  subst h2
  refine ⟨?_, _, rfl, rfl, rfl, rfl⟩
  intro c hc
  simp only [cur_code, with_code, fresh_context, List.nil_append, List.mem_map] at hc
  obtain ⟨n, hn, rfl⟩ := hc
  exact prelude_insn_found _ _ n (forall₂_regs_pos _ _ _ h1 n hn)

theorem lambda_lands {pic : pic_state} {name : Option Sym} {args locals : List Sym}
    {varg : Bool} {captures : List Sym} {k : Nat} {r : pic_irep}
    {st s1 s2 s3 s4 s5 st' : codegen_state} {cs : List pic_code} {rs : List pic_irep}
    (h1 : reserve_irep st = .ok (k, s1)) (h2 : emit_i .OP_LAMBDA (k : Int) s1 = .ok s2)
    (h3 : push_codegen_context pic name args locals varg captures s2 = .ok s3)
    (g4 : lands s3 s4 cs rs) (h5 : pop_codegen_context s4 = .ok (r, s5))
    (h6 : store_irep k r s5 = .ok st') :
    lands st st' [⟨.OP_LAMBDA, .i (k : Int)⟩] [r] := by
  have hg := (lambda_grows h1 h2 h3 g4.1 h5 h6).2
  obtain ⟨p1, _⟩ := push_codegen_context_found h3
  obtain ⟨q1, q2, q3⟩ := g4
  have hr : irep_found r := by
    refine pop_codegen_context_found h5 ?_ rs ?_ q3
    · intro c hc
      rw [q1.2.2.2.1] at hc
      rcases List.mem_append.mp hc with h | h
      · exact p1 c h
      · exact q2 c h
    · rw [q1.2.2.2.2.1, (push_codegen_context_fresh h3).2.2.1, List.nil_append]
  refine ⟨hg, ?_, ?_⟩
  · intro c hc
    rw [List.mem_singleton] at hc
    subst hc
    rfl
  · intro x hx
    rw [List.mem_singleton] at hx
    rw [hx]; exact hr

theorem if_lands {st s1 s2 s3 s4 s5 s6 st' : codegen_state} {s t' now now' : Nat}
    {cc ce ct : List pic_code} {r1 r2 r3 : List pic_irep}
    (g1 : lands st s1 cc r1) (hs : clen s1 = .ok s) (h2 : emit_n .OP_JMPIF s1 = .ok s2)
    (g3 : lands s2 s3 ce r2) (ht : clen s3 = .ok t') (h4 : emit_n .OP_JMP s3 = .ok s4)
    (hn : clen s4 = .ok now) (h5 : patch_jump s ((now : Int) - (s : Int)) s4 = .ok s5)
    (g6 : lands s5 s6 ct r3) (hn' : clen s6 = .ok now')
    (h7 : patch_jump t' ((now' : Int) - (t' : Int)) s6 = .ok st') :
    lands st st'
      (cc ++ [⟨.OP_JMPIF, .i ((ce.length : Int) + 2)⟩] ++ ce ++
        [⟨.OP_JMP, .i ((ct.length : Int) + 1)⟩] ++ ct)
      (r1 ++ r2 ++ r3) := by
  have hg := if_grows g1.1 hs h2 g3.1 ht h4 hn h5 g6.1 hn' h7
  obtain ⟨_, a2, a3⟩ := g1
  obtain ⟨_, b2, b3⟩ := g3
  obtain ⟨_, c2, c3⟩ := g6
  refine ⟨hg, ?_, ?_⟩
  · intro x hx
    simp only [List.mem_append, List.mem_singleton] at hx
    rcases hx with (((h | h) | h) | h) | h
    · exact a2 x h
    · subst h; rfl
    · exact b2 x h
    · subst h; rfl
    · exact c2 x h
  · intro r hr
    simp only [List.mem_append] at hr
    rcases hr with (h | h) | h
    · exact a3 r h
    · exact b3 r h
    · exact c3 r h

/-! #### The induction over the tree -/

mutual
theorem codegen_accepts (pic : pic_state) :
    ∀ (n : Node) (ctx : List analyze_scope) (st : codegen_state),
      Deep captures_bound ref_ok ctx n → targets_ok n = true → fits ctx st →
      ∃ st' cs rs, codegen pic n st = .ok st' ∧ lands st st' cs rs
  | .GREF s, ctx, st, _, _, hf => by
    obtain ⟨i, s1, hs⟩ := index_symbol_ok s hf.2.1
    have g1 := index_symbol_grows hs
    have l1 : lands st s1 [] [] := ⟨g1, by simp, by simp⟩
    obtain ⟨s2, h2, l2⟩ := emit_lands .OP_GREF (.i i) (by decide) rfl g1.2.1
    exact ⟨s2, _, _, by simp only [codegen, hs]; exact h2, lands_trans l1 l2⟩
  | .CREF d s, ctx, st, hD, _, hf => by
    simp only [Deep] at hD
    obtain ⟨i, hi⟩ := fits_capture hf hD
    obtain ⟨s2, h2, l2⟩ :=
      emit_lands .OP_CREF (.r d (i : Int)) (by decide) (found_cref d i) hf.2.1
    exact ⟨s2, _, _, by simp only [codegen, hi]; exact h2, l2⟩
  | .LREF s, ctx, st, hD, _, hf => by
    simp only [Deep] at hD
    obtain ⟨cx, up, e, hs⟩ := fits_local hf hD
    subst e
    obtain ⟨n, hn, h1⟩ := local_slot_found cx up s hs
    obtain ⟨s2, h2, l2⟩ := emit_lands .OP_LREF (.i n) (by decide) (found_lref h1) hf.2.1
    exact ⟨s2, _, _, by simp only [codegen, hn]; exact h2, l2⟩
  | .SETBANG var val, ctx, st, hD, ht, hf => by
    simp only [Deep] at hD
    simp only [targets_ok, Bool.and_eq_true] at ht
    obtain ⟨s1, c1, r1, h1, l1⟩ := codegen_accepts pic val ctx st hD.2 ht.2 hf
    have f1 := fits_frame hf (codegen_frame pic _ _ _ h1)
    obtain ⟨s2, c2, r2, h2, l2⟩ := codegen_set_lands var ht.1 hD.1 f1
    exact ⟨s2, _, _, by simp only [codegen, h1]; exact h2, lands_trans l1 l2⟩
  | .LAMBDA name args locals varg captures body, ctx, st, hD, ht, hf => by
    simp only [Deep] at hD
    simp only [targets_ok] at ht
    obtain ⟨hJ, _, hB⟩ := hD
    obtain ⟨k, s1, h1⟩ := reserve_irep_ok hf.2.1
    have f1 := fits_frame hf (reserve_irep_frame h1)
    obtain ⟨s2, h2⟩ := emit_ok .OP_LAMBDA (.i (k : Int)) f1.2.1
    have f2 := fits_frame f1 (emit_frame h2)
    obtain ⟨s3, h3⟩ := push_codegen_context_ok pic name args locals varg captures s2
      (fun s hs => List.mem_append.mpr (hJ s hs))
    obtain ⟨_, cx, e3, q1, q2, q3⟩ := push_codegen_context_found h3
    have f3 : fits (lambda_scope ctx args locals varg captures :: ctx) s3 := by
      rw [e3]
      exact fits_push f2 _ cx ⟨q1, q2, q3⟩
    obtain ⟨s4, c4, r4, h4, l4⟩ := codegen_accepts pic body _ s3 hB ht f3
    obtain ⟨r, s5, h5⟩ := pop_codegen_context_ok (lands_ne l4)
    have e5 : s5 = s2 := by
      rw [pop_codegen_context_tail h5, l4.1.2.2.1, push_codegen_context_tail h3]
    have ne5 : s5 ≠ [] := by rw [e5]; exact f2.2.1
    obtain ⟨s6, h6⟩ := store_irep_ok k r ne5
    have h2' : emit_i .OP_LAMBDA (k : Int) s1 = .ok s2 := h2
    exact ⟨s6, _, _, by simp only [codegen, h1, h2', h3, h4, h5]; exact h6,
      lambda_lands h1 h2' h3 l4 h5 h6⟩
  | .IF c t e, ctx, st, hD, ht, hf => by
    simp only [Deep] at hD
    simp only [targets_ok, Bool.and_eq_true] at ht
    obtain ⟨s1, c1, r1, h1, l1⟩ := codegen_accepts pic c ctx st hD.1 ht.1.1 hf
    have f1 := fits_frame hf (codegen_frame pic _ _ _ h1)
    obtain ⟨s, hs⟩ := clen_ok f1.2.1
    obtain ⟨s2, h2⟩ := emit_ok .OP_JMPIF .none f1.2.1
    have h2' : emit_n .OP_JMPIF s1 = .ok s2 := h2
    have f2 := fits_frame f1 (emit_frame h2)
    obtain ⟨s3, c3, r3, h3, l3⟩ := codegen_accepts pic e ctx s2 hD.2.2 ht.2 f2
    have f3 := fits_frame f2 (codegen_frame pic _ _ _ h3)
    obtain ⟨t', ht'⟩ := clen_ok f3.2.1
    obtain ⟨s4, h4⟩ := emit_ok .OP_JMP .none f3.2.1
    have h4' : emit_n .OP_JMP s3 = .ok s4 := h4
    have f4 := fits_frame f3 (emit_frame h4)
    obtain ⟨now, hn⟩ := clen_ok f4.2.1
    obtain ⟨s5, h5⟩ := patch_jump_ok s ((now : Int) - (s : Int)) f4.2.1
    have f5 := fits_frame f4 (patch_jump_frame h5)
    obtain ⟨s6, c6, r6, h6, l6⟩ := codegen_accepts pic t ctx s5 hD.2.1 ht.1.2 f5
    have f6 := fits_frame f5 (codegen_frame pic _ _ _ h6)
    obtain ⟨now', hn'⟩ := clen_ok f6.2.1
    obtain ⟨s7, h7⟩ := patch_jump_ok t' ((now' : Int) - (t' : Int)) f6.2.1
    exact ⟨s7, _, _,
      by simp only [codegen, h1, hs, h2', h3, ht', h4', hn, h5, h6, hn']; exact h7,
      if_lands l1 hs h2' l3 ht' h4' hn h5 l6 hn' h7⟩
  | .BEGIN es, ctx, st, hD, ht, hf => by
    simp only [Deep] at hD
    simp only [targets_ok] at ht
    simp only [codegen]
    exact codegen_begin_accepts pic es false ctx st hD ht hf
  | .QUOTE d, ctx, st, _, _, hf => by
    simp only [codegen]
    exact codegen_quote_lands d hf.2.1
  | .op1 t a, ctx, st, hD, ht, hf => by
    simp only [Deep] at hD
    simp only [targets_ok] at ht
    obtain ⟨s1, c1, r1, h1, l1⟩ := codegen_accepts pic a ctx st hD ht hf
    obtain ⟨s2, h2, l2⟩ := emit_lands (opcode1 t) .none (by cases t <;> decide)
      (by cases t <;> rfl) (lands_ne l1)
    exact ⟨s2, _, _, by simp only [codegen, h1]; exact h2, lands_trans l1 l2⟩
  | .op2 t a b, ctx, st, hD, ht, hf => by
    simp only [Deep] at hD
    simp only [targets_ok, Bool.and_eq_true] at ht
    by_cases hsw : swaps t = true
    · obtain ⟨s1, c1, r1, h1, l1⟩ := codegen_accepts pic b ctx st hD.2 ht.2 hf
      have f1 := fits_frame hf (codegen_frame pic _ _ _ h1)
      obtain ⟨s2, c2, r2, h2, l2⟩ := codegen_accepts pic a ctx s1 hD.1 ht.1 f1
      obtain ⟨s3, h3, l3⟩ := emit_lands (opcode2 t) .none (by cases t <;> decide)
        (by cases t <;> rfl) (lands_ne l2)
      exact ⟨s3, _, _, by simp only [codegen, hsw, if_true, h1, h2]; exact h3,
        lands_trans l1 (lands_trans l2 l3)⟩
    · obtain ⟨s1, c1, r1, h1, l1⟩ := codegen_accepts pic a ctx st hD.1 ht.1 hf
      have f1 := fits_frame hf (codegen_frame pic _ _ _ h1)
      obtain ⟨s2, c2, r2, h2, l2⟩ := codegen_accepts pic b ctx s1 hD.2 ht.2 f1
      obtain ⟨s3, h3, l3⟩ := emit_lands (opcode2 t) .none (by cases t <;> decide)
        (by cases t <;> rfl) (lands_ne l2)
      exact ⟨s3, _, _, by simp only [codegen, hsw, if_false, h1, h2]; exact h3,
        lands_trans l1 (lands_trans l2 l3)⟩
  | .CALL es, ctx, st, hD, ht, hf => by
    simp only [Deep] at hD
    simp only [targets_ok] at ht
    obtain ⟨s1, c1, r1, h1, l1⟩ := codegen_each_accepts pic es ctx st hD ht hf
    obtain ⟨s2, h2, l2⟩ := emit_lands .OP_CALL (.i (((es.length + 1 : Nat) : Int) - 1))
      (by decide) rfl (lands_ne l1)
    exact ⟨s2, _, _, by simp only [codegen, h1]; exact h2, lands_trans l1 l2⟩
  | .TAILCALL es, ctx, st, hD, ht, hf => by
    simp only [Deep] at hD
    simp only [targets_ok] at ht
    obtain ⟨s1, c1, r1, h1, l1⟩ := codegen_each_accepts pic es ctx st hD ht hf
    obtain ⟨s2, h2, l2⟩ := emit_lands .OP_TAILCALL (.i (((es.length + 1 : Nat) : Int) - 1))
      (by decide) rfl (lands_ne l1)
    exact ⟨s2, _, _, by simp only [codegen, h1]; exact h2, lands_trans l1 l2⟩
  | .CALL_WITH_VALUES p c, ctx, st, hD, ht, hf => by
    simp only [Deep] at hD
    simp only [targets_ok, Bool.and_eq_true] at ht
    obtain ⟨s1, c1, r1, h1, l1⟩ := codegen_accepts pic c ctx st hD.2 ht.2 hf
    have f1 := fits_frame hf (codegen_frame pic _ _ _ h1)
    obtain ⟨s2, c2, r2, h2, l2⟩ := codegen_accepts pic p ctx s1 hD.1 ht.1 f1
    obtain ⟨s3, h3, l3⟩ := emit_lands .OP_CALL (.i 1) (by decide) rfl (lands_ne l2)
    obtain ⟨s4, h4, l4⟩ := emit_lands .OP_CALL (.i (-1)) (by decide) rfl (lands_ne l3)
    have h3' : emit_i .OP_CALL 1 s2 = .ok s3 := h3
    exact ⟨s4, _, _, by simp only [codegen, h1, h2, h3']; exact h4,
      lands_trans l1 (lands_trans l2 (lands_trans l3 l4))⟩
  | .TAILCALL_WITH_VALUES p c, ctx, st, hD, ht, hf => by
    simp only [Deep] at hD
    simp only [targets_ok, Bool.and_eq_true] at ht
    obtain ⟨s1, c1, r1, h1, l1⟩ := codegen_accepts pic c ctx st hD.2 ht.2 hf
    have f1 := fits_frame hf (codegen_frame pic _ _ _ h1)
    obtain ⟨s2, c2, r2, h2, l2⟩ := codegen_accepts pic p ctx s1 hD.1 ht.1 f1
    obtain ⟨s3, h3, l3⟩ := emit_lands .OP_CALL (.i 1) (by decide) rfl (lands_ne l2)
    obtain ⟨s4, h4, l4⟩ := emit_lands .OP_TAILCALL (.i (-1)) (by decide) rfl (lands_ne l3)
    have h3' : emit_i .OP_CALL 1 s2 = .ok s3 := h3
    exact ⟨s4, _, _, by simp only [codegen, h1, h2, h3']; exact h4,
      lands_trans l1 (lands_trans l2 (lands_trans l3 l4))⟩
  | .RETURN es, ctx, st, hD, ht, hf => by
    simp only [Deep] at hD
    simp only [targets_ok] at ht
    obtain ⟨s1, c1, r1, h1, l1⟩ := codegen_each_accepts pic es ctx st hD ht hf
    obtain ⟨s2, h2, l2⟩ := emit_lands .OP_RET (.i (((es.length + 1 : Nat) : Int) - 1))
      (by decide) rfl (lands_ne l1)
    exact ⟨s2, _, _, by simp only [codegen, h1]; exact h2, lands_trans l1 l2⟩
  | .skel c, ctx, st, hD, _, _ => by
    simp only [Deep] at hD
theorem codegen_each_accepts (pic : pic_state) :
    ∀ (es : List Node) (ctx : List analyze_scope) (st : codegen_state),
      DeepList captures_bound ref_ok ctx es → targets_ok_list es = true → fits ctx st →
      ∃ st' cs rs, codegen_each pic es st = .ok st' ∧ lands st st' cs rs
  | [], ctx, st, _, _, hf => ⟨st, [], [], rfl, lands_refl st hf.2.1⟩
  | e :: es, ctx, st, hD, ht, hf => by
    simp only [DeepList] at hD
    simp only [targets_ok_list, Bool.and_eq_true] at ht
    obtain ⟨s1, c1, r1, h1, l1⟩ := codegen_accepts pic e ctx st hD.1 ht.1 hf
    have f1 := fits_frame hf (codegen_frame pic _ _ _ h1)
    obtain ⟨s2, c2, r2, h2, l2⟩ := codegen_each_accepts pic es ctx s1 hD.2 ht.2 f1
    exact ⟨s2, _, _, by simp only [codegen_each, h1]; exact h2, lands_trans l1 l2⟩
theorem codegen_begin_accepts (pic : pic_state) :
    ∀ (es : List Node) (b : Bool) (ctx : List analyze_scope) (st : codegen_state),
      DeepList captures_bound ref_ok ctx es → targets_ok_list es = true → fits ctx st →
      ∃ st' cs rs, codegen_begin pic es b st = .ok st' ∧ lands st st' cs rs
  | [], b, ctx, st, _, _, hf => ⟨st, [], [], rfl, lands_refl st hf.2.1⟩
  | e :: es, b, ctx, st, hD, ht, hf => by
    simp only [DeepList] at hD
    simp only [targets_ok_list, Bool.and_eq_true] at ht
    cases b with
    | true =>
      obtain ⟨s0, h0, l0⟩ := emit_lands .OP_POP .none (by decide) rfl hf.2.1
      have h0' : emit_n .OP_POP st = .ok s0 := h0
      have f0 := fits_frame hf (emit_frame h0)
      obtain ⟨s1, c1, r1, h1, l1⟩ := codegen_accepts pic e ctx s0 hD.1 ht.1 f0
      have f1 := fits_frame f0 (codegen_frame pic _ _ _ h1)
      obtain ⟨s2, c2, r2, h2, l2⟩ := codegen_begin_accepts pic es true ctx s1 hD.2 ht.2 f1
      exact ⟨s2, _, _, by simp only [codegen_begin, if_true, h0', h1]; exact h2,
        lands_trans l0 (lands_trans l1 l2)⟩
    | false =>
      obtain ⟨s1, c1, r1, h1, l1⟩ := codegen_accepts pic e ctx st hD.1 ht.1 hf
      have f1 := fits_frame hf (codegen_frame pic _ _ _ h1)
      obtain ⟨s2, c2, r2, h2, l2⟩ := codegen_begin_accepts pic es true ctx s1 hD.2 ht.2 f1
      exact ⟨s2, _, _,
        by simp only [codegen_begin, Bool.false_eq_true, if_false, h1]; exact h2,
        lands_trans l1 l2⟩
end

/-- The code generator accepts every tree in which references are bound and
`SETBANG` targets are references, and no instruction of the IRep carries a
not-found index. -/
theorem pic_codegen_accepts (pic : pic_state) (t : Node) (root : analyze_scope)
    (hD : Deep captures_bound ref_ok [root] t) (ht : targets_ok t = true) :
    ∃ r, pic_codegen pic t = .ok r ∧ irep_found r := by
  obtain ⟨st0, h0⟩ := push_codegen_context_ok pic none [] [] false [] []
    (by intro s hs; simp at hs)
  obtain ⟨p1, cx, e0, _, _, _⟩ := push_codegen_context_found h0
  have f0 : fits [root] st0 := by
    rw [e0]
    refine ⟨rfl, by simp, ?_⟩
    intro i sc cx' hi
    simp at hi
  obtain ⟨st1, cs, rs, h1, l1⟩ := codegen_accepts pic t [root] st0 hD ht f0
  obtain ⟨r, s2, h2⟩ := pop_codegen_context_ok (lands_ne l1)
  refine ⟨r, ?_, ?_⟩
  · simp only [pic_codegen, new_codegen_state, h0, h1, destroy_codegen_state, h2]
  · refine pop_codegen_context_found h2 ?_ rs ?_ l1.2.2
    · intro c hc
      rw [l1.1.2.2.2.1] at hc
      rcases List.mem_append.mp hc with h | h
      · exact p1 c h
      · exact l1.2.1 c h
    · rw [l1.1.2.2.2.2.1, (push_codegen_context_fresh h0).2.2.1, List.nil_append]

/-! ### Analyzer output is accepted by the code generator -/

theorem found_spec (c : pic_code) (h : found c = true) :
    ((c.insn = .OP_LREF ∨ c.insn = .OP_LSET) → ∃ n : Int, c.u = .i n ∧ 1 ≤ n) ∧
    ((c.insn = .OP_CREF ∨ c.insn = .OP_CSET) → ∃ d i : Int, c.u = .r d i ∧ 0 ≤ i) := by
  obtain ⟨insn, u⟩ := c
  refine ⟨?_, ?_⟩
  · intro hi
    simp only [found, hi, if_true] at h
    cases u <;> simp at h
    exact ⟨_, rfl, h⟩
  · intro hi
    simp only at hi
    have hn : ¬ (insn = .OP_LREF ∨ insn = .OP_LSET) := by
      rcases hi with hi | hi <;> (rw [hi]; decide)
    simp only [found, hn, if_false, hi, if_true] at h
    cases u <;> simp at h
    exact ⟨_, _, rfl, h⟩

/-- C29 (as stated) fails in its gloss that every `index_capture` lookup
performed during code generation succeeds.  `(lambda (x) x)` is analyzed to
`(RETURN (LAMBDA (x) (RETURN (LREF x))))`; when `codegen` reaches `(LREF x)` in
the context of the lambda, whose captures are empty, the first lookup of the
`LREF` case, `index_capture(state, x, 0)`, returns `-1`, and the operand emitted
is the result 1 of `index_local`. -/
theorem C29_counterexample :
    pic_analyze base_pic 10 identity_example =
      .ok (.RETURN [.LAMBDA none [100] [] false [] (.RETURN [.LREF 100])]) ∧
    ∃ s0 s1 s2 s3 s4 cx,
      new_codegen_state base_pic = .ok s0 ∧
      reserve_irep s0 = .ok (0, s1) ∧
      emit_i .OP_LAMBDA 0 s1 = .ok s2 ∧
      push_codegen_context base_pic none [100] [] false [] s2 = .ok s3 ∧
      s3.head? = some cx ∧ cx.args = [100] ∧ cx.captures = [] ∧
      index_capture s3 100 0 = .ok (-1) ∧
      index_local cx 100 = 1 ∧
      local_slot s3 100 = .ok 1 ∧
      codegen base_pic (.LREF 100) s3 = .ok s4 ∧
      cur_code s4 = [⟨.OP_LREF, .i 1⟩] :=
  ⟨eq_of_same_ast (by decide!),
    _, _, _, _, _, _, rfl, rfl, rfl, rfl, rfl, rfl, rfl, rfl, rfl, rfl, rfl, rfl⟩

/-- C29 (amended): for every expression on which `pic_analyze` succeeds,
`pic_codegen` applied to the result returns an IRep, so it reaches neither the
'unknown AST type' error nor a null context by walking past the root context,
and `pic_compile` returns that IRep; in the IRep and in its children, at any
depth, the operand of every `LREF` and `LSET` is a frame position from 1 on and
the operand of every `CREF` and `CSET` has a capture index from 0 on, so none
carries the not-found index `-1`.  The look-ups whose result is emitted succeed;
the look-up `index_capture(state, name, 0)` that the `LREF` and `LSET` cases try
first returns `-1` for a local the context does not capture itself, and then
the result of `index_local`, which is found, is emitted. -/
theorem C29_analyzer_output_accepted (pic : pic_state) (fuel : Nat) (obj : Val) (t : Node)
    (h : pic_analyze pic fuel obj = .ok t) :
    ∃ r, pic_codegen pic t = .ok r ∧ pic_compile pic fuel obj = .ok r ∧
      pic_codegen pic t ≠ .error .unknown_ast_type ∧
      pic_codegen pic t ≠ .error .null_pointer ∧
      (∀ c ∈ r.all_code, found c = true) ∧
      (∀ c ∈ r.all_code,
        ((c.insn = .OP_LREF ∨ c.insn = .OP_LSET) → ∃ n : Int, c.u = .i n ∧ 1 ≤ n) ∧
        ((c.insn = .OP_CREF ∨ c.insn = .OP_CSET) → ∃ d i : Int, c.u = .r d i ∧ 0 ≤ i)) ∧
      (∀ c ∈ r.all_code,
        ((c.insn = .OP_LREF ∨ c.insn = .OP_LSET) → c.u ≠ .i (-1)) ∧
        ((c.insn = .OP_CREF ∨ c.insn = .OP_CSET) → ∀ d : Int, c.u ≠ .r d (-1))) ∧
      (∀ (cx : codegen_context) (up : codegen_state) (s : Sym),
        s ∈ cx.args ++ cx.locals →
        (s ∈ cx.captures →
          index_capture (cx :: up) s 0 = .ok ((cx.captures.indexOf s : Nat) : Int) ∧
          local_slot (cx :: up) s =
            .ok ((cx.args.length : Int) + (cx.locals.length : Int) + 1 +
              ((cx.captures.indexOf s : Nat) : Int))) ∧
        (s ∉ cx.captures →
          index_capture (cx :: up) s 0 = .ok (-1) ∧
          local_slot (cx :: up) s = .ok (index_local cx s) ∧ 1 ≤ index_local cx s)) := by
  obtain ⟨root, hD⟩ := pic_analyze_refs pic fuel obj t h
  obtain ⟨r, hr, hfound⟩ := pic_codegen_accepts pic t root hD (pic_analyze_targets pic fuel obj t h)
  refine ⟨r, hr, by simp only [pic_compile, h, hr], by rw [hr]; simp, by rw [hr]; simp,
    hfound, fun c hc => found_spec c (hfound c hc), ?_, ?_⟩
  · intro c hc
    obtain ⟨f1, f2⟩ := found_spec c (hfound c hc)
    refine ⟨?_, ?_⟩
    · intro hi hu
      obtain ⟨n, e, hn⟩ := f1 hi
      rw [e] at hu
      simp only [operand.i.injEq] at hu
      omega
    · intro hi d hu
      obtain ⟨d', i, e, hn⟩ := f2 hi
      rw [e] at hu
      simp only [operand.r.injEq] at hu
      omega
  · intro cx up s hs
    refine ⟨?_, ?_⟩
    · intro hc
      refine ⟨?_, local_slot_captured cx up s hc⟩
      simp [index_capture, xv_scan_eq, hc]
    · intro hc
      refine ⟨?_, local_slot_not_captured cx up s hc, index_local_found cx s hs⟩
      simp [index_capture, xv_scan_eq, hc]

/-- C29 (amended) at `(lambda (x) x)`: the analysis succeeds, its result is
compiled, and the instruction of the body that addresses `x` is `LREF 1`. -/
theorem C29_analyzer_output_accepted_witness :
    pic_analyze base_pic 10 identity_example =
      .ok (.RETURN [.LAMBDA none [100] [] false [] (.RETURN [.LREF 100])]) ∧
    ∃ r, pic_codegen base_pic
        (.RETURN [.LAMBDA none [100] [] false [] (.RETURN [.LREF 100])]) = .ok r ∧
      pic_compile base_pic 10 identity_example = .ok r ∧
      ∀ c ∈ r.all_code, found c = true := by
  have h : pic_analyze base_pic 10 identity_example =
      .ok (.RETURN [.LAMBDA none [100] [] false [] (.RETURN [.LREF 100])]) :=
    eq_of_same_ast (by decide!)
  obtain ⟨r, h1, h2, _, _, h3, _⟩ := C29_analyzer_output_accepted base_pic 10 identity_example _ h
  exact ⟨h, r, h1, h2, h3⟩

/-! ### The calls of `codegen` and the captures they see -/

theorem mem_after {α β : Type} {r : Except Err α} {f : α → List β} {p : β} :
    p ∈ after r f ↔ ∃ a, r = .ok a ∧ p ∈ f a := by
  cases r with
  | error e => simp [after]
  | ok a => simp [after]

theorem visits_self (pic : pic_state) (n : Node) (st : codegen_state) :
    (n, st) ∈ visits pic n st := by
  cases n <;> simp [visits]

mutual
theorem visits_return (pic : pic_state) :
    ∀ (n : Node) (st st' : codegen_state), codegen pic n st = .ok st' →
      ∀ p ∈ visits pic n st, ∃ sm', codegen pic p.1 p.2 = .ok sm'
  | .GREF s, st, st', h, p, hp => by
    simp only [visits, List.mem_singleton] at hp
    subst hp; exact ⟨st', h⟩
  | .CREF d s, st, st', h, p, hp => by
    simp only [visits, List.mem_singleton] at hp
    subst hp; exact ⟨st', h⟩
  | .LREF s, st, st', h, p, hp => by
    simp only [visits, List.mem_singleton] at hp
    subst hp; exact ⟨st', h⟩
  | .SETBANG var val, st, st', h, p, hp => by
    simp only [visits, List.mem_cons] at hp
    rcases hp with rfl | hp
    · exact ⟨st', h⟩
    · simp only [codegen] at h
      split at h
      · cases h
      · rename_i s1 h1
        exact visits_return pic val _ _ h1 p hp
  | .LAMBDA name args locals varg captures body, st, st', h, p, hp => by
    simp only [visits, List.mem_cons, mem_after] at hp
    rcases hp with rfl | ⟨⟨k, s1⟩, e1, s2, e2, s3, e3, hp⟩
    · exact ⟨st', h⟩
    · simp only [codegen, e1, e2, e3] at h
      split at h
      · cases h
      · rename_i s4 h4
        exact visits_return pic body _ _ h4 p hp
  | .IF c t e, st, st', h, p, hp => by
    simp only [visits, List.mem_cons, List.mem_append, mem_after] at hp
    rcases hp with rfl | hp | ⟨s1, e1, s, es, s2, e2, hp | ⟨s3, e3, t', et, s4, e4, now, en, s5, e5,
      hp⟩⟩
    · exact ⟨st', h⟩
    · simp only [codegen] at h
      split at h
      · cases h
      · rename_i s1 h1
        exact visits_return pic c _ _ h1 p hp
    · exact visits_return_of pic e s2 p hp (by
        simp only [codegen, e1, es, e2] at h
        split at h
        · cases h
        · rename_i s3 h3; exact ⟨s3, h3⟩)
    · simp only [codegen, e1, es, e2, e3, et, e4, en, e5] at h
      split at h
      · cases h
      · rename_i s6 h6
        exact visits_return pic t _ _ h6 p hp
  | .BEGIN es, st, st', h, p, hp => by
    simp only [visits, List.mem_cons] at hp
    rcases hp with rfl | hp
    · exact ⟨st', h⟩
    · simp only [codegen] at h
      exact visits_begin_return pic es false _ _ h p hp
  | .QUOTE d, st, st', h, p, hp => by
    simp only [visits, List.mem_singleton] at hp
    subst hp; exact ⟨st', h⟩
  | .op1 t a, st, st', h, p, hp => by
    simp only [visits, List.mem_cons] at hp
    rcases hp with rfl | hp
    · exact ⟨st', h⟩
    · simp only [codegen] at h
      split at h
      · cases h
      · rename_i s1 h1
        exact visits_return pic a _ _ h1 p hp
  | .op2 t a b, st, st', h, p, hp => by
    simp only [visits, List.mem_cons] at hp
    rcases hp with rfl | hp
    · exact ⟨st', h⟩
    · simp only [codegen] at h
      by_cases hsw : swaps t = true
      · rw [if_pos hsw] at hp h
        simp only [List.mem_append, mem_after] at hp
        cases h1 : codegen pic b st with
        | error err => rw [h1] at h; cases h
        | ok s1 =>
          rw [h1] at h
          simp only at h
          rcases hp with hp | ⟨s1', e1, hp⟩
          · exact visits_return pic b _ _ h1 p hp
          · rw [h1] at e1
            cases e1
            cases h2 : codegen pic a s1 with
            | error err => rw [h2] at h; cases h
            | ok s2 => exact visits_return pic a _ _ h2 p hp
      · rw [if_neg hsw] at hp h
        simp only [List.mem_append, mem_after] at hp
        cases h1 : codegen pic a st with
        | error err => rw [h1] at h; cases h
        | ok s1 =>
          rw [h1] at h
          simp only at h
          rcases hp with hp | ⟨s1', e1, hp⟩
          · exact visits_return pic a _ _ h1 p hp
          · rw [h1] at e1
            cases e1
            cases h2 : codegen pic b s1 with
            | error err => rw [h2] at h; cases h
            | ok s2 => exact visits_return pic b _ _ h2 p hp
  | .CALL es, st, st', h, p, hp => by
    simp only [visits, List.mem_cons] at hp
    rcases hp with rfl | hp
    · exact ⟨st', h⟩
    · simp only [codegen] at h
      split at h
      · cases h
      · rename_i s1 h1
        exact visits_each_return pic es _ _ h1 p hp
  | .TAILCALL es, st, st', h, p, hp => by
    simp only [visits, List.mem_cons] at hp
    rcases hp with rfl | hp
    · exact ⟨st', h⟩
    · simp only [codegen] at h
      split at h
      · cases h
      · rename_i s1 h1
        exact visits_each_return pic es _ _ h1 p hp
  | .CALL_WITH_VALUES q c, st, st', h, p, hp => by
    simp only [visits, List.mem_cons, List.mem_append, mem_after] at hp
    rcases hp with rfl | hp | ⟨s1', e1, hp⟩
    · exact ⟨st', h⟩
    · simp only [codegen] at h
      split at h
      · cases h
      · rename_i s1 h1
        exact visits_return pic c _ _ h1 p hp
    · simp only [codegen, e1] at h
      split at h
      · cases h
      · rename_i s2 h2
        exact visits_return pic q _ _ h2 p hp
  | .TAILCALL_WITH_VALUES q c, st, st', h, p, hp => by
    simp only [visits, List.mem_cons, List.mem_append, mem_after] at hp
    rcases hp with rfl | hp | ⟨s1', e1, hp⟩
    · exact ⟨st', h⟩
    · simp only [codegen] at h
      split at h
      · cases h
      · rename_i s1 h1
        exact visits_return pic c _ _ h1 p hp
    · simp only [codegen, e1] at h
      split at h
      · cases h
      · rename_i s2 h2
        exact visits_return pic q _ _ h2 p hp
  | .RETURN es, st, st', h, p, hp => by
    simp only [visits, List.mem_cons] at hp
    rcases hp with rfl | hp
    · exact ⟨st', h⟩
    · simp only [codegen] at h
      split at h
      · cases h
      · rename_i s1 h1
        exact visits_each_return pic es _ _ h1 p hp
  | .skel c, st, st', h, p, hp => by
    simp [codegen] at h
theorem visits_return_of (pic : pic_state) :
    ∀ (n : Node) (st : codegen_state) (p : Node × codegen_state), p ∈ visits pic n st →
      (∃ st', codegen pic n st = .ok st') → ∃ sm', codegen pic p.1 p.2 = .ok sm'
  | n, st, p, hp, ⟨st', h⟩ => visits_return pic n st st' h p hp
theorem visits_each_return (pic : pic_state) :
    ∀ (es : List Node) (st st' : codegen_state), codegen_each pic es st = .ok st' →
      ∀ p ∈ visits_each pic es st, ∃ sm', codegen pic p.1 p.2 = .ok sm'
  | [], st, st', h, p, hp => by simp [visits_each] at hp
  | e :: es, st, st', h, p, hp => by
    simp only [visits_each, List.mem_append, mem_after] at hp
    simp only [codegen_each] at h
    split at h
    · cases h
    · rename_i s1 h1
      rcases hp with hp | ⟨s1', e1, hp⟩
      · exact visits_return pic e _ _ h1 p hp
      · rw [h1] at e1
        cases e1
        exact visits_each_return pic es _ _ h p hp
theorem visits_begin_return (pic : pic_state) :
    ∀ (es : List Node) (b : Bool) (st st' : codegen_state),
      codegen_begin pic es b st = .ok st' →
      ∀ p ∈ visits_begin pic es b st, ∃ sm', codegen pic p.1 p.2 = .ok sm'
  | [], b, st, st', h, p, hp => by simp [visits_begin] at hp
  | e :: es, b, st, st', h, p, hp => by
    simp only [visits_begin, List.mem_append, mem_after] at hp
    obtain ⟨s0, e0, hp⟩ := hp
    simp only [codegen_begin, e0] at h
    split at h
    · cases h
    · rename_i s1 h1
      rcases hp with hp | ⟨s1', e1, hp⟩
      · exact visits_return pic e _ _ h1 p hp
      · rw [h1] at e1
        cases e1
        exact visits_begin_return pic es true _ _ h p hp
end

theorem codegen_captures {pic : pic_state} {n : Node} {st st' : codegen_state}
    (h : codegen pic n st = .ok st') : st'.map (·.captures) = st.map (·.captures) :=
  same_frame_captures (codegen_frame pic n st st' h)

mutual
theorem visits_crefs (pic : pic_state) :
    ∀ (n : Node) (st : codegen_state), crefs_found (st.map (·.captures)) n = true →
      ∀ p ∈ visits pic n st, crefs_found (p.2.map (·.captures)) p.1 = true
  | .GREF s, st, h, p, hp => by
    simp only [visits, List.mem_singleton] at hp
    subst hp; exact h
  | .CREF d s, st, h, p, hp => by
    simp only [visits, List.mem_singleton] at hp
    subst hp; exact h
  | .LREF s, st, h, p, hp => by
    simp only [visits, List.mem_singleton] at hp
    subst hp; exact h
  | .SETBANG var val, st, h, p, hp => by
    simp only [visits, List.mem_cons] at hp
    rcases hp with rfl | hp
    · exact h
    · simp only [crefs_found, Bool.and_eq_true] at h
      exact visits_crefs pic val st h.2 p hp
  | .LAMBDA name args locals varg captures body, st, h, p, hp => by
    simp only [visits, List.mem_cons, mem_after] at hp
    rcases hp with rfl | ⟨⟨k, s1⟩, e1, s2, e2, s3, e3, hp⟩
    · exact h
    · simp only [crefs_found] at h
      refine visits_crefs pic body s3 ?_ p hp
      rw [push_codegen_context_captures e3, same_frame_captures (emit_i_frame e2),
        same_frame_captures (reserve_irep_frame e1)]
      exact h
  | .IF c t e, st, h, p, hp => by
    simp only [visits, List.mem_cons, List.mem_append, mem_after] at hp
    simp only [crefs_found, Bool.and_eq_true] at h
    rcases hp with rfl | hp | ⟨s1, e1, s, es, s2, e2, hp | ⟨s3, e3, t', et, s4, e4, now, en, s5, e5,
      hp⟩⟩
    · simp only [crefs_found, Bool.and_eq_true]; exact h
    · exact visits_crefs pic c st h.1.1 p hp
    · refine visits_crefs pic e s2 ?_ p hp
      rw [same_frame_captures (emit_n_frame e2), codegen_captures e1]
      exact h.2
    · refine visits_crefs pic t s5 ?_ p hp
      rw [same_frame_captures (patch_jump_frame e5), same_frame_captures (emit_n_frame e4),
        codegen_captures e3, same_frame_captures (emit_n_frame e2), codegen_captures e1]
      exact h.1.2
  | .BEGIN es, st, h, p, hp => by
    simp only [visits, List.mem_cons] at hp
    rcases hp with rfl | hp
    · exact h
    · simp only [crefs_found] at h
      exact visits_begin_crefs pic es false st h p hp
  | .QUOTE d, st, h, p, hp => by
    simp only [visits, List.mem_singleton] at hp
    subst hp; exact h
  | .op1 t a, st, h, p, hp => by
    simp only [visits, List.mem_cons] at hp
    rcases hp with rfl | hp
    · exact h
    · simp only [crefs_found] at h
      exact visits_crefs pic a st h p hp
  | .op2 t a b, st, h, p, hp => by
    simp only [visits, List.mem_cons] at hp
    rcases hp with rfl | hp
    · exact h
    · simp only [crefs_found, Bool.and_eq_true] at h
      by_cases hsw : swaps t = true
      · rw [if_pos hsw] at hp
        simp only [List.mem_append, mem_after] at hp
        rcases hp with hp | ⟨s1, e1, hp⟩
        · exact visits_crefs pic b st h.2 p hp
        · refine visits_crefs pic a s1 ?_ p hp
          rw [codegen_captures e1]; exact h.1
      · rw [if_neg hsw] at hp
        simp only [List.mem_append, mem_after] at hp
        rcases hp with hp | ⟨s1, e1, hp⟩
        · exact visits_crefs pic a st h.1 p hp
        · refine visits_crefs pic b s1 ?_ p hp
          rw [codegen_captures e1]; exact h.2
  | .CALL es, st, h, p, hp => by
    simp only [visits, List.mem_cons] at hp
    rcases hp with rfl | hp
    · exact h
    · simp only [crefs_found] at h
      exact visits_each_crefs pic es st h p hp
  | .TAILCALL es, st, h, p, hp => by
    simp only [visits, List.mem_cons] at hp
    rcases hp with rfl | hp
    · exact h
    · simp only [crefs_found] at h
      exact visits_each_crefs pic es st h p hp
  | .CALL_WITH_VALUES q c, st, h, p, hp => by
    simp only [visits, List.mem_cons, List.mem_append, mem_after] at hp
    rcases hp with rfl | hp | ⟨s1, e1, hp⟩
    · exact h
    · simp only [crefs_found, Bool.and_eq_true] at h
      exact visits_crefs pic c st h.2 p hp
    · simp only [crefs_found, Bool.and_eq_true] at h
      refine visits_crefs pic q s1 ?_ p hp
      rw [codegen_captures e1]; exact h.1
  | .TAILCALL_WITH_VALUES q c, st, h, p, hp => by
    simp only [visits, List.mem_cons, List.mem_append, mem_after] at hp
    rcases hp with rfl | hp | ⟨s1, e1, hp⟩
    · exact h
    · simp only [crefs_found, Bool.and_eq_true] at h
      exact visits_crefs pic c st h.2 p hp
    · simp only [crefs_found, Bool.and_eq_true] at h
      refine visits_crefs pic q s1 ?_ p hp
      rw [codegen_captures e1]; exact h.1
  | .RETURN es, st, h, p, hp => by
    simp only [visits, List.mem_cons] at hp
    rcases hp with rfl | hp
    · exact h
    · simp only [crefs_found] at h
      exact visits_each_crefs pic es st h p hp
  | .skel c, st, h, p, hp => by
    simp [crefs_found] at h
theorem visits_each_crefs (pic : pic_state) :
    ∀ (es : List Node) (st : codegen_state),
      crefs_found_list (st.map (·.captures)) es = true →
      ∀ p ∈ visits_each pic es st, crefs_found (p.2.map (·.captures)) p.1 = true
  | [], st, h, p, hp => by simp [visits_each] at hp
  | e :: es, st, h, p, hp => by
    simp only [visits_each, List.mem_append, mem_after] at hp
    simp only [crefs_found_list, Bool.and_eq_true] at h
    rcases hp with hp | ⟨s1, e1, hp⟩
    · exact visits_crefs pic e st h.1 p hp
    · refine visits_each_crefs pic es s1 ?_ p hp
      rw [codegen_captures e1]; exact h.2
theorem visits_begin_crefs (pic : pic_state) :
    ∀ (es : List Node) (b : Bool) (st : codegen_state),
      crefs_found_list (st.map (·.captures)) es = true →
      ∀ p ∈ visits_begin pic es b st, crefs_found (p.2.map (·.captures)) p.1 = true
  | [], b, st, h, p, hp => by simp [visits_begin] at hp
  | e :: es, b, st, h, p, hp => by
    simp only [visits_begin, List.mem_append, mem_after] at hp
    simp only [crefs_found_list, Bool.and_eq_true] at h
    obtain ⟨s0, e0, hp⟩ := hp
    have c0 : s0.map (·.captures) = st.map (·.captures) := by
      cases b with
      | true => exact same_frame_captures (emit_n_frame e0)
      | false =>
        simp only [Bool.false_eq_true, if_false, Except.ok.injEq] at e0
        rw [e0]
    rcases hp with hp | ⟨s1, e1, hp⟩
    · refine visits_crefs pic e s0 ?_ p hp
      rw [c0]; exact h.1
    · refine visits_begin_crefs pic es true s1 ?_ p hp
      rw [codegen_captures e1, c0]; exact h.2
end

theorem crefs_found_cref {st : codegen_state} {d : Int} {s : Sym}
    (h : crefs_found (st.map (·.captures)) (.CREF d s) = true) :
    1 ≤ d ∧ d.toNat + 1 < st.length ∧
    ∃ (i : Nat) (cx : codegen_context), st[d.toNat]? = some cx ∧
      cx.captures[i]? = some s ∧ index_capture st s d = .ok (i : Int) := by
  simp only [crefs_found, Bool.and_eq_true, decide_eq_true_eq, List.length_map] at h
  obtain ⟨⟨h1, h2⟩, h3⟩ := h
  refine ⟨h1, h2, ?_⟩
  cases hc : (st.map (·.captures))[d.toNat]? with
  | none => rw [hc] at h3; cases h3
  | some cs =>
    rw [hc] at h3
    have h3' : s ∈ cs := by simpa using h3
    obtain ⟨i, hi, hs⟩ := index_capture_found st s d cs hc h3'
    simp only [List.getElem?_map, Option.map_eq_some'] at hc
    obtain ⟨cx, hcx, rfl⟩ := hc
    exact ⟨i, cx, hcx, hs, hi⟩

theorem codegen_lambda_context (pic : pic_state) (name : Option Sym) (args locals : List Sym)
    (varg : Bool) (captures : List Sym) (body : Node) (st st' : codegen_state)
    (h : codegen pic (.LAMBDA name args locals varg captures body) st = .ok st') :
    ∃ k s1 s2 s3 s4 r s5, reserve_irep st = .ok (k, s1) ∧
      emit_i .OP_LAMBDA (k : Int) s1 = .ok s2 ∧
      push_codegen_context pic name args locals varg captures s2 = .ok s3 ∧
      codegen pic body s3 = .ok s4 ∧
      pop_codegen_context s4 = .ok (r, s5) ∧
      store_irep k r s5 = .ok st' ∧
      s3.map (·.captures) = captures :: st.map (·.captures) ∧
      visits pic (.LAMBDA name args locals varg captures body) st =
        (.LAMBDA name args locals varg captures body, st) :: visits pic body s3 := by
  simp only [codegen] at h
  split at h
  · cases h
  · rename_i k s1 h1
    split at h
    · cases h
    · rename_i s2 h2
      split at h
      · cases h
      · rename_i s3 h3
        split at h
        · cases h
        · rename_i s4 h4
          split at h
          · cases h
          · rename_i r s5 h5
            refine ⟨k, s1, s2, s3, s4, r, s5, h1, h2, h3, h4, h5, h, ?_, ?_⟩
            · rw [push_codegen_context_captures h3, same_frame_captures (emit_i_frame h2),
                same_frame_captures (reserve_irep_frame h1)]
            · simp only [visits, h1, after, h2, h3]

/-! ### The calls of `analyze_procedure` of an analysis -/

theorem body_store_of {state : analyze_state} {ana : Val → Bool → AM Node}
    {formals body : Val} {σ : astore} {scope0 : analyze_scope} {bodyN : Node} {σ2 : astore}
    (hp : push_scope formals σ.scope = (true, scope0 :: σ.scope))
    (hb : ana (.pair (.sym state.pic.rBEGIN) body) true { σ with scope := scope0 :: σ.scope } =
      .ok (bodyN, σ2)) :
    body_store state ana formals body σ = some σ2 := by
  simp only [body_store, hp, hb]

theorem is_call_succ {state : analyze_state} {fuel : Nat} {call : proc_call}
    (h : is_call state fuel call) : is_call state (fuel + 1) call := by
  obtain ⟨hq, σ', hp⟩ := h
  exact ⟨hq, σ', analyze_procedure_ext state (analyze_fuel_succ state fuel)
    (analyze_deferred_fuel_succ state fuel) _ _ _ _ _ hp⟩

theorem proc_calls_spec (state : analyze_state) (fuel : Nat)
    (hinner : CallsSpec state fuel (analyze_deferred state fuel) (flush_calls state fuel))
    (nm : Option Sym) (f b : Val) (σ : astore) (L : Node) (σ1 : astore)
    (hI : deep_inv (fun _ => True) σ)
    (h : analyze_procedure state (analyze state fuel) (analyze_deferred state fuel) nm f b σ =
      .ok (L, σ1)) :
    (∀ call ∈ inner_calls (body_store state (analyze state fuel) f b σ)
        (flush_calls state fuel), is_call state fuel call) ∧
    calls_fill (inner_calls (body_store state (analyze state fuel) f b σ)
      (flush_calls state fuel)) [] σ.heap.length σ1.heap := by
  obtain ⟨scope0, bodyN, σ2, σ3, sc3, up3, hpush, hdef, hbody, hfl, hs3, hL, hσ1⟩ :=
    analyze_procedure_order state _ _ nm f b σ L σ1 h
  rw [body_store_of hpush hbody]
  simp only [inner_calls]
  obtain ⟨varg, args, locals, hargs, hsc⟩ := push_scope_ok f σ.scope _ hpush
  have hdepth : scope0.depth = depth_above σ.scope := by
    simp only [List.cons.injEq, and_true] at hsc
    rw [hsc]
  have hI1 : deep_inv (fun _ => True) { σ with scope := scope0 :: σ.scope } :=
    ⟨stack_wf_push σ.scope hI.1 scope0 hdepth, fun _ _ => trivial⟩
  obtain ⟨hI2, hT2⟩ := analyze_grows state fuel _ true _ bodyN σ2 hI1 hbody
  obtain ⟨m, hheap2, hm2⟩ := hT2
  simp only at hheap2 hm2
  cases hs2 : σ2.scope with
  | nil => rw [hs2] at hm2; exact hm2.elim
  | cons S2 up2 =>
    rw [hs2] at hm2
    obtain ⟨_, _, hids2⟩ := hm2
    have hids2' : defer_ids S2 = (List.range' σ.heap.length m).reverse := by
      rw [hids2]
      simp [defer_ids, hdef]
    have hlen2 : σ2.heap.length = σ.heap.length + m := by
      rw [hheap2, List.length_append, List.length_replicate]
    obtain ⟨hc, _, hfill, hcov⟩ := hinner σ2 σ3 S2 up2 hI2 hs2
      (by rw [hids2']; exact List.nodup_reverse.mpr (List.nodup_range' _ _))
      (by intro c hcm
          rw [hids2'] at hcm
          have := mem_range'_rev hcm
          omega) hfl
    have hh : σ1.heap = σ3.heap := by rw [hσ1]
    refine ⟨hc, ?_, ?_⟩
    · intro call hm
      obtain ⟨q1, q2⟩ := hfill call hm
      refine ⟨by rw [hh]; exact q1, Or.inr ?_⟩
      rcases q2 with q2 | q2
      · rw [hids2'] at q2
        exact (mem_range'_rev q2).1
      · omega
    · intro c hcc
      rcases hcc with hcc | ⟨h1, h2⟩
      · cases hcc
      · rw [hh] at h2
        by_cases hlt : c < σ2.heap.length
        · exact hcov c (Or.inl (by
            rw [hids2']
            simp only [List.mem_reverse, List.mem_range'_1]
            omega))
        · exact hcov c (Or.inr ⟨by omega, h2⟩)

theorem loop_calls_spec (state : analyze_state) (fuel : Nat)
    (hinner : CallsSpec state fuel (analyze_deferred state fuel) (flush_calls state fuel)) :
    ∀ (ds : List deferred) (σ σ' : astore), deep_inv (fun _ => True) σ →
      (ds.map (·.dst)).Nodup → (∀ c ∈ ds.map (·.dst), c < σ.heap.length) →
      (∀ d ∈ ds, ∃ sc up, σ.scope = sc :: up ∧ d ∈ sc.defer) →
      analyze_deferred_loop
        (analyze_procedure state (analyze state fuel) (analyze_deferred state fuel))
        ds σ = .ok ((), σ') →
      (∀ call ∈ loop_calls
          (analyze_procedure state (analyze state fuel) (analyze_deferred state fuel))
          (fun d σ => body_store state (analyze state fuel) d.formal d.body σ)
          (flush_calls state fuel) ds σ, is_call state (fuel + 1) call) ∧
      (∀ d ∈ ds, ∃ call ∈ loop_calls
          (analyze_procedure state (analyze state fuel) (analyze_deferred state fuel))
          (fun d σ => body_store state (analyze state fuel) d.formal d.body σ)
          (flush_calls state fuel) ds σ, call.queued = d) ∧
      calls_fill (loop_calls
          (analyze_procedure state (analyze state fuel) (analyze_deferred state fuel))
          (fun d σ => body_store state (analyze state fuel) d.formal d.body σ)
          (flush_calls state fuel) ds σ) (ds.map (·.dst)) σ.heap.length σ'.heap := by
  have hproc : ProcSpec (fun _ => True) (fun _ _ => True)
      (analyze_procedure state (analyze state fuel) (analyze_deferred state fuel)) :=
    proc_spec_of state trivial_deepRules fuel _ (flush_spec state trivial_deepRules fuel)
  intro ds
  induction ds with
  | nil =>
    intro σ σ' _ _ _ _ h
    simp only [analyze_deferred_loop, Except.ok.injEq, Prod.mk.injEq, true_and] at h
    subst h
    refine ⟨(by intro call hm; simp [loop_calls] at hm), (by intro d hd; cases hd),
      (by intro call hm; simp [loop_calls] at hm), ?_⟩
    intro c hc
    rcases hc with hc | ⟨h1, h2⟩
    · simp at hc
    · omega
  | cons it ds ih =>
    intro σ σ' hI hnd hlt hq h
    simp only [analyze_deferred_loop] at h
    split at h
    · cases h
    · rename_i val σ1 hp
      obtain ⟨hI1, hk1, hlen1, hag1, _⟩ := hproc _ _ _ σ val σ1 hI hp
      obtain ⟨hn1, hn2, hn3⟩ := proc_calls_spec state fuel hinner _ _ _ σ val σ1 hI hp
      simp only [List.map_cons, List.nodup_cons] at hnd
      have hlt0 : it.dst < σ.heap.length := hlt _ (by simp)
      have hltds : ∀ c ∈ ds.map (·.dst), c < σ.heap.length :=
        fun c hc => hlt c (by simp only [List.map_cons]; exact List.mem_cons_of_mem _ hc)
      have hI1' : deep_inv (fun _ => True)
          { σ1 with heap := σ1.heap.set it.dst val } := hI1
      have hq1 : ∀ d ∈ ds, ∃ sc up,
          ({ σ1 with heap := σ1.heap.set it.dst val } : astore).scope = sc :: up ∧
            d ∈ sc.defer := by
        intro d hd
        obtain ⟨sc, up, e1, e2⟩ := hq d (List.mem_cons_of_mem _ hd)
        rw [e1] at hk1
        obtain ⟨sc1, up1, e3, e4, _⟩ := keep_head hk1
        exact ⟨sc1, up1, e3, by rw [e4]; exact e2⟩
      have hlt1 : ∀ c ∈ ds.map (·.dst),
          c < ({ σ1 with heap := σ1.heap.set it.dst val } : astore).heap.length := by
        intro c hc
        have := hltds c hc
        simp only [List.length_set]; omega
      obtain ⟨_, _, hlen2, hfr2, _⟩ :=
        loop_spec _ hproc ds { σ1 with heap := σ1.heap.set it.dst val } σ' hI1' hnd.2 hlt1 h
      obtain ⟨hc2, hd2, hf2, hcov2⟩ :=
        ih { σ1 with heap := σ1.heap.set it.dst val } σ' hI1' hnd.2 hlt1 hq1 h
      simp only [List.length_set] at hlen2 hfr2 hf2 hcov2
      have hval : σ'.heap[it.dst]? = some val := by
        rw [hfr2 it.dst (by omega) hnd.1]
        exact List.getElem?_set_self (by omega)
      have hcalls : loop_calls
          (analyze_procedure state (analyze state fuel) (analyze_deferred state fuel))
          (fun d σ => body_store state (analyze state fuel) d.formal d.body σ)
          (flush_calls state fuel) (it :: ds) σ =
          { queued := it, store := σ, node := val } ::
            (inner_calls (body_store state (analyze state fuel) it.formal it.body σ)
                (flush_calls state fuel) ++
              loop_calls
                (analyze_procedure state (analyze state fuel) (analyze_deferred state fuel))
                (fun d σ => body_store state (analyze state fuel) d.formal d.body σ)
                (flush_calls state fuel) ds { σ1 with heap := σ1.heap.set it.dst val }) := by
        simp only [loop_calls, hp]
      rw [hcalls]
      have hmem : ∀ (x call : proc_call) (A B : List proc_call),
          call ∈ x :: (A ++ B) ↔ call = x ∨ call ∈ A ∨ call ∈ B := by
        intro x call A B
        simp only [List.mem_cons, List.mem_append]
      refine ⟨?_, ?_, ?_, ?_⟩
      · intro call hm
        rcases (hmem _ _ _ _).mp hm with rfl | hm | hm
        · exact ⟨hq it (List.mem_cons_self _ _), σ1, analyze_procedure_ext state
            (analyze_fuel_succ state fuel) (analyze_deferred_fuel_succ state fuel) _ _ _ _ _ hp⟩
        · exact is_call_succ (hn1 call hm)
        · exact hc2 call hm
      · intro d hd
        rcases List.mem_cons.mp hd with rfl | hd
        · exact ⟨_, (hmem _ _ _ _).mpr (Or.inl rfl), rfl⟩
        · obtain ⟨call, hm, e⟩ := hd2 d hd
          exact ⟨call, (hmem _ _ _ _).mpr (Or.inr (Or.inr hm)), e⟩
      · intro call hm
        rcases (hmem _ _ _ _).mp hm with rfl | hm | hm
        · exact ⟨hval, Or.inl (by simp)⟩
        · obtain ⟨q1, q2⟩ := hn2 call hm
          have hge : σ.heap.length ≤ call.queued.dst := by
            rcases q2 with q2 | q2
            · cases q2
            · exact q2
          have hlt' : call.queued.dst < σ1.heap.length := by
            by_contra hcon
            rw [List.getElem?_eq_none (by omega)] at q1
            cases q1
          refine ⟨?_, Or.inr hge⟩
          rw [hfr2 _ hlt' (fun hmem' => by
            have := hltds _ hmem'
            omega), List.getElem?_set_ne (by omega)]
          exact q1
        · obtain ⟨q1, q2⟩ := hf2 call hm
          refine ⟨q1, ?_⟩
          rcases q2 with q2 | q2
          · exact Or.inl (by simp only [List.map_cons]; exact List.mem_cons_of_mem _ q2)
          · exact Or.inr (by omega)
      · intro c hcc
        rcases hcc with hcc | ⟨h1, h2⟩
        · simp only [List.map_cons, List.mem_cons] at hcc
          rcases hcc with rfl | hcc
          · exact ⟨_, (hmem _ _ _ _).mpr (Or.inl rfl), rfl⟩
          · obtain ⟨call, hm, e⟩ := hcov2 c (Or.inl hcc)
            exact ⟨call, (hmem _ _ _ _).mpr (Or.inr (Or.inr hm)), e⟩
        · by_cases hlt' : c < σ1.heap.length
          · obtain ⟨call, hm, e⟩ := hn3 c (Or.inr ⟨h1, hlt'⟩)
            exact ⟨call, (hmem _ _ _ _).mpr (Or.inr (Or.inl hm)), e⟩
          · obtain ⟨call, hm, e⟩ := hcov2 c (Or.inr ⟨by omega, h2⟩)
            exact ⟨call, (hmem _ _ _ _).mpr (Or.inr (Or.inr hm)), e⟩

theorem flush_calls_spec (state : analyze_state) :
    ∀ fuel, CallsSpec state fuel (analyze_deferred state fuel) (flush_calls state fuel) := by
  intro fuel
  induction fuel with
  | zero => intro σ σ' sc up _ _ _ _ h; simp [analyze_deferred] at h
  | succ fuel ih =>
    intro σ σ' sc up hI hs hnd hlt h
    simp only [analyze_deferred, hs] at h
    split at h
    · cases h
    · rename_i u σ2 hloop
      have hids : sc.defer.reverse.map (·.dst) = (defer_ids sc).reverse := by
        simp [defer_ids]
      obtain ⟨h1, h2, h3, h4⟩ := loop_calls_spec state fuel ih sc.defer.reverse σ σ2 hI
        (by rw [hids]; exact List.nodup_reverse.mpr hnd)
        (by rw [hids]; intro c hc; exact hlt c (List.mem_reverse.mp hc))
        (by intro d hd; exact ⟨sc, up, hs, List.mem_reverse.mp hd⟩) hloop
      have hheap : σ'.heap = σ2.heap := by
        split at h
        · cases h
        · simp only [Except.ok.injEq, Prod.mk.injEq, true_and] at h
          rw [← h]
      simp only [flush_calls, hs]
      rw [hids] at h3 h4
      refine ⟨h1, fun d hd => h2 d (List.mem_reverse.mpr hd), ?_, ?_⟩
      · intro call hm
        obtain ⟨q1, q2⟩ := h3 call hm
        refine ⟨by rw [hheap]; exact q1, ?_⟩
        rcases q2 with q2 | q2
        · exact Or.inl (List.mem_reverse.mp q2)
        · exact Or.inr q2
      · intro c hc
        rw [hheap] at hc
        rcases hc with hc | hc
        · exact h4 c (Or.inl (List.mem_reverse.mpr hc))
        · exact h4 c (Or.inr hc)

theorem is_call_lambda (state : analyze_state) (fuel : Nat) (call : proc_call)
    (h : is_call state fuel call) :
    ∃ a l v cs b, call.node = .LAMBDA call.queued.name a l v cs b := by
  obtain ⟨_, σ', hp⟩ := h
  exact analyze_procedure_lambda _ _ _ _ _ _ _ _ _ hp

theorem resolve_skel (heap : List Node) (depth c : Nat) (n : Node) (h : heap[c]? = some n) :
    resolve heap (depth + 1) (.skel c) = resolve heap depth n := by
  simp only [resolve, read_node, h]

theorem pic_analyze_calls (pic : pic_state) (fuel : Nat) (obj : Val) (t : Node)
    (h : pic_analyze pic fuel obj = .ok t) :
    ∃ state σ0 res σ1 σ2, new_analyze_state pic = .ok (state, σ0) ∧
      analyze state fuel obj true σ0 = .ok (res, σ1) ∧
      analyze_deferred state fuel σ1 = .ok ((), σ2) ∧
      t = resolve σ2.heap (σ2.heap.length + 1) res ∧
      (∀ call ∈ flush_calls state fuel σ1,
        is_call state fuel call ∧ σ2.heap[call.queued.dst]? = some call.node) ∧
      (∀ sc up, σ1.scope = sc :: up → ∀ d ∈ sc.defer,
        ∃ call ∈ flush_calls state fuel σ1, call.queued = d) ∧
      ∀ (c : Nat) (n : Node), σ2.heap[c]? = some n →
        ∃ call ∈ flush_calls state fuel σ1, call.queued.dst = c ∧ call.node = n := by
  have h0 := h
  unfold pic_analyze at h
  split at h
  · cases h
  · rename_i state σ0 hnew
    have hσ0 := new_analyze_state_store pic state σ0 hnew
    split at h
    · cases h
    · rename_i res σ1 hana
      split at h
      · cases h
      · rename_i u σ2 hfl
        simp only [Except.ok.injEq] at h
        refine ⟨state, σ0, res, σ1, σ2, hnew, hana, hfl, h.symm, ?_⟩
        have hI0 : deep_inv (fun _ => True) σ0 := by
          rw [hσ0]; exact ⟨⟨rfl, trivial⟩, fun _ _ => trivial⟩
        obtain ⟨hI1, hT1⟩ := analyze_grows state fuel obj true σ0 res σ1 hI0 hana
        obtain ⟨m, hheap1, hm1⟩ := hT1
        rw [hσ0] at hm1 hheap1
        simp only [List.nil_append] at hheap1 hm1
        cases hs1 : σ1.scope with
        | nil => rw [hs1] at hm1; exact hm1.elim
        | cons S1 up1 =>
          rw [hs1] at hm1
          obtain ⟨_, _, hids1⟩ := hm1
          simp only [List.length_nil, defer_ids, root_scope, List.map_nil,
            List.append_nil] at hids1
          have hids1' : defer_ids S1 = (List.range' 0 m).reverse := hids1
          have hlen1 : σ1.heap.length = m := by rw [hheap1, List.length_replicate]
          obtain ⟨q1, q2, q3, q4⟩ := flush_calls_spec state fuel σ1 σ2 S1 up1 hI1 hs1
            (by rw [hids1']; exact List.nodup_reverse.mpr (List.nodup_range' _ _))
            (by intro c hc
                rw [hids1'] at hc
                have := mem_range'_rev hc
                omega) hfl
          refine ⟨fun call hm => ⟨q1 call hm, (q3 call hm).1⟩, ?_, ?_⟩
          · intro sc up e d hd
            simp only [List.cons.injEq] at e
            rw [← e.1] at hd
            exact q2 d hd
          · intro c n hn
            have hlt : c < σ2.heap.length := by
              by_contra hcon
              rw [List.getElem?_eq_none (by omega)] at hn
              cases hn
            obtain ⟨call, hm, e⟩ := q4 c (by
              by_cases hc : c < m
              · left
                rw [hids1']
                simp only [List.mem_reverse, List.mem_range'_1]
                omega
              · right
                omega)
            refine ⟨call, hm, e, ?_⟩
            have := (q3 call hm).1
            rw [e, hn] at this
            exact (Option.some.inj this).symm

/-- C17: `analyze_defer` returns the skeleton of a fresh cell and queues the
lambda form with that cell on the current scope.  `flush_calls` lists the calls
of `analyze_procedure` a flush makes, nested ones included, each with its queued
record and its store; a flush calls `analyze_procedure` for every record queued
on the current scope, each entry of the list is such a call: with the fuel of
the flush `analyze_procedure` returns the node of the entry for the name,
formals and body of its record from its store; at the end of the flush the cell
of each call holds the node that call returned, a `LAMBDA` node with the name of
the record, while the cells that are neither queued nor new are the cells of no
call.  So, when `pic_analyze` succeeds: every cell holds the node
`analyze_procedure` returned in the call of the analysis for the record queued
with that cell; the tree returned is the result of `analyze` read through the
cells, where a skeleton reads as the content of its cell, read in the same way;
and no skeleton is left in it at any depth.  In `((lambda (x) (lambda (y) x)) 1)`
the two calls are for the cells 0 and 1, the node of the first still holds the
skeleton of cell 1, and the tree returned holds both `LAMBDA` nodes. -/
theorem C17_deferred_materialized :
    (∀ (state : analyze_state) (nm : Option Sym) (f b : Val) (σ : astore) (n : Node)
        (σ' : astore), analyze_defer state nm f b σ = .ok (n, σ') →
      n = .skel σ.heap.length ∧ σ'.heap = σ.heap ++ [.GREF state.pic.sNOWHERE] ∧
      ∃ sc up, σ.scope = sc :: up ∧
        σ'.scope = { sc with defer :=
          { name := nm, formal := f, body := b, dst := σ.heap.length } :: sc.defer } :: up) ∧
    (∀ (state : analyze_state) (fuel : Nat) (σ σ' : astore) (sc : analyze_scope)
        (up : List analyze_scope),
      deep_inv (fun _ => True) σ → σ.scope = sc :: up → (defer_ids sc).Nodup →
      (∀ c ∈ defer_ids sc, c < σ.heap.length) →
      analyze_deferred state fuel σ = .ok ((), σ') →
      (∀ call ∈ flush_calls state fuel σ, is_call state fuel call) ∧
      (∀ d ∈ sc.defer, ∃ call ∈ flush_calls state fuel σ, call.queued = d) ∧
      calls_fill (flush_calls state fuel σ) (defer_ids sc) σ.heap.length σ'.heap) ∧
    (∀ (state : analyze_state) (fuel : Nat) (call : proc_call), is_call state fuel call →
      ∃ a l v cs b, call.node = .LAMBDA call.queued.name a l v cs b) ∧
    (∀ (heap : List Node) (depth c : Nat) (n : Node), heap[c]? = some n →
      resolve heap (depth + 1) (.skel c) = resolve heap depth n) ∧
    (∀ (pic : pic_state) (fuel : Nat) (obj : Val) (t : Node),
      pic_analyze pic fuel obj = .ok t →
      no_skel t = true ∧
      ∃ state σ0 res σ1 σ2, new_analyze_state pic = .ok (state, σ0) ∧
        analyze state fuel obj true σ0 = .ok (res, σ1) ∧
        analyze_deferred state fuel σ1 = .ok ((), σ2) ∧
        t = resolve σ2.heap (σ2.heap.length + 1) res ∧
        (∀ call ∈ flush_calls state fuel σ1,
          is_call state fuel call ∧ σ2.heap[call.queued.dst]? = some call.node) ∧
        (∀ sc up, σ1.scope = sc :: up → ∀ d ∈ sc.defer,
          ∃ call ∈ flush_calls state fuel σ1, call.queued = d) ∧
        ∀ (c : Nat) (n : Node), σ2.heap[c]? = some n →
          ∃ call ∈ flush_calls state fuel σ1, call.queued.dst = c ∧ call.node = n ∧
            ∃ a l v cs b, n = .LAMBDA call.queued.name a l v cs b) ∧
    (∃ res σ1 σ2,
      analyze base_state 10 capture_example true base_store = .ok (res, σ1) ∧
      analyze_deferred base_state 10 σ1 = .ok ((), σ2) ∧
      Node.same res (.TAILCALL [.skel 0, .QUOTE (.int 1)]) = true ∧
      (flush_calls base_state 10 σ1).map (fun call => call.queued.dst) = [0, 1] ∧
      (flush_calls base_state 10 σ1).map (fun call => call.queued.formal) =
        [pic_list [.sym 100], pic_list [.sym 101]] ∧
      Node.same_list ((flush_calls base_state 10 σ1).map (fun call => call.node))
        [.LAMBDA none [100] [] false [100] (.RETURN [.skel 1]),
         .LAMBDA none [101] [] false [] (.RETURN [.CREF 1 100])] = true ∧
      Node.same_list σ2.heap
        [.LAMBDA none [100] [] false [100] (.RETURN [.skel 1]),
         .LAMBDA none [101] [] false [] (.RETURN [.CREF 1 100])] = true ∧
      Node.same (resolve σ2.heap (σ2.heap.length + 1) res)
        (.TAILCALL [.LAMBDA none [100] [] false [100]
            (.RETURN [.LAMBDA none [101] [] false [] (.RETURN [.CREF 1 100])]),
          .QUOTE (.int 1)]) = true) := by
  refine ⟨analyze_defer_spec, fun state fuel σ σ' sc up hI hs hnd hlt h =>
    flush_calls_spec state fuel σ σ' sc up hI hs hnd hlt h, is_call_lambda, resolve_skel,
    ?_, ?_⟩
  · intro pic fuel obj t h
    refine ⟨pic_analyze_no_skel pic fuel obj t h, ?_⟩
    obtain ⟨state, σ0, res, σ1, σ2, h1, h2, h3, h4, h5, h6, h7⟩ :=
      pic_analyze_calls pic fuel obj t h
    refine ⟨state, σ0, res, σ1, σ2, h1, h2, h3, h4, h5, h6, ?_⟩
    intro c n hn
    obtain ⟨call, hm, e1, e2⟩ := h7 c n hn
    obtain ⟨a, l, v, cs, b, e3⟩ := is_call_lambda state fuel call (h5 call hm).1
    exact ⟨call, hm, e1, e2, a, l, v, cs, b, by rw [← e2]; exact e3⟩
  · exact ⟨_, _, _, rfl, rfl, by decide!, by decide!, by decide!, by decide!, by decide!,
      by decide!⟩

/-- C17 at `((lambda (x) (lambda (y) x)) 1)`: the analysis succeeds, the tree
returned has no skeleton, every entry of `flush_calls` is a call of
`analyze_procedure` whose node is in the cell of its record, and every cell
holds the node of the call for the record queued with it. -/
theorem C17_deferred_materialized_witness :
    ∃ t, pic_analyze base_pic 10 capture_example = .ok t ∧ no_skel t = true ∧
      ∃ state σ0 res σ1 σ2, new_analyze_state base_pic = .ok (state, σ0) ∧
        analyze state 10 capture_example true σ0 = .ok (res, σ1) ∧
        analyze_deferred state 10 σ1 = .ok ((), σ2) ∧
        t = resolve σ2.heap (σ2.heap.length + 1) res ∧
        (∀ call ∈ flush_calls state 10 σ1,
          is_call state 10 call ∧ σ2.heap[call.queued.dst]? = some call.node) ∧
        ∀ (c : Nat) (n : Node), σ2.heap[c]? = some n →
          ∃ call ∈ flush_calls state 10 σ1, call.queued.dst = c ∧ call.node = n := by
  obtain ⟨h1, state, σ0, res, σ1, σ2, h2, h3, h4, h5, h7, _, h6⟩ :=
    C17_deferred_materialized.2.2.2.2.1 base_pic 10 capture_example _ capture_example_ast
  refine ⟨_, capture_example_ast, h1, state, σ0, res, σ1, σ2, h2, h3, h4, h5, h7, ?_⟩
  intro c n hn
  obtain ⟨call, hm, e1, e2, _⟩ := h6 c n hn
  exact ⟨call, hm, e1, e2⟩

/-! ### What the calls of `codegen` add to the code -/

theorem emitted_left {a b d : codegen_state} {c : pic_code} (h : emitted a b c)
    (g : ∃ cs rs, grows b d cs rs) : emitted a d c := by
  obtain ⟨cs1, rs1, g1, hm⟩ := h
  obtain ⟨cs2, rs2, g2⟩ := g
  refine ⟨_, _, grows_trans g1 g2, ?_⟩
  rcases hm with hm | ⟨r, hr, hm⟩
  · exact Or.inl (List.mem_append_left _ hm)
  · exact Or.inr ⟨r, List.mem_append_left _ hr, hm⟩

theorem emitted_right {a b d : codegen_state} {c : pic_code}
    (g : ∃ cs rs, grows a b cs rs) (h : emitted b d c) : emitted a d c := by
  obtain ⟨cs1, rs1, g1⟩ := g
  obtain ⟨cs2, rs2, g2, hm⟩ := h
  refine ⟨_, _, grows_trans g1 g2, ?_⟩
  rcases hm with hm | ⟨r, hr, hm⟩
  · exact Or.inl (List.mem_append_right _ hm)
  · exact Or.inr ⟨r, List.mem_append_right _ hr, hm⟩

theorem emitted_ne {a b : codegen_state} {c : pic_code} (h : emitted a b c) : b ≠ [] := by
  obtain ⟨_, _, g, _⟩ := h
  exact g.2.1

theorem emit_emitted {insn : pic_opcode} {u : operand} {st st' : codegen_state}
    (hne : insn ≠ .OP_LAMBDA) (h : emit insn u st = .ok st') :
    emitted st st' ⟨insn, u⟩ :=
  ⟨_, _, emit_grows hne h, Or.inl (List.mem_singleton.mpr rfl)⟩

theorem mem_all_code_list {r : pic_irep} {c : pic_code} (hc : c ∈ r.all_code) :
    ∀ (l : List (Option pic_irep)), some r ∈ l → c ∈ all_code_list l
  | [], h => by cases h
  | none :: l, h => by
    simp only [all_code_list]
    exact mem_all_code_list hc l (by simpa using h)
  | some x :: l, h => by
    simp only [all_code_list, List.mem_append]
    rcases List.mem_cons.mp h with e | e
    · left
      simp only [Option.some.injEq] at e
      rw [← e]; exact hc
    · right; exact mem_all_code_list hc l e

theorem pop_emitted {s3 s4 s5 : codegen_state} {r : pic_irep} {c : pic_code}
    (h : pop_codegen_context s4 = .ok (r, s5)) (he : emitted s3 s4 c) : c ∈ r.all_code := by
  obtain ⟨cs, rs, g, hm⟩ := he
  obtain ⟨_, _, _, g4, g5, _, _⟩ := g
  cases s4 with
  | nil => simp [pop_codegen_context] at h
  | cons cx up =>
    simp only [pop_codegen_context, Except.ok.injEq, Prod.mk.injEq] at h
    obtain ⟨h1, _⟩ := h
    subst h1
    simp only [pic_irep.all_code, List.mem_append]
    simp only [cur_code, cur_irep] at g4 g5
    rcases hm with hm | ⟨r', hr, hm⟩
    · left; rw [g4]; exact List.mem_append_right _ hm
    · right; rw [g5]
      exact mem_all_code_list hm _ (List.mem_append_right _ (List.mem_map_of_mem _ hr))

theorem lambda_emitted {pic : pic_state} {name : Option Sym} {args locals : List Sym}
    {varg : Bool} {captures : List Sym} {k : Nat} {r : pic_irep}
    {st s1 s2 s3 s4 s5 st' : codegen_state} {c : pic_code}
    (h1 : reserve_irep st = .ok (k, s1)) (h2 : emit_i .OP_LAMBDA (k : Int) s1 = .ok s2)
    (h3 : push_codegen_context pic name args locals varg captures s2 = .ok s3)
    (he : emitted s3 s4 c) (h5 : pop_codegen_context s4 = .ok (r, s5))
    (h6 : store_irep k r s5 = .ok st') : emitted st st' c := by
  have hc := pop_emitted h5 he
  obtain ⟨cs, rs, g4, _⟩ := he
  exact ⟨_, _, (lambda_grows h1 h2 h3 g4 h5 h6).2, Or.inr ⟨r, List.mem_singleton.mpr rfl, hc⟩⟩

theorem if_emitted {st s1 s2 s3 s4 s5 s6 st' : codegen_state} {s t' now now' : Nat}
    {cc ce ct : List pic_code} {r1 r2 r3 : List pic_irep}
    (g1 : grows st s1 cc r1) (hs : clen s1 = .ok s) (h2 : emit_n .OP_JMPIF s1 = .ok s2)
    (g3 : grows s2 s3 ce r2) (ht : clen s3 = .ok t') (h4 : emit_n .OP_JMP s3 = .ok s4)
    (hn : clen s4 = .ok now) (h5 : patch_jump s ((now : Int) - (s : Int)) s4 = .ok s5)
    (g6 : grows s5 s6 ct r3) (hn' : clen s6 = .ok now')
    (h7 : patch_jump t' ((now' : Int) - (t' : Int)) s6 = .ok st') {c : pic_code}
    (hm : (c ∈ cc ∨ ∃ r ∈ r1, c ∈ r.all_code) ∨ (c ∈ ce ∨ ∃ r ∈ r2, c ∈ r.all_code) ∨
      (c ∈ ct ∨ ∃ r ∈ r3, c ∈ r.all_code)) : emitted st st' c := by
  refine ⟨_, _, if_grows g1 hs h2 g3 ht h4 hn h5 g6 hn' h7, ?_⟩
  simp only [List.mem_append]
  rcases hm with (hm | ⟨r, hr, hm⟩) | (hm | ⟨r, hr, hm⟩) | (hm | ⟨r, hr, hm⟩)
  · exact Or.inl (Or.inl (Or.inl (Or.inl (Or.inl hm))))
  · exact Or.inr ⟨r, Or.inl (Or.inl hr), hm⟩
  · exact Or.inl (Or.inl (Or.inl (Or.inr hm)))
  · exact Or.inr ⟨r, Or.inl (Or.inr hr), hm⟩
  · exact Or.inl (Or.inr hm)
  · exact Or.inr ⟨r, Or.inr hr, hm⟩

theorem emitted_self {pic : pic_state} {n : Node} {st st' sm' : codegen_state} {c : pic_code}
    (h : codegen pic n st = .ok st') (hs : codegen pic n st = .ok sm')
    (he : emitted st sm' c) : emitted st st' c := by
  rw [h] at hs
  cases hs
  exact he

mutual
theorem visits_emitted (pic : pic_state) :
    ∀ (n : Node) (st st' : codegen_state), st ≠ [] → codegen pic n st = .ok st' →
      ∀ p ∈ visits pic n st, ∀ (sm' : codegen_state) (c : pic_code),
        codegen pic p.1 p.2 = .ok sm' → emitted p.2 sm' c → emitted st st' c
  | .GREF s, st, st', _, h, p, hp, sm', c, hs, he => by
    simp only [visits, List.mem_singleton] at hp
    subst hp; exact emitted_self h hs he
  | .CREF d s, st, st', _, h, p, hp, sm', c, hs, he => by
    simp only [visits, List.mem_singleton] at hp
    subst hp; exact emitted_self h hs he
  | .LREF s, st, st', _, h, p, hp, sm', c, hs, he => by
    simp only [visits, List.mem_singleton] at hp
    subst hp; exact emitted_self h hs he
  | .SETBANG var val, st, st', hne, h, p, hp, sm', c, hs, he => by
    simp only [visits, List.mem_cons] at hp
    rcases hp with rfl | hp
    · exact emitted_self h hs he
    · simp only [codegen] at h
      split at h
      · cases h
      · rename_i s1 h1
        exact emitted_left (visits_emitted pic val _ _ hne h1 p hp sm' c hs he)
          (codegen_set_grows h)
  | .LAMBDA name args locals varg captures body, st, st', _, h, p, hp, sm', c, hs, he => by
    simp only [visits, List.mem_cons, mem_after] at hp
    rcases hp with rfl | ⟨⟨k, s1⟩, e1, s2, e2, s3, e3, hp⟩
    · exact emitted_self h hs he
    · simp only [codegen, e1, e2, e3] at h
      split at h
      · cases h
      · rename_i s4 h4
        split at h
        · cases h
        · rename_i r s5 h5
          exact lambda_emitted e1 e2 e3
            (visits_emitted pic body _ _ (push_codegen_context_fresh e3).1 h4 p hp sm' c hs he)
            h5 h
  | .IF cnd t e, st, st', hne, h, p, hp, sm', c, hs, he => by
    have h0 := h
    simp only [codegen] at h
    split at h
    · cases h
    · rename_i s1 h1
      split at h
      · cases h
      · rename_i s hs1
        split at h
        · cases h
        · rename_i s2 h2
          split at h
          · cases h
          · rename_i s3 h3
            split at h
            · cases h
            · rename_i t' ht
              split at h
              · cases h
              · rename_i s4 h4
                split at h
                · cases h
                · rename_i now hn
                  split at h
                  · cases h
                  · rename_i s5 h5
                    split at h
                    · cases h
                    · rename_i s6 h6
                      split at h
                      · cases h
                      · rename_i now' hn'
                        have n2 := (emit_n_grows (by decide) h2).2.1
                        have n5 := (patch_jump_spec h5).2.1
                        obtain ⟨cc, r1, g1⟩ := codegen_grows pic cnd _ _ hne h1
                        obtain ⟨ce, r2, g3⟩ := codegen_grows pic e _ _ n2 h3
                        obtain ⟨ct, r3, g6⟩ := codegen_grows pic t _ _ n5 h6
                        simp only [visits, List.mem_cons, List.mem_append, h1, hs1, h2, h3, ht,
                          h4, hn, h5, after] at hp
                        rcases hp with rfl | hp | hp | hp
                        · exact emitted_self h0 hs he
                        · obtain ⟨cc', r1', g1', hm⟩ :=
                            visits_emitted pic cnd _ _ hne h1 p hp sm' c hs he
                          exact if_emitted g1' hs1 h2 g3 ht h4 hn h5 g6 hn' h (Or.inl hm)
                        · obtain ⟨ce', r2', g3', hm⟩ :=
                            visits_emitted pic e _ _ n2 h3 p hp sm' c hs he
                          exact if_emitted g1 hs1 h2 g3' ht h4 hn h5 g6 hn' h (Or.inr (Or.inl hm))
                        · obtain ⟨ct', r3', g6', hm⟩ :=
                            visits_emitted pic t _ _ n5 h6 p hp sm' c hs he
                          exact if_emitted g1 hs1 h2 g3 ht h4 hn h5 g6' hn' h (Or.inr (Or.inr hm))
  | .BEGIN es, st, st', hne, h, p, hp, sm', c, hs, he => by
    simp only [visits, List.mem_cons] at hp
    rcases hp with rfl | hp
    · exact emitted_self h hs he
    · simp only [codegen] at h
      exact visits_begin_emitted pic es false _ _ hne h p hp sm' c hs he
  | .QUOTE d, st, st', _, h, p, hp, sm', c, hs, he => by
    simp only [visits, List.mem_singleton] at hp
    subst hp; exact emitted_self h hs he
  | .op1 t a, st, st', hne, h, p, hp, sm', c, hs, he => by
    simp only [visits, List.mem_cons] at hp
    rcases hp with rfl | hp
    · exact emitted_self h hs he
    · simp only [codegen] at h
      split at h
      · cases h
      · rename_i s1 h1
        refine emitted_left (visits_emitted pic a _ _ hne h1 p hp sm' c hs he)
          (grows_some (emit_n_grows ?_ h))
        cases t <;> decide
  | .op2 t a b, st, st', hne, h, p, hp, sm', c, hs, he => by
    simp only [visits, List.mem_cons] at hp
    rcases hp with rfl | hp
    · exact emitted_self h hs he
    · simp only [codegen] at h
      have hop : opcode2 t ≠ .OP_LAMBDA := by cases t <;> decide
      by_cases hsw : swaps t = true
      · rw [if_pos hsw] at hp h
        simp only [List.mem_append, mem_after] at hp
        cases h1 : codegen pic b st with
        | error err => rw [h1] at h; cases h
        | ok s1 =>
          rw [h1] at h
          simp only at h
          have g1 := codegen_grows pic b _ _ hne h1
          cases h2 : codegen pic a s1 with
          | error err => rw [h2] at h; cases h
          | ok s2 =>
            rw [h2] at h
            simp only at h
            rcases hp with hp | ⟨s1', e1, hp⟩
            · exact emitted_left (visits_emitted pic b _ _ hne h1 p hp sm' c hs he)
                (grows_trans_ex (codegen_grows pic a _ _ (grows_ne g1) h2)
                  (grows_some (emit_n_grows hop h)))
            · rw [h1] at e1
              cases e1
              exact emitted_right g1
                (emitted_left (visits_emitted pic a _ _ (grows_ne g1) h2 p hp sm' c hs he)
                  (grows_some (emit_n_grows hop h)))
      · rw [if_neg hsw] at hp h
        simp only [List.mem_append, mem_after] at hp
        cases h1 : codegen pic a st with
        | error err => rw [h1] at h; cases h
        | ok s1 =>
          rw [h1] at h
          simp only at h
          have g1 := codegen_grows pic a _ _ hne h1
          cases h2 : codegen pic b s1 with
          | error err => rw [h2] at h; cases h
          | ok s2 =>
            rw [h2] at h
            simp only at h
            rcases hp with hp | ⟨s1', e1, hp⟩
            · exact emitted_left (visits_emitted pic a _ _ hne h1 p hp sm' c hs he)
                (grows_trans_ex (codegen_grows pic b _ _ (grows_ne g1) h2)
                  (grows_some (emit_n_grows hop h)))
            · rw [h1] at e1
              cases e1
              exact emitted_right g1
                (emitted_left (visits_emitted pic b _ _ (grows_ne g1) h2 p hp sm' c hs he)
                  (grows_some (emit_n_grows hop h)))
  | .CALL es, st, st', hne, h, p, hp, sm', c, hs, he => by
    simp only [visits, List.mem_cons] at hp
    rcases hp with rfl | hp
    · exact emitted_self h hs he
    · simp only [codegen] at h
      split at h
      · cases h
      · rename_i s1 h1
        exact emitted_left (visits_each_emitted pic es _ _ hne h1 p hp sm' c hs he)
          (grows_some (emit_i_grows (by decide) h))
  | .TAILCALL es, st, st', hne, h, p, hp, sm', c, hs, he => by
    simp only [visits, List.mem_cons] at hp
    rcases hp with rfl | hp
    · exact emitted_self h hs he
    · simp only [codegen] at h
      split at h
      · cases h
      · rename_i s1 h1
        exact emitted_left (visits_each_emitted pic es _ _ hne h1 p hp sm' c hs he)
          (grows_some (emit_i_grows (by decide) h))
  | .CALL_WITH_VALUES q cns, st, st', hne, h, p, hp, sm', c, hs, he => by
    simp only [visits, List.mem_cons, List.mem_append, mem_after] at hp
    rcases hp with rfl | hp
    · exact emitted_self h hs he
    · simp only [codegen] at h
      split at h
      · cases h
      · rename_i s1 h1
        split at h
        · cases h
        · rename_i s2 h2
          split at h
          · cases h
          · rename_i s3 h3
            have g1 := codegen_grows pic cns _ _ hne h1
            have gpost := grows_trans_ex (grows_some (emit_i_grows (by decide) h3))
              (grows_some (emit_i_grows (by decide) h))
            rcases hp with hp | ⟨s1', e1, hp⟩
            · exact emitted_left (visits_emitted pic cns _ _ hne h1 p hp sm' c hs he)
                (grows_trans_ex (codegen_grows pic q _ _ (grows_ne g1) h2) gpost)
            · rw [h1] at e1
              cases e1
              exact emitted_right g1
                (emitted_left (visits_emitted pic q _ _ (grows_ne g1) h2 p hp sm' c hs he) gpost)
  | .TAILCALL_WITH_VALUES q cns, st, st', hne, h, p, hp, sm', c, hs, he => by
    simp only [visits, List.mem_cons, List.mem_append, mem_after] at hp
    rcases hp with rfl | hp
    · exact emitted_self h hs he
    · simp only [codegen] at h
      split at h
      · cases h
      · rename_i s1 h1
        split at h
        · cases h
        · rename_i s2 h2
          split at h
          · cases h
          · rename_i s3 h3
            have g1 := codegen_grows pic cns _ _ hne h1
            have gpost := grows_trans_ex (grows_some (emit_i_grows (by decide) h3))
              (grows_some (emit_i_grows (by decide) h))
            rcases hp with hp | ⟨s1', e1, hp⟩
            · exact emitted_left (visits_emitted pic cns _ _ hne h1 p hp sm' c hs he)
                (grows_trans_ex (codegen_grows pic q _ _ (grows_ne g1) h2) gpost)
            · rw [h1] at e1
              cases e1
              exact emitted_right g1
                (emitted_left (visits_emitted pic q _ _ (grows_ne g1) h2 p hp sm' c hs he) gpost)
  | .RETURN es, st, st', hne, h, p, hp, sm', c, hs, he => by
    simp only [visits, List.mem_cons] at hp
    rcases hp with rfl | hp
    · exact emitted_self h hs he
    · simp only [codegen] at h
      split at h
      · cases h
      · rename_i s1 h1
        exact emitted_left (visits_each_emitted pic es _ _ hne h1 p hp sm' c hs he)
          (grows_some (emit_i_grows (by decide) h))
  | .skel k, st, st', _, h, p, hp, sm', c, hs, he => by
    simp [codegen] at h
theorem visits_each_emitted (pic : pic_state) :
    ∀ (es : List Node) (st st' : codegen_state), st ≠ [] →
      codegen_each pic es st = .ok st' →
      ∀ p ∈ visits_each pic es st, ∀ (sm' : codegen_state) (c : pic_code),
        codegen pic p.1 p.2 = .ok sm' → emitted p.2 sm' c → emitted st st' c
  | [], st, st', _, h, p, hp, sm', c, hs, he => by simp [visits_each] at hp
  | e :: es, st, st', hne, h, p, hp, sm', c, hs, he => by
    simp only [visits_each, List.mem_append, mem_after] at hp
    simp only [codegen_each] at h
    split at h
    · cases h
    · rename_i s1 h1
      have g1 := codegen_grows pic e _ _ hne h1
      rcases hp with hp | ⟨s1', e1, hp⟩
      · exact emitted_left (visits_emitted pic e _ _ hne h1 p hp sm' c hs he)
          (codegen_each_grows pic es _ _ (grows_ne g1) h)
      · rw [h1] at e1
        cases e1
        exact emitted_right g1
          (visits_each_emitted pic es _ _ (grows_ne g1) h p hp sm' c hs he)
theorem visits_begin_emitted (pic : pic_state) :
    ∀ (es : List Node) (b : Bool) (st st' : codegen_state), st ≠ [] →
      codegen_begin pic es b st = .ok st' →
      ∀ p ∈ visits_begin pic es b st, ∀ (sm' : codegen_state) (c : pic_code),
        codegen pic p.1 p.2 = .ok sm' → emitted p.2 sm' c → emitted st st' c
  | [], b, st, st', _, h, p, hp, sm', c, hs, he => by simp [visits_begin] at hp
  | e :: es, b, st, st', hne, h, p, hp, sm', c, hs, he => by
    simp only [visits_begin, List.mem_append, mem_after] at hp
    obtain ⟨s0, e0, hp⟩ := hp
    simp only [codegen_begin, e0] at h
    split at h
    · cases h
    · rename_i s1 h1
      have g0 : ∃ cs rs, grows st s0 cs rs := by
        split at e0
        · exact grows_some (emit_n_grows (by decide) e0)
        · cases e0; exact grows_some (grows_refl _ hne)
      have g1 := codegen_grows pic e _ _ (grows_ne g0) h1
      rcases hp with hp | ⟨s1', e1, hp⟩
      · exact emitted_right g0
          (emitted_left (visits_emitted pic e _ _ (grows_ne g0) h1 p hp sm' c hs he)
            (codegen_begin_grows pic es _ _ _ (grows_ne g1) h))
      · rw [h1] at e1
        cases e1
        exact emitted_right g0 (emitted_right g1
          (visits_begin_emitted pic es true _ _ (grows_ne g1) h p hp sm' c hs he))
end

theorem destroy_emitted {st0 st1 : codegen_state} {r : pic_irep} {c : pic_code}
    (h : destroy_codegen_state st1 = .ok r) (he : emitted st0 st1 c) : c ∈ r.all_code := by
  unfold destroy_codegen_state at h
  split at h
  · cases h
  · rename_i r' s' h2
    simp only [Except.ok.injEq] at h
    subst h
    exact pop_emitted h2 he

/-- C5: the `depth` of every scope on the stack is the number of scopes below
it, initially and after `push_scope` and `analyze`; on such a stack a node
`(CREF d sym)` that `analyze_var` produces has `d ≥ 1`, and `d` scopes outward
from the current scope lies a scope other than the outermost one whose captures
contain `sym`; in the tree `pic_analyze` returns every `(CREF d sym)` finds
`sym` in the captures of the `LAMBDA` node `d` levels up.  At code generation
the `LAMBDA` case of `codegen` is: reserve a child slot, emit `OP_LAMBDA`,
compile the body in the context that `push_codegen_context` makes with the
captures of the node, on top of the contexts there were, pop that context and
store its IRep in the slot; the other cases keep the captures of every context;
the calls listed by `visits` are calls that return when the whole call does, and
an instruction such a call adds is added by the whole call.  So, compiling the
tree `pic_analyze` returns from the state of `new_codegen_state`, `codegen`
succeeds, `pic_codegen` returns an IRep, and whenever `codegen` is called on a
node `(CREF d sym)`, in the state `sm` of that call `index_capture(sym, d)`
returns an index `i` at which the captures of the context `d` levels up, which
is not the root context, hold `sym`, the instruction emitted is `CREF d i`, and
`CREF d i` is an instruction of the IRep returned or of one of its children; the
same holds of the target `(CREF d sym)` of a `SETBANG` in the state after the
code of the value, where `CSET d i` is emitted. -/
theorem C5_depth_correctness :
    (∀ (pic : pic_state) (state : analyze_state) (σ : astore),
      new_analyze_state pic = .ok (state, σ) → stack_wf σ.scope) ∧
    (∀ (formals : Val) (stk stk' : List analyze_scope), stack_wf stk →
      push_scope formals stk = (true, stk') → stack_wf stk') ∧
    (∀ (state : analyze_state) (fuel : Nat) (obj : Val) (tailpos : Bool) (σ : astore)
        (n : Node) (σ' : astore),
      stack_wf σ.scope → analyze state fuel obj tailpos σ = .ok (n, σ') →
        stack_wf σ'.scope) ∧
    (∀ (s : Sym) (σ : astore) (d : Int) (s' : Sym) (σ' : astore),
      stack_wf σ.scope → analyze_var s σ = .ok (.CREF d s', σ') →
        s' = s ∧ 1 ≤ d ∧ d.toNat + 1 < σ'.scope.length ∧
        ∃ sc, σ'.scope[d.toNat]? = some sc ∧ s ∈ sc.captures) ∧
    (∀ (pic : pic_state) (fuel : Nat) (obj : Val) (t : Node),
      pic_analyze pic fuel obj = .ok t → crefs_found [[]] t = true) ∧
    (∀ (pic : pic_state) (st0 : codegen_state),
      new_codegen_state pic = .ok st0 → st0.map (·.captures) = [[]]) ∧
    (∀ (pic : pic_state) (nm : Option Sym) (a l : List Sym) (v : Bool) (cs : List Sym)
        (st st' : codegen_state),
      push_codegen_context pic nm a l v cs st = .ok st' →
        st'.map (·.captures) = cs :: st.map (·.captures)) ∧
    (∀ (pic : pic_state) (n : Node) (st st' : codegen_state),
      codegen pic n st = .ok st' → st'.map (·.captures) = st.map (·.captures)) ∧
    (∀ (st : codegen_state) (s : Sym) (d : Int) (cs : List Sym),
      (st.map (·.captures))[d.toNat]? = some cs → s ∈ cs →
        ∃ i : Nat, index_capture st s d = .ok (i : Int) ∧ cs[i]? = some s) ∧
    (∀ (pic : pic_state) (name : Option Sym) (args locals : List Sym) (varg : Bool)
        (captures : List Sym) (body : Node) (st st' : codegen_state),
      codegen pic (.LAMBDA name args locals varg captures body) st = .ok st' →
      ∃ k s1 s2 s3 s4 r s5, reserve_irep st = .ok (k, s1) ∧
        emit_i .OP_LAMBDA (k : Int) s1 = .ok s2 ∧
        push_codegen_context pic name args locals varg captures s2 = .ok s3 ∧
        codegen pic body s3 = .ok s4 ∧
        pop_codegen_context s4 = .ok (r, s5) ∧
        store_irep k r s5 = .ok st' ∧
        s3.map (·.captures) = captures :: st.map (·.captures) ∧
        visits pic (.LAMBDA name args locals varg captures body) st =
          (.LAMBDA name args locals varg captures body, st) :: visits pic body s3) ∧
    (∀ (pic : pic_state) (n : Node) (st st' : codegen_state),
      codegen pic n st = .ok st' →
      (n, st) ∈ visits pic n st ∧
      ∀ p ∈ visits pic n st, ∃ sm', codegen pic p.1 p.2 = .ok sm') ∧
    (∀ (pic : pic_state) (n : Node) (st st' : codegen_state), st ≠ [] →
      codegen pic n st = .ok st' →
      ∀ p ∈ visits pic n st, ∀ (sm' : codegen_state) (c : pic_code),
        codegen pic p.1 p.2 = .ok sm' → emitted p.2 sm' c → emitted st st' c) ∧
    (∀ (pic : pic_state) (fuel : Nat) (obj : Val) (t : Node) (st0 : codegen_state),
      pic_analyze pic fuel obj = .ok t → new_codegen_state pic = .ok st0 →
      ∃ (st1 : codegen_state) (r : pic_irep), codegen pic t st0 = .ok st1 ∧
        destroy_codegen_state st1 = .ok r ∧
        pic_codegen pic t = .ok r ∧ pic_compile pic fuel obj = .ok r ∧
        (∀ (d : Int) (s : Sym) (sm : codegen_state), (.CREF d s, sm) ∈ visits pic t st0 →
          1 ≤ d ∧ d.toNat + 1 < sm.length ∧
          ∃ (i : Nat) (cx : codegen_context), sm[d.toNat]? = some cx ∧
            cx.captures[i]? = some s ∧ index_capture sm s d = .ok (i : Int) ∧
            codegen pic (.CREF d s) sm = emit_r .OP_CREF d (i : Int) sm ∧
            (⟨.OP_CREF, .r d (i : Int)⟩ : pic_code) ∈ r.all_code) ∧
        (∀ (d : Int) (s : Sym) (val : Node) (sm s1 : codegen_state),
          (.SETBANG (.CREF d s) val, sm) ∈ visits pic t st0 →
          codegen pic val sm = .ok s1 →
          1 ≤ d ∧ d.toNat + 1 < s1.length ∧
          ∃ (i : Nat) (cx : codegen_context), s1[d.toNat]? = some cx ∧
            cx.captures[i]? = some s ∧ index_capture s1 s d = .ok (i : Int) ∧
            codegen pic (.SETBANG (.CREF d s) val) sm =
              (emit_r .OP_CSET d (i : Int) s1).bind (emit_n OP_PUSHNONE) ∧
            (⟨.OP_CSET, .r d (i : Int)⟩ : pic_code) ∈ r.all_code)) := by
  have hnew : ∀ (pic : pic_state) (st0 : codegen_state),
      new_codegen_state pic = .ok st0 → st0.map (·.captures) = [[]] := by
    intro pic st0 h
    unfold new_codegen_state at h
    simpa using push_codegen_context_captures h
  refine ⟨?_, ?_, ?_, ?_, pic_analyze_crefs_found, hnew, fun _ _ _ _ _ _ _ _ h =>
    push_codegen_context_captures h, fun pic n st st' h =>
    same_frame_captures (codegen_frame pic n st st' h), index_capture_found,
    codegen_lambda_context,
    fun pic n st st' h => ⟨visits_self pic n st, visits_return pic n st st' h⟩,
    visits_emitted, ?_⟩
  · intro pic state σ h
    rw [new_analyze_state_store pic state σ h]
    exact ⟨rfl, trivial⟩
  · intro formals stk stk' hw h
    obtain ⟨varg, args, locals, _, e⟩ := push_scope_ok formals stk stk' h
    rw [e]
    exact stack_wf_push stk hw _ rfl
  · intro state fuel obj tailpos σ n σ' hw h
    exact (analyze_sound (deep_anaRules state (deepRules_of_scopeRules trivial_scopeRules))
      fuel obj tailpos σ n σ' ⟨hw, fun _ _ => trivial⟩ h).1.1
  · intro s σ d s' σ' hw h
    have hs : s' = s := by
      rcases analyze_var_tagged s σ _ σ' h with h1 | h1 | ⟨d', h1⟩
      · cases h1
      · cases h1
      · simp only [Node.CREF.injEq] at h1; exact h1.2
    subst hs
    exact ⟨rfl, analyze_var_cref s' σ _ σ' hw h⟩
  · intro pic fuel obj t st0 h h0
    have hcf : crefs_found (st0.map (·.captures)) t = true := by
      rw [hnew pic st0 h0]; exact pic_analyze_crefs_found pic fuel obj t h
    have hne0 : st0 ≠ [] := by
      intro e
      have := hnew pic st0 h0
      rw [e] at this
      cases this
    obtain ⟨root, hD⟩ := pic_analyze_refs pic fuel obj t h
    obtain ⟨r, hr, _⟩ :=
      pic_codegen_accepts pic t root hD (pic_analyze_targets pic fuel obj t h)
    have hrun : ∃ st1, codegen pic t st0 = .ok st1 ∧ destroy_codegen_state st1 = .ok r := by
      have hr' := hr
      simp only [pic_codegen, h0] at hr'
      split at hr'
      · cases hr'
      · rename_i st1 h1
        exact ⟨st1, h1, hr'⟩
    obtain ⟨st1, h1, hd⟩ := hrun
    refine ⟨st1, r, h1, hd, hr, by simp only [pic_compile, h, hr], ?_, ?_⟩
    · intro d s sm hm
      obtain ⟨q1, q2, i, cx, q3, q4, q5⟩ := crefs_found_cref (visits_crefs pic t st0 hcf _ hm)
      have hcg : codegen pic (.CREF d s) sm = emit_r .OP_CREF d (i : Int) sm := by
        simp only [codegen, q5]
      refine ⟨q1, q2, i, cx, q3, q4, q5, hcg, ?_⟩
      obtain ⟨sm', hsm⟩ := visits_return pic t st0 st1 h1 _ hm
      have hsm' : codegen pic (.CREF d s) sm = .ok sm' := hsm
      have he : emitted sm sm' ⟨.OP_CREF, .r d (i : Int)⟩ := by
        rw [hcg] at hsm'
        exact emit_emitted (by decide) hsm'
      exact destroy_emitted hd (visits_emitted pic t st0 st1 hne0 h1 _ hm sm' _ hsm he)
    · intro d s val sm s1 hm hv
      have hc := visits_crefs pic t st0 hcf _ hm
      simp only [crefs_found, Bool.and_eq_true] at hc
      have hc1 : crefs_found (s1.map (·.captures)) (.CREF d s) = true := by
        rw [codegen_captures hv]
        simp only [crefs_found, Bool.and_eq_true]
        exact hc.1
      obtain ⟨q1, q2, i, cx, q3, q4, q5⟩ := crefs_found_cref hc1
      have hcg : codegen pic (.SETBANG (.CREF d s) val) sm =
          (emit_r .OP_CSET d (i : Int) s1).bind (emit_n OP_PUSHNONE) := by
        simp only [codegen, hv, codegen_set, q5]
      refine ⟨q1, q2, i, cx, q3, q4, q5, hcg, ?_⟩
      obtain ⟨sm', hsm⟩ := visits_return pic t st0 st1 h1 _ hm
      have hsm' : codegen pic (.SETBANG (.CREF d s) val) sm = .ok sm' := hsm
      have hnesm : sm ≠ [] := by
        intro e
        have hl := congrArg List.length (codegen_captures hv)
        rw [e] at hl
        simp only [List.length_map, List.length_nil] at hl
        omega
      have he : emitted sm sm' ⟨.OP_CSET, .r d (i : Int)⟩ := by
        rw [hcg] at hsm'
        cases h2 : emit_r .OP_CSET d (i : Int) s1 with
        | error err => rw [h2] at hsm'; cases hsm'
        | ok s2 =>
          rw [h2] at hsm'
          have h3 : emit_n OP_PUSHNONE s2 = .ok sm' := hsm'
          exact emitted_right (codegen_grows pic val _ _ hnesm hv)
            (emitted_left (emit_emitted (by decide) h2)
              (grows_some (emit_n_grows (by decide) h3)))
      exact destroy_emitted hd (visits_emitted pic t st0 st1 hne0 h1 _ hm sm' _ hsm he)

/-- C5 at `((lambda (x) (lambda (y) x)) 1)`: the analysis succeeds, `codegen`
reaches the one `CREF` in the context of the inner lambda, below which lie the
context of the outer lambda, with captures `[x]`, and the root context; there
`index_capture(x, 1)` returns 0, and `CREF 1 0` is an instruction of the IRep
that `pic_codegen` and `pic_compile` return. -/
theorem C5_depth_correctness_witness :
    ∃ t st0 sm r, pic_analyze base_pic 10 capture_example = .ok t ∧
      new_codegen_state base_pic = .ok st0 ∧
      (.CREF 1 100, sm) ∈ visits base_pic t st0 ∧
      sm.map (·.captures) = [[], [100], []] ∧
      index_capture sm 100 1 = .ok 0 ∧
      pic_codegen base_pic t = .ok r ∧
      pic_compile base_pic 10 capture_example = .ok r ∧
      (⟨.OP_CREF, .r 1 0⟩ : pic_code) ∈ r.all_code ∧
      ∃ (i : Nat) (cx : codegen_context), sm[(1 : Int).toNat]? = some cx ∧
        cx.captures[i]? = some 100 ∧ index_capture sm 100 1 = .ok (i : Int) := by
  have hm : ∃ sm, (visits base_pic (.TAILCALL [.LAMBDA none [100] [] false [100]
              (.RETURN [.LAMBDA none [101] [] false [] (.RETURN [.CREF 1 100])]),
            .QUOTE (.int 1)]) base_codegen_state)[5]? = some (.CREF 1 100, sm) ∧
      sm.map (·.captures) = [[], [100], []] ∧ index_capture sm 100 1 = .ok 0 :=
    ⟨_, rfl, rfl, rfl⟩
  obtain ⟨sm, h1, h2, h3⟩ := hm
  have hmem := List.getElem?_mem h1
  obtain ⟨st1, r, _, _, hr, hc, hcref, _⟩ :=
    C5_depth_correctness.2.2.2.2.2.2.2.2.2.2.2.2 base_pic 10 capture_example _
      base_codegen_state capture_example_ast rfl
  obtain ⟨_, _, i, cx, q1, q2, q3, _, q4⟩ := hcref 1 100 sm hmem
  have hi : (i : Int) = 0 := by
    rw [h3] at q3
    simp only [Except.ok.injEq] at q3
    exact q3.symm
  have q5 := q4
  rw [hi] at q5
  exact ⟨_, _, sm, r, capture_example_ast, rfl, hmem, h2, h3, hr, hc, q5, i, cx, q1, q2, q3⟩

end Picrin
